import Mathlib

/-!
# behemoth: hash-consed term arena and syntax-guided enumerator

A shallow embedding of `include/behemoth/expr.hpp` and
`include/behemoth/enumerator.hpp`.

Conventions of the embedding.

* `unsigned` values are natural numbers; every place where the C++ arithmetic
  can wrap is reduced modulo `2^32` explicitly (`UNSIGNED_MOD`).
* `std::vector<T>` is `List T`; reading outside the vector is undefined
  behaviour in C++ and is `none` here.
* The recursive functions over handles (`count_nonterminals`, `count_nodes`,
  `get_path_to_concretizable_element`, `check_double_negation`) recurse along
  child handles.  They are defined by recursion on a fuel argument; the entry
  points supply the number of stored nodes as fuel, which is enough for every
  arena without a cycle.  On a cyclic arena the C++ recursion does not return
  and the embedding yields `none`.
* `std::priority_queue` is the list of its contents.  The queue fixes `top()`
  only up to the comparator: it is an element that the comparator places above
  no other element, and which of several such elements is at the front depends
  on the heap operations of the standard library.  `enumerator.is_top`
  describes every candidate that `top()` can return, and
  `enumerator.deduce_tops` and `run_calls` are the iterations of `deduce` for
  any such candidates.  `pq_top`, with `enumerator.deduce` and `run_session`,
  resolves ties for the earliest queued candidate; it evaluates runs in which
  the heap takes the same candidates.
-/

namespace behemoth

/-! ## expr.hpp -/

/-- Number of values of the C++ type `unsigned`. -/
def UNSIGNED_MOD : Nat := 2 ^ 32

/-- The value `std::numeric_limits<unsigned>::max()`. -/
def UNSIGNED_MAX : Nat := 2 ^ 32 - 1

/-- Number of values of `std::size_t`. -/
def SIZE_MOD : Nat := 2 ^ 64

namespace expr_attr_enum

/-- Enumerator `_no = 0`. -/
def _no : Nat := 0

/-- Enumerator `_no_double_application = 1`. -/
def _no_double_application : Nat := 1

/-- Enumerator `_idempotent = 1 << 1`. -/
def _idempotent : Nat := 2

/-- Enumerator `_commutative = 1 << 2`. -/
def _commutative : Nat := 4

end expr_attr_enum

/-- The struct `expr_node`: a name, the child handles and the attribute bits. -/
structure expr_node where
  _name : String
  _children : List Nat
  _attr : Nat
deriving DecidableEq, Repr

/-- The expression `s[0]` on a `std::string`: the first character, and the
terminating NUL character when the string is empty. -/
def name0 (s : String) : Char :=
  match s.data with
  | [] => Char.ofNat 0
  | ch :: _ => ch

/-- The loop of `expr_node::operator==` over the two child vectors (entered only
when both have the same size). -/
def children_eq_loop : List Nat → List Nat → Bool
  | a :: as, b :: bs => if a != b then false else children_eq_loop as bs
  | _, _ => true

/-- The member `expr_node::operator==`: compares the names, the sizes of the child
vectors and the children one by one.  The field `_attr` is not read. -/
def expr_node.operator_eq (a e : expr_node) : Bool :=
  if a._name != e._name then false
  else if a._children.length != e._children.length then false
  else children_eq_loop a._children e._children

/-- The functor `expr_hash`, over the two standard hashes it calls
(`std::hash<std::string>` and `std::hash<unsigned>`), in `std::size_t`
arithmetic. -/
def expr_hash (hash_string : String → Nat) (hash_unsigned : Nat → Nat) (e : expr_node) : Nat :=
  e._children.foldl
    (fun seed u =>
      Nat.xor seed
        ((hash_unsigned u % SIZE_MOD + 0x9e3779b9 + (seed * 2 ^ 6) % SIZE_MOD + seed / 2 ^ 2) % SIZE_MOD))
    (hash_string e._name % SIZE_MOD)

/-- The type `fun_strash_map_t`, a `std::unordered_map` from nodes to handles with
`expr_node::operator==` as key equality: the entries in insertion order. -/
abbrev fun_strash_map_t := List (expr_node × Nat)

/-- The call `_fun_strash.find( e )`: the value of the entry whose key equals `e`
under `operator==`, if there is one. -/
def strash_find (m : fun_strash_map_t) (e : expr_node) : Option Nat :=
  match m with
  | [] => none
  | (k, v) :: rest => if k.operator_eq e then some v else strash_find rest e

/-- The assignment `_fun_strash[e] = index`: overwrites the value of the entry
whose key equals `e`, and inserts a new entry when there is none. -/
def strash_assign (m : fun_strash_map_t) (e : expr_node) (index : Nat) : fun_strash_map_t :=
  match m with
  | [] => [(e, index)]
  | (k, v) :: rest =>
    if k.operator_eq e then (k, index) :: rest else (k, v) :: strash_assign rest e index

/-- The class `context`: the structural hash table and the vector of nodes. -/
structure context where
  _fun_strash : fun_strash_map_t
  _exprs : List expr_node
deriving DecidableEq, Repr

/-- A default-constructed `context`. -/
def context.empty : context := ⟨[], []⟩

/-- The member `context::make_fun`: returns the handle and the updated context.
The index is a `std::size_t` that is converted to `unsigned` both for the table
and for the result. -/
def context.make_fun (ctx : context) (name : String) (children : List Nat) (attr : Nat) :
    Nat × context :=
  let e : expr_node := ⟨name, children, attr⟩
  match strash_find ctx._fun_strash e with
  | some handle => (handle, ctx)
  | none =>
    let index := ctx._exprs.length
    (index % UNSIGNED_MOD,
      { _fun_strash := strash_assign ctx._fun_strash e (index % UNSIGNED_MOD),
        _exprs := ctx._exprs ++ [e] })

/-- The loop `for ( const auto& c : expr._children ) counter += f( c );` in
`unsigned` arithmetic, where `f` is the recursive call. -/
def counter_loop (f : Nat → Option Nat) : List Nat → Nat → Option Nat
  | [], counter => some counter
  | c :: cs, counter =>
    match f c with
    | none => none
    | some r => counter_loop f cs ((counter + r) % UNSIGNED_MOD)

/-- The body of `context::count_nonterminals` with a bound on the recursion depth. -/
def count_nonterminals_fuel (ctx : context) : Nat → Nat → Option Nat
  | 0, _ => none
  | fuel + 1, e =>
    match ctx._exprs[e]? with
    | none => none
    | some expr =>
      if name0 expr._name = '_' then some 1
      else counter_loop (count_nonterminals_fuel ctx fuel) expr._children 0

/-- The member `context::count_nonterminals`. -/
def context.count_nonterminals (ctx : context) (e : Nat) : Option Nat :=
  count_nonterminals_fuel ctx ctx._exprs.length e

/-- The body of `context::count_nodes` with a bound on the recursion depth. -/
def count_nodes_fuel (ctx : context) : Nat → Nat → Option Nat
  | 0, _ => none
  | fuel + 1, e =>
    match ctx._exprs[e]? with
    | none => none
    | some expr =>
      if expr._children.length = 0 then some 1
      else counter_loop (count_nodes_fuel ctx fuel) expr._children 1

/-- The member `context::count_nodes`. -/
def context.count_nodes (ctx : context) (e : Nat) : Option Nat :=
  count_nodes_fuel ctx ctx._exprs.length e

/-! ## enumerator.hpp -/

/-- The struct `rule_t`; the field `match` is spelled `match_`. -/
structure rule_t where
  match_ : Nat
  replace : Nat
deriving DecidableEq, Repr

/-- The type `rules_t`. -/
abbrev rules_t := List rule_t

/-- The type `cexpr_t`: `first` is the handle, `second` the cost. -/
abbrev cexpr_t := Nat × Nat

/-- The functor `expr_greater_than::operator()`. -/
def expr_greater_than (ctx : context) (a b : cexpr_t) : Option Bool :=
  if a.2 > b.2 then some true
  else if a.2 < b.2 then some false
  else
    match ctx.count_nonterminals a.1, ctx.count_nonterminals b.1 with
    | some na, some nb =>
      if na > nb then some true
      else if na < nb then some false
      else
        match ctx.count_nodes a.1, ctx.count_nodes b.1 with
        | some ma, some mb =>
          if ma > mb then some true
          else if ma < mb then some false
          else some false
        | _, _ => none
    | _, _ => none

/-- The struct `path_t`; `indices` is stored in reverse order, as in the source. -/
structure path_t where
  indices : List Nat
  depth : Nat
deriving DecidableEq, Repr

/-- The constructor `path_t( initial_depth )`. -/
def path_t.init (initial_depth : Nat) : path_t := ⟨[], initial_depth⟩

/-- The member `path_t::operator<`. -/
def path_t.lt (p other : path_t) : Bool := decide (p.depth < other.depth)

/-- The member `path_t::operator[]`: `indices[indices.size()-1u-i]`. -/
def path_t.operator_index (p : path_t) (i : Nat) : Option Nat :=
  if i < p.indices.length then p.indices[p.indices.length - 1 - i]? else none

/-- The member `path_t::push_front`. -/
def path_t.push_front (p : path_t) (v : Nat) : path_t := { p with indices := p.indices ++ [v] }

/-- The member `path_t::pop_front`. -/
def path_t.pop_front (p : path_t) : path_t := { p with indices := p.indices.dropLast }

/-- The member `path_t::incr_depth`. -/
def path_t.incr_depth (p : path_t) : path_t := { p with depth := (p.depth + 1) % UNSIGNED_MOD }

/-- The member `path_t::invalid`. -/
def path_t.invalid (p : path_t) : Bool := p.indices.isEmpty && decide (p.depth = UNSIGNED_MAX)

/-- The member `path_t::valid`. -/
def path_t.valid (p : path_t) : Bool := !p.invalid

/-- The loop over the candidates in `refine_expression_recurse`: each candidate
`c` is put at position `index` of the children of `e` (the three copy loops: the
children before `index`, the candidate, the children after `index`) and the node
is interned.  The loop runs only after `_children[ index ]` has been read, so
`index` is in range. -/
def refine_rebuild (e index : Nat) : List Nat → context → Option (List Nat × context)
  | [], ctx => some ([], ctx)
  | c :: cs, ctx =>
    match ctx._exprs[e]? with
    | none => none
    | some expr =>
      let new_children := expr._children.take index ++ [c] ++ expr._children.drop (index + 1)
      let r := ctx.make_fun expr._name new_children expr._attr
      match refine_rebuild e index cs r.2 with
      | none => none
      | some (results, ctx2) => some (r.1 :: results, ctx2)

/-- The function `refine_expression_recurse`, with a bound on the recursion depth
(each call removes one index of the path). -/
def refine_expression_recurse_fuel (rules : rules_t) :
    Nat → context → Nat → path_t → Option (List Nat × context)
  | 0, _, _, _ => none
  | fuel + 1, ctx, e, path =>
    if path.indices.length = 0 then
      some ((rules.filter (fun r => decide (e = r.match_))).map (fun r => r.replace), ctx)
    else
      match path.operator_index 0 with
      | none => none
      | some index =>
        match ctx._exprs[e]? with
        | none => none
        | some expr =>
          match expr._children[index]? with
          | none => none
          | some child =>
            match refine_expression_recurse_fuel rules fuel ctx child path.pop_front with
            | none => none
            | some (candidates, ctx1) => refine_rebuild e index candidates ctx1

/-- The function `refine_expression_recurse`. -/
def refine_expression_recurse (ctx : context) (e : Nat) (path : path_t) (rules : rules_t) :
    Option (List Nat × context) :=
  refine_expression_recurse_fuel rules (path.indices.length + 1) ctx e path

/-- The loop over the children in `get_path_to_concretizable_element`, where `f` is
the recursive call and `i` the running index. -/
def min_path_loop (f : Nat → Option path_t) : List Nat → Nat → path_t → Option path_t
  | [], _, min_path => some min_path
  | c :: cs, i, min_path =>
    match f c with
    | none => none
    | some path =>
      min_path_loop f cs (i + 1) (if path.lt min_path then path.push_front i else min_path)

/-- The function `get_path_to_concretizable_element` with a bound on the recursion
depth. -/
def get_path_fuel (ctx : context) : Nat → Nat → Option path_t
  | 0, _ => none
  | fuel + 1, e =>
    match ctx._exprs[e]? with
    | none => none
    | some expr =>
      if name0 expr._name = '_' then some (path_t.init 0)
      else if expr._children.length = 0 then some (path_t.init UNSIGNED_MAX)
      else
        match min_path_loop (get_path_fuel ctx fuel) expr._children 0 (path_t.init UNSIGNED_MAX) with
        | none => none
        | some min_path =>
          if min_path.lt (path_t.init UNSIGNED_MAX) then some min_path.incr_depth
          else some min_path

/-- The function `get_path_to_concretizable_element`. -/
def get_path_to_concretizable_element (ctx : context) (e : Nat) : Option path_t :=
  get_path_fuel ctx ctx._exprs.length e

/-- The function `is_concrete`. -/
def is_concrete (ctx : context) (e : Nat) : Option Bool :=
  (get_path_to_concretizable_element ctx e).map path_t.invalid

/-- The observable actions of `enumerator::deduce`, in the order in which they
happen: the candidate taken from the queue, the line written to `std::cout`
(with the printed number) and the calls of the three virtual callbacks. -/
inductive event where
  | popped (e : cexpr_t)
  | finished_cost (n : Nat)
  | on_expression (e : cexpr_t)
  | on_concrete_expression (e : cexpr_t)
  | on_abstract_expression (e : cexpr_t)
deriving DecidableEq, Repr

/-- A scan for a candidate that `std::priority_queue::top` can return, an element
that is not greater than any other: the scan takes the earliest such element.
The heap of `std::priority_queue` can have another element with an equal triple
at its front; `enumerator.is_top` admits each of them. -/
def pq_top_loop (ctx : context) : cexpr_t → List cexpr_t → Option cexpr_t
  | best, [] => some best
  | best, x :: xs =>
    match expr_greater_than ctx best x with
    | none => none
    | some true => pq_top_loop ctx x xs
    | some false => pq_top_loop ctx best xs

/-- The call `candidate_expressions.top()` on the queue contents, with ties between
candidates of equal triples resolved for the earliest (`none` on an empty queue
or when the comparator has no value). -/
def pq_top (ctx : context) : List cexpr_t → Option cexpr_t
  | [] => none
  | x :: xs => pq_top_loop ctx x xs

/-- The members of the class `enumerator`, together with the list of observable
actions performed so far.  `candidate_expressions` holds the contents of the
priority queue in insertion order. -/
structure enumerator where
  ctx : context
  quit_enumeration : Bool
  rules : rules_t
  max_cost : Int
  candidate_expressions : List cexpr_t
  current_costs : Nat
  events : List event
deriving DecidableEq, Repr

/-- The constructor `enumerator( ctx, rules, max_cost )`. -/
def enumerator.init (ctx : context) (rules : rules_t) (max_cost : Int) : enumerator :=
  { ctx := ctx, quit_enumeration := false, rules := rules, max_cost := max_cost,
    candidate_expressions := [], current_costs := 0, events := [] }

/-- The member `enumerator::add_expression`. -/
def enumerator.add_expression (en : enumerator) (e : Nat) : enumerator :=
  { en with candidate_expressions := en.candidate_expressions ++ [(e, 0)] }

/-- The member `enumerator::signal_termination`. -/
def enumerator.signal_termination (en : enumerator) : enumerator :=
  { en with quit_enumeration := true }

/-- The member `enumerator::is_running`. -/
def enumerator.is_running (en : enumerator) : Bool := !en.quit_enumeration

/-- The default `enumerator::on_expression`. -/
def enumerator.on_expression (en : enumerator) (e : cexpr_t) : enumerator :=
  { en with events := en.events ++ [event.on_expression e] }

/-- The default `enumerator::on_concrete_expression`. -/
def enumerator.on_concrete_expression (en : enumerator) (e : cexpr_t) : enumerator :=
  { en with events := en.events ++ [event.on_concrete_expression e] }

/-- The default `enumerator::on_abstract_expression`: pushes the candidate. -/
def enumerator.on_abstract_expression (en : enumerator) (e : cexpr_t) : enumerator :=
  { en with candidate_expressions := en.candidate_expressions ++ [e],
            events := en.events ++ [event.on_abstract_expression e] }

namespace expr_attr

/-- Modelled from the spec: the constant `expr_attr::_not` read by
`check_double_negation` is not declared in `expr.hpp`; the spec names the
attribute `NO_DOUBLE_APPLICATION`, the enumerator `_no_double_application`. -/
def _not : Nat := expr_attr_enum._no_double_application

/-- Modelled from the spec: the constant `expr_attr::_commutative` read by
`is_redundant_in_search_order`, the attribute `COMMUTATIVE`. -/
def _commutative : Nat := expr_attr_enum._commutative

end expr_attr

/-- The loop `for ( const auto& c : expr._children ) if ( f( c ) ) return true;`
followed by `return false`. -/
def any_loop (f : Nat → Option Bool) : List Nat → Option Bool
  | [] => some false
  | c :: cs =>
    match f c with
    | none => none
    | some true => some true
    | some false => any_loop f cs

/-- The member `enumerator::check_double_negation` with a bound on the recursion
depth.  A violated `assert` is `none`. -/
def check_double_negation_fuel (ctx : context) : Nat → Nat → Option Bool
  | 0, _ => none
  | fuel + 1, e =>
    match ctx._exprs[e]? with
    | none => none
    | some expr =>
      if name0 expr._name ≠ '_' ∧ expr._attr = expr_attr._not then
        if expr._children.length ≠ 1 then none
        else
          match expr._children[0]? with
          | none => none
          | some c0 =>
            match ctx._exprs[c0]? with
            | none => none
            | some child0 =>
              if name0 child0._name ≠ '_' ∧ child0._attr = expr_attr._not then some true
              else any_loop (check_double_negation_fuel ctx fuel) expr._children
      else any_loop (check_double_negation_fuel ctx fuel) expr._children

/-- The member `enumerator::check_double_negation`. -/
def enumerator.check_double_negation (en : enumerator) (e : Nat) : Option Bool :=
  check_double_negation_fuel en.ctx en.ctx._exprs.length e

/-- The member `enumerator::is_redundant_in_search_order`. -/
def enumerator.is_redundant_in_search_order (en : enumerator) (e : Nat) : Option Bool :=
  match en.check_double_negation e with
  | none => none
  | some true => some true
  | some false =>
    match en.ctx._exprs[e]? with
    | none => none
    | some expr =>
      if name0 expr._name ≠ '_' ∧ expr._children.length = 2 ∧
          expr._attr = expr_attr._commutative then
        match expr._children[0]?, expr._children[1]? with
        | some c0, some c1 =>
          match en.ctx.count_nonterminals c0 with
          | none => none
          | some n0 =>
            if n0 = 0 then
              match en.ctx.count_nonterminals c1 with
              | none => none
              | some n1 => some (decide (n1 = 0 ∧ c0 > c1))
            else some false
        | _, _ => none
      else some false

/-- The loop over `new_candidates` in `enumerator::deduce`; `cost` is
`next_candidate.second`. -/
def deduce_loop (cost : Nat) : List Nat → enumerator → Option enumerator
  | [], en => some en
  | c :: cs, en =>
    if !en.is_running then some en
    else
      match en.is_redundant_in_search_order c with
      | none => none
      | some true => deduce_loop cost cs en
      | some false =>
        let cc : cexpr_t := (c, (cost + 1) % UNSIGNED_MOD)
        let en1 := en.on_expression cc
        match is_concrete en1.ctx c with
        | none => none
        | some true => deduce_loop cost cs (en1.on_concrete_expression cc)
        | some false => deduce_loop cost cs (en1.on_abstract_expression cc)

/-- The value of `max_cost` after the conversion from `int` to `unsigned` that the
comparison `next_candidate.second >= max_cost` performs. -/
def max_cost_unsigned (max_cost : Int) : Nat := (max_cost % (UNSIGNED_MOD : Int)).toNat

/-- The statements of `enumerator::deduce` that take `next_candidate` from the
queue and, when its cost exceeds `current_costs`, print the line for the finished
cost and raise `current_costs`. -/
def enumerator.take_candidate (en : enumerator) (next_candidate : cexpr_t) : enumerator :=
  let en1 := { en with candidate_expressions := en.candidate_expressions.erase next_candidate,
                       events := en.events ++ [event.popped next_candidate] }
  if next_candidate.2 > en1.current_costs then
    { en1 with events := en1.events ++ [event.finished_cost ((en1.current_costs + 1) % UNSIGNED_MOD)],
               current_costs := next_candidate.2 }
  else en1

/-- One iteration of the loop of `enumerator::deduce`, with `pq_top` for the call
of `top()`.  An iteration that takes the `return` or the `continue` leaves the
quit flag set, so that every later iteration returns at once. -/
def enumerator.deduce_iteration (en : enumerator) : Option enumerator :=
  let en0 := if en.candidate_expressions.isEmpty then { en with quit_enumeration := true } else en
  if !en0.is_running then some en0
  else
    match pq_top en0.ctx en0.candidate_expressions with
    | none => none
    | some next_candidate =>
      let en2 := en0.take_candidate next_candidate
      if next_candidate.2 ≥ max_cost_unsigned en2.max_cost then
        some { en2 with quit_enumeration := true }
      else
        match get_path_to_concretizable_element en2.ctx next_candidate.1 with
        | none => none
        | some p =>
          match refine_expression_recurse en2.ctx next_candidate.1 p en2.rules with
          | none => none
          | some (new_candidates, ctx1) =>
            deduce_loop next_candidate.2 new_candidates { en2 with ctx := ctx1 }

/-- The member `enumerator::deduce( number_of_steps )`. -/
def enumerator.deduce : Nat → enumerator → Option enumerator
  | 0, en => some en
  | n + 1, en =>
    match en.deduce_iteration with
    | none => none
    | some en1 => enumerator.deduce n en1

/-- The candidates that the call `candidate_expressions.top()` can return.
`std::priority_queue` keeps its container a heap for `expr_greater_than` and
`top()` is the front of the container: a queued candidate that the comparator
places above no other queued candidate.  Which one of several such candidates
is at the front is decided by the heap operations of the standard library. -/
def enumerator.is_top (en : enumerator) (next_candidate : cexpr_t) : Bool :=
  decide (next_candidate ∈ en.candidate_expressions) &&
    (en.candidate_expressions.erase next_candidate).all
      (fun x => decide (expr_greater_than en.ctx next_candidate x = some false))

/-- One iteration of the loop of `enumerator::deduce` in which `top()` returns
`next_candidate`, for any candidate that `top()` can return (`none` for any other
candidate).  An iteration that ends before the call of `top()` does not read
`next_candidate`. -/
def enumerator.deduce_iteration_top (en : enumerator) (next_candidate : cexpr_t) :
    Option enumerator :=
  let en0 := if en.candidate_expressions.isEmpty then { en with quit_enumeration := true } else en
  if !en0.is_running then some en0
  else if !en0.is_top next_candidate then none
  else
    let en2 := en0.take_candidate next_candidate
    if next_candidate.2 ≥ max_cost_unsigned en2.max_cost then
      some { en2 with quit_enumeration := true }
    else
      match get_path_to_concretizable_element en2.ctx next_candidate.1 with
      | none => none
      | some p =>
        match refine_expression_recurse en2.ctx next_candidate.1 p en2.rules with
        | none => none
        | some (new_candidates, ctx1) =>
          deduce_loop next_candidate.2 new_candidates { en2 with ctx := ctx1 }

/-- The member `enumerator::deduce( number_of_steps )` for
`number_of_steps = tops.length`, where the calls of `top()` return the candidates
`tops`, one for each iteration. -/
def enumerator.deduce_tops : List cexpr_t → enumerator → Option enumerator
  | [], en => some en
  | next_candidate :: tops, en =>
    match en.deduce_iteration_top next_candidate with
    | none => none
    | some en1 => enumerator.deduce_tops tops en1

/-! ## Specification-side definitions -/



/-- The key under which the structural hash table files a node. -/
def expr_node.key (e : expr_node) : String × List Nat := (e._name, e._children)

/-- Arenas built from the empty arena by calls of `make_fun`. -/
inductive context.reachable : context → Prop
  | empty : context.reachable context.empty
  | make_fun (ctx : context) (name : String) (children : List Nat) (attr : Nat) :
      context.reachable ctx → context.reachable (ctx.make_fun name children attr).2

/-- The invariant of the structural hash table: every stored node is filed under
its index, stored nodes have pairwise different keys, and every filed key is the
key of a stored node. -/
structure context.strash_inv (ctx : context) : Prop where
  filed : ∀ (i : Nat) (node : expr_node), ctx._exprs[i]? = some node →
    strash_find ctx._fun_strash node = some (i % UNSIGNED_MOD)
  distinct : ∀ (i j : Nat) (ni nj : expr_node), ctx._exprs[i]? = some ni → ctx._exprs[j]? = some nj →
    ni.key = nj.key → i = j
  stored : ∀ (e : expr_node) (v : Nat), strash_find ctx._fun_strash e = some v →
    ∃ (i : Nat) (node : expr_node), ctx._exprs[i]? = some node ∧ node.key = e.key

/-- The arena of the AND/NOT demonstration: `_N`, `not(_N)`, `and(_N,_N)`, `x0`. -/
def demo_ctx : context :=
  (((((context.empty.make_fun "_N" [] 0).2.make_fun "not" [0] 0).2.make_fun
    "and" [0, 0] 0).2).make_fun "x0" [] 0).2

/-- The node vector of the second arena starts with the node vector of the first. -/
def context.grows (ctx ctx2 : context) : Prop := ∃ t, ctx2._exprs = ctx._exprs ++ t

/-- The arena with the single node `f` (attribute set `_no`). -/
def attr_ctx : context := (context.empty.make_fun "f" [] expr_attr_enum._no).2

/-- Well-formed arena: every child handle of a stored node is smaller than the
handle of the node (children are interned before their parents). -/
def context.well_formed (ctx : context) : Prop :=
  ∀ (i : Nat) (node : expr_node), ctx._exprs[i]? = some node → ∀ c ∈ node._children, c < i

/-- The number of nonterminal nodes that `count_nonterminals` visits in the tree
unfolding of `e`, as a natural number (no wrap-around), with a bound on the
recursion depth. -/
def nonterminal_occurrences_fuel (ctx : context) : Nat → Nat → Nat
  | 0, _ => 0
  | fuel + 1, e =>
    match ctx._exprs[e]? with
    | none => 0
    | some expr =>
      if name0 expr._name = '_' then 1
      else (expr._children.map (nonterminal_occurrences_fuel ctx fuel)).sum

/-- The number of nonterminal nodes that `count_nonterminals` visits in the tree
unfolding of `e`, as a natural number. -/
def context.nonterminal_occurrences (ctx : context) (e : Nat) : Nat :=
  nonterminal_occurrences_fuel ctx ctx._exprs.length e

/-- The handle `d` is reached from the handle `e` by following child handles. -/
inductive context.subterm (ctx : context) : Nat → Nat → Prop
  | refl (e : Nat) : context.subterm ctx e e
  | step (e : Nat) (node : expr_node) (c d : Nat) : ctx._exprs[e]? = some node →
      c ∈ node._children → context.subterm ctx c d → context.subterm ctx e d

/-- Some node reachable from `e` has a name that begins with an underscore. -/
def context.has_nonterminal (ctx : context) (e : Nat) : Prop :=
  ∃ (d : Nat) (node : expr_node), ctx.subterm e d ∧ ctx._exprs[d]? = some node ∧
    name0 node._name = '_'

/-- A decidable form of `context.well_formed`. -/
def context.well_formed_check (ctx : context) : Bool :=
  (List.range ctx._exprs.length).all (fun i =>
    match ctx._exprs[i]? with
    | none => true
    | some node => node._children.all (fun c => decide (c < i)))

/-- The arena `_N`, `_M(_N)`: a nonterminal below a nonterminal. -/
def nested_ctx : context := ((context.empty.make_fun "_N" [] 0).2.make_fun "_M" [0] 0).2

/-- The arena `_N`, `f(_N,_N)`, `f(f(_N,_N),f(_N,_N))`, ...: node `k + 1` is `f` applied
twice to node `k`, for `k < 32`. -/
def doubling_ctx : context :=
  (List.range 32).foldl (fun ctx k => (ctx.make_fun "f" [k, k] 0).2)
    (context.empty.make_fun "_N" [] 0).2

/-- The costs passed to `on_concrete_expression`, in the order of the calls. -/
def concrete_costs (evs : List event) : List Nat :=
  evs.filterMap (fun ev =>
    match ev with
    | event.on_concrete_expression e => some e.2
    | _ => none)

/-- The costs of the candidates taken from the queue, in the order of the pops. -/
def popped_costs (evs : List event) : List Nat :=
  evs.filterMap (fun ev =>
    match ev with
    | event.popped e => some e.2
    | _ => none)

/-- The calls a client makes on an enumerator after seeding it. -/
inductive session_op where
  | deduce (number_of_steps : Nat)
  | signal_termination
deriving DecidableEq, Repr

/-- The state after a sequence of calls. -/
def run_session : List session_op → enumerator → Option enumerator
  | [], en => some en
  | session_op.deduce n :: ops, en =>
    match en.deduce n with
    | none => none
    | some en1 => run_session ops en1
  | session_op.signal_termination :: ops, en => run_session ops en.signal_termination

/-- The calls a client makes on an enumerator after seeding it, each call of
`deduce` with the candidates that its calls of `top()` return. -/
inductive session_call where
  | deduce (tops : List cexpr_t)
  | signal_termination
deriving DecidableEq, Repr

/-- The state after a sequence of calls in which `top()` returns the listed
candidates. -/
def run_calls : List session_call → enumerator → Option enumerator
  | [], en => some en
  | session_call.deduce tops :: calls, en =>
    match en.deduce_tops tops with
    | none => none
    | some en1 => run_calls calls en1
  | session_call.signal_termination :: calls, en => run_calls calls en.signal_termination

/-- The heap property that `std::priority_queue` keeps on its container, the
condition of `std::is_heap` for the comparator `expr_greater_than`: the
comparator does not place the element at `(i - 1) / 2` above the element at
`i`. -/
def is_heap (ctx : context) (v : List cexpr_t) : Bool :=
  (List.range v.length).all (fun i =>
    decide (i = 0) ||
      match v[(i - 1) / 2]?, v[i]? with
      | some parent, some child => decide (expr_greater_than ctx parent child = some false)
      | _, _ => false)

/-- A new enumerator to which the seeds have been added with `add_expression`. -/
def enumerator.seeded (ctx : context) (rules : rules_t) (max_cost : Int) (seeds : List Nat) :
    enumerator :=
  seeds.foldl enumerator.add_expression (enumerator.init ctx rules max_cost)

/-- The cost bookkeeping of a session in which `lo` is the cost of the candidate
popped last: popped costs and emitted costs are in non-decreasing order, no
queued candidate is cheaper than `lo`, and every emitted cost is at most `lo + 1`
and at most the bound that `deduce` compares with. -/
structure cost_inv (st : enumerator) (lo : Nat) : Prop where
  popped_le : ∀ c ∈ popped_costs st.events, c ≤ lo
  popped_sorted : (popped_costs st.events).Pairwise (fun a b => a ≤ b)
  queue_ge : ∀ q ∈ st.candidate_expressions, lo ≤ q.2
  concrete_le : ∀ c ∈ concrete_costs st.events, c ≤ lo + 1
  concrete_sorted : (concrete_costs st.events).Pairwise (fun a b => a ≤ b)
  concrete_bound : ∀ c ∈ concrete_costs st.events, c ≤ max_cost_unsigned st.max_cost

/-- The AND/NOT demonstration: the arena `demo_ctx` with the rules `_N -> not(_N)`,
`_N -> and(_N,_N)`, `_N -> x0`, the seed `_N` and the bound 3. -/
def demo_en : enumerator :=
  enumerator.seeded demo_ctx [⟨0, 1⟩, ⟨0, 2⟩, ⟨0, 3⟩] 3 [0]

/-- The state of the AND/NOT demonstration after two iterations of `deduce`, a call
of `signal_termination` and a further call of `deduce`. -/
def demo_session_state : enumerator :=
  (run_session [session_op.deduce 2, session_op.signal_termination, session_op.deduce 1]
    demo_en).getD demo_en

/-- The arena `_N`, `x0`. -/
def leaf_ctx : context := ((context.empty.make_fun "_N" [] 0).2.make_fun "x0" [] 0).2

/-- A term as a tree of symbol names: the tree unfolding of a handle. -/
inductive term where
  | node (name : String) (children : List term) : term

/-- The symbol at the root of a term. -/
def term.name : term → String
  | term.node n _ => n

/-- The immediate subterms of a term. -/
def term.children : term → List term
  | term.node _ cs => cs

/-- The subterm at a position, given as the child indices from the root. -/
def term.subterm_at : term → List Nat → Option term
  | t, [] => some t
  | t, i :: p =>
    match t.children[i]? with
    | none => none
    | some c => c.subterm_at p

/-- The term with the subterm at a position replaced by `r`. -/
def term.replace_at : term → List Nat → term → Option term
  | _, [], r => some r
  | t, i :: p, r =>
    match t.children[i]? with
    | none => none
    | some c =>
      match c.replace_at p r with
      | none => none
      | some c2 => some (term.node t.name (t.children.set i c2))

/-- A term is concrete when none of its nodes is a nonterminal. -/
def term.concrete (t : term) : Prop :=
  ∀ (p : List Nat) (s : term), t.subterm_at p = some s → name0 s.name ≠ '_'

/-- The unfoldings of a list of handles, where `f` unfolds one handle. -/
def unfold_list (f : Nat → Option term) : List Nat → Option (List term)
  | [] => some []
  | c :: cs =>
    match f c with
    | none => none
    | some t =>
      match unfold_list f cs with
      | none => none
      | some ts => some (t :: ts)

/-- The tree unfolding of a handle with a bound on the recursion depth. -/
def unfold_fuel (ctx : context) : Nat → Nat → Option term
  | 0, _ => none
  | fuel + 1, e =>
    match ctx._exprs[e]? with
    | none => none
    | some node =>
      match unfold_list (unfold_fuel ctx fuel) node._children with
      | none => none
      | some ts => some (term.node node._name ts)

/-- The tree unfolding of a handle. -/
def context.unfold (ctx : context) (e : Nat) : Option term :=
  unfold_fuel ctx ctx._exprs.length e

/-- The handle reached from `e` by following the child indices of a position. -/
def context.handle_at (ctx : context) : Nat → List Nat → Option Nat
  | e, [] => some e
  | e, i :: p =>
    match ctx._exprs[e]? with
    | none => none
    | some node =>
      match node._children[i]? with
      | none => none
      | some c => context.handle_at ctx c p

/-- The arena invariants: the structural hash table is consistent with the node
vector and children precede their parents. -/
structure context.ok (ctx : context) : Prop where
  inv : ctx.strash_inv
  wf : ctx.well_formed

/-- The function `refine_expression_recurse` on a path given root first. -/
def refine_path (rules : rules_t) : List Nat → context → Nat → Option (List Nat × context)
  | [], ctx, e =>
    some ((rules.filter (fun r => decide (e = r.match_))).map (fun r => r.replace), ctx)
  | index :: p, ctx, e =>
    match ctx._exprs[e]? with
    | none => none
    | some expr =>
      match expr._children[index]? with
      | none => none
      | some child =>
        match refine_path rules p ctx child with
        | none => none
        | some (candidates, ctx1) => refine_rebuild e index candidates ctx1

/-- One rule application on terms: at some position `p` the term `t` has the
unfolding `l` of the `match` of a rule, `l` is a nonterminal, and `t2` is `t` with
that occurrence replaced by the unfolding `r` of the rule's `replace`. -/
def rule_application (ctx : context) (rules : rules_t) (t t2 : term) : Prop :=
  ∃ (p : List Nat) (rule : rule_t) (l r : term), rule ∈ rules ∧
    ctx.unfold rule.match_ = some l ∧ ctx.unfold rule.replace = some r ∧
    name0 l.name = '_' ∧ t.subterm_at p = some l ∧ t.replace_at p r = some t2

/-- The term `v` is obtained from `t` by exactly `k` successive steps of `R`. -/
inductive derives (R : term → term → Prop) : Nat → term → term → Prop
  | refl (t : term) : derives R 0 t t
  | step (k : Nat) (t u v : term) : derives R k t u → R u v → derives R (k + 1) t v

/-- The candidate `(s, c)` is obtained from one of the seeds by exactly `c` rule
applications; the rules and seeds are unfolded in the initial arena `ctx0`. -/
def derivable (ctx0 : context) (rules : rules_t) (seeds : List Nat) (ctx : context)
    (s c : Nat) : Prop :=
  ∃ seed ∈ seeds, ∃ t0 t, ctx0.unfold seed = some t0 ∧ ctx.unfold s = some t ∧
    derives (rule_application ctx0 rules) c t0 t

/-- The grammar is declared in the arena `ctx0`: both handles of every rule are in
range and the `match` of every rule is a nonterminal node. -/
def rules_ok (ctx0 : context) (rules : rules_t) : Prop :=
  ∀ r ∈ rules, r.replace < ctx0._exprs.length ∧
    ∃ node, ctx0._exprs[r.match_]? = some node ∧ name0 node._name = '_'

/-- The state of a session that started from the arena `ctx0` with the given rules
and seeds: the arena satisfies its invariants and extends `ctx0`, and every queued
candidate, every candidate passed to `on_concrete_expression` and every candidate
passed to `on_abstract_expression` is a stored handle that is obtained from a seed
by as many rule applications as its cost; the emitted ones reach no nonterminal,
the re-queued ones do. -/
structure session_inv (ctx0 : context) (rules : rules_t) (seeds : List Nat)
    (st : enumerator) : Prop where
  ok : st.ctx.ok
  grows : ctx0.grows st.ctx
  rules_eq : st.rules = rules
  queue : ∀ q ∈ st.candidate_expressions,
    q.1 < st.ctx._exprs.length ∧ derivable ctx0 rules seeds st.ctx q.1 q.2
  concrete : ∀ q, event.on_concrete_expression q ∈ st.events →
    q.1 < st.ctx._exprs.length ∧ ¬ st.ctx.has_nonterminal q.1 ∧
      derivable ctx0 rules seeds st.ctx q.1 q.2
  abstract : ∀ q, event.on_abstract_expression q ∈ st.events →
    q.1 < st.ctx._exprs.length ∧ st.ctx.has_nonterminal q.1 ∧
      derivable ctx0 rules seeds st.ctx q.1 q.2

/-- The state of the AND/NOT demonstration after three iterations of `deduce`, in
which `_N`, `not(_N)` and `and(_N,_N)` are taken from the queue. -/
def demo_state_3 : enumerator :=
  (run_calls [session_call.deduce [(0, 0), (1, 1), (2, 1)]] demo_en).getD demo_en

/-- No stored node carries an attribute. -/
def context.no_attr (ctx : context) : Prop :=
  ∀ (i : Nat) (node : expr_node), ctx._exprs[i]? = some node → node._attr = expr_attr_enum._no

/-- The term `v` is obtained from `t` by exactly `k` successive steps of `R`, the
first step listed first. -/
inductive derives_from (R : term → term → Prop) : Nat → term → term → Prop
  | refl (t : term) : derives_from R 0 t t
  | step (k : Nat) (t u v : term) : R t u → derives_from R k u v → derives_from R (k + 1) t v

/-- The `match` of every rule unfolds to a leaf. -/
def leaf_matches (ctx0 : context) (rules : rules_t) : Prop :=
  ∀ rule ∈ rules, ∀ l, ctx0.unfold rule.match_ = some l → l.children = []

/-- The termination weight of the queue: a candidate of cost `c` weighs
`(base + 1) ^ (bound - c)`. -/
def queue_weight (base bound : Nat) (q : List cexpr_t) : Nat :=
  (q.map (fun x => (base + 1) ^ (bound - x.2))).sum

/-- The termination measure of `deduce`: zero once the quit flag is set. -/
def search_measure (st : enumerator) : Nat :=
  if st.quit_enumeration then 0
  else 1 + queue_weight st.rules.length (max_cost_unsigned st.max_cost) st.candidate_expressions

/-- The state of an exhaustive search from one seed on an arena without
attributes: the arena invariants, a queue of stored handles, and for every
concrete term `u` derived from the seed in `k` rule applications, `k` within the
bound, either `u` has been passed to `on_concrete_expression` with cost `k` or a
queued candidate of smaller cost still derives it in the remaining number of
steps.  Once the quit flag is set no queued candidate is below the bound. -/
structure search_inv (ctx0 : context) (rules : rules_t) (max_cost : Int) (seed : Nat)
    (st : enumerator) : Prop where
  ok : st.ctx.ok
  grows : ctx0.grows st.ctx
  no_attr : st.ctx.no_attr
  rules_eq : st.rules = rules
  max_cost_eq : st.max_cost = max_cost
  queue_lt : ∀ q ∈ st.candidate_expressions, q.1 < st.ctx._exprs.length
  done : st.quit_enumeration = true →
    ∀ q ∈ st.candidate_expressions, max_cost_unsigned max_cost ≤ q.2
  covered : ∀ (k : Nat) (t0 u : term), 1 ≤ k → k ≤ max_cost_unsigned max_cost →
    ctx0.unfold seed = some t0 → u.concrete →
    derives_from (rule_application ctx0 rules) k t0 u →
    (∃ s, event.on_concrete_expression (s, k) ∈ st.events ∧ st.ctx.unfold s = some u) ∨
    (∃ q ∈ st.candidate_expressions, q.2 < k ∧ ∃ t, st.ctx.unfold q.1 = some t ∧
      derives_from (rule_application ctx0 rules) (k - q.2) t u)

/-- A decidable form of `context.no_attr`. -/
def context.no_attr_check (ctx : context) : Bool :=
  ctx._exprs.all (fun node => decide (node._attr = expr_attr_enum._no))

/-- The AND/NOT demonstration with the bound 2. -/
def demo_en_2 : enumerator := enumerator.seeded demo_ctx [⟨0, 1⟩, ⟨0, 2⟩, ⟨0, 3⟩] 2 [0]

/-- The state of the AND/NOT demonstration with the bound 2 after four iterations
of `deduce`, in which `_N`, `not(_N)`, `and(_N,_N)` and `not(not(_N))` are taken
from the queue. -/
def demo_final_2 : enumerator :=
  (demo_en_2.deduce_tops [(0, 0), (1, 1), (2, 1), (4, 2)]).getD demo_en_2

/-- The indices of a path read root first through `path_t::operator[]`:
`path[0]`, `path[1]`, ... up to the number of stored indices. -/
def path_t.root_first (p : path_t) : List Nat :=
  (List.range p.indices.length).filterMap p.operator_index

/-- Lexicographic comparison of two index sequences: `a` is at most `b`. -/
def lex_le : List Nat → List Nat → Bool
  | [], _ => true
  | _ :: _, [] => false
  | a :: as, b :: bs => decide (a < b) || (decide (a = b) && lex_le as bs)

/-- The arena `x0`, `_A`, `_B`, `g(_A)`, `f(g(_A), _B, _A)`: the shallowest
nonterminals of the last node are its second and third child. -/
def tie_ctx : context :=
  (((((context.empty.make_fun "x0" [] 0).2.make_fun "_A" [] 0).2.make_fun "_B" [] 0).2.make_fun
    "g" [1] 0).2.make_fun "f" [3, 2, 1] 0).2

/-- The arena `x0`, `f(x0)` with the attribute `_no_double_application`, `_N`,
`f(_N)` without attribute. -/
def attr_clash_ctx : context :=
  ((((context.empty.make_fun "x0" [] 0).2.make_fun "f" [0]
    expr_attr_enum._no_double_application).2.make_fun "_N" [] 0).2.make_fun "f" [2]
    expr_attr_enum._no).2

/-- The triple by which `expr_greater_than` orders a candidate: its cost, the
value of `count_nonterminals` and the value of `count_nodes` on its handle. -/
def candidate_key (ctx : context) (a : cexpr_t) : Option (Nat × Nat × Nat) :=
  match ctx.count_nonterminals a.1, ctx.count_nodes a.1 with
  | some n, some m => some (a.2, n, m)
  | _, _ => none

/-- The triple `x` is lexicographically strictly smaller than the triple `y`. -/
def lex3_lt (x y : Nat × Nat × Nat) : Bool :=
  decide (x.1 < y.1 ∨ (x.1 = y.1 ∧ (x.2.1 < y.2.1 ∨ (x.2.1 = y.2.1 ∧ x.2.2 < y.2.2))))

/-- The attribute set `attr` contains the attribute `flag` (a bit of the word). -/
def expr_attr_has (attr flag : Nat) : Bool := decide (attr &&& flag ≠ 0)

/-- A terminal node that carries `NO_DOUBLE_APPLICATION`. -/
def expr_node.no_double (node : expr_node) : Bool :=
  decide (name0 node._name ≠ '_') &&
    expr_attr_has node._attr expr_attr_enum._no_double_application

/-- The double-application condition in the words of the specification, with a
bound on the recursion depth: in the subtree of `e` a terminal node that carries
`NO_DOUBLE_APPLICATION` has a direct child with the same symbol. -/
def same_symbol_nested_fuel (ctx : context) : Nat → Nat → Bool
  | 0, _ => false
  | fuel + 1, e =>
    match ctx._exprs[e]? with
    | none => false
    | some f =>
      (f.no_double && f._children.any (fun c =>
        match ctx._exprs[c]? with
        | none => false
        | some g => decide (g._name = f._name))) ||
      f._children.any (same_symbol_nested_fuel ctx fuel)

/-- The double-application condition in the words of the specification. -/
def context.same_symbol_nested (ctx : context) (e : Nat) : Bool :=
  same_symbol_nested_fuel ctx ctx._exprs.length e

/-- In the subtree of `e` a terminal node that carries `NO_DOUBLE_APPLICATION` has
a direct child that is a terminal node carrying `NO_DOUBLE_APPLICATION`. -/
def context.tag_nested (ctx : context) (e : Nat) : Prop :=
  ∃ (d : Nat) (node : expr_node) (c : Nat) (child : expr_node), ctx.subterm e d ∧
    ctx._exprs[d]? = some node ∧ node.no_double = true ∧ c ∈ node._children ∧
    ctx._exprs[c]? = some child ∧ child.no_double = true

/-- Every terminal node that carries `NO_DOUBLE_APPLICATION` carries no other
attribute and has exactly one child. -/
def context.no_double_unary (ctx : context) : Prop :=
  ∀ node ∈ ctx._exprs, node.no_double = true →
    node._attr = expr_attr_enum._no_double_application ∧ node._children.length = 1

/-- Every terminal node whose attribute word is `expr_attr::_not` has exactly one
child: the condition that `check_double_negation` asserts. -/
def context.not_unary (ctx : context) : Prop :=
  ∀ node ∈ ctx._exprs, name0 node._name ≠ '_' → node._attr = expr_attr._not →
    node._children.length = 1

/-- The arena `x0`, `G(x0)`, `!(G(x0))` with `G` and `!` declared with
`_no_double_application`, as in the LTL example. -/
def ltl_ctx : context :=
  (((context.empty.make_fun "x0" [] 0).2.make_fun "G" [0]
    expr_attr_enum._no_double_application).2.make_fun "!" [1]
    expr_attr_enum._no_double_application).2

/-- The arena `x0`, `f(x0)` without attribute, `f(f(x0))` with
`_no_double_application`. -/
def untagged_ctx : context :=
  (((context.empty.make_fun "x0" [] 0).2.make_fun "f" [0] expr_attr_enum._no).2.make_fun
    "f" [1] expr_attr_enum._no_double_application).2

/-- The arena `x0`, `f(x0,x0)` where the binary `f` carries
`_no_double_application`. -/
def binary_not_ctx : context :=
  ((context.empty.make_fun "x0" [] 0).2.make_fun "f" [0, 0]
    expr_attr_enum._no_double_application).2

/-- The arena `c` of a single constant that carries `_no_double_application`. -/
def constant_not_ctx : context :=
  (context.empty.make_fun "c" [] expr_attr_enum._no_double_application).2

/-- The arena `x0`, `x1`, `g(x1,x0)`, `|(g(x1,x0),x0)`, `!(|(g(x1,x0),x0))` with an
idempotent binary `g`, a commutative binary `|` and a unary `!` that carries
`_no_double_application`. -/
def shapes_ctx : context :=
  (((((context.empty.make_fun "x0" [] 0).2.make_fun "x1" [] 0).2.make_fun "g" [1, 0]
    expr_attr_enum._idempotent).2.make_fun "|" [2, 0] expr_attr_enum._commutative).2.make_fun
    "!" [3] expr_attr_enum._no_double_application).2

/-- The arena of the grammar `_N -> |(_N,_N)`, `_N -> x0`, `_N -> x1`, with `|`
declared `_idempotent | _commutative` as in the LTL and CTL examples: `_N`,
`|(_N,_N)`, `x0`, `x1`. -/
def or_ctx : context :=
  ((((context.empty.make_fun "_N" [] 0).2.make_fun "|" [0, 0]
    (expr_attr_enum._idempotent ||| expr_attr_enum._commutative)).2.make_fun "x0" [] 0).2.make_fun
    "x1" [] 0).2

/-- The enumerator of the grammar on `or_ctx` with the seed `_N` and the bound 3. -/
def or_en : enumerator := enumerator.seeded or_ctx [⟨0, 1⟩, ⟨0, 2⟩, ⟨0, 3⟩] 3 [0]

/-- The state of `or_en` after four iterations of `deduce`. -/
def or_state_4 : enumerator := (or_en.deduce 4).getD or_en

/-- The arena of the double-negation scenario: `_N`, `x0`, `not(_N)` with `not`
declared `_no_double_application`. -/
def dn_ctx : context :=
  (((context.empty.make_fun "_N" [] 0).2.make_fun "x0" [] 0).2.make_fun "not" [0]
    expr_attr_enum._no_double_application).2

/-- The enumerator of the double-negation scenario: the rules `_N -> x0` and
`_N -> not(_N)`, the seed `_N` and the bound 4. -/
def dn_en : enumerator := enumerator.seeded dn_ctx [⟨0, 1⟩, ⟨0, 2⟩] 4 [0]

/-- The state of the double-negation scenario after three iterations of `deduce`. -/
def dn_final : enumerator := (dn_en.deduce 3).getD dn_en

/-- The arenas obtained from the empty arena by calls of `make_fun` whose child
handles are in range and by calls of `refine_expression_recurse` that return,
with rules whose handles are in range. -/
inductive context.built : context → Prop
  | empty : context.built context.empty
  | make_fun (ctx : context) (name : String) (children : List Nat) (attr : Nat) :
      context.built ctx → (∀ c ∈ children, c < ctx._exprs.length) →
      context.built (ctx.make_fun name children attr).2
  | refine (ctx : context) (e : Nat) (path : path_t) (rules : rules_t) (results : List Nat)
      (ctx2 : context) : context.built ctx →
      (∀ r ∈ rules, r.match_ < ctx._exprs.length ∧ r.replace < ctx._exprs.length) →
      refine_expression_recurse ctx e path rules = some (results, ctx2) →
      context.built ctx2

/-- The arena after the AND/NOT demonstration has refined `and(_N,_N)` along its
path. -/
def demo_refined_ctx : context :=
  ((refine_expression_recurse demo_ctx 2 ⟨[0], 1⟩ [⟨0, 1⟩, ⟨0, 2⟩, ⟨0, 3⟩]).getD
    ([], demo_ctx)).2

/-- The position `p` leads from `e` through terminal nodes to a nonterminal node:
the walk that `get_path_to_concretizable_element` selects. -/
def context.terminal_path (ctx : context) : Nat → List Nat → Prop
  | e, [] => ∃ node, ctx._exprs[e]? = some node ∧ name0 node._name = '_'
  | e, i :: p => ∃ node c, ctx._exprs[e]? = some node ∧ name0 node._name ≠ '_' ∧
      node._children[i]? = some c ∧ context.terminal_path ctx c p

/-- The number of terminal symbols (nodes whose name does not begin with an
underscore) in a list of terms. -/
def terminal_count : List term → Nat
  | [] => 0
  | term.node n cs :: rest =>
    (if name0 n = '_' then 0 else 1) + terminal_count cs + terminal_count rest

/-- The candidates passed to `on_concrete_expression`, in the order of the calls. -/
def concrete_emissions (evs : List event) : List cexpr_t :=
  evs.filterMap (fun ev =>
    match ev with
    | event.on_concrete_expression e => some e
    | _ => none)

/-- The candidates that the nine iterations of the AND/NOT demonstration with the
bound 3 take from the queue, in the order in which the binary heap of
`std::priority_queue` yields them: `_N`, `not(_N)`, `and(_N,_N)`, `not(not(_N))`,
`and(x0,_N)`, `and(not(_N),_N)`, `not(and(_N,_N))`, `and(and(_N,_N),_N)` and, with
cost 3, `and(x0,not(_N))`. -/
def demo_tops_3 : List cexpr_t :=
  [(0, 0), (1, 1), (2, 1), (4, 2), (9, 2), (7, 2), (5, 2), (8, 2), (13, 3)]

/-- The state of the AND/NOT demonstration with the bound 3 after nine iterations
of `deduce`, when the run has stopped. -/
def demo_run_3 : enumerator := (demo_en.deduce_tops demo_tops_3).getD demo_en

/-- The container of the priority queue of the AND/NOT demonstration with the
bound 3 before each of its nine iterations, as the binary heap of
`std::priority_queue` arranges it. -/
def demo_heap_3 : List (List cexpr_t) :=
  [[(0, 0)],
   [(1, 1), (2, 1)],
   [(2, 1), (4, 2), (5, 2)],
   [(4, 2), (9, 2), (7, 2), (8, 2), (5, 2)],
   [(9, 2), (5, 2), (7, 2), (8, 2), (10, 3), (11, 3)],
   [(7, 2), (5, 2), (13, 3), (8, 2), (10, 3), (11, 3), (14, 3)],
   [(5, 2), (8, 2), (13, 3), (18, 3), (10, 3), (11, 3), (16, 3), (17, 3), (14, 3)],
   [(8, 2), (10, 3), (13, 3), (18, 3), (21, 3), (11, 3), (16, 3), (17, 3), (19, 3), (20, 3),
    (14, 3)],
   [(13, 3), (10, 3), (16, 3), (18, 3), (21, 3), (11, 3), (14, 3), (17, 3), (19, 3), (20, 3),
    (22, 3), (23, 3), (24, 3)]]

/-- The arena `x0`, `x1` of two terminal symbols. -/
def terminal_ctx : context := ((context.empty.make_fun "x0" [] 0).2.make_fun "x1" [] 0).2

/-- The enumerator on `terminal_ctx` with the rule `x0 -> x1`, whose `match` is a
terminal symbol, the seed `x0` and the bound 2. -/
def terminal_en : enumerator := enumerator.seeded terminal_ctx [⟨0, 1⟩] 2 [0]

/-! ## Theorems -/

theorem children_eq_loop_iff (as bs : List Nat) (h : as.length = bs.length) :
    children_eq_loop as bs = true ↔ as = bs := by
  induction as generalizing bs with
  | nil =>
    cases bs with
    | nil => simp [children_eq_loop]
    | cons b bs => simp at h
  | cons a as ih =>
    cases bs with
    | nil => simp at h
    | cons b bs =>
      simp only [List.length_cons, Nat.add_right_cancel_iff] at h
      by_cases hab : a = b
      · subst hab
        simp [children_eq_loop, ih bs h]
      · simp [children_eq_loop, hab]

theorem operator_eq_iff (a e : expr_node) :
    a.operator_eq e = true ↔ a.key = e.key := by
  unfold expr_node.operator_eq expr_node.key
  by_cases hn : a._name = e._name
  · by_cases hl : a._children.length = e._children.length
    · simp [hn, hl, children_eq_loop_iff _ _ hl]
    · have : a._children ≠ e._children := fun h => hl (by rw [h])
      simp [hn, hl, this]
  · simp [hn]

theorem expr_hash_eq_of_operator_eq (hs : String → Nat) (hu : Nat → Nat) (a e : expr_node)
    (h : a.operator_eq e = true) : expr_hash hs hu a = expr_hash hs hu e := by
  have hk := (operator_eq_iff a e).1 h
  simp only [expr_node.key, Prod.mk.injEq] at hk
  unfold expr_hash
  rw [hk.1, hk.2]

theorem strash_find_key (m : fun_strash_map_t) (e1 e2 : expr_node) (h : e1.key = e2.key) :
    strash_find m e1 = strash_find m e2 := by
  induction m with
  | nil => rfl
  | cons kv rest ih =>
    obtain ⟨k, v⟩ := kv
    have : k.operator_eq e1 = k.operator_eq e2 := by
      rw [Bool.eq_iff_iff, operator_eq_iff, operator_eq_iff, h]
    simp [strash_find, this, ih]

theorem strash_find_assign_self (m : fun_strash_map_t) (e : expr_node) (v : Nat) :
    strash_find (strash_assign m e v) e = some v := by
  induction m with
  | nil =>
    have : e.operator_eq e = true := (operator_eq_iff e e).2 rfl
    simp [strash_assign, strash_find, this]
  | cons kv rest ih =>
    obtain ⟨k, w⟩ := kv
    by_cases hk : k.operator_eq e = true
    · simp [strash_assign, strash_find, hk]
    · simp [strash_assign, strash_find, hk, ih]

theorem strash_find_assign_other (m : fun_strash_map_t) (e e2 : expr_node) (v : Nat)
    (h : e2.key ≠ e.key) :
    strash_find (strash_assign m e v) e2 = strash_find m e2 := by
  induction m with
  | nil =>
    have : e.operator_eq e2 = false := by
      rw [Bool.eq_false_iff]
      intro hh
      exact h ((operator_eq_iff e e2).1 hh).symm
    simp [strash_assign, strash_find, this]
  | cons kv rest ih =>
    obtain ⟨k, w⟩ := kv
    by_cases hk : k.operator_eq e = true
    · have hk2 : k.operator_eq e2 = false := by
        rw [Bool.eq_false_iff]
        intro hh
        exact h (((operator_eq_iff k e2).1 hh).symm.trans ((operator_eq_iff k e).1 hk))
      simp [strash_assign, strash_find, hk, hk2]
    · simp [strash_assign, strash_find, hk, ih]

theorem make_fun_found (ctx : context) (name : String) (children : List Nat) (attr v : Nat)
    (h : strash_find ctx._fun_strash ⟨name, children, attr⟩ = some v) :
    ctx.make_fun name children attr = (v, ctx) := by
  simp [context.make_fun, h]

theorem make_fun_fresh (ctx : context) (name : String) (children : List Nat) (attr : Nat)
    (h : strash_find ctx._fun_strash ⟨name, children, attr⟩ = none) :
    ctx.make_fun name children attr =
      (ctx._exprs.length % UNSIGNED_MOD,
        { _fun_strash := strash_assign ctx._fun_strash ⟨name, children, attr⟩
            (ctx._exprs.length % UNSIGNED_MOD),
          _exprs := ctx._exprs ++ [⟨name, children, attr⟩] }) := by
  simp [context.make_fun, h]

theorem strash_inv_make_fun (ctx : context) (name : String) (children : List Nat) (attr : Nat)
    (inv : ctx.strash_inv) : (ctx.make_fun name children attr).2.strash_inv := by
  cases hf : strash_find ctx._fun_strash ⟨name, children, attr⟩ with
  | some v => rw [make_fun_found _ _ _ _ _ hf]; exact inv
  | none =>
    rw [make_fun_fresh _ _ _ _ hf]
    have hnew : ∀ (i : Nat) (node : expr_node), ctx._exprs[i]? = some node →
        node.key ≠ (⟨name, children, attr⟩ : expr_node).key := by
      intro i node hi hk
      have := inv.filed i node hi
      rw [strash_find_key _ _ _ hk, hf] at this
      exact Option.noConfusion this
    have hget : ∀ (i : Nat) (node : expr_node), (ctx._exprs ++ [(⟨name, children, attr⟩ : expr_node)])[i]? = some node →
        (ctx._exprs[i]? = some node) ∨
          (i = ctx._exprs.length ∧ node = ⟨name, children, attr⟩) := by
      intro i node hi
      by_cases hlt : i < ctx._exprs.length
      · rw [List.getElem?_append_left hlt] at hi
        exact Or.inl hi
      · have hge : ctx._exprs.length ≤ i := Nat.le_of_not_lt hlt
        rw [List.getElem?_append_right hge] at hi
        have h0 : i - ctx._exprs.length = 0 := by
          by_contra hne
          obtain ⟨k, hk⟩ := Nat.exists_eq_succ_of_ne_zero hne
          rw [hk] at hi
          simp at hi
        rw [h0] at hi
        simp at hi
        exact Or.inr ⟨by omega, hi.symm⟩
    refine ⟨?_, ?_, ?_⟩
    · intro i node hi
      rcases hget i node hi with h1 | ⟨h1, h2⟩
      · simp only
        rw [strash_find_assign_other _ _ _ _ (hnew i node h1)]
        exact inv.filed i node h1
      · subst h1 h2
        exact strash_find_assign_self _ _ _
    · intro i j ni nj hi hj hk
      rcases hget i ni hi with h1 | ⟨h1, h2⟩
      · rcases hget j nj hj with h3 | ⟨h3, h4⟩
        · exact inv.distinct i j ni nj h1 h3 hk
        · subst h4
          exact absurd hk (hnew i ni h1)
      · rcases hget j nj hj with h3 | ⟨h3, h4⟩
        · subst h2
          exact absurd hk.symm (hnew j nj h3)
        · rw [h1, h3]
    · intro e v hv
      simp only at hv
      by_cases hk : e.key = (⟨name, children, attr⟩ : expr_node).key
      · refine ⟨ctx._exprs.length, ⟨name, children, attr⟩, ?_, hk.symm⟩
        simp
      · rw [strash_find_assign_other _ _ _ _ hk] at hv
        obtain ⟨i, node, hi, hkey⟩ := inv.stored e v hv
        refine ⟨i, node, ?_, hkey⟩
        have hlt : i < ctx._exprs.length := by
          rcases Nat.lt_or_ge i ctx._exprs.length with h | h
          · exact h
          · rw [List.getElem?_eq_none h] at hi
            exact Option.noConfusion hi
        simp only
        rw [List.getElem?_append_left hlt]
        exact hi

theorem strash_inv_of_reachable (ctx : context) (h : ctx.reachable) : ctx.strash_inv := by
  induction h with
  | empty =>
    refine ⟨?_, ?_, ?_⟩
    · intro i node hi
      simp [context.empty] at hi
    · intro i j ni nj hi
      simp [context.empty] at hi
    · intro e v hv
      simp [context.empty, strash_find] at hv
  | make_fun ctx name children attr _ ih => exact strash_inv_make_fun ctx name children attr ih

theorem demo_ctx_reachable : demo_ctx.reachable :=
  context.reachable.make_fun _ _ _ _ (context.reachable.make_fun _ _ _ _
    (context.reachable.make_fun _ _ _ _ (context.reachable.make_fun _ _ _ _
      context.reachable.empty)))

theorem getElem?_lt_length {α : Type} (l : List α) (i : Nat) (a : α) (h : l[i]? = some a) :
    i < l.length := by
  rcases Nat.lt_or_ge i l.length with h1 | h1
  · exact h1
  · rw [List.getElem?_eq_none h1] at h
    exact Option.noConfusion h

theorem make_fun_exprs (ctx : context) (name : String) (children : List Nat) (attr : Nat) :
    (ctx.make_fun name children attr).2._exprs = ctx._exprs ∨
      (ctx.make_fun name children attr).2._exprs = ctx._exprs ++ [⟨name, children, attr⟩] ∧
      (ctx.make_fun name children attr).1 = ctx._exprs.length % UNSIGNED_MOD := by
  cases hf : strash_find ctx._fun_strash ⟨name, children, attr⟩ with
  | some v => rw [make_fun_found _ _ _ _ _ hf]; exact Or.inl rfl
  | none => rw [make_fun_fresh _ _ _ _ hf]; exact Or.inr ⟨rfl, rfl⟩

theorem make_fun_getElem? (ctx : context) (name : String) (children : List Nat) (attr : Nat)
    (i : Nat) (node : expr_node) (h : ctx._exprs[i]? = some node) :
    (ctx.make_fun name children attr).2._exprs[i]? = some node := by
  rcases make_fun_exprs ctx name children attr with h1 | ⟨h1, _⟩
  · rw [h1]; exact h
  · rw [h1, List.getElem?_append_left (getElem?_lt_length _ _ _ h)]; exact h

theorem make_fun_length_le (ctx : context) (name : String) (children : List Nat) (attr : Nat) :
    ctx._exprs.length ≤ (ctx.make_fun name children attr).2._exprs.length := by
  rcases make_fun_exprs ctx name children attr with h1 | ⟨h1, _⟩
  · rw [h1]
  · rw [h1]; simp

/-- What `make_fun` returns on an arena that satisfies the table invariant and
holds fewer than `2^32` nodes: the handle of a stored node with the requested name
and children. -/
theorem make_fun_spec (ctx : context) (inv : ctx.strash_inv)
    (hsize : ctx._exprs.length < UNSIGNED_MOD) (name : String) (children : List Nat)
    (attr : Nat) :
    ∃ node, (ctx.make_fun name children attr).2._exprs[(ctx.make_fun name children attr).1]?
        = some node ∧ node._name = name ∧ node._children = children ∧
      ((ctx.make_fun name children attr).2 = ctx ∨
        ((ctx.make_fun name children attr).1 = ctx._exprs.length ∧ node._attr = attr ∧
          (ctx.make_fun name children attr).2._exprs = ctx._exprs ++ [node])) := by
  cases hf : strash_find ctx._fun_strash ⟨name, children, attr⟩ with
  | some v =>
    rw [make_fun_found _ _ _ _ _ hf]
    obtain ⟨i, node, hi, hk⟩ := inv.stored _ _ hf
    have hv := inv.filed i node hi
    rw [strash_find_key _ _ _ hk, hf] at hv
    have hlt := getElem?_lt_length _ _ _ hi
    have hiv : v = i := by
      have := Option.some.inj hv
      rw [this]
      exact Nat.mod_eq_of_lt (Nat.lt_trans hlt hsize)
    simp only [expr_node.key, Prod.mk.injEq] at hk
    exact ⟨node, by rw [hiv]; exact hi, hk.1, hk.2, Or.inl rfl⟩
  | none =>
    rw [make_fun_fresh _ _ _ _ hf]
    refine ⟨⟨name, children, attr⟩, ?_, rfl, rfl, Or.inr ⟨Nat.mod_eq_of_lt hsize, rfl, rfl⟩⟩
    simp only
    rw [Nat.mod_eq_of_lt hsize]
    simp

theorem make_fun_twice (ctx : context) (name : String) (children : List Nat) (attr attr2 : Nat) :
    (ctx.make_fun name children attr).2.make_fun name children attr2 =
      ((ctx.make_fun name children attr).1, (ctx.make_fun name children attr).2) := by
  have hk : (⟨name, children, attr2⟩ : expr_node).key = (⟨name, children, attr⟩ : expr_node).key :=
    rfl
  cases hf : strash_find ctx._fun_strash ⟨name, children, attr⟩ with
  | some v =>
    rw [make_fun_found _ _ _ _ _ hf]
    apply make_fun_found
    rw [strash_find_key _ _ _ hk]
    exact hf
  | none =>
    rw [make_fun_fresh _ _ _ _ hf]
    apply make_fun_found
    simp only
    rw [strash_find_key _ _ _ hk]
    exact strash_find_assign_self _ _ _

theorem make_fun_stored (ctx : context) (inv : ctx.strash_inv) (h : Nat) (node : expr_node)
    (hh : h < UNSIGNED_MOD) (hn : ctx._exprs[h]? = some node) (attr : Nat) :
    ctx.make_fun node._name node._children attr = (h, ctx) := by
  apply make_fun_found
  have hk : (⟨node._name, node._children, attr⟩ : expr_node).key = node.key := rfl
  rw [strash_find_key _ _ _ hk, inv.filed h node hn, Nat.mod_eq_of_lt hh]

/-- C5. Structural hashing: in every arena reachable from the empty arena by
`make_fun` calls, two handles in range are equal if and only if the nodes stored
at them have equal name, equal attribute set and equal child-handle sequence. -/
theorem structural_hashing (ctx : context) (hr : ctx.reachable) (h1 h2 : Nat)
    (n1 n2 : expr_node) (e1 : ctx._exprs[h1]? = some n1) (e2 : ctx._exprs[h2]? = some n2) :
    h1 = h2 ↔ (n1._name = n2._name ∧ n1._attr = n2._attr ∧ n1._children = n2._children) := by
  constructor
  · intro h
    subst h
    rw [e1] at e2
    cases e2
    exact ⟨rfl, rfl, rfl⟩
  · rintro ⟨hn, _, hc⟩
    apply (strash_inv_of_reachable ctx hr).distinct h1 h2 n1 n2 e1 e2
    simp [expr_node.key, hn, hc]

theorem structural_hashing_witness :
    (1 = 2 ↔ ((⟨"not", [0], 0⟩ : expr_node)._name = (⟨"and", [0, 0], 0⟩ : expr_node)._name ∧
      (⟨"not", [0], 0⟩ : expr_node)._attr = (⟨"and", [0, 0], 0⟩ : expr_node)._attr ∧
      (⟨"not", [0], 0⟩ : expr_node)._children = (⟨"and", [0, 0], 0⟩ : expr_node)._children)) :=
  structural_hashing demo_ctx demo_ctx_reachable 1 2 ⟨"not", [0], 0⟩ ⟨"and", [0, 0], 0⟩
    (by decide) (by decide)

theorem grows_refl (ctx : context) : ctx.grows ctx := ⟨[], by simp⟩

theorem grows_trans (c1 c2 c3 : context) (h12 : c1.grows c2) (h23 : c2.grows c3) :
    c1.grows c3 := by
  obtain ⟨t, ht⟩ := h12
  obtain ⟨u, hu⟩ := h23
  exact ⟨t ++ u, by rw [hu, ht, List.append_assoc]⟩

theorem grows_getElem? (c1 c2 : context) (h : c1.grows c2) (i : Nat) (node : expr_node)
    (hi : c1._exprs[i]? = some node) : c2._exprs[i]? = some node := by
  obtain ⟨t, ht⟩ := h
  rw [ht, List.getElem?_append_left (getElem?_lt_length _ _ _ hi)]
  exact hi

theorem grows_length (c1 c2 : context) (h : c1.grows c2) :
    c1._exprs.length ≤ c2._exprs.length := by
  obtain ⟨t, ht⟩ := h
  rw [ht]
  simp

theorem make_fun_grows (ctx : context) (name : String) (children : List Nat) (attr : Nat) :
    ctx.grows (ctx.make_fun name children attr).2 := by
  rcases make_fun_exprs ctx name children attr with h1 | ⟨h1, _⟩
  · exact ⟨[], by rw [h1]; simp⟩
  · exact ⟨_, h1⟩

theorem refine_rebuild_grows (e index : Nat) (cs : List Nat) (ctx : context)
    (results : List Nat) (ctx2 : context)
    (h : refine_rebuild e index cs ctx = some (results, ctx2)) : ctx.grows ctx2 := by
  induction cs generalizing ctx results ctx2 with
  | nil =>
    simp only [refine_rebuild, Option.some.injEq, Prod.mk.injEq] at h
    rw [← h.2]
    exact grows_refl ctx
  | cons c cs ih =>
    unfold refine_rebuild at h
    cases hn : ctx._exprs[e]? with
    | none => simp [hn] at h
    | some expr =>
      simp only [hn] at h
      generalize hr : refine_rebuild e index cs
        (ctx.make_fun expr._name
          (List.take index expr._children ++ [c] ++ List.drop (index + 1) expr._children)
          expr._attr).2 = r at h
      cases r with
      | none => simp at h
      | some p =>
        obtain ⟨rs, c3⟩ := p
        simp only [Option.some.injEq, Prod.mk.injEq] at h
        rw [← h.2]
        exact grows_trans _ _ _ (make_fun_grows _ _ _ _) (ih _ _ _ hr)

theorem refine_fuel_grows (rules : rules_t) (fuel : Nat) (ctx : context) (e : Nat)
    (path : path_t) (results : List Nat) (ctx2 : context)
    (h : refine_expression_recurse_fuel rules fuel ctx e path = some (results, ctx2)) :
    ctx.grows ctx2 := by
  induction fuel generalizing e path results ctx2 with
  | zero => simp [refine_expression_recurse_fuel] at h
  | succ fuel ih =>
    unfold refine_expression_recurse_fuel at h
    split at h
    · simp only [Option.some.injEq, Prod.mk.injEq] at h
      rw [← h.2]
      exact grows_refl ctx
    · split at h
      · simp at h
      · split at h
        · simp at h
        · split at h
          · simp at h
          · split at h
            · simp at h
            · rename_i candidates ctx1 hrec
              exact grows_trans _ _ _ (ih _ _ _ _ hrec) (refine_rebuild_grows _ _ _ _ _ _ h)

/-- C7. Interning twice: two successive calls `make_fun( n, cs, a )` return the
same handle and the second call leaves the node vector and the hash table
unchanged; and in a reachable arena, for every handle `h` of a stored node,
`make_fun` on the name, children and attribute set stored at `h` returns `h`
without adding a node. -/
theorem make_fun_idempotent (ctx : context) (hr : ctx.reachable) :
    (∀ (n : String) (cs : List Nat) (a : Nat),
      ((ctx.make_fun n cs a).2.make_fun n cs a).1 = (ctx.make_fun n cs a).1 ∧
      ((ctx.make_fun n cs a).2.make_fun n cs a).2 = (ctx.make_fun n cs a).2) ∧
    (∀ (h : Nat) (node : expr_node), h < UNSIGNED_MOD → ctx._exprs[h]? = some node →
      ctx.make_fun node._name node._children node._attr = (h, ctx)) := by
  refine ⟨?_, ?_⟩
  · intro n cs a
    rw [make_fun_twice]
    exact ⟨rfl, rfl⟩
  · intro h node hh hn
    exact make_fun_stored ctx (strash_inv_of_reachable ctx hr) h node hh hn node._attr

theorem make_fun_idempotent_witness :
    (∀ (n : String) (cs : List Nat) (a : Nat),
      ((demo_ctx.make_fun n cs a).2.make_fun n cs a).1 = (demo_ctx.make_fun n cs a).1 ∧
      ((demo_ctx.make_fun n cs a).2.make_fun n cs a).2 = (demo_ctx.make_fun n cs a).2) ∧
    (∀ (h : Nat) (node : expr_node), h < UNSIGNED_MOD → demo_ctx._exprs[h]? = some node →
      demo_ctx.make_fun node._name node._children node._attr = (h, demo_ctx)) :=
  make_fun_idempotent demo_ctx demo_ctx_reachable

/-- C8. Handle stability: a call of `make_fun` leaves the node stored at every
existing handle unchanged and never shrinks the arena, and when it adds a node
the returned handle is the arena size before the call (as an `unsigned`, so the
size itself below `2^32` nodes); the calls made inside `refine_expression_recurse`
leave every existing node unchanged as well. -/
theorem handle_stability (ctx : context) :
    (∀ (name : String) (children : List Nat) (attr : Nat),
      (∀ (i : Nat) (node : expr_node), ctx._exprs[i]? = some node →
        (ctx.make_fun name children attr).2._exprs[i]? = some node) ∧
      ctx._exprs.length ≤ (ctx.make_fun name children attr).2._exprs.length ∧
      (ctx._exprs.length < (ctx.make_fun name children attr).2._exprs.length →
        (ctx.make_fun name children attr).1 = ctx._exprs.length % UNSIGNED_MOD ∧
        (ctx._exprs.length < UNSIGNED_MOD →
          (ctx.make_fun name children attr).1 = ctx._exprs.length))) ∧
    (∀ (e : Nat) (path : path_t) (rules : rules_t) (results : List Nat) (ctx2 : context),
      refine_expression_recurse ctx e path rules = some (results, ctx2) →
      (∀ (i : Nat) (node : expr_node), ctx._exprs[i]? = some node →
        ctx2._exprs[i]? = some node) ∧
      ctx._exprs.length ≤ ctx2._exprs.length) := by
  refine ⟨?_, ?_⟩
  · intro name children attr
    refine ⟨fun i node hi => make_fun_getElem? ctx name children attr i node hi,
      make_fun_length_le ctx name children attr, ?_⟩
    intro hlt
    rcases make_fun_exprs ctx name children attr with h1 | ⟨_, h2⟩
    · rw [h1] at hlt
      exact absurd hlt (Nat.lt_irrefl _)
    · exact ⟨h2, fun hs => by rw [h2, Nat.mod_eq_of_lt hs]⟩
  · intro e path rules results ctx2 h
    have hg := refine_fuel_grows rules _ ctx e path results ctx2 h
    exact ⟨fun i node hi => grows_getElem? _ _ hg i node hi, grows_length _ _ hg⟩

theorem handle_stability_witness :
    (∀ (name : String) (children : List Nat) (attr : Nat),
      (∀ (i : Nat) (node : expr_node), demo_ctx._exprs[i]? = some node →
        (demo_ctx.make_fun name children attr).2._exprs[i]? = some node) ∧
      demo_ctx._exprs.length ≤ (demo_ctx.make_fun name children attr).2._exprs.length ∧
      (demo_ctx._exprs.length < (demo_ctx.make_fun name children attr).2._exprs.length →
        (demo_ctx.make_fun name children attr).1 = demo_ctx._exprs.length % UNSIGNED_MOD ∧
        (demo_ctx._exprs.length < UNSIGNED_MOD →
          (demo_ctx.make_fun name children attr).1 = demo_ctx._exprs.length))) ∧
    (∀ (e : Nat) (path : path_t) (rules : rules_t) (results : List Nat) (ctx2 : context),
      refine_expression_recurse demo_ctx e path rules = some (results, ctx2) →
      (∀ (i : Nat) (node : expr_node), demo_ctx._exprs[i]? = some node →
        ctx2._exprs[i]? = some node) ∧
      demo_ctx._exprs.length ≤ ctx2._exprs.length) :=
  handle_stability demo_ctx

/-- C6, counterexample. After `make_fun( "f", {}, _no )` has returned handle 0, the
call `make_fun( "f", {}, _commutative )` returns handle 0 again, the node stored
there carries the attribute set `_no`, not `_commutative`, and no node is added. -/
theorem make_fun_attr_counterexample :
    attr_ctx.reachable ∧
    (context.empty.make_fun "f" [] expr_attr_enum._no).1 = 0 ∧
    (attr_ctx.make_fun "f" [] expr_attr_enum._commutative).1 = 0 ∧
    (attr_ctx.make_fun "f" [] expr_attr_enum._commutative).2._exprs[0]? =
      some ⟨"f", [], expr_attr_enum._no⟩ ∧
    expr_attr_enum._no ≠ expr_attr_enum._commutative ∧
    (attr_ctx.make_fun "f" [] expr_attr_enum._commutative).2 = attr_ctx :=
  ⟨context.reachable.make_fun _ _ _ _ context.reachable.empty, by decide, by decide, by decide,
    by decide, by decide⟩

/-- C6, amended. In a reachable arena with fewer than `2^32` nodes the node stored
at the handle returned by `make_fun( name, children, attr )` has exactly that name
and that child-handle sequence; it carries `attr` when the call adds the node, and
otherwise it is the node that was stored at that handle before the call, whatever
its attribute set; and a further call with the same name and children and any
attribute set returns the same handle. -/
theorem make_fun_returns_interned (ctx : context) (hr : ctx.reachable)
    (hsize : ctx._exprs.length < UNSIGNED_MOD) (name : String) (children : List Nat)
    (attr : Nat) :
    ∃ node, (ctx.make_fun name children attr).2._exprs[(ctx.make_fun name children attr).1]?
        = some node ∧ node._name = name ∧ node._children = children ∧
      (ctx._exprs.length < (ctx.make_fun name children attr).2._exprs.length →
        node._attr = attr) ∧
      ((ctx.make_fun name children attr).2._exprs.length = ctx._exprs.length →
        ctx._exprs[(ctx.make_fun name children attr).1]? = some node) ∧
      (∀ attr2 : Nat, ((ctx.make_fun name children attr).2.make_fun name children attr2).1 =
        (ctx.make_fun name children attr).1) := by
  obtain ⟨node, h1, h2, h3, h4⟩ :=
    make_fun_spec ctx (strash_inv_of_reachable ctx hr) hsize name children attr
  refine ⟨node, h1, h2, h3, ?_, ?_, ?_⟩
  · intro hlt
    rcases h4 with h4 | ⟨_, h4, _⟩
    · rw [h4] at hlt
      exact absurd hlt (Nat.lt_irrefl _)
    · exact h4
  · intro hlen
    rcases h4 with h4 | ⟨_, _, h4⟩
    · rw [h4] at h1
      exact h1
    · rw [h4] at hlen
      simp at hlen
  · intro attr2
    rw [make_fun_twice]

theorem make_fun_returns_interned_witness :
    ∃ node, (attr_ctx.make_fun "f" [] 4).2._exprs[(attr_ctx.make_fun "f" [] 4).1]?
        = some node ∧ node._name = "f" ∧ node._children = [] ∧
      (attr_ctx._exprs.length < (attr_ctx.make_fun "f" [] 4).2._exprs.length →
        node._attr = 4) ∧
      ((attr_ctx.make_fun "f" [] 4).2._exprs.length = attr_ctx._exprs.length →
        attr_ctx._exprs[(attr_ctx.make_fun "f" [] 4).1]? = some node) ∧
      (∀ attr2 : Nat, ((attr_ctx.make_fun "f" [] 4).2.make_fun "f" [] attr2).1 =
        (attr_ctx.make_fun "f" [] 4).1) :=
  make_fun_returns_interned attr_ctx (context.reachable.make_fun _ _ _ _ context.reachable.empty)
    (by decide) "f" [] 4

theorem counter_loop_congr (f g : Nat → Option Nat) (cs : List Nat) (counter : Nat)
    (h : ∀ c ∈ cs, f c = g c) : counter_loop f cs counter = counter_loop g cs counter := by
  induction cs generalizing counter with
  | nil => rfl
  | cons c cs ih =>
    have hc : f c = g c := h c (List.mem_cons_self c cs)
    have ht : ∀ x ∈ cs, f x = g x := fun x hx => h x (List.mem_cons_of_mem c hx)
    simp only [counter_loop, hc]
    cases g c with
    | none => rfl
    | some r => exact ih _ ht

theorem counter_loop_sum (f : Nat → Option Nat) (g : Nat → Nat) (cs : List Nat)
    (counter : Nat) (hc : counter < UNSIGNED_MOD) (h : ∀ c ∈ cs, f c = some (g c % UNSIGNED_MOD)) :
    counter_loop f cs counter = some ((counter + (cs.map g).sum) % UNSIGNED_MOD) := by
  induction cs generalizing counter with
  | nil => simp [counter_loop, Nat.mod_eq_of_lt hc]
  | cons c cs ih =>
    have h1 : f c = some (g c % UNSIGNED_MOD) := h c (List.mem_cons_self c cs)
    have ht : ∀ x ∈ cs, f x = some (g x % UNSIGNED_MOD) :=
      fun x hx => h x (List.mem_cons_of_mem c hx)
    have hpos : 0 < UNSIGNED_MOD := by decide
    simp only [counter_loop, h1, List.map_cons, List.sum_cons]
    rw [ih _ (Nat.mod_lt _ hpos) ht]
    congr 1
    rw [Nat.add_mod_mod, Nat.mod_add_mod, Nat.add_assoc]

theorem count_nonterminals_fuel_indep (ctx : context) (wf : ctx.well_formed) (e : Nat) :
    ∀ f1 f2, e < f1 → e < f2 →
      count_nonterminals_fuel ctx f1 e = count_nonterminals_fuel ctx f2 e := by
  induction e using Nat.strong_induction_on with
  | _ e ih =>
    intro f1 f2 h1 h2
    obtain ⟨g1, rfl⟩ := Nat.exists_eq_succ_of_ne_zero (Nat.not_eq_zero_of_lt h1)
    obtain ⟨g2, rfl⟩ := Nat.exists_eq_succ_of_ne_zero (Nat.not_eq_zero_of_lt h2)
    unfold count_nonterminals_fuel
    cases hn : ctx._exprs[e]? with
    | none => rfl
    | some expr =>
      simp only
      split
      · rfl
      · apply counter_loop_congr
        intro c hc
        have hlt := wf e expr hn c hc
        exact ih c hlt g1 g2 (by omega) (by omega)

theorem count_nonterminals_eq (ctx : context) (wf : ctx.well_formed) (e : Nat) (node : expr_node)
    (hn : ctx._exprs[e]? = some node) :
    ctx.count_nonterminals e =
      if name0 node._name = '_' then some 1
      else counter_loop ctx.count_nonterminals node._children 0 := by
  have hlt := getElem?_lt_length _ _ _ hn
  obtain ⟨g, hg⟩ := Nat.exists_eq_succ_of_ne_zero (Nat.not_eq_zero_of_lt hlt)
  unfold context.count_nonterminals
  rw [hg]
  conv_lhs => unfold count_nonterminals_fuel
  simp only [hn]
  split
  · rfl
  · apply counter_loop_congr
    intro c hc
    have hc2 := wf e node hn c hc
    exact count_nonterminals_fuel_indep ctx wf c _ _ (by omega) (by omega)

theorem nonterminal_occurrences_fuel_indep (ctx : context) (wf : ctx.well_formed) (e : Nat) :
    ∀ f1 f2, e < f1 → e < f2 →
      nonterminal_occurrences_fuel ctx f1 e = nonterminal_occurrences_fuel ctx f2 e := by
  induction e using Nat.strong_induction_on with
  | _ e ih =>
    intro f1 f2 h1 h2
    obtain ⟨g1, rfl⟩ := Nat.exists_eq_succ_of_ne_zero (Nat.not_eq_zero_of_lt h1)
    obtain ⟨g2, rfl⟩ := Nat.exists_eq_succ_of_ne_zero (Nat.not_eq_zero_of_lt h2)
    unfold nonterminal_occurrences_fuel
    cases hn : ctx._exprs[e]? with
    | none => rfl
    | some expr =>
      simp only
      split
      · rfl
      · congr 1
        apply List.map_congr_left
        intro c hc
        have hlt := wf e expr hn c hc
        exact ih c hlt g1 g2 (by omega) (by omega)

theorem nonterminal_occurrences_eq (ctx : context) (wf : ctx.well_formed) (e : Nat)
    (node : expr_node) (hn : ctx._exprs[e]? = some node) :
    ctx.nonterminal_occurrences e =
      if name0 node._name = '_' then 1
      else (node._children.map ctx.nonterminal_occurrences).sum := by
  have hlt := getElem?_lt_length _ _ _ hn
  obtain ⟨g, hg⟩ := Nat.exists_eq_succ_of_ne_zero (Nat.not_eq_zero_of_lt hlt)
  unfold context.nonterminal_occurrences
  rw [hg]
  conv_lhs => unfold nonterminal_occurrences_fuel
  simp only [hn]
  split
  · rfl
  · congr 1
    apply List.map_congr_left
    intro c hc
    have hc2 := wf e node hn c hc
    exact nonterminal_occurrences_fuel_indep ctx wf c _ _ (by omega) (by omega)

/-- On a well-formed arena `count_nonterminals` returns, for every stored node, the
number of visited nonterminal occurrences reduced modulo `2^32`. -/
theorem count_nonterminals_value (ctx : context) (wf : ctx.well_formed) (e : Nat)
    (he : e < ctx._exprs.length) :
    ctx.count_nonterminals e = some (ctx.nonterminal_occurrences e % UNSIGNED_MOD) := by
  induction e using Nat.strong_induction_on with
  | _ e ih =>
    have hn : ctx._exprs[e]? = some ctx._exprs[e] := List.getElem?_eq_getElem he
    rw [count_nonterminals_eq ctx wf e _ hn, nonterminal_occurrences_eq ctx wf e _ hn]
    split
    · rfl
    · rw [counter_loop_sum ctx.count_nonterminals ctx.nonterminal_occurrences _ 0 (by decide)]
      · simp
      · intro c hc
        have hlt := wf e _ hn c hc
        exact ih c hlt (Nat.lt_trans hlt he)

theorem has_nonterminal_iff (ctx : context) (e : Nat) (node : expr_node)
    (hn : ctx._exprs[e]? = some node) :
    ctx.has_nonterminal e ↔
      (name0 node._name = '_' ∨ ∃ c ∈ node._children, ctx.has_nonterminal c) := by
  constructor
  · rintro ⟨d, nd, hsub, hd, hname⟩
    cases hsub with
    | refl =>
      rw [hn] at hd
      cases hd
      exact Or.inl hname
    | step _ node2 c _ hn2 hc hrest =>
      rw [hn] at hn2
      cases hn2
      exact Or.inr ⟨c, hc, d, nd, hrest, hd, hname⟩
  · rintro (hname | ⟨c, hc, d, nd, hsub, hd, hname⟩)
    · exact ⟨e, node, context.subterm.refl e, hn, hname⟩
    · exact ⟨d, nd, context.subterm.step e node c d hn hc hsub, hd, hname⟩

theorem nonterminal_occurrences_eq_zero_iff (ctx : context) (wf : ctx.well_formed) (e : Nat)
    (he : e < ctx._exprs.length) :
    ctx.nonterminal_occurrences e = 0 ↔ ¬ ctx.has_nonterminal e := by
  induction e using Nat.strong_induction_on with
  | _ e ih =>
    have hn : ctx._exprs[e]? = some ctx._exprs[e] := List.getElem?_eq_getElem he
    rw [nonterminal_occurrences_eq ctx wf e _ hn, has_nonterminal_iff ctx e _ hn]
    by_cases hname : name0 (ctx._exprs[e])._name = '_'
    · simp [hname]
    · simp only [hname, if_false, false_or, List.sum_eq_zero_iff, List.mem_map,
        forall_exists_index, and_imp, forall_apply_eq_imp_iff₂, not_exists, not_and]
      constructor
      · intro h c hc
        have hlt := wf e _ hn c hc
        exact (ih c hlt (Nat.lt_trans hlt he)).1 (h c hc)
      · intro h c hc
        have hlt := wf e _ hn c hc
        exact (ih c hlt (Nat.lt_trans hlt he)).2 (h c hc)

theorem min_path_loop_congr (f g : Nat → Option path_t) (cs : List Nat) (i : Nat)
    (min_path : path_t) (h : ∀ c ∈ cs, f c = g c) :
    min_path_loop f cs i min_path = min_path_loop g cs i min_path := by
  induction cs generalizing i min_path with
  | nil => rfl
  | cons c cs ih =>
    have hc : f c = g c := h c (List.mem_cons_self c cs)
    have ht : ∀ x ∈ cs, f x = g x := fun x hx => h x (List.mem_cons_of_mem c hx)
    simp only [min_path_loop, hc]
    cases g c with
    | none => rfl
    | some r => exact ih _ _ ht

theorem get_path_fuel_indep (ctx : context) (wf : ctx.well_formed) (e : Nat) :
    ∀ f1 f2, e < f1 → e < f2 → get_path_fuel ctx f1 e = get_path_fuel ctx f2 e := by
  induction e using Nat.strong_induction_on with
  | _ e ih =>
    intro f1 f2 h1 h2
    obtain ⟨g1, rfl⟩ := Nat.exists_eq_succ_of_ne_zero (Nat.not_eq_zero_of_lt h1)
    obtain ⟨g2, rfl⟩ := Nat.exists_eq_succ_of_ne_zero (Nat.not_eq_zero_of_lt h2)
    unfold get_path_fuel
    cases hn : ctx._exprs[e]? with
    | none => rfl
    | some expr =>
      simp only
      have hloop : min_path_loop (get_path_fuel ctx g1) expr._children 0 (path_t.init UNSIGNED_MAX)
          = min_path_loop (get_path_fuel ctx g2) expr._children 0 (path_t.init UNSIGNED_MAX) := by
        apply min_path_loop_congr
        intro c hc
        have hlt := wf e expr hn c hc
        exact ih c hlt g1 g2 (by omega) (by omega)
      rw [hloop]

theorem get_path_eq (ctx : context) (wf : ctx.well_formed) (e : Nat) (node : expr_node)
    (hn : ctx._exprs[e]? = some node) :
    get_path_to_concretizable_element ctx e =
      if name0 node._name = '_' then some (path_t.init 0)
      else if node._children.length = 0 then some (path_t.init UNSIGNED_MAX)
      else
        match min_path_loop (get_path_to_concretizable_element ctx) node._children 0
            (path_t.init UNSIGNED_MAX) with
        | none => none
        | some min_path =>
          if min_path.lt (path_t.init UNSIGNED_MAX) then some min_path.incr_depth
          else some min_path := by
  have hlt := getElem?_lt_length _ _ _ hn
  obtain ⟨g, hg⟩ := Nat.exists_eq_succ_of_ne_zero (Nat.not_eq_zero_of_lt hlt)
  have hloop : min_path_loop (get_path_fuel ctx g) node._children 0 (path_t.init UNSIGNED_MAX)
      = min_path_loop (get_path_to_concretizable_element ctx) node._children 0
          (path_t.init UNSIGNED_MAX) := by
    apply min_path_loop_congr
    intro c hc
    have hc2 := wf e node hn c hc
    unfold get_path_to_concretizable_element
    exact get_path_fuel_indep ctx wf c _ _ (by omega) (by omega)
  conv_lhs => unfold get_path_to_concretizable_element
  rw [hg]
  conv_lhs => unfold get_path_fuel
  simp only [hn]
  rw [hloop]

/-- What the loop over the children computes when the recursive call returns the
path `pc c` for every child `c`: either no child has a path of smaller depth than
the initial `min_path`, which is returned; or the result is the path of the first
child whose path has the least depth, extended by the index of that child. -/
theorem min_path_loop_spec (f : Nat → Option path_t) (pc : Nat → path_t) (cs : List Nat)
    (i : Nat) (mp : path_t) (h : ∀ c ∈ cs, f c = some (pc c)) :
    ∃ r, min_path_loop f cs i mp = some r ∧
      ((r = mp ∧ ∀ c ∈ cs, mp.depth ≤ (pc c).depth) ∨
       (∃ (j c : Nat), cs[j]? = some c ∧ r = (pc c).push_front (i + j) ∧
          (pc c).depth < mp.depth ∧ (∀ c2 ∈ cs, (pc c).depth ≤ (pc c2).depth) ∧
          (∀ (j2 c2 : Nat), j2 < j → cs[j2]? = some c2 → (pc c).depth < (pc c2).depth))) := by
  induction cs generalizing i mp with
  | nil => exact ⟨mp, rfl, Or.inl ⟨rfl, fun c hc => absurd hc (List.not_mem_nil c)⟩⟩
  | cons c cs ih =>
    have hc : f c = some (pc c) := h c (List.mem_cons_self c cs)
    have ht : ∀ x ∈ cs, f x = some (pc x) := fun x hx => h x (List.mem_cons_of_mem c hx)
    simp only [min_path_loop, hc]
    by_cases hlt : (pc c).depth < mp.depth
    · have hlt2 : (pc c).lt mp = true := by simp [path_t.lt, hlt]
      simp only [hlt2, if_true]
      obtain ⟨r, hr, hcase⟩ := ih (i + 1) ((pc c).push_front i) ht
      refine ⟨r, hr, Or.inr ?_⟩
      rcases hcase with ⟨hrm, hall⟩ | ⟨j, c1, hj, hrj, hd, hmin, hleft⟩
      · refine ⟨0, c, by simp, by simpa using hrm, hlt, ?_, ?_⟩
        · intro c2 hc2
          rcases List.mem_cons.1 hc2 with h1 | h1
          · rw [h1]
          · exact hall c2 h1
        · intro j2 c2 hj2
          exact absurd hj2 (Nat.not_lt_zero _)
      · have hd2 : (pc c1).depth < (pc c).depth := hd
        refine ⟨j + 1, c1, by simpa using hj, by rw [hrj]; congr 1; omega,
          Nat.lt_trans hd2 hlt, ?_, ?_⟩
        · intro c2 hc2
          rcases List.mem_cons.1 hc2 with h1 | h1
          · rw [h1]; exact Nat.le_of_lt hd2
          · exact hmin c2 h1
        · intro j2 c2 hj2 hc2
          cases j2 with
          | zero =>
            simp at hc2
            rw [← hc2]
            exact hd2
          | succ k =>
            simp at hc2
            exact hleft k c2 (by omega) hc2
    · have hlt2 : (pc c).lt mp = false := by simp [path_t.lt, hlt]
      simp only [hlt2]
      obtain ⟨r, hr, hcase⟩ := ih (i + 1) mp ht
      refine ⟨r, by simpa using hr, ?_⟩
      rcases hcase with ⟨hrm, hall⟩ | ⟨j, c1, hj, hrj, hd, hmin, hleft⟩
      · refine Or.inl ⟨hrm, ?_⟩
        intro c2 hc2
        rcases List.mem_cons.1 hc2 with h1 | h1
        · rw [h1]; exact Nat.le_of_not_lt hlt
        · exact hall c2 h1
      · refine Or.inr ⟨j + 1, c1, by simpa using hj, by rw [hrj]; congr 1; omega, hd, ?_, ?_⟩
        · intro c2 hc2
          rcases List.mem_cons.1 hc2 with h1 | h1
          · rw [h1]; exact Nat.le_of_lt (Nat.lt_of_lt_of_le hd (Nat.le_of_not_lt hlt))
          · exact hmin c2 h1
        · intro j2 c2 hj2 hc2
          cases j2 with
          | zero =>
            simp at hc2
            rw [← hc2]
            exact Nat.lt_of_lt_of_le hd (Nat.le_of_not_lt hlt)
          | succ k =>
            simp at hc2
            exact hleft k c2 (by omega) hc2

/-- The path that `get_path_to_concretizable_element` returns on a well-formed
arena: the invalid path when no nonterminal is reachable, and otherwise a path
with as many indices as its depth, which is at most the handle. -/
theorem get_path_cases (ctx : context) (wf : ctx.well_formed) (e : Nat)
    (he : e < ctx._exprs.length) (hu : e < UNSIGNED_MOD) :
    ∃ p, get_path_to_concretizable_element ctx e = some p ∧
      ((¬ ctx.has_nonterminal e ∧ p = path_t.init UNSIGNED_MAX) ∨
       (ctx.has_nonterminal e ∧ p.depth = p.indices.length ∧ p.depth ≤ e)) := by
  induction e using Nat.strong_induction_on with
  | _ e ih =>
    have hn : ctx._exprs[e]? = some ctx._exprs[e] := List.getElem?_eq_getElem he
    rw [get_path_eq ctx wf e _ hn, has_nonterminal_iff ctx e _ hn]
    by_cases hname : name0 (ctx._exprs[e])._name = '_'
    · refine ⟨path_t.init 0, by simp [hname], Or.inr ⟨Or.inl hname, rfl, Nat.zero_le _⟩⟩
    · by_cases hleaf : (ctx._exprs[e])._children.length = 0
      · refine ⟨path_t.init UNSIGNED_MAX, by simp [hname, hleaf], Or.inl ⟨?_, rfl⟩⟩
        rintro (h | ⟨c, hc, _⟩)
        · exact hname h
        · rw [List.length_eq_zero] at hleaf
          rw [hleaf] at hc
          exact absurd hc (List.not_mem_nil c)
      · simp only [hname, hleaf, if_false, false_or]
        have hch : ∀ c ∈ (ctx._exprs[e])._children,
            get_path_to_concretizable_element ctx c =
              some ((get_path_to_concretizable_element ctx c).getD (path_t.init 0)) := by
          intro c hc
          have hlt := wf e _ hn c hc
          obtain ⟨p, hp, _⟩ := ih c hlt (Nat.lt_trans hlt he) (Nat.lt_trans hlt hu)
          rw [hp]
          rfl
        obtain ⟨r, hr, hcase⟩ := min_path_loop_spec (get_path_to_concretizable_element ctx)
          (fun c => (get_path_to_concretizable_element ctx c).getD (path_t.init 0))
          (ctx._exprs[e])._children 0 (path_t.init UNSIGNED_MAX) hch
        rw [hr]
        rcases hcase with ⟨hrm, hall⟩ | ⟨j, c, hj, hrj, hd, _, _⟩
        · refine ⟨r, ?_, Or.inl ⟨?_, hrm⟩⟩
          · rw [hrm]
            simp [path_t.lt, path_t.init]
          · rintro ⟨c, hc, hnt⟩
            have hlt := wf e _ hn c hc
            obtain ⟨p, hp, hpc⟩ := ih c hlt (Nat.lt_trans hlt he) (Nat.lt_trans hlt hu)
            rcases hpc with ⟨h1, _⟩ | ⟨_, _, h3⟩
            · exact h1 hnt
            · have := hall c hc
              simp only [hp, Option.getD_some, path_t.init] at this
              simp only [UNSIGNED_MAX, UNSIGNED_MOD] at this hu
              omega
        · have hc : c ∈ (ctx._exprs[e])._children := List.getElem?_mem hj
          have hlt := wf e _ hn c hc
          obtain ⟨p, hp, hpc⟩ := ih c hlt (Nat.lt_trans hlt he) (Nat.lt_trans hlt hu)
          simp only [hp, Option.getD_some, path_t.init] at hd hrj
          rcases hpc with ⟨_, h2⟩ | ⟨h1, h2, h3⟩
          · rw [h2] at hd
            simp [path_t.init] at hd
          · have hrd : r.depth = p.depth := by rw [hrj]; rfl
            have hri : r.indices = p.indices ++ [0 + j] := by rw [hrj]; rfl
            have hrl : r.lt (path_t.init UNSIGNED_MAX) = true := by
              simp only [path_t.lt, path_t.init, hrd, decide_eq_true_eq]
              exact hd
            refine ⟨r.incr_depth, by simp [hrl], Or.inr ⟨⟨c, hc, h1⟩, ?_, ?_⟩⟩
            · simp only [path_t.incr_depth, hrd, hri, List.length_append, List.length_singleton]
              rw [Nat.mod_eq_of_lt (by omega), h2]
            · simp only [path_t.incr_depth, hrd]
              rw [Nat.mod_eq_of_lt (by omega)]
              omega

theorem is_concrete_iff (ctx : context) (wf : ctx.well_formed) (e : Nat)
    (he : e < ctx._exprs.length) (hu : e < UNSIGNED_MOD) :
    ∃ b, is_concrete ctx e = some b ∧ (b = true ↔ ¬ ctx.has_nonterminal e) := by
  obtain ⟨p, hp, hcase⟩ := get_path_cases ctx wf e he hu
  refine ⟨p.invalid, by simp [is_concrete, hp], ?_⟩
  rcases hcase with ⟨h1, h2⟩ | ⟨h1, h2, _⟩
  · rw [h2]
    simp [path_t.invalid, path_t.init, h1]
  · have : p.invalid = false := by
      simp only [path_t.invalid, Bool.and_eq_false_imp, List.isEmpty_iff, decide_eq_false_iff_not]
      intro hnil
      rw [h2, hnil]
      decide
    simp [this, h1]

theorem well_formed_of_check (ctx : context) (h : ctx.well_formed_check = true) :
    ctx.well_formed := by
  intro i node hi c hc
  unfold context.well_formed_check at h
  rw [List.all_eq_true] at h
  have h1 := h i (List.mem_range.2 (getElem?_lt_length _ _ _ hi))
  simp only [hi, List.all_eq_true, decide_eq_true_eq] at h1
  exact h1 c hc

theorem reachable_foldl (g : Nat → String × List Nat × Nat) (ks : List Nat) (ctx : context)
    (h : ctx.reachable) :
    (ks.foldl (fun c k => (c.make_fun (g k).1 (g k).2.1 (g k).2.2).2) ctx).reachable := by
  induction ks generalizing ctx with
  | nil => exact h
  | cons k ks ih => exact ih _ (context.reachable.make_fun _ _ _ _ h)

theorem doubling_ctx_reachable : doubling_ctx.reachable :=
  reachable_foldl (fun k => ("f", [k, k], 0)) (List.range 32) _
    (context.reachable.make_fun _ _ _ _ context.reachable.empty)

set_option maxRecDepth 100000 in
theorem doubling_ctx_exprs : doubling_ctx._exprs =
    ⟨"_N", [], 0⟩ :: (List.range 32).map (fun k => ⟨"f", [k, k], 0⟩) := by
  decide

theorem doubling_ctx_well_formed : doubling_ctx.well_formed := by
  intro i node hi c hc
  rw [doubling_ctx_exprs] at hi
  cases i with
  | zero =>
    simp at hi
    rw [← hi] at hc
    simp at hc
  | succ k =>
    simp only [List.getElem?_cons_succ, List.getElem?_map, Option.map_eq_some'] at hi
    obtain ⟨a, ha, hnode⟩ := hi
    have hak : a = k := by
      have := getElem?_lt_length _ _ _ ha
      rw [List.getElem?_range (by simpa using this)] at ha
      exact (Option.some.inj ha).symm
    rw [← hnode, hak] at hc
    simp at hc
    omega

theorem doubling_ctx_occurrences (k : Nat) (hk : k ≤ 32) :
    doubling_ctx.nonterminal_occurrences k = 2 ^ k := by
  induction k with
  | zero =>
    rw [nonterminal_occurrences_eq doubling_ctx doubling_ctx_well_formed 0 ⟨"_N", [], 0⟩
      (by rw [doubling_ctx_exprs]; rfl)]
    decide
  | succ k ih =>
    have hlook : doubling_ctx._exprs[k + 1]? = some ⟨"f", [k, k], 0⟩ := by
      rw [doubling_ctx_exprs]
      simp only [List.getElem?_cons_succ, List.getElem?_map]
      rw [List.getElem?_range (by omega)]
      rfl
    rw [nonterminal_occurrences_eq doubling_ctx doubling_ctx_well_formed (k + 1) _ hlook]
    have hname : ¬ name0 "f" = '_' := by decide
    simp only [hname, if_false, List.map_cons, List.map_nil, List.sum_cons, List.sum_nil,
      ih (by omega)]
    rw [Nat.pow_succ]
    omega

/-- C10, counterexample. In the arena `_N`, `_M(_N)` the node `_M(_N)` is a
nonterminal with the nonterminal child `_N`; `count_nonterminals` returns 1 for
the child and 1 for the parent, not 1 plus the count of the child. -/
theorem count_nonterminals_nested_counterexample :
    nested_ctx.reachable ∧ nested_ctx.well_formed_check = true ∧
    nested_ctx._exprs = [⟨"_N", [], 0⟩, ⟨"_M", [0], 0⟩] ∧
    nested_ctx.count_nonterminals 0 = some 1 ∧
    nested_ctx.count_nonterminals 1 = some 1 ∧
    nested_ctx.count_nonterminals 1 ≠ some (1 + 1) :=
  ⟨context.reachable.make_fun _ _ _ _ (context.reachable.make_fun _ _ _ _ context.reachable.empty),
    by decide, by decide, by decide, by decide, by decide⟩

/-- C10, amended. For every handle `h` of a well-formed arena,
`count_nonterminals( h )` is 1 when the name stored at `h` begins with an
underscore (the children of a nonterminal are not visited), and otherwise the sum
of `count_nonterminals` over the children of `h` in `unsigned` arithmetic, that
is modulo `2^32`. -/
theorem count_nonterminals_recursion (ctx : context) (wf : ctx.well_formed) (h : Nat)
    (node : expr_node) (hn : ctx._exprs[h]? = some node) :
    ∃ vs : List Nat,
      List.Forall₂ (fun c v => ctx.count_nonterminals c = some v) node._children vs ∧
      ctx.count_nonterminals h =
        some (if name0 node._name = '_' then 1 else vs.sum % UNSIGNED_MOD) := by
  have hlt := getElem?_lt_length _ _ _ hn
  have hch : ∀ c ∈ node._children,
      ctx.count_nonterminals c = some (ctx.nonterminal_occurrences c % UNSIGNED_MOD) := by
    intro c hc
    have hc2 := wf h node hn c hc
    exact count_nonterminals_value ctx wf c (Nat.lt_trans hc2 hlt)
  refine ⟨node._children.map (fun c => ctx.nonterminal_occurrences c % UNSIGNED_MOD), ?_, ?_⟩
  · rw [List.forall₂_map_right_iff, List.forall₂_same]
    exact hch
  · rw [count_nonterminals_eq ctx wf h node hn]
    split
    · rfl
    · rw [counter_loop_sum ctx.count_nonterminals ctx.nonterminal_occurrences _ 0 (by decide) hch]
      congr 1
      rw [Nat.zero_add]
      generalize node._children = cs
      induction cs with
      | nil => rfl
      | cons c cs ih =>
        simp only [List.map_cons, List.sum_cons]
        rw [Nat.add_mod, ih, Nat.add_mod_mod]

theorem count_nonterminals_recursion_witness :
    ∃ vs : List Nat,
      List.Forall₂ (fun c v => nested_ctx.count_nonterminals c = some v)
        (⟨"_M", [0], 0⟩ : expr_node)._children vs ∧
      nested_ctx.count_nonterminals 1 =
        some (if name0 (⟨"_M", [0], 0⟩ : expr_node)._name = '_' then 1
          else vs.sum % UNSIGNED_MOD) :=
  count_nonterminals_recursion nested_ctx (well_formed_of_check _ (by decide)) 1
    ⟨"_M", [0], 0⟩ (by decide)

/-- C9, counterexample. In the arena `_N`, `f(_N,_N)`, `f(f(_N,_N),f(_N,_N))`, ...
with 33 nodes, built by 33 calls of `make_fun`, the tree unfolding of handle 32
has `2^32` nonterminal leaves: the `unsigned` counter of `count_nonterminals`
wraps to 0 although the term is not concrete. -/
theorem concreteness_overflow_counterexample :
    doubling_ctx.reachable ∧ doubling_ctx.well_formed ∧ doubling_ctx._exprs.length = 33 ∧
    doubling_ctx.has_nonterminal 32 ∧
    doubling_ctx.count_nonterminals 32 = some 0 ∧
    is_concrete doubling_ctx 32 = some false := by
  have hlen : doubling_ctx._exprs.length = 33 := by rw [doubling_ctx_exprs]; rfl
  have hocc := doubling_ctx_occurrences 32 (Nat.le_refl _)
  have hnt : doubling_ctx.has_nonterminal 32 := by
    by_contra hno
    have h0 := (nonterminal_occurrences_eq_zero_iff doubling_ctx doubling_ctx_well_formed 32
      (by rw [hlen]; decide)).2 hno
    rw [hocc] at h0
    exact absurd h0 (by decide)
  refine ⟨doubling_ctx_reachable, doubling_ctx_well_formed, hlen, hnt, ?_, ?_⟩
  · rw [count_nonterminals_value doubling_ctx doubling_ctx_well_formed 32 (by rw [hlen]; decide),
      hocc]
    rfl
  · obtain ⟨b, hb, hiff⟩ := is_concrete_iff doubling_ctx doubling_ctx_well_formed 32
      (by rw [hlen]; decide) (by decide)
    rw [hb]
    cases b with
    | false => rfl
    | true => exact absurd hnt (hiff.1 rfl)

/-- C9, amended. For every handle `h` of a well-formed arena, `is_concrete( h )`
holds if and only if no node reachable from `h` has a name beginning with an
underscore, and then `count_nonterminals( h )` is 0; conversely
`count_nonterminals( h ) == 0` implies `is_concrete( h )` when the tree unfolding
of `h` has fewer than `2^32` counted nonterminal occurrences, so that the
`unsigned` counter does not wrap. -/
theorem concreteness_agreement (ctx : context) (wf : ctx.well_formed) (h : Nat)
    (hh : h < ctx._exprs.length) (hu : h < UNSIGNED_MOD) :
    ∃ (n : Nat) (b : Bool), ctx.count_nonterminals h = some n ∧ is_concrete ctx h = some b ∧
      (b = true ↔ ¬ ctx.has_nonterminal h) ∧
      (b = true → n = 0) ∧
      (ctx.nonterminal_occurrences h < UNSIGNED_MOD → (n = 0 ↔ b = true)) := by
  obtain ⟨b, hb, hiff⟩ := is_concrete_iff ctx wf h hh hu
  have hz := nonterminal_occurrences_eq_zero_iff ctx wf h hh
  refine ⟨ctx.nonterminal_occurrences h % UNSIGNED_MOD, b, count_nonterminals_value ctx wf h hh,
    hb, hiff, ?_, ?_⟩
  · intro hbt
    rw [hz.2 (hiff.1 hbt)]
    rfl
  · intro hsmall
    rw [Nat.mod_eq_of_lt hsmall, hz]
    exact hiff.symm

theorem concreteness_agreement_witness :
    ∃ (n : Nat) (b : Bool), demo_ctx.count_nonterminals 2 = some n ∧
      is_concrete demo_ctx 2 = some b ∧
      (b = true ↔ ¬ demo_ctx.has_nonterminal 2) ∧
      (b = true → n = 0) ∧
      (demo_ctx.nonterminal_occurrences 2 < UNSIGNED_MOD → (n = 0 ↔ b = true)) :=
  concreteness_agreement demo_ctx (well_formed_of_check _ (by decide)) 2 (by decide) (by decide)

theorem expr_greater_than_true_cost (ctx : context) (a b : cexpr_t)
    (h : expr_greater_than ctx a b = some true) : b.2 ≤ a.2 := by
  unfold expr_greater_than at h
  by_cases h1 : a.2 > b.2
  · exact Nat.le_of_lt h1
  · by_cases h2 : a.2 < b.2
    · simp [h1, h2] at h
    · omega

theorem expr_greater_than_false_cost (ctx : context) (a b : cexpr_t)
    (h : expr_greater_than ctx a b = some false) : a.2 ≤ b.2 := by
  unfold expr_greater_than at h
  by_cases h1 : a.2 > b.2
  · simp [h1] at h
  · omega

theorem concrete_costs_append (a b : List event) :
    concrete_costs (a ++ b) = concrete_costs a ++ concrete_costs b := by
  simp [concrete_costs, List.filterMap_append]

theorem popped_costs_append (a b : List event) :
    popped_costs (a ++ b) = popped_costs a ++ popped_costs b := by
  simp [popped_costs, List.filterMap_append]

theorem pairwise_le_append_singleton (l : List Nat) (x : Nat)
    (h : l.Pairwise (fun a b => a ≤ b)) (hx : ∀ c ∈ l, c ≤ x) :
    (l ++ [x]).Pairwise (fun a b => a ≤ b) := by
  rw [List.pairwise_append]
  refine ⟨h, List.pairwise_singleton _ _, ?_⟩
  intro a ha b hb
  rw [List.mem_singleton] at hb
  rw [hb]
  exact hx a ha

theorem max_cost_unsigned_lt (max_cost : Int) : max_cost_unsigned max_cost < UNSIGNED_MOD := by
  unfold max_cost_unsigned
  have hpos : (0 : Int) < (UNSIGNED_MOD : Int) := by decide
  have h1 := Int.emod_lt_of_pos max_cost hpos
  have h2 := Int.emod_nonneg max_cost (Int.ne_of_gt hpos)
  omega

theorem take_candidate_ctx (en : enumerator) (nc : cexpr_t) :
    (en.take_candidate nc).ctx = en.ctx := by
  unfold enumerator.take_candidate
  simp only
  split <;> rfl

theorem take_candidate_rules (en : enumerator) (nc : cexpr_t) :
    (en.take_candidate nc).rules = en.rules := by
  unfold enumerator.take_candidate
  simp only
  split <;> rfl

theorem take_candidate_max_cost (en : enumerator) (nc : cexpr_t) :
    (en.take_candidate nc).max_cost = en.max_cost := by
  unfold enumerator.take_candidate
  simp only
  split <;> rfl

theorem take_candidate_quit (en : enumerator) (nc : cexpr_t) :
    (en.take_candidate nc).quit_enumeration = en.quit_enumeration := by
  unfold enumerator.take_candidate
  simp only
  split <;> rfl

theorem take_candidate_queue (en : enumerator) (nc : cexpr_t) :
    (en.take_candidate nc).candidate_expressions = en.candidate_expressions.erase nc := by
  unfold enumerator.take_candidate
  simp only
  split <;> rfl

theorem take_candidate_events (en : enumerator) (nc : cexpr_t) :
    ∃ evs, (en.take_candidate nc).events = en.events ++ [event.popped nc] ++ evs ∧
      popped_costs evs = [] ∧ concrete_costs evs = [] ∧
      (∀ ev ∈ evs, ∃ n, ev = event.finished_cost n) := by
  unfold enumerator.take_candidate
  simp only
  split
  · exact ⟨[event.finished_cost _], rfl, rfl, rfl, fun ev hev => ⟨_, List.mem_singleton.1 hev⟩⟩
  · exact ⟨[], by simp, rfl, rfl, fun ev hev => absurd hev (List.not_mem_nil ev)⟩

/-- Induction over the loop of `deduce` over the new candidates: a property of the
enumerator that survives an accepted concrete candidate and an accepted abstract
candidate holds after the loop. -/
theorem deduce_loop_induction (P : enumerator → Prop) (cost : Nat) (cs : List Nat)
    (en st : enumerator) (h : deduce_loop cost cs en = some st) (h0 : P en)
    (hconcrete : ∀ (en1 : enumerator) (c : Nat), P en1 → c ∈ cs →
      en1.is_redundant_in_search_order c = some false → is_concrete en1.ctx c = some true →
      P ((en1.on_expression (c, (cost + 1) % UNSIGNED_MOD)).on_concrete_expression
        (c, (cost + 1) % UNSIGNED_MOD)))
    (habstract : ∀ (en1 : enumerator) (c : Nat), P en1 → c ∈ cs →
      en1.is_redundant_in_search_order c = some false → is_concrete en1.ctx c = some false →
      P ((en1.on_expression (c, (cost + 1) % UNSIGNED_MOD)).on_abstract_expression
        (c, (cost + 1) % UNSIGNED_MOD))) : P st := by
  induction cs generalizing en with
  | nil =>
    simp only [deduce_loop, Option.some.injEq] at h
    subst h
    exact h0
  | cons c cs ih =>
    have hc2 : ∀ (en1 : enumerator) (c1 : Nat), P en1 → c1 ∈ cs →
        en1.is_redundant_in_search_order c1 = some false → is_concrete en1.ctx c1 = some true →
        P ((en1.on_expression (c1, (cost + 1) % UNSIGNED_MOD)).on_concrete_expression
          (c1, (cost + 1) % UNSIGNED_MOD)) :=
      fun en1 c1 hp hm => hconcrete en1 c1 hp (List.mem_cons_of_mem _ hm)
    have ha2 : ∀ (en1 : enumerator) (c1 : Nat), P en1 → c1 ∈ cs →
        en1.is_redundant_in_search_order c1 = some false → is_concrete en1.ctx c1 = some false →
        P ((en1.on_expression (c1, (cost + 1) % UNSIGNED_MOD)).on_abstract_expression
          (c1, (cost + 1) % UNSIGNED_MOD)) :=
      fun en1 c1 hp hm => habstract en1 c1 hp (List.mem_cons_of_mem _ hm)
    unfold deduce_loop at h
    cases hrun : en.is_running with
    | false =>
      simp only [hrun, Bool.not_false, if_true, Option.some.injEq] at h
      subst h
      exact h0
    | true =>
      simp only [hrun, Bool.not_true, Bool.false_eq_true, if_false] at h
      cases hred : en.is_redundant_in_search_order c with
      | none => simp [hred] at h
      | some b =>
        cases b with
        | true =>
          simp only [hred] at h
          exact ih en h h0 hc2 ha2
        | false =>
          simp only [hred] at h
          have hctx : (en.on_expression (c, (cost + 1) % UNSIGNED_MOD)).ctx = en.ctx := rfl
          rw [hctx] at h
          cases hcon : is_concrete en.ctx c with
          | none => simp [hcon] at h
          | some b2 =>
            cases b2 with
            | true =>
              simp only [hcon] at h
              exact ih _ h (hconcrete en c h0 (List.mem_cons_self _ _) hred hcon) hc2 ha2
            | false =>
              simp only [hcon] at h
              exact ih _ h (habstract en c h0 (List.mem_cons_self _ _) hred hcon) hc2 ha2

theorem cost_inv_congr (a b : enumerator) (lo : Nat) (h1 : b.events = a.events)
    (h2 : b.candidate_expressions = a.candidate_expressions) (h3 : b.max_cost = a.max_cost)
    (inv : cost_inv a lo) : cost_inv b lo := by
  refine ⟨?_, ?_, ?_, ?_, ?_, ?_⟩
  · rw [h1]; exact inv.popped_le
  · rw [h1]; exact inv.popped_sorted
  · rw [h2]; exact inv.queue_ge
  · rw [h1]; exact inv.concrete_le
  · rw [h1]; exact inv.concrete_sorted
  · rw [h1, h3]; exact inv.concrete_bound

theorem cost_inv_pop (en : enumerator) (lo : Nat) (nc : cexpr_t) (evs : List event)
    (inv : cost_inv en lo) (hmem : nc ∈ en.candidate_expressions)
    (hmin : ∀ x ∈ en.candidate_expressions, nc.2 ≤ x.2) (en2 : enumerator)
    (hq : en2.candidate_expressions = en.candidate_expressions.erase nc)
    (hev : en2.events = en.events ++ [event.popped nc] ++ evs)
    (hevs : popped_costs evs = [] ∧ concrete_costs evs = [])
    (hmc : en2.max_cost = en.max_cost) : cost_inv en2 nc.2 := by
  have hlo : lo ≤ nc.2 := inv.queue_ge nc hmem
  have hp : popped_costs en2.events = popped_costs en.events ++ [nc.2] := by
    rw [hev, popped_costs_append, popped_costs_append, hevs.1]
    simp [popped_costs]
  have hc : concrete_costs en2.events = concrete_costs en.events := by
    rw [hev, concrete_costs_append, concrete_costs_append, hevs.2]
    simp [concrete_costs]
  refine ⟨?_, ?_, ?_, ?_, ?_, ?_⟩
  · intro c hcm
    rw [hp] at hcm
    rcases List.mem_append.1 hcm with h | h
    · exact Nat.le_trans (inv.popped_le c h) hlo
    · rw [List.mem_singleton] at h
      rw [h]
  · rw [hp]
    exact pairwise_le_append_singleton _ _ inv.popped_sorted
      (fun c h => Nat.le_trans (inv.popped_le c h) hlo)
  · intro q hqm
    rw [hq] at hqm
    exact hmin q (List.mem_of_mem_erase hqm)
  · intro c hcm
    rw [hc] at hcm
    exact Nat.le_trans (inv.concrete_le c hcm) (by omega)
  · rw [hc]; exact inv.concrete_sorted
  · rw [hc, hmc]; exact inv.concrete_bound

theorem deduce_loop_cost_inv (cost : Nat) (cs : List Nat) (en st : enumerator)
    (hc : cost < max_cost_unsigned en.max_cost)
    (inv : cost_inv en cost) (h : deduce_loop cost cs en = some st) :
    cost_inv st cost ∧ st.max_cost = en.max_cost := by
  have hm := max_cost_unsigned_lt en.max_cost
  have hmod : (cost + 1) % UNSIGNED_MOD = cost + 1 := Nat.mod_eq_of_lt (by omega)
  refine deduce_loop_induction (fun e => cost_inv e cost ∧ e.max_cost = en.max_cost) cost cs en st h
    ⟨inv, rfl⟩ ?_ ?_
  · rintro en1 c ⟨inv1, hmc⟩ _ _ _
    rw [hmod]
    refine ⟨?_, hmc⟩
    simp only [enumerator.on_concrete_expression, enumerator.on_expression]
    refine ⟨?_, ?_, inv1.queue_ge, ?_, ?_, ?_⟩
    · simpa [popped_costs_append, popped_costs] using inv1.popped_le
    · simpa [popped_costs_append, popped_costs] using inv1.popped_sorted
    · intro x hx
      simp only [concrete_costs_append, List.append_assoc] at hx
      simp only [concrete_costs, List.filterMap_cons, List.filterMap_nil,
        List.nil_append, List.mem_append, List.mem_singleton] at hx
      rcases hx with hx | hx
      · exact inv1.concrete_le x hx
      · rw [hx]
    · simp only [concrete_costs_append, List.append_assoc]
      simp only [concrete_costs, List.filterMap_cons, List.filterMap_nil, List.nil_append]
      exact pairwise_le_append_singleton _ _ inv1.concrete_sorted inv1.concrete_le
    · intro x hx
      simp only [concrete_costs_append, List.append_assoc] at hx
      simp only [concrete_costs, List.filterMap_cons, List.filterMap_nil,
        List.nil_append, List.mem_append, List.mem_singleton] at hx
      rcases hx with hx | hx
      · exact inv1.concrete_bound x hx
      · rw [hx]
        show cost + 1 ≤ max_cost_unsigned en1.max_cost
        rw [hmc]
        exact hc
  · rintro en1 c ⟨inv1, hmc⟩ _ _ _
    rw [hmod]
    refine ⟨?_, hmc⟩
    simp only [enumerator.on_abstract_expression, enumerator.on_expression]
    refine ⟨?_, ?_, ?_, ?_, ?_, ?_⟩
    · simpa [popped_costs_append, popped_costs] using inv1.popped_le
    · simpa [popped_costs_append, popped_costs] using inv1.popped_sorted
    · intro q hq
      rcases List.mem_append.1 hq with hq | hq
      · exact inv1.queue_ge q hq
      · rw [List.mem_singleton] at hq
        rw [hq]
        exact Nat.le_succ _
    · simpa [concrete_costs_append, concrete_costs] using inv1.concrete_le
    · simpa [concrete_costs_append, concrete_costs] using inv1.concrete_sorted
    · simpa [concrete_costs_append, concrete_costs] using inv1.concrete_bound

theorem seeded_fields (ctx : context) (rules : rules_t) (max_cost : Int) (seeds : List Nat) :
    (enumerator.seeded ctx rules max_cost seeds).events = [] ∧
    (enumerator.seeded ctx rules max_cost seeds).candidate_expressions =
      seeds.map (fun e => (e, 0)) ∧
    (enumerator.seeded ctx rules max_cost seeds).max_cost = max_cost ∧
    (enumerator.seeded ctx rules max_cost seeds).ctx = ctx ∧
    (enumerator.seeded ctx rules max_cost seeds).rules = rules ∧
    (enumerator.seeded ctx rules max_cost seeds).quit_enumeration = false := by
  unfold enumerator.seeded
  have key : ∀ (en : enumerator),
      (seeds.foldl enumerator.add_expression en).events = en.events ∧
      (seeds.foldl enumerator.add_expression en).candidate_expressions =
        en.candidate_expressions ++ seeds.map (fun e => (e, 0)) ∧
      (seeds.foldl enumerator.add_expression en).max_cost = en.max_cost ∧
      (seeds.foldl enumerator.add_expression en).ctx = en.ctx ∧
      (seeds.foldl enumerator.add_expression en).rules = en.rules ∧
      (seeds.foldl enumerator.add_expression en).quit_enumeration = en.quit_enumeration := by
    induction seeds with
    | nil => intro en; simp
    | cons s ss ih =>
      intro en
      simp only [List.foldl_cons, List.map_cons]
      obtain ⟨h1, h2, h3, h4, h5, h6⟩ := ih (en.add_expression s)
      refine ⟨h1, ?_, h3, h4, h5, h6⟩
      rw [h2]
      simp [enumerator.add_expression]
  simpa [enumerator.init] using key (enumerator.init ctx rules max_cost)

theorem seeded_cost_inv (ctx : context) (rules : rules_t) (max_cost : Int) (seeds : List Nat) :
    cost_inv (enumerator.seeded ctx rules max_cost seeds) 0 := by
  obtain ⟨h1, h2, _⟩ := seeded_fields ctx rules max_cost seeds
  refine ⟨?_, ?_, ?_, ?_, ?_, ?_⟩ <;> simp [h1, h2, popped_costs, concrete_costs]

/-- C3, the failing input. With the grammar `_N -> x0`, the seed `_N` and
`max_cost = -1`, the comparison `next_candidate.second >= max_cost` is made after
converting `-1` to `unsigned` (`4294967295`): the first iteration of `deduce`
refines the seed and passes `x0` to `on_concrete_expression` with cost 1, which is
greater than `max_cost`. -/
theorem bound_violated_for_negative_max_cost :
    max_cost_unsigned (-1) = 4294967295 ∧
    (enumerator.deduce 1 (enumerator.seeded leaf_ctx [⟨0, 1⟩] (-1) [0])).map
      (fun st => st.events) =
      some [event.popped (0, 0), event.on_expression (1, 1),
        event.on_concrete_expression (1, 1)] ∧
    ((1 : Int) > -1) := by
  decide

theorem unfold_list_congr (f g : Nat → Option term) (cs : List Nat)
    (h : ∀ c ∈ cs, f c = g c) : unfold_list f cs = unfold_list g cs := by
  induction cs with
  | nil => rfl
  | cons c cs ih =>
    have hc : f c = g c := h c (List.mem_cons_self c cs)
    have ht : ∀ x ∈ cs, f x = g x := fun x hx => h x (List.mem_cons_of_mem c hx)
    simp only [unfold_list, hc, ih ht]

theorem unfold_list_eq_some_iff (f : Nat → Option term) (cs : List Nat) (ts : List term) :
    unfold_list f cs = some ts ↔ List.Forall₂ (fun c t => f c = some t) cs ts := by
  induction cs generalizing ts with
  | nil =>
    simp only [unfold_list, Option.some.injEq]
    constructor
    · intro h; rw [← h]; exact List.Forall₂.nil
    · intro h; cases h; rfl
  | cons c cs ih =>
    unfold unfold_list
    constructor
    · intro h
      cases hc : f c with
      | none => simp [hc] at h
      | some t =>
        simp only [hc] at h
        cases hl : unfold_list f cs with
        | none => simp [hl] at h
        | some ts2 =>
          simp only [hl, Option.some.injEq] at h
          rw [← h]
          exact List.Forall₂.cons hc ((ih ts2).1 hl)
    · intro h
      cases h with
      | cons h1 h2 =>
        simp only [h1, (ih _).2 h2]

theorem unfold_list_total (f : Nat → Option term) (cs : List Nat)
    (h : ∀ c ∈ cs, ∃ t, f c = some t) : ∃ ts, unfold_list f cs = some ts := by
  induction cs with
  | nil => exact ⟨[], rfl⟩
  | cons c cs ih =>
    obtain ⟨t, ht⟩ := h c (List.mem_cons_self c cs)
    obtain ⟨ts, hts⟩ := ih (fun x hx => h x (List.mem_cons_of_mem c hx))
    exact ⟨t :: ts, by simp only [unfold_list, ht, hts]⟩

theorem unfold_fuel_indep (ctx : context) (wf : ctx.well_formed) (e : Nat) :
    ∀ f1 f2, e < f1 → e < f2 → unfold_fuel ctx f1 e = unfold_fuel ctx f2 e := by
  induction e using Nat.strong_induction_on with
  | _ e ih =>
    intro f1 f2 h1 h2
    obtain ⟨g1, rfl⟩ := Nat.exists_eq_succ_of_ne_zero (Nat.not_eq_zero_of_lt h1)
    obtain ⟨g2, rfl⟩ := Nat.exists_eq_succ_of_ne_zero (Nat.not_eq_zero_of_lt h2)
    unfold unfold_fuel
    cases hn : ctx._exprs[e]? with
    | none => rfl
    | some expr =>
      simp only
      have hl : unfold_list (unfold_fuel ctx g1) expr._children =
          unfold_list (unfold_fuel ctx g2) expr._children := by
        apply unfold_list_congr
        intro c hc
        have hlt := wf e expr hn c hc
        exact ih c hlt g1 g2 (by omega) (by omega)
      rw [hl]

theorem unfold_eq (ctx : context) (wf : ctx.well_formed) (e : Nat) (node : expr_node)
    (hn : ctx._exprs[e]? = some node) :
    ctx.unfold e = (unfold_list ctx.unfold node._children).map (term.node node._name) := by
  have hlt := getElem?_lt_length _ _ _ hn
  obtain ⟨g, hg⟩ := Nat.exists_eq_succ_of_ne_zero (Nat.not_eq_zero_of_lt hlt)
  have hl : unfold_list (unfold_fuel ctx g) node._children =
      unfold_list ctx.unfold node._children := by
    apply unfold_list_congr
    intro c hc
    have hc2 := wf e node hn c hc
    unfold context.unfold
    exact unfold_fuel_indep ctx wf c _ _ (by omega) (by omega)
  conv_lhs => unfold context.unfold
  rw [hg]
  conv_lhs => unfold unfold_fuel
  simp only [hn]
  rw [hl]
  cases unfold_list ctx.unfold node._children <;> rfl

theorem unfold_total (ctx : context) (wf : ctx.well_formed) (e : Nat)
    (he : e < ctx._exprs.length) : ∃ t, ctx.unfold e = some t := by
  induction e using Nat.strong_induction_on with
  | _ e ih =>
    have hn : ctx._exprs[e]? = some ctx._exprs[e] := List.getElem?_eq_getElem he
    rw [unfold_eq ctx wf e _ hn]
    obtain ⟨ts, hts⟩ := unfold_list_total ctx.unfold (ctx._exprs[e])._children (by
      intro c hc
      have hlt := wf e _ hn c hc
      exact ih c hlt (Nat.lt_trans hlt he))
    exact ⟨_, by rw [hts]; rfl⟩

theorem well_formed_of_grows (ctx ctx2 : context) (hg : ctx.grows ctx2)
    (wf : ctx2.well_formed) : ctx.well_formed := by
  intro i node hi c hc
  exact wf i node (grows_getElem? ctx ctx2 hg i node hi) c hc

theorem unfold_grows (ctx ctx2 : context) (hg : ctx.grows ctx2) (wf : ctx2.well_formed)
    (e : Nat) (he : e < ctx._exprs.length) : ctx2.unfold e = ctx.unfold e := by
  have wf1 := well_formed_of_grows ctx ctx2 hg wf
  induction e using Nat.strong_induction_on with
  | _ e ih =>
    have hn : ctx._exprs[e]? = some ctx._exprs[e] := List.getElem?_eq_getElem he
    rw [unfold_eq ctx wf1 e _ hn, unfold_eq ctx2 wf e _ (grows_getElem? ctx ctx2 hg e _ hn)]
    congr 1
    apply unfold_list_congr
    intro c hc
    have hlt := wf1 e _ hn c hc
    exact ih c hlt (Nat.lt_trans hlt he)

theorem forall₂_unfold_inj (ctx : context) (cs1 cs2 : List Nat) (ts : List term)
    (h1 : List.Forall₂ (fun c t => ctx.unfold c = some t) cs1 ts)
    (h2 : List.Forall₂ (fun c t => ctx.unfold c = some t) cs2 ts)
    (hinj : ∀ c1 ∈ cs1, ∀ c2 t, ctx.unfold c1 = some t → ctx.unfold c2 = some t → c1 = c2) :
    cs1 = cs2 := by
  induction cs1 generalizing cs2 ts with
  | nil =>
    cases h1
    cases h2
    rfl
  | cons a l1 ih =>
    cases h1 with
    | cons ha hrest1 =>
      cases h2 with
      | cons hb hrest2 =>
        have hab := hinj a (List.mem_cons_self _ _) _ _ ha hb
        have := ih _ _ hrest1 hrest2 (fun c1 hc1 => hinj c1 (List.mem_cons_of_mem _ hc1))
        rw [hab, this]

/-- Handles of a hash-consed arena are canonical: two stored handles with the
same tree unfolding are equal. -/
theorem unfold_injective (ctx : context) (inv : ctx.strash_inv) (wf : ctx.well_formed)
    (e1 : Nat) : ∀ (e2 : Nat) (t : term), e1 < ctx._exprs.length → e2 < ctx._exprs.length →
      ctx.unfold e1 = some t → ctx.unfold e2 = some t → e1 = e2 := by
  induction e1 using Nat.strong_induction_on with
  | _ e1 ih =>
    intro e2 t h1 h2 hu1 hu2
    have hn1 : ctx._exprs[e1]? = some ctx._exprs[e1] := List.getElem?_eq_getElem h1
    have hn2 : ctx._exprs[e2]? = some ctx._exprs[e2] := List.getElem?_eq_getElem h2
    rw [unfold_eq ctx wf e1 _ hn1] at hu1
    rw [unfold_eq ctx wf e2 _ hn2] at hu2
    cases hl1 : unfold_list ctx.unfold (ctx._exprs[e1])._children with
    | none => simp [hl1] at hu1
    | some ts1 =>
      cases hl2 : unfold_list ctx.unfold (ctx._exprs[e2])._children with
      | none => simp [hl2] at hu2
      | some ts2 =>
        simp only [hl1, Option.map_some', Option.some.injEq] at hu1
        simp only [hl2, Option.map_some', Option.some.injEq] at hu2
        rw [← hu1] at hu2
        simp only [term.node.injEq] at hu2
        obtain ⟨hname, hts⟩ := hu2
        rw [hts] at hl2
        have hcs : (ctx._exprs[e1])._children = (ctx._exprs[e2])._children := by
          apply forall₂_unfold_inj ctx _ _ ts1 ((unfold_list_eq_some_iff _ _ _).1 hl1)
            ((unfold_list_eq_some_iff _ _ _).1 hl2)
          intro c1 hc1 c2 t2 hc1t hc2t
          have hlt := wf e1 _ hn1 c1 hc1
          have hc2r : c2 < ctx._exprs.length := by
            unfold context.unfold at hc2t
            rcases Nat.lt_or_ge c2 ctx._exprs.length with h | h
            · exact h
            · exfalso
              obtain ⟨g, hg⟩ := Nat.exists_eq_succ_of_ne_zero (Nat.not_eq_zero_of_lt h1)
              rw [hg] at hc2t
              unfold unfold_fuel at hc2t
              rw [List.getElem?_eq_none h] at hc2t
              simp at hc2t
          exact ih c1 hlt c2 t2 (Nat.lt_trans hlt h1) hc2r hc1t hc2t
        apply inv.distinct e1 e2 _ _ hn1 hn2
        simp only [expr_node.key, Prod.mk.injEq]
        exact ⟨hname.symm, hcs⟩

theorem refine_fuel_eq_refine_path (rules : rules_t) (fuel : Nat) (ctx : context) (e : Nat)
    (path : path_t) (hf : path.indices.length < fuel) :
    refine_expression_recurse_fuel rules fuel ctx e path =
      refine_path rules path.indices.reverse ctx e := by
  induction fuel generalizing ctx e path with
  | zero => exact absurd hf (Nat.not_lt_zero _)
  | succ fuel ih =>
    unfold refine_expression_recurse_fuel
    rcases List.eq_nil_or_concat path.indices with hnil | ⟨init, last, hl⟩
    · simp [hnil, refine_path]
    · have hlen : path.indices.length = init.length + 1 := by rw [hl]; simp
      have hne : ¬ path.indices.length = 0 := by omega
      have hidx : path.operator_index 0 = some last := by
        unfold path_t.operator_index
        simp only [hlen, Nat.zero_lt_succ, if_true]
        rw [hl]
        simp
      have hpop : path.pop_front.indices = init := by
        simp [path_t.pop_front, hl]
      have hrev : path.indices.reverse = last :: init.reverse := by rw [hl]; simp
      simp only [hne, if_false, hidx, hrev, refine_path]
      cases hn : ctx._exprs[e]? with
      | none => rfl
      | some expr =>
        simp only
        cases hc : expr._children[last]? with
        | none => rfl
        | some child =>
          simp only
          rw [ih ctx child path.pop_front (by rw [hpop]; omega), hpop]

theorem refine_eq_refine_path (rules : rules_t) (ctx : context) (e : Nat) (path : path_t) :
    refine_expression_recurse ctx e path rules = refine_path rules path.indices.reverse ctx e :=
  refine_fuel_eq_refine_path rules _ ctx e path (Nat.lt_succ_self _)

theorem make_fun_handle_lt (ctx : context) (inv : ctx.strash_inv) (name : String)
    (children : List Nat) (attr : Nat) :
    (ctx.make_fun name children attr).1 < (ctx.make_fun name children attr).2._exprs.length := by
  cases hf : strash_find ctx._fun_strash ⟨name, children, attr⟩ with
  | some v =>
    rw [make_fun_found _ _ _ _ _ hf]
    obtain ⟨i, node, hi, hk⟩ := inv.stored _ _ hf
    have hv := inv.filed i node hi
    rw [strash_find_key _ _ _ hk, hf] at hv
    have hlt := getElem?_lt_length _ _ _ hi
    have := Option.some.inj hv
    simp only
    rw [this]
    exact Nat.lt_of_le_of_lt (Nat.mod_le _ _) hlt
  | none =>
    rw [make_fun_fresh _ _ _ _ hf]
    simp only [List.length_append, List.length_singleton]
    exact Nat.lt_succ_of_le (Nat.mod_le _ _)

theorem make_fun_ok (ctx : context) (ok : ctx.ok) (name : String) (children : List Nat)
    (attr : Nat) (hch : ∀ c ∈ children, c < ctx._exprs.length) :
    (ctx.make_fun name children attr).2.ok := by
  refine ⟨strash_inv_make_fun ctx name children attr ok.inv, ?_⟩
  rcases make_fun_exprs ctx name children attr with h1 | ⟨h1, _⟩
  · intro i node hi c hc
    rw [h1] at hi
    exact ok.wf i node hi c hc
  · intro i node hi c hc
    rw [h1] at hi
    by_cases hlt : i < ctx._exprs.length
    · rw [List.getElem?_append_left hlt] at hi
      exact ok.wf i node hi c hc
    · have hge : ctx._exprs.length ≤ i := Nat.le_of_not_lt hlt
      rw [List.getElem?_append_right hge] at hi
      have h0 : i - ctx._exprs.length = 0 := by
        by_contra hne
        obtain ⟨k, hk⟩ := Nat.exists_eq_succ_of_ne_zero hne
        rw [hk] at hi
        simp at hi
      rw [h0] at hi
      simp only [List.getElem?_cons_zero, Option.some.injEq] at hi
      rw [← hi] at hc
      exact Nat.lt_of_lt_of_le (hch c hc) hge

/-- The node at the handle that `make_fun` returns, when the arena after the call
holds at most `2^32` nodes. -/
theorem make_fun_node (ctx : context) (inv : ctx.strash_inv) (name : String)
    (children : List Nat) (attr : Nat)
    (hsize : (ctx.make_fun name children attr).2._exprs.length ≤ UNSIGNED_MOD) :
    ∃ node, (ctx.make_fun name children attr).2._exprs[(ctx.make_fun name children attr).1]?
        = some node ∧ node._name = name ∧ node._children = children := by
  rcases make_fun_exprs ctx name children attr with h1 | ⟨h1, _⟩
  · rw [h1] at hsize
    cases hf : strash_find ctx._fun_strash ⟨name, children, attr⟩ with
    | some v =>
      rw [make_fun_found _ _ _ _ _ hf]
      obtain ⟨i, node, hi, hk⟩ := inv.stored _ _ hf
      have hv := inv.filed i node hi
      rw [strash_find_key _ _ _ hk, hf] at hv
      have hlt := getElem?_lt_length _ _ _ hi
      have hiv : v = i := by
        have := Option.some.inj hv
        rw [this]
        exact Nat.mod_eq_of_lt (Nat.lt_of_lt_of_le hlt hsize)
      simp only [expr_node.key, Prod.mk.injEq] at hk
      exact ⟨node, by rw [hiv]; exact hi, hk.1, hk.2⟩
    | none =>
      rw [make_fun_fresh _ _ _ _ hf] at h1
      simp at h1
  · have hlt : ctx._exprs.length < UNSIGNED_MOD := by
      rw [h1] at hsize
      simp only [List.length_append, List.length_singleton] at hsize
      omega
    obtain ⟨node, h2, h3, h4, _⟩ := make_fun_spec ctx inv hlt name children attr
    exact ⟨node, h2, h3, h4⟩

/-- The loop that rebuilds the parent for every refined child, on an arena that
satisfies the invariants: each result is the handle of a node with the name of
`e` and the children of `e` with position `index` replaced by the candidate. -/
theorem refine_rebuild_spec (e index : Nat) (expr : expr_node) (cs : List Nat) (ctx : context)
    (ok : ctx.ok) (hn : ctx._exprs[e]? = some expr) (hidx : index < expr._children.length)
    (hcs : ∀ c ∈ cs, c < ctx._exprs.length) (results : List Nat) (ctx2 : context)
    (h : refine_rebuild e index cs ctx = some (results, ctx2))
    (hsize : ctx2._exprs.length ≤ UNSIGNED_MOD) :
    ctx2.ok ∧ ctx.grows ctx2 ∧
    List.Forall₂ (fun s c => ∃ node, ctx2._exprs[s]? = some node ∧ node._name = expr._name ∧
      node._children = expr._children.set index c) results cs := by
  induction cs generalizing ctx results with
  | nil =>
    simp only [refine_rebuild, Option.some.injEq, Prod.mk.injEq] at h
    rw [← h.1, ← h.2]
    exact ⟨ok, grows_refl ctx, List.Forall₂.nil⟩
  | cons c cs ih =>
    unfold refine_rebuild at h
    simp only [hn] at h
    generalize hr : refine_rebuild e index cs
      (ctx.make_fun expr._name
        (List.take index expr._children ++ [c] ++ List.drop (index + 1) expr._children)
        expr._attr).2 = r at h
    cases r with
    | none => simp at h
    | some pr =>
      obtain ⟨rs, c3⟩ := pr
      simp only [Option.some.injEq, Prod.mk.injEq] at h
      obtain ⟨h1, h2⟩ := h
      subst h2
      have hchildren : ∀ x ∈ List.take index expr._children ++ [c] ++
          List.drop (index + 1) expr._children, x < ctx._exprs.length := by
        intro x hx
        have hle := getElem?_lt_length _ _ _ hn
        simp only [List.append_assoc, List.mem_append, List.mem_singleton,
          List.mem_cons, List.mem_nil_iff, or_false] at hx
        rcases hx with hx | hx | hx
        · exact Nat.lt_trans (ok.wf e expr hn x (List.mem_of_mem_take hx)) hle
        · rw [hx]; exact hcs c (List.mem_cons_self _ _)
        · exact Nat.lt_trans (ok.wf e expr hn x (List.mem_of_mem_drop hx)) hle
      have hg1 := make_fun_grows ctx expr._name
        (List.take index expr._children ++ [c] ++ List.drop (index + 1) expr._children)
        expr._attr
      have ok1 := make_fun_ok ctx ok expr._name _ expr._attr hchildren
      have hrest := ih _ ok1 (grows_getElem? _ _ hg1 e expr hn)
        (fun x hx => Nat.lt_of_lt_of_le (hcs x (List.mem_cons_of_mem _ hx)) (grows_length _ _ hg1))
        rs hr
      obtain ⟨ok3, hg3, hall⟩ := hrest
      refine ⟨ok3, grows_trans _ _ _ hg1 hg3, ?_⟩
      rw [← h1]
      refine List.Forall₂.cons ?_ hall
      obtain ⟨node, hnode, hname, hch⟩ := make_fun_node ctx ok.inv expr._name
        (List.take index expr._children ++ [c] ++ List.drop (index + 1) expr._children)
        expr._attr (Nat.le_trans (grows_length _ _ hg3) hsize)
      refine ⟨node, grows_getElem? _ _ hg3 _ _ hnode, hname, ?_⟩
      rw [hch, List.set_eq_take_append_cons_drop]
      simp [hidx]

theorem forall₂_comp {α β γ : Type} (A : α → β → Prop) (B : β → γ → Prop) (xs : List α)
    (ys : List β) (zs : List γ) (h1 : List.Forall₂ A xs ys) (h2 : List.Forall₂ B ys zs) :
    List.Forall₂ (fun x z => ∃ y, y ∈ ys ∧ A x y ∧ B y z) xs zs := by
  induction h1 generalizing zs with
  | nil => cases h2; exact List.Forall₂.nil
  | cons ha _ ih =>
    cases h2 with
    | cons hb hrest =>
      refine List.Forall₂.cons ⟨_, List.mem_cons_self _ _, ha, hb⟩ ?_
      exact (ih _ hrest).imp (fun x z ⟨y, hy, h3, h4⟩ => ⟨y, List.mem_cons_of_mem _ hy, h3, h4⟩)

theorem forall₂_getElem? {α β : Type} (R : α → β → Prop) (xs : List α) (ys : List β)
    (h : List.Forall₂ R xs ys) (i : Nat) (x : α) (hx : xs[i]? = some x) :
    ∃ y, ys[i]? = some y ∧ R x y := by
  induction h generalizing i with
  | nil => simp at hx
  | cons ha _ ih =>
    cases i with
    | zero =>
      simp only [List.getElem?_cons_zero, Option.some.injEq] at hx
      subst hx
      exact ⟨_, by simp, ha⟩
    | succ k =>
      simp only [List.getElem?_cons_succ] at hx
      simpa using ih k hx

theorem forall₂_getElem?_right {α β : Type} (R : α → β → Prop) (xs : List α) (ys : List β)
    (h : List.Forall₂ R xs ys) (i : Nat) (y : β) (hy : ys[i]? = some y) :
    ∃ x, xs[i]? = some x ∧ R x y := by
  induction h generalizing i with
  | nil => simp at hy
  | cons ha _ ih =>
    cases i with
    | zero =>
      simp only [List.getElem?_cons_zero, Option.some.injEq] at hy
      subst hy
      exact ⟨_, by simp, ha⟩
    | succ k =>
      simp only [List.getElem?_cons_succ] at hy
      simpa using ih k hy

theorem forall₂_mem_left {α β : Type} (R : α → β → Prop) (xs : List α) (ys : List β)
    (h : List.Forall₂ R xs ys) (x : α) (hx : x ∈ xs) : ∃ y, y ∈ ys ∧ R x y := by
  induction h with
  | nil => exact absurd hx (List.not_mem_nil x)
  | cons ha _ ih =>
    rcases List.mem_cons.1 hx with h1 | h1
    · rw [h1]; exact ⟨_, List.mem_cons_self _ _, ha⟩
    · obtain ⟨y, hy, hr⟩ := ih h1
      exact ⟨y, List.mem_cons_of_mem _ hy, hr⟩

theorem forall₂_mem_right {α β : Type} (R : α → β → Prop) (xs : List α) (ys : List β)
    (h : List.Forall₂ R xs ys) (y : β) (hy : y ∈ ys) : ∃ x, x ∈ xs ∧ R x y := by
  induction h with
  | nil => exact absurd hy (List.not_mem_nil y)
  | cons ha _ ih =>
    rcases List.mem_cons.1 hy with h1 | h1
    · rw [h1]; exact ⟨_, List.mem_cons_self _ _, ha⟩
    · obtain ⟨x, hx, hr⟩ := ih h1
      exact ⟨x, List.mem_cons_of_mem _ hx, hr⟩

theorem forall₂_set {α β : Type} (R : α → β → Prop) (xs : List α) (ys : List β)
    (h : List.Forall₂ R xs ys) (i : Nat) (x : α) (y : β) (hxy : R x y) :
    List.Forall₂ R (xs.set i x) (ys.set i y) := by
  induction h generalizing i with
  | nil => exact List.Forall₂.nil
  | cons ha hr ih =>
    cases i with
    | zero => exact List.Forall₂.cons hxy hr
    | succ k => exact List.Forall₂.cons ha (ih k)

theorem unfold_node (ctx : context) (wf : ctx.well_formed) (e : Nat) (node : expr_node)
    (hn : ctx._exprs[e]? = some node) (t : term) (ht : ctx.unfold e = some t) :
    ∃ ts, t = term.node node._name ts ∧
      List.Forall₂ (fun c tc => ctx.unfold c = some tc) node._children ts := by
  rw [unfold_eq ctx wf e node hn] at ht
  cases hl : unfold_list ctx.unfold node._children with
  | none => simp [hl] at ht
  | some ts =>
    simp only [hl, Option.map_some', Option.some.injEq] at ht
    exact ⟨ts, ht.symm, (unfold_list_eq_some_iff _ _ _).1 hl⟩

theorem unfold_of_children (ctx : context) (wf : ctx.well_formed) (e : Nat) (node : expr_node)
    (hn : ctx._exprs[e]? = some node) (ts : List term)
    (hts : List.Forall₂ (fun c tc => ctx.unfold c = some tc) node._children ts) :
    ctx.unfold e = some (term.node node._name ts) := by
  rw [unfold_eq ctx wf e node hn, (unfold_list_eq_some_iff _ _ _).2 hts]
  rfl

theorem unfold_lt_length (ctx : context) (e : Nat) (t : term) (h : ctx.unfold e = some t) :
    e < ctx._exprs.length := by
  rcases Nat.lt_or_ge e ctx._exprs.length with h1 | h1
  · exact h1
  · exfalso
    unfold context.unfold at h
    cases hl : ctx._exprs.length with
    | zero => rw [hl] at h; simp [unfold_fuel] at h
    | succ g =>
      rw [hl] at h
      unfold unfold_fuel at h
      rw [List.getElem?_eq_none h1] at h
      simp at h

/-- Following a position in the arena and in the tree unfolding gives the same
subterm. -/
theorem handle_at_unfold (ctx : context) (wf : ctx.well_formed) (p : List Nat) :
    ∀ (e e2 : Nat) (t : term), ctx.unfold e = some t → ctx.handle_at e p = some e2 →
      ∃ t2, ctx.unfold e2 = some t2 ∧ t.subterm_at p = some t2 := by
  induction p with
  | nil =>
    intro e e2 t ht h
    simp only [context.handle_at, Option.some.injEq] at h
    subst h
    exact ⟨t, ht, rfl⟩
  | cons i p ih =>
    intro e e2 t ht h
    unfold context.handle_at at h
    cases hn : ctx._exprs[e]? with
    | none => simp [hn] at h
    | some node =>
      simp only [hn] at h
      cases hc : node._children[i]? with
      | none => simp [hc] at h
      | some c =>
        simp only [hc] at h
        obtain ⟨ts, hts, hall⟩ := unfold_node ctx wf e node hn t ht
        obtain ⟨tc, htc, hctc⟩ := forall₂_getElem? _ _ _ hall i c hc
        obtain ⟨t2, h1, h2⟩ := ih c e2 tc hctc h
        refine ⟨t2, h1, ?_⟩
        rw [hts]
        simp only [term.subterm_at, term.children, htc]
        exact h2

theorem subterm_at_handle (ctx : context) (wf : ctx.well_formed) (p : List Nat) :
    ∀ (e : Nat) (t t2 : term), ctx.unfold e = some t → t.subterm_at p = some t2 →
      ∃ e2, ctx.handle_at e p = some e2 ∧ ctx.unfold e2 = some t2 := by
  induction p with
  | nil =>
    intro e t t2 ht h
    simp only [term.subterm_at, Option.some.injEq] at h
    subst h
    exact ⟨e, rfl, ht⟩
  | cons i p ih =>
    intro e t t2 ht h
    have he := unfold_lt_length ctx e t ht
    have hn : ctx._exprs[e]? = some ctx._exprs[e] := List.getElem?_eq_getElem he
    obtain ⟨ts, hts, hall⟩ := unfold_node ctx wf e _ hn t ht
    rw [hts] at h
    simp only [term.subterm_at, term.children] at h
    cases htc : ts[i]? with
    | none => simp [htc] at h
    | some tc =>
      simp only [htc] at h
      obtain ⟨c, hc, hctc⟩ := forall₂_getElem?_right _ _ _ hall i tc htc
      obtain ⟨e2, h1, h2⟩ := ih c tc t2 hctc h
      refine ⟨e2, ?_, h2⟩
      simp only [context.handle_at, hn, hc]
      exact h1

/-- The candidates of `refine_expression_recurse` for a root-first position `p`, on
an arena that satisfies the invariants and stays within `2^32` nodes: there is one
candidate for every rule whose `match` is the handle at position `p`, in the order
of the rules, and it unfolds to the term with the subterm at `p` replaced by the
unfolding of the rule's `replace`. -/
theorem refine_path_spec (rules : rules_t) (p : List Nat) :
    ∀ (ctx : context) (e : Nat), ctx.ok → e < ctx._exprs.length →
      (∀ r ∈ rules, r.replace < ctx._exprs.length) →
      ∀ (cands : List Nat) (ctx1 : context), refine_path rules p ctx e = some (cands, ctx1) →
      ctx1._exprs.length ≤ UNSIGNED_MOD →
      ctx1.ok ∧ ctx.grows ctx1 ∧ (∀ s ∈ cands, s < ctx1._exprs.length) ∧
      ∃ e2, ctx.handle_at e p = some e2 ∧
        List.Forall₂ (fun s r => ∃ t tr t2, ctx.unfold e = some t ∧
            ctx.unfold r.replace = some tr ∧ t.replace_at p tr = some t2 ∧
            ctx1.unfold s = some t2)
          cands (rules.filter (fun r => decide (e2 = r.match_))) := by
  induction p with
  | nil =>
    intro ctx e ok he hrules cands ctx1 h _
    simp only [refine_path, Option.some.injEq, Prod.mk.injEq] at h
    obtain ⟨h1, h2⟩ := h
    subst h2
    refine ⟨ok, grows_refl ctx, ?_, e, rfl, ?_⟩
    · intro s hs
      rw [← h1] at hs
      obtain ⟨r, hr, hrs⟩ := List.mem_map.1 hs
      rw [← hrs]
      exact hrules r (List.mem_of_mem_filter hr)
    · rw [← h1, List.forall₂_map_left_iff, List.forall₂_same]
      intro r hr
      obtain ⟨t, ht⟩ := unfold_total ctx ok.wf e he
      obtain ⟨tr, htr⟩ := unfold_total ctx ok.wf r.replace (hrules r (List.mem_of_mem_filter hr))
      exact ⟨t, tr, tr, ht, htr, rfl, htr⟩
  | cons i p ih =>
    intro ctx e ok he hrules cands ctx1 h hsize
    unfold refine_path at h
    have hn : ctx._exprs[e]? = some ctx._exprs[e] := List.getElem?_eq_getElem he
    simp only [hn] at h
    cases hc : (ctx._exprs[e])._children[i]? with
    | none => simp [hc] at h
    | some child =>
      simp only [hc] at h
      cases hrec : refine_path rules p ctx child with
      | none => simp [hrec] at h
      | some res =>
        obtain ⟨cands0, ctx0⟩ := res
        simp only [hrec] at h
        have hchild : child ∈ (ctx._exprs[e])._children := List.getElem?_mem hc
        have hchild_lt : child < ctx._exprs.length :=
          Nat.lt_trans (ok.wf e _ hn child hchild) he
        have hg2 := refine_rebuild_grows e i cands0 ctx0 cands ctx1 h
        obtain ⟨ok0, hg0, hr0, e2, he2, hall0⟩ := ih ctx child ok hchild_lt hrules cands0 ctx0 hrec
          (Nat.le_trans (grows_length _ _ hg2) hsize)
        have hidx : i < (ctx._exprs[e])._children.length := getElem?_lt_length _ _ _ hc
        obtain ⟨ok1, _, hall1⟩ := refine_rebuild_spec e i _ cands0 ctx0 ok0
          (grows_getElem? _ _ hg0 e _ hn) hidx hr0 cands ctx1 h hsize
        have hg := grows_trans _ _ _ hg0 hg2
        refine ⟨ok1, hg, ?_, e2, ?_, ?_⟩
        · intro s hs
          obtain ⟨c, _, node, hsc, _⟩ := forall₂_mem_left _ _ _ hall1 s hs
          exact getElem?_lt_length _ _ _ hsc
        · simp only [context.handle_at, hn, hc]
          exact he2
        · refine (forall₂_comp _ _ _ _ _ hall1 hall0).imp ?_
          rintro s r ⟨c, hcmem, ⟨node, hnode, hname, hch⟩, tc, tr, tc2, htc, htr, hrep, hc2⟩
          obtain ⟨t, ht⟩ := unfold_total ctx ok.wf e he
          obtain ⟨ts, hts, hall⟩ := unfold_node ctx ok.wf e _ hn t ht
          obtain ⟨tc0, htc0, hctc0⟩ := forall₂_getElem? _ _ _ hall i child hc
          rw [htc] at hctc0
          cases hctc0
          refine ⟨t, tr, term.node (ctx._exprs[e])._name (ts.set i tc2), ht, htr, ?_, ?_⟩
          · rw [hts]
            simp only [term.replace_at, term.children, term.name, htc0, hrep]
          · have hall2 : List.Forall₂ (fun c tc => ctx1.unfold c = some tc)
                (ctx._exprs[e])._children ts := by
              refine hall.imp ?_
              intro a b hab
              rw [unfold_grows ctx ctx1 hg ok1.wf a (unfold_lt_length ctx a b hab)]
              exact hab
            have hc21 : ctx1.unfold c = some tc2 := by
              rw [unfold_grows ctx0 ctx1 hg2 ok1.wf c (hr0 c hcmem)]
              exact hc2
            have := forall₂_set _ _ _ hall2 i c tc2 hc21
            rw [← hch] at this
            rw [unfold_of_children ctx1 ok1.wf s node hnode _ this, hname]

theorem handle_at_subterm (ctx : context) (p : List Nat) :
    ∀ (e d : Nat), ctx.handle_at e p = some d → ctx.subterm e d := by
  induction p with
  | nil =>
    intro e d h
    simp only [context.handle_at, Option.some.injEq] at h
    rw [← h]
    exact context.subterm.refl e
  | cons i p ih =>
    intro e d h
    unfold context.handle_at at h
    cases hn : ctx._exprs[e]? with
    | none => simp [hn] at h
    | some node =>
      simp only [hn] at h
      cases hc : node._children[i]? with
      | none => simp [hc] at h
      | some c =>
        simp only [hc] at h
        exact context.subterm.step e node c d hn (List.getElem?_mem hc) (ih c d h)

theorem subterm_handle_at (ctx : context) (e d : Nat) (h : ctx.subterm e d) :
    ∃ p, ctx.handle_at e p = some d := by
  induction h with
  | refl e => exact ⟨[], rfl⟩
  | step e node c d hn hc _ ih =>
    obtain ⟨p, hp⟩ := ih
    obtain ⟨i, hi⟩ := List.mem_iff_getElem?.1 hc
    exact ⟨i :: p, by simp only [context.handle_at, hn, hi]; exact hp⟩

theorem unfold_name (ctx : context) (wf : ctx.well_formed) (e : Nat) (node : expr_node)
    (hn : ctx._exprs[e]? = some node) (t : term) (ht : ctx.unfold e = some t) :
    t.name = node._name := by
  obtain ⟨ts, hts, _⟩ := unfold_node ctx wf e node hn t ht
  rw [hts]
  rfl

/-- A handle reaches a nonterminal node exactly when its tree unfolding is not
concrete. -/
theorem has_nonterminal_iff_unfold (ctx : context) (wf : ctx.well_formed) (e : Nat) (t : term)
    (ht : ctx.unfold e = some t) : ctx.has_nonterminal e ↔ ¬ t.concrete := by
  constructor
  · rintro ⟨d, node, hsub, hd, hname⟩ hcon
    obtain ⟨p, hp⟩ := subterm_handle_at ctx e d hsub
    obtain ⟨t2, ht2, hsubt⟩ := handle_at_unfold ctx wf p e d t ht hp
    apply hcon p t2 hsubt
    rw [unfold_name ctx wf d node hd t2 ht2]
    exact hname
  · intro hcon
    unfold term.concrete at hcon
    simp only [not_forall, Decidable.not_not] at hcon
    obtain ⟨p, s, hs, hname⟩ := hcon
    obtain ⟨e2, he2, hu2⟩ := subterm_at_handle ctx wf p e t s ht hs
    have hlt := unfold_lt_length ctx e2 s hu2
    have hn : ctx._exprs[e2]? = some ctx._exprs[e2] := List.getElem?_eq_getElem hlt
    refine ⟨e2, _, handle_at_subterm ctx p e e2 he2, hn, ?_⟩
    rw [← unfold_name ctx wf e2 _ hn s hu2]
    exact hname

theorem has_nonterminal_grows (ctx ctx2 : context) (hg : ctx.grows ctx2)
    (wf : ctx2.well_formed) (e : Nat) (he : e < ctx._exprs.length) :
    ctx2.has_nonterminal e ↔ ctx.has_nonterminal e := by
  have wf1 := well_formed_of_grows ctx ctx2 hg wf
  obtain ⟨t, ht⟩ := unfold_total ctx wf1 e he
  have ht2 : ctx2.unfold e = some t := by rw [unfold_grows ctx ctx2 hg wf e he]; exact ht
  rw [has_nonterminal_iff_unfold ctx wf1 e t ht, has_nonterminal_iff_unfold ctx2 wf e t ht2]

theorem derivable_grows (ctx0 : context) (rules : rules_t) (seeds : List Nat)
    (ctx ctx2 : context) (hg : ctx.grows ctx2) (wf : ctx2.well_formed) (s c : Nat)
    (h : derivable ctx0 rules seeds ctx s c) : derivable ctx0 rules seeds ctx2 s c := by
  obtain ⟨seed, hseed, t0, t, h0, ht, hd⟩ := h
  refine ⟨seed, hseed, t0, t, h0, ?_, hd⟩
  rw [unfold_grows ctx ctx2 hg wf s (unfold_lt_length ctx s t ht)]
  exact ht

theorem session_inv_grows (ctx0 : context) (rules : rules_t) (seeds : List Nat)
    (st st2 : enumerator) (inv : session_inv ctx0 rules seeds st) (ok2 : st2.ctx.ok)
    (hg : st.ctx.grows st2.ctx) (hr : st2.rules = st.rules)
    (hq : ∀ q ∈ st2.candidate_expressions, q ∈ st.candidate_expressions)
    (hc : ∀ q, event.on_concrete_expression q ∈ st2.events →
      event.on_concrete_expression q ∈ st.events)
    (ha : ∀ q, event.on_abstract_expression q ∈ st2.events →
      event.on_abstract_expression q ∈ st.events) :
    session_inv ctx0 rules seeds st2 := by
  have hlen := grows_length _ _ hg
  refine ⟨ok2, grows_trans _ _ _ inv.grows hg, by rw [hr]; exact inv.rules_eq, ?_, ?_, ?_⟩
  · intro q hq2
    obtain ⟨h1, h2⟩ := inv.queue q (hq q hq2)
    exact ⟨Nat.lt_of_lt_of_le h1 hlen, derivable_grows _ _ _ _ _ hg ok2.wf _ _ h2⟩
  · intro q hq2
    obtain ⟨h1, h2, h3⟩ := inv.concrete q (hc q hq2)
    refine ⟨Nat.lt_of_lt_of_le h1 hlen, ?_, derivable_grows _ _ _ _ _ hg ok2.wf _ _ h3⟩
    rw [has_nonterminal_grows _ _ hg ok2.wf _ h1]
    exact h2
  · intro q hq2
    obtain ⟨h1, h2, h3⟩ := inv.abstract q (ha q hq2)
    refine ⟨Nat.lt_of_lt_of_le h1 hlen, ?_, derivable_grows _ _ _ _ _ hg ok2.wf _ _ h3⟩
    rw [has_nonterminal_grows _ _ hg ok2.wf _ h1]
    exact h2

theorem deduce_loop_ctx (cost : Nat) (cs : List Nat) (en st : enumerator)
    (h : deduce_loop cost cs en = some st) :
    st.ctx = en.ctx ∧ st.rules = en.rules ∧ st.max_cost = en.max_cost ∧
      st.quit_enumeration = en.quit_enumeration := by
  refine deduce_loop_induction
    (fun e => e.ctx = en.ctx ∧ e.rules = en.rules ∧ e.max_cost = en.max_cost ∧
      e.quit_enumeration = en.quit_enumeration) cost cs en st h ⟨rfl, rfl, rfl, rfl⟩ ?_ ?_
  · intro en1 c h1 _ _ _
    exact h1
  · intro en1 c h1 _ _ _
    exact h1

/-- Every candidate of a refinement step is obtained from the refined term by one
rule application. -/
theorem refine_rule_application (ctx0 : context) (rules : rules_t) (hrules : rules_ok ctx0 rules)
    (ctx : context) (ok : ctx.ok) (hg0 : ctx0.grows ctx) (e : Nat) (he : e < ctx._exprs.length)
    (path : path_t) (cands : List Nat) (ctx1 : context)
    (h : refine_expression_recurse ctx e path rules = some (cands, ctx1))
    (hsize : ctx1._exprs.length ≤ UNSIGNED_MOD) :
    ctx1.ok ∧ ctx.grows ctx1 ∧ ∀ s ∈ cands, s < ctx1._exprs.length ∧
      ∃ t t2, ctx.unfold e = some t ∧ ctx1.unfold s = some t2 ∧
        rule_application ctx0 rules t t2 := by
  rw [refine_eq_refine_path] at h
  have hrep : ∀ r ∈ rules, r.replace < ctx._exprs.length :=
    fun r hr => Nat.lt_of_lt_of_le (hrules r hr).1 (grows_length _ _ hg0)
  obtain ⟨ok1, hg1, hlt, e2, he2, hall⟩ :=
    refine_path_spec rules _ ctx e ok he hrep cands ctx1 h hsize
  refine ⟨ok1, hg1, ?_⟩
  intro s hs
  refine ⟨hlt s hs, ?_⟩
  obtain ⟨r, hr, t, tr, t2, ht, htr, hrepl, hs2⟩ := forall₂_mem_left _ _ _ hall s hs
  have hrm := List.mem_of_mem_filter hr
  have hmatch : e2 = r.match_ := by
    have := (List.mem_filter.1 hr).2
    simpa using this
  obtain ⟨hrlt, node, hnode, hname⟩ := hrules r hrm
  have hmlt := getElem?_lt_length _ _ _ hnode
  have wf0 := well_formed_of_grows ctx0 ctx hg0 ok.wf
  obtain ⟨l, hl⟩ := unfold_total ctx0 wf0 r.match_ hmlt
  have hl1 : ctx.unfold e2 = some l := by
    rw [hmatch, unfold_grows ctx0 ctx hg0 ok.wf _ hmlt]
    exact hl
  obtain ⟨l2, hl2, hsub⟩ := handle_at_unfold ctx ok.wf _ e e2 t ht he2
  rw [hl1] at hl2
  cases hl2
  refine ⟨t, t2, ht, hs2, _, r, l, tr, hrm, hl, ?_, ?_, hsub, hrepl⟩
  · rw [← unfold_grows ctx0 ctx hg0 ok.wf _ hrlt]
    exact htr
  · rw [unfold_name ctx0 wf0 r.match_ node hnode l hl]
    exact hname

theorem derivable_step (ctx0 : context) (rules : rules_t) (seeds : List Nat)
    (ctx ctx1 : context) (e c s : Nat) (t t2 : term)
    (hd : derivable ctx0 rules seeds ctx e c) (ht : ctx.unfold e = some t)
    (ht2 : ctx1.unfold s = some t2) (hr : rule_application ctx0 rules t t2) :
    derivable ctx0 rules seeds ctx1 s (c + 1) := by
  obtain ⟨seed, hseed, t0, t1, h0, h1, hder⟩ := hd
  rw [ht] at h1
  cases h1
  exact ⟨seed, hseed, t0, t2, h0, ht2, derives.step c t0 t t2 hder hr⟩

theorem seeded_session_inv (ctx : context) (rules : rules_t) (max_cost : Int)
    (seeds : List Nat) (hr : ctx.reachable) (wf : ctx.well_formed)
    (hseeds : ∀ s ∈ seeds, s < ctx._exprs.length) :
    session_inv ctx rules seeds (enumerator.seeded ctx rules max_cost seeds) := by
  obtain ⟨h1, h2, _, h4, h5, _⟩ := seeded_fields ctx rules max_cost seeds
  refine ⟨?_, ?_, h5, ?_, ?_, ?_⟩
  · rw [h4]; exact ⟨strash_inv_of_reachable ctx hr, wf⟩
  · rw [h4]; exact grows_refl _
  · intro q hq
    rw [h2] at hq
    obtain ⟨s, hs, hsq⟩ := List.mem_map.1 hq
    rw [← hsq, h4]
    refine ⟨hseeds s hs, ?_⟩
    obtain ⟨t, ht⟩ := unfold_total ctx wf s (hseeds s hs)
    exact ⟨s, hs, t, t, ht, ht, derives.refl t⟩
  · intro q hq
    rw [h1] at hq
    exact absurd hq (List.not_mem_nil _)
  · intro q hq
    rw [h1] at hq
    exact absurd hq (List.not_mem_nil _)

theorem demo_rules_ok : rules_ok demo_ctx [⟨0, 1⟩, ⟨0, 2⟩, ⟨0, 3⟩] := by
  intro r hr
  simp only [List.mem_cons, List.mem_singleton, List.mem_nil_iff, or_false] at hr
  rcases hr with rfl | rfl | rfl
  · exact ⟨by decide, ⟨"_N", [], 0⟩, by decide, by decide⟩
  · exact ⟨by decide, ⟨"_N", [], 0⟩, by decide, by decide⟩
  · exact ⟨by decide, ⟨"_N", [], 0⟩, by decide, by decide⟩

theorem counter_loop_total (f : Nat → Option Nat) (cs : List Nat) (counter : Nat)
    (h : ∀ c ∈ cs, ∃ v, f c = some v) : ∃ v, counter_loop f cs counter = some v := by
  induction cs generalizing counter with
  | nil => exact ⟨counter, rfl⟩
  | cons c cs ih =>
    obtain ⟨r, hr⟩ := h c (List.mem_cons_self c cs)
    obtain ⟨v, hv⟩ := ih ((counter + r) % UNSIGNED_MOD)
      (fun x hx => h x (List.mem_cons_of_mem c hx))
    exact ⟨v, by simp only [counter_loop, hr]; exact hv⟩

theorem count_nodes_fuel_total (ctx : context) (wf : ctx.well_formed) (e : Nat) :
    ∀ fuel, e < fuel → e < ctx._exprs.length → ∃ v, count_nodes_fuel ctx fuel e = some v := by
  induction e using Nat.strong_induction_on with
  | _ e ih =>
    intro fuel hf he
    obtain ⟨g, rfl⟩ := Nat.exists_eq_succ_of_ne_zero (Nat.not_eq_zero_of_lt hf)
    have hn : ctx._exprs[e]? = some ctx._exprs[e] := List.getElem?_eq_getElem he
    unfold count_nodes_fuel
    simp only [hn]
    split
    · exact ⟨1, rfl⟩
    · apply counter_loop_total
      intro c hc
      have hlt := wf e _ hn c hc
      exact ih c hlt g (by omega) (Nat.lt_trans hlt he)

theorem count_nodes_total (ctx : context) (wf : ctx.well_formed) (e : Nat)
    (he : e < ctx._exprs.length) : ∃ v, ctx.count_nodes e = some v :=
  count_nodes_fuel_total ctx wf e _ he he

theorem expr_greater_than_total (ctx : context) (wf : ctx.well_formed) (a b : cexpr_t)
    (ha : a.1 < ctx._exprs.length) (hb : b.1 < ctx._exprs.length) :
    ∃ v, expr_greater_than ctx a b = some v := by
  unfold expr_greater_than
  rw [count_nonterminals_value ctx wf a.1 ha, count_nonterminals_value ctx wf b.1 hb]
  obtain ⟨va, hva⟩ := count_nodes_total ctx wf a.1 ha
  obtain ⟨vb, hvb⟩ := count_nodes_total ctx wf b.1 hb
  rw [hva, hvb]
  simp only
  split
  · exact ⟨_, rfl⟩
  · split
    · exact ⟨_, rfl⟩
    · split
      · exact ⟨_, rfl⟩
      · split
        · exact ⟨_, rfl⟩
        · split
          · exact ⟨_, rfl⟩
          · split <;> exact ⟨_, rfl⟩

theorem any_loop_false (f : Nat → Option Bool) (cs : List Nat)
    (h : ∀ c ∈ cs, f c = some false) : any_loop f cs = some false := by
  induction cs with
  | nil => rfl
  | cons c cs ih =>
    simp only [any_loop, h c (List.mem_cons_self c cs)]
    exact ih (fun x hx => h x (List.mem_cons_of_mem c hx))

theorem check_double_negation_no_attr (ctx : context) (wf : ctx.well_formed)
    (hattr : ctx.no_attr) (e : Nat) :
    ∀ fuel, e < fuel → e < ctx._exprs.length →
      check_double_negation_fuel ctx fuel e = some false := by
  induction e using Nat.strong_induction_on with
  | _ e ih =>
    intro fuel hf he
    obtain ⟨g, rfl⟩ := Nat.exists_eq_succ_of_ne_zero (Nat.not_eq_zero_of_lt hf)
    have hn : ctx._exprs[e]? = some ctx._exprs[e] := List.getElem?_eq_getElem he
    have ha : ¬ ((ctx._exprs[e])._attr = expr_attr._not) := by
      rw [hattr e _ hn]
      decide
    unfold check_double_negation_fuel
    simp only [hn, ha, and_false, if_false]
    apply any_loop_false
    intro c hc
    have hlt := wf e _ hn c hc
    exact ih c hlt g (by omega) (Nat.lt_trans hlt he)

theorem is_redundant_no_attr (en : enumerator) (wf : en.ctx.well_formed)
    (hattr : en.ctx.no_attr) (e : Nat) (he : e < en.ctx._exprs.length) :
    en.is_redundant_in_search_order e = some false := by
  have hn : en.ctx._exprs[e]? = some en.ctx._exprs[e] := List.getElem?_eq_getElem he
  have ha : ¬ ((en.ctx._exprs[e])._attr = expr_attr._commutative) := by
    rw [hattr e _ hn]
    decide
  unfold enumerator.is_redundant_in_search_order enumerator.check_double_negation
  rw [check_double_negation_no_attr en.ctx wf hattr e _ he he]
  simp only [hn, ha, and_false, if_false]

/-- The path of an abstract term leads to a nonterminal node: following its
indices, read root first, from `e` ends at a stored node whose name begins with an
underscore. -/
theorem get_path_target (ctx : context) (wf : ctx.well_formed) (e : Nat)
    (he : e < ctx._exprs.length) (hu : e < UNSIGNED_MOD) (p : path_t)
    (hp : get_path_to_concretizable_element ctx e = some p) (hv : p.invalid = false) :
    ∃ d node, ctx.handle_at e p.indices.reverse = some d ∧ ctx._exprs[d]? = some node ∧
      name0 node._name = '_' := by
  induction e using Nat.strong_induction_on generalizing p with
  | _ e ih =>
    have hn : ctx._exprs[e]? = some ctx._exprs[e] := List.getElem?_eq_getElem he
    rw [get_path_eq ctx wf e _ hn] at hp
    by_cases hname : name0 (ctx._exprs[e])._name = '_'
    · simp only [hname, if_true, Option.some.injEq] at hp
      rw [← hp]
      exact ⟨e, _, rfl, hn, hname⟩
    · by_cases hleaf : (ctx._exprs[e])._children.length = 0
      · simp only [hname, hleaf, if_false, if_true, Option.some.injEq] at hp
        rw [← hp] at hv
        simp [path_t.invalid, path_t.init] at hv
      · simp only [hname, hleaf, if_false] at hp
        have hch : ∀ c ∈ (ctx._exprs[e])._children,
            get_path_to_concretizable_element ctx c =
              some ((get_path_to_concretizable_element ctx c).getD (path_t.init 0)) := by
          intro c hc
          have hlt := wf e _ hn c hc
          obtain ⟨p, hp, _⟩ := get_path_cases ctx wf c (Nat.lt_trans hlt he) (Nat.lt_trans hlt hu)
          rw [hp]
          rfl
        obtain ⟨r, hr, hcase⟩ := min_path_loop_spec (get_path_to_concretizable_element ctx)
          (fun c => (get_path_to_concretizable_element ctx c).getD (path_t.init 0))
          (ctx._exprs[e])._children 0 (path_t.init UNSIGNED_MAX) hch
        rw [hr] at hp
        rcases hcase with ⟨hrm, _⟩ | ⟨j, c, hj, hrj, hd, _, _⟩
        · rw [hrm] at hp
          simp only [path_t.lt, path_t.init, Nat.lt_irrefl, decide_False, Bool.false_eq_true,
            if_false, Option.some.injEq] at hp
          rw [← hp] at hv
          simp [path_t.invalid] at hv
        · have hc : c ∈ (ctx._exprs[e])._children := List.getElem?_mem hj
          have hlt := wf e _ hn c hc
          obtain ⟨pc, hpc, _⟩ := get_path_cases ctx wf c (Nat.lt_trans hlt he)
            (Nat.lt_trans hlt hu)
          simp only [hpc, Option.getD_some, path_t.init] at hd hrj
          have hrl : r.lt (path_t.init UNSIGNED_MAX) = true := by
            rw [hrj]
            simp only [path_t.lt, path_t.init, path_t.push_front, decide_eq_true_eq]
            exact hd
          simp only [hrl, if_true, Option.some.injEq] at hp
          have hpcv : pc.invalid = false := by
            simp only [path_t.invalid, Bool.and_eq_false_imp, decide_eq_false_iff_not]
            intro _
            omega
          obtain ⟨d, node, hd1, hd2, hd3⟩ := ih c hlt (Nat.lt_trans hlt he)
            (Nat.lt_trans hlt hu) pc hpc hpcv
          refine ⟨d, node, ?_, hd2, hd3⟩
          rw [← hp, hrj]
          simp only [path_t.incr_depth, path_t.push_front, List.reverse_append,
            List.reverse_cons, List.reverse_nil, List.nil_append, List.singleton_append,
            Nat.zero_add, context.handle_at, hn, hj]
          exact hd1

theorem derives_from_snoc (R : term → term → Prop) (k : Nat) (t u v : term)
    (h : derives_from R k t u) (hr : R u v) : derives_from R (k + 1) t v := by
  induction h with
  | refl t => exact derives_from.step 0 t v v hr (derives_from.refl v)
  | step k t u w h1 _ ih => exact derives_from.step (k + 1) t u v h1 (ih hr)

theorem derives_from_of_derives (R : term → term → Prop) (k : Nat) (t v : term)
    (h : derives R k t v) : derives_from R k t v := by
  induction h with
  | refl t => exact derives_from.refl t
  | step k t u v _ hr ih => exact derives_from_snoc R k t u v ih hr

theorem term.children_node (n : String) (cs : List term) : (term.node n cs).children = cs :=
  rfl

theorem term.name_node (n : String) (cs : List term) : (term.node n cs).name = n := rfl

theorem replace_at_exists (p : List Nat) :
    ∀ (t s r : term), t.subterm_at p = some s → ∃ t2, t.replace_at p r = some t2 := by
  induction p with
  | nil => intro t s r _; exact ⟨r, rfl⟩
  | cons i p ih =>
    intro t s r h
    simp only [term.subterm_at] at h
    cases hc : t.children[i]? with
    | none => simp [hc] at h
    | some c =>
      simp only [hc] at h
      obtain ⟨c2, hc2⟩ := ih c s r h
      refine ⟨term.node t.name (t.children.set i c2), ?_⟩
      simp only [term.replace_at, hc, hc2]

/-- A rewrite at a position `q` whose subterm is a leaf, seen from a different
position `p`: the symbol at `p` is unchanged; and when the subterm at `p` after
the rewrite is a leaf, it is the subterm that was there before, and replacing at
`p` commutes with the rewrite at `q`. -/
theorem rewrite_other_position (p : List Nat) :
    ∀ (q : List Nat) (t s l1 r1 t1 : term), t.subterm_at p = some s →
      t.subterm_at q = some l1 → l1.children = [] → t.replace_at q r1 = some t1 → p ≠ q →
      ∃ s2, t1.subterm_at p = some s2 ∧ s2.name = s.name ∧
        (s2.children = [] → s2 = s ∧
          ∀ r, ∃ t2, t.replace_at p r = some t2 ∧ t2.subterm_at q = some l1 ∧
            ∀ t3, t1.replace_at p r = some t3 → t2.replace_at q r1 = some t3) := by
  induction p with
  | nil =>
    intro q t s l1 r1 t1 hs hl hleaf hrep hne
    simp only [term.subterm_at, Option.some.injEq] at hs
    subst hs
    cases q with
    | nil => exact absurd rfl hne
    | cons j q =>
      simp only [term.replace_at] at hrep
      cases hc : t.children[j]? with
      | none => simp [hc] at hrep
      | some c =>
        simp only [hc] at hrep
        cases hc2 : c.replace_at q r1 with
        | none => simp [hc2] at hrep
        | some c2 =>
          simp only [hc2, Option.some.injEq] at hrep
          refine ⟨t1, rfl, by rw [← hrep]; rfl, ?_⟩
          intro hch
          exfalso
          rw [← hrep] at hch
          simp only [term.children_node] at hch
          have hlen := getElem?_lt_length _ _ _ hc
          have : (t.children.set j c2).length = 0 := by rw [hch]; rfl
          rw [List.length_set] at this
          omega
  | cons i p ih =>
    intro q t s l1 r1 t1 hs hl hleaf hrep hne
    simp only [term.subterm_at] at hs
    cases hci : t.children[i]? with
    | none => simp [hci] at hs
    | some ci =>
      simp only [hci] at hs
      cases q with
      | nil =>
        simp only [term.subterm_at, Option.some.injEq] at hl
        rw [← hl] at hleaf
        rw [hleaf] at hci
        simp at hci
      | cons j q =>
        simp only [term.subterm_at] at hl
        simp only [term.replace_at] at hrep
        cases hcj : t.children[j]? with
        | none => simp [hcj] at hl
        | some cj =>
          simp only [hcj] at hl hrep
          cases hcj2 : cj.replace_at q r1 with
          | none => simp [hcj2] at hrep
          | some cj2 =>
            simp only [hcj2, Option.some.injEq] at hrep
            subst hrep
            by_cases hij : i = j
            · subst hij
              rw [hci] at hcj
              cases hcj
              have hpq : p ≠ q := fun h => hne (by rw [h])
              obtain ⟨s2, hs2, hname, hrest⟩ := ih q ci s l1 r1 cj2 hs hl hleaf hcj2 hpq
              have hlt := getElem?_lt_length _ _ _ hci
              refine ⟨s2, ?_, hname, ?_⟩
              · simp only [term.subterm_at, term.children_node, List.getElem?_set_self hlt]
                exact hs2
              · intro hch
                obtain ⟨hss, hall⟩ := hrest hch
                refine ⟨hss, ?_⟩
                intro r
                obtain ⟨c2, hc2, hc2q, hc2r⟩ := hall r
                refine ⟨term.node t.name (t.children.set i c2), ?_, ?_, ?_⟩
                · simp only [term.replace_at, hci, hc2]
                · simp only [term.subterm_at, term.children_node, List.getElem?_set_self hlt]
                  exact hc2q
                · intro t3 ht3
                  simp only [term.replace_at, term.children_node, term.name_node,
                    List.getElem?_set_self hlt] at ht3
                  cases hc3 : cj2.replace_at p r with
                  | none => simp [hc3] at ht3
                  | some c3 =>
                    simp only [hc3, Option.some.injEq, List.set_set] at ht3
                    simp only [term.replace_at, term.children_node, term.name_node,
                      List.getElem?_set_self hlt, hc2r c3 hc3, List.set_set]
                    rw [← ht3]
            · have hji : j ≠ i := fun h => hij h.symm
              refine ⟨s, ?_, rfl, ?_⟩
              · simp only [term.subterm_at, term.children_node, List.getElem?_set_ne hji, hci]
                exact hs
              · intro _
                refine ⟨rfl, ?_⟩
                intro r
                obtain ⟨c2, hc2⟩ := replace_at_exists p ci s r hs
                refine ⟨term.node t.name (t.children.set i c2), ?_, ?_, ?_⟩
                · simp only [term.replace_at, hci, hc2]
                · simp only [term.subterm_at, term.children_node, List.getElem?_set_ne hij, hcj]
                  exact hl
                · intro t3 ht3
                  simp only [term.replace_at, term.children_node, term.name_node,
                    List.getElem?_set_ne hji, hci, hc2, Option.some.injEq] at ht3
                  simp only [term.replace_at, term.children_node, term.name_node,
                    List.getElem?_set_ne hij, hcj, hcj2]
                  rw [← ht3, List.set_comm _ _ _ hij]

theorem concrete_derives_from (ctx0 : context) (rules : rules_t) (k : Nat) (t u : term)
    (hcon : t.concrete) (h : derives_from (rule_application ctx0 rules) k t u) :
    k = 0 ∧ u = t := by
  cases h with
  | refl => exact ⟨rfl, rfl⟩
  | step k _ t1 _ hr _ =>
    obtain ⟨q, rule, l, r, _, _, _, hname, hsub, _⟩ := hr
    exact absurd hname (hcon q l hsub)

/-- In a derivation of a concrete term every nonterminal occurrence is rewritten at
some point, and that step can be moved to the front: if `t` has a nonterminal at
position `p` and a concrete `u` is derived from `t` in `k` steps, then some rule
applies at `p` and `u` is derived from the result in `k - 1` steps. -/
theorem selected_nonterminal_rewritten (ctx0 : context) (rules : rules_t)
    (hleaf : leaf_matches ctx0 rules) (k : Nat) (t u : term)
    (h : derives_from (rule_application ctx0 rules) k t u) :
    u.concrete → ∀ (p : List Nat) (s : term), t.subterm_at p = some s → name0 s.name = '_' →
      ∃ rule ∈ rules, ∃ (r t2 : term) (k2 : Nat), ctx0.unfold rule.match_ = some s ∧
        ctx0.unfold rule.replace = some r ∧ t.replace_at p r = some t2 ∧ k = k2 + 1 ∧
        derives_from (rule_application ctx0 rules) k2 t2 u := by
  induction h with
  | refl t =>
    intro hcon p s hs hname
    exact absurd hname (hcon p s hs)
  | step k t t1 u hr hrest ih =>
    intro hcon p s hs hname
    obtain ⟨q, rule1, l1, r1, hrule1, hm1, hr1, hname1, hsub1, hrep1⟩ := hr
    by_cases hpq : p = q
    · subst hpq
      rw [hs] at hsub1
      cases hsub1
      exact ⟨rule1, hrule1, r1, t1, k, hm1, hr1, hrep1, rfl, hrest⟩
    · obtain ⟨s2, hs2, hname2, hcomm⟩ := rewrite_other_position p q t s l1 r1 t1 hs hsub1
        (hleaf rule1 hrule1 l1 hm1) hrep1 hpq
      obtain ⟨rule, hrule, r, t3, k2, hm, hrr, hrep, hk, hder⟩ :=
        ih hcon p s2 hs2 (by rw [hname2]; exact hname)
      obtain ⟨hss, hall⟩ := hcomm (hleaf rule hrule s2 hm)
      obtain ⟨t2, ht2, ht2q, ht2r⟩ := hall r
      refine ⟨rule, hrule, r, t2, k, by rw [← hss]; exact hm, hrr, ht2, rfl, ?_⟩
      rw [hk]
      exact derives_from.step k2 t2 t3 u
        ⟨q, rule1, l1, r1, hrule1, hm1, hr1, hname1, ht2q, ht2r t3 hrep⟩ hder

theorem derives_from_has_nonterminal (ctx0 : context) (rules : rules_t) (k : Nat) (t u : term)
    (h : derives_from (rule_application ctx0 rules) (k + 1) t u) : ¬ t.concrete := by
  intro hcon
  have := (concrete_derives_from ctx0 rules (k + 1) t u hcon h).1
  omega

theorem deduce_iteration_empty (st : enumerator) (hq : st.candidate_expressions = []) :
    st.deduce_iteration = some { st with quit_enumeration := true } := by
  unfold enumerator.deduce_iteration
  have hemp : st.candidate_expressions.isEmpty = true := by rw [hq]; rfl
  simp only [hemp, if_true, enumerator.is_running, Bool.not_true, Bool.not_false]

theorem deduce_iteration_quit (st : enumerator) (hquit : st.quit_enumeration = true) :
    st.deduce_iteration = some st := by
  unfold enumerator.deduce_iteration
  cases hemp : st.candidate_expressions.isEmpty with
  | true =>
    simp only [if_true, enumerator.is_running, Bool.not_true, Bool.not_false,
      Option.some.injEq]
    cases st
    simp only at hquit
    simp only [hquit]
  | false =>
    simp only [Bool.false_eq_true, if_false, enumerator.is_running, hquit, Bool.not_true,
      Bool.not_false, if_true]

theorem deduce_iteration_bound (st : enumerator) (nc : cexpr_t)
    (hquit : st.quit_enumeration = false)
    (htop : pq_top st.ctx st.candidate_expressions = some nc)
    (hge : max_cost_unsigned st.max_cost ≤ nc.2) :
    st.deduce_iteration = some { st.take_candidate nc with quit_enumeration := true } := by
  unfold enumerator.deduce_iteration
  have hemp : st.candidate_expressions.isEmpty = false := by
    cases hl : st.candidate_expressions with
    | nil => rw [hl] at htop; simp [pq_top] at htop
    | cons x xs => rfl
  have hge2 : nc.2 ≥ max_cost_unsigned (st.take_candidate nc).max_cost := by
    rw [take_candidate_max_cost]; exact hge
  simp only [hemp, Bool.false_eq_true, if_false, enumerator.is_running, hquit, Bool.not_false,
    Bool.not_true, htop, hge2, if_true]

theorem make_fun_no_attr (ctx : context) (hattr : ctx.no_attr) (name : String)
    (children : List Nat) : (ctx.make_fun name children expr_attr_enum._no).2.no_attr := by
  rcases make_fun_exprs ctx name children expr_attr_enum._no with h1 | ⟨h1, _⟩
  · intro i node hi
    rw [h1] at hi
    exact hattr i node hi
  · intro i node hi
    rw [h1] at hi
    by_cases hlt : i < ctx._exprs.length
    · rw [List.getElem?_append_left hlt] at hi
      exact hattr i node hi
    · have hge : ctx._exprs.length ≤ i := Nat.le_of_not_lt hlt
      rw [List.getElem?_append_right hge] at hi
      have h0 : i - ctx._exprs.length = 0 := by
        by_contra hne
        obtain ⟨k, hk⟩ := Nat.exists_eq_succ_of_ne_zero hne
        rw [hk] at hi
        simp at hi
      rw [h0] at hi
      simp only [List.getElem?_cons_zero, Option.some.injEq] at hi
      rw [← hi]

theorem refine_rebuild_total (e index : Nat) (cs : List Nat) :
    ∀ (ctx : context), e < ctx._exprs.length → ctx.no_attr →
      ∃ results ctx2, refine_rebuild e index cs ctx = some (results, ctx2) ∧ ctx2.no_attr := by
  induction cs with
  | nil => intro ctx _ hattr; exact ⟨[], ctx, rfl, hattr⟩
  | cons c cs ih =>
    intro ctx he hattr
    have hn : ctx._exprs[e]? = some ctx._exprs[e] := List.getElem?_eq_getElem he
    unfold refine_rebuild
    simp only [hn]
    have ha := hattr e _ hn
    obtain ⟨results, ctx2, h, hattr2⟩ := ih
      (ctx.make_fun (ctx._exprs[e])._name
        (List.take index (ctx._exprs[e])._children ++ [c] ++
          List.drop (index + 1) (ctx._exprs[e])._children) (ctx._exprs[e])._attr).2
      (Nat.lt_of_lt_of_le he (make_fun_length_le _ _ _ _))
      (by rw [ha]; exact make_fun_no_attr ctx hattr _ _)
    rw [h]
    exact ⟨_, ctx2, rfl, hattr2⟩

theorem refine_path_grows (rules : rules_t) (p : List Nat) (ctx : context) (e : Nat)
    (cands : List Nat) (ctx1 : context) (h : refine_path rules p ctx e = some (cands, ctx1)) :
    ctx.grows ctx1 := by
  have := refine_eq_refine_path rules ctx e ⟨p.reverse, 0⟩
  simp only [List.reverse_reverse] at this
  rw [← this] at h
  exact refine_fuel_grows _ _ _ _ _ _ _ h

theorem refine_path_total (rules : rules_t) (p : List Nat) :
    ∀ (ctx : context) (e d : Nat), ctx.no_attr → ctx.handle_at e p = some d →
      ∃ cands ctx1, refine_path rules p ctx e = some (cands, ctx1) ∧ ctx1.no_attr := by
  induction p with
  | nil => intro ctx e d hattr _; exact ⟨_, ctx, rfl, hattr⟩
  | cons i p ih =>
    intro ctx e d hattr h
    unfold context.handle_at at h
    cases hn : ctx._exprs[e]? with
    | none => simp [hn] at h
    | some node =>
      simp only [hn] at h
      cases hc : node._children[i]? with
      | none => simp [hc] at h
      | some c =>
        simp only [hc] at h
        obtain ⟨cands0, ctx0, hrec, hattr0⟩ := ih ctx c d hattr h
        have hg := refine_path_grows rules p ctx c cands0 ctx0 hrec
        have he0 : e < ctx0._exprs.length :=
          Nat.lt_of_lt_of_le (getElem?_lt_length _ _ _ hn) (grows_length _ _ hg)
        obtain ⟨results, ctx2, hreb, hattr2⟩ := refine_rebuild_total e i cands0 ctx0 he0 hattr0
        refine ⟨results, ctx2, ?_, hattr2⟩
        simp only [refine_path, hn, hc, hrec]
        exact hreb

theorem get_path_position (ctx : context) (wf : ctx.well_formed) (e : Nat)
    (he : e < ctx._exprs.length) (hu : e < UNSIGNED_MOD) :
    ∃ p d, get_path_to_concretizable_element ctx e = some p ∧
      ctx.handle_at e p.indices.reverse = some d ∧
      (ctx.has_nonterminal e → ∃ node, ctx._exprs[d]? = some node ∧ name0 node._name = '_') := by
  obtain ⟨p, hp, hcase⟩ := get_path_cases ctx wf e he hu
  rcases hcase with ⟨h1, h2⟩ | ⟨h1, h2, _⟩
  · refine ⟨p, e, hp, ?_, fun h => absurd h h1⟩
    rw [h2]
    rfl
  · have hv : p.invalid = false := by
      simp only [path_t.invalid, Bool.and_eq_false_imp, List.isEmpty_iff,
        decide_eq_false_iff_not]
      intro hnil
      rw [h2, hnil]
      decide
    obtain ⟨d, node, hd1, hd2, hd3⟩ := get_path_target ctx wf e he hu p hp hv
    exact ⟨p, d, hp, hd1, fun _ => ⟨node, hd2, hd3⟩⟩

/-- Completeness of one refinement step: when a concrete term `u` is derived in
`k + 1` rule applications from the unfolding of `e`, one of the candidates of
`refine_expression_recurse` for the path `get_path_to_concretizable_element`
selects unfolds to a term from which `u` is derived in `k` rule applications. -/
theorem refine_covers (ctx0 : context) (rules : rules_t) (hrules : rules_ok ctx0 rules)
    (hleaf : leaf_matches ctx0 rules) (ctx : context) (ok : ctx.ok) (hg0 : ctx0.grows ctx)
    (e : Nat) (he : e < ctx._exprs.length) (hu : e < UNSIGNED_MOD) (p : path_t)
    (hp : get_path_to_concretizable_element ctx e = some p) (cands : List Nat)
    (ctx1 : context) (href : refine_expression_recurse ctx e p rules = some (cands, ctx1))
    (hsize : ctx1._exprs.length ≤ UNSIGNED_MOD) (t u : term) (k : Nat)
    (ht : ctx.unfold e = some t)
    (hder : derives_from (rule_application ctx0 rules) (k + 1) t u) (hcon : u.concrete) :
    ∃ s ∈ cands, ∃ t2, ctx1.unfold s = some t2 ∧
      derives_from (rule_application ctx0 rules) k t2 u := by
  have hnt : ctx.has_nonterminal e :=
    (has_nonterminal_iff_unfold ctx ok.wf e t ht).2
      (derives_from_has_nonterminal ctx0 rules k t u hder)
  obtain ⟨p2, d, hp2, hd, htarget⟩ := get_path_position ctx ok.wf e he hu
  rw [hp] at hp2
  cases hp2
  obtain ⟨node, hnode, hname⟩ := htarget hnt
  have hdlt := getElem?_lt_length _ _ _ hnode
  obtain ⟨sd, hsd, hsub⟩ := handle_at_unfold ctx ok.wf _ e d t ht hd
  have hsdname : name0 sd.name = '_' := by
    rw [unfold_name ctx ok.wf d node hnode sd hsd]; exact hname
  obtain ⟨rule, hrule, r, t2, k2, hm, hr, hrep, hk, hder2⟩ :=
    selected_nonterminal_rewritten ctx0 rules hleaf (k + 1) t u hder hcon _ sd hsub hsdname
  have hk2 : k2 = k := by omega
  subst hk2
  rw [refine_eq_refine_path] at href
  have hrepl : ∀ r ∈ rules, r.replace < ctx._exprs.length :=
    fun r hr => Nat.lt_of_lt_of_le (hrules r hr).1 (grows_length _ _ hg0)
  obtain ⟨_, _, _, e2, he2, hall⟩ :=
    refine_path_spec rules _ ctx e ok he hrepl cands ctx1 href hsize
  rw [hd] at he2
  cases he2
  obtain ⟨hrlt, mnode, hmnode, _⟩ := hrules rule hrule
  have hmlt := getElem?_lt_length _ _ _ hmnode
  have hm1 : ctx.unfold rule.match_ = some sd := by
    rw [unfold_grows ctx0 ctx hg0 ok.wf _ hmlt]; exact hm
  have hdm : d = rule.match_ :=
    unfold_injective ctx ok.inv ok.wf d rule.match_ sd hdlt
      (Nat.lt_of_lt_of_le hmlt (grows_length _ _ hg0)) hsd hm1
  have hfilter : rule ∈ rules.filter (fun r => decide (d = r.match_)) := by
    rw [List.mem_filter]
    exact ⟨hrule, by simpa using hdm⟩
  obtain ⟨s, hs, t3, tr, t4, ht3, htr, hrep2, hs2⟩ := forall₂_mem_right _ _ _ hall rule hfilter
  rw [ht] at ht3
  cases ht3
  rw [unfold_grows ctx0 ctx hg0 ok.wf _ hrlt, hr] at htr
  cases htr
  rw [hrep] at hrep2
  cases hrep2
  exact ⟨s, hs, t2, hs2, hder2⟩

theorem min_path_loop_total (f : Nat → Option path_t) (cs : List Nat) (i : Nat) (mp : path_t)
    (h : ∀ c ∈ cs, ∃ p, f c = some p) : ∃ r, min_path_loop f cs i mp = some r := by
  induction cs generalizing i mp with
  | nil => exact ⟨mp, rfl⟩
  | cons c cs ih =>
    obtain ⟨p, hp⟩ := h c (List.mem_cons_self c cs)
    simp only [min_path_loop, hp]
    exact ih _ _ (fun x hx => h x (List.mem_cons_of_mem c hx))

theorem get_path_total (ctx : context) (wf : ctx.well_formed) (e : Nat)
    (he : e < ctx._exprs.length) : ∃ p, get_path_to_concretizable_element ctx e = some p := by
  induction e using Nat.strong_induction_on with
  | _ e ih =>
    have hn : ctx._exprs[e]? = some ctx._exprs[e] := List.getElem?_eq_getElem he
    rw [get_path_eq ctx wf e _ hn]
    split
    · exact ⟨_, rfl⟩
    · split
      · exact ⟨_, rfl⟩
      · obtain ⟨r, hr⟩ := min_path_loop_total (get_path_to_concretizable_element ctx)
          (ctx._exprs[e])._children 0 (path_t.init UNSIGNED_MAX) (by
            intro c hc
            have hlt := wf e _ hn c hc
            exact ih c hlt (Nat.lt_trans hlt he))
        rw [hr]
        simp only
        split <;> exact ⟨_, rfl⟩

theorem is_concrete_total (ctx : context) (wf : ctx.well_formed) (e : Nat)
    (he : e < ctx._exprs.length) : ∃ b, is_concrete ctx e = some b := by
  obtain ⟨p, hp⟩ := get_path_total ctx wf e he
  exact ⟨p.invalid, by simp [is_concrete, hp]⟩

theorem refine_rebuild_ok (e index : Nat) (expr : expr_node) (cs : List Nat) :
    ∀ (ctx : context), ctx.ok → ctx._exprs[e]? = some expr →
      (∀ c ∈ cs, c < ctx._exprs.length) →
      ∀ (results : List Nat) (ctx2 : context), refine_rebuild e index cs ctx = some (results, ctx2) →
      ctx2.ok ∧ ∀ s ∈ results, s < ctx2._exprs.length := by
  induction cs with
  | nil =>
    intro ctx ok _ _ results ctx2 h
    simp only [refine_rebuild, Option.some.injEq, Prod.mk.injEq] at h
    rw [← h.1, ← h.2]
    exact ⟨ok, fun s hs => absurd hs (List.not_mem_nil s)⟩
  | cons c cs ih =>
    intro ctx ok hn hcs results ctx2 h
    unfold refine_rebuild at h
    simp only [hn] at h
    generalize hr : refine_rebuild e index cs
      (ctx.make_fun expr._name
        (List.take index expr._children ++ [c] ++ List.drop (index + 1) expr._children)
        expr._attr).2 = r at h
    cases r with
    | none => simp at h
    | some pr =>
      obtain ⟨rs, c3⟩ := pr
      simp only [Option.some.injEq, Prod.mk.injEq] at h
      obtain ⟨h1, h2⟩ := h
      subst h2
      have hchildren : ∀ x ∈ List.take index expr._children ++ [c] ++
          List.drop (index + 1) expr._children, x < ctx._exprs.length := by
        intro x hx
        have hle := getElem?_lt_length _ _ _ hn
        simp only [List.append_assoc, List.mem_append, List.mem_singleton,
          List.mem_cons, List.mem_nil_iff, or_false] at hx
        rcases hx with hx | hx | hx
        · exact Nat.lt_trans (ok.wf e expr hn x (List.mem_of_mem_take hx)) hle
        · rw [hx]; exact hcs c (List.mem_cons_self _ _)
        · exact Nat.lt_trans (ok.wf e expr hn x (List.mem_of_mem_drop hx)) hle
      have hg1 := make_fun_grows ctx expr._name
        (List.take index expr._children ++ [c] ++ List.drop (index + 1) expr._children)
        expr._attr
      have ok1 := make_fun_ok ctx ok expr._name _ expr._attr hchildren
      obtain ⟨ok3, hall⟩ := ih _ ok1 (grows_getElem? _ _ hg1 e expr hn)
        (fun x hx => Nat.lt_of_lt_of_le (hcs x (List.mem_cons_of_mem _ hx)) (grows_length _ _ hg1))
        rs c3 hr
      refine ⟨ok3, ?_⟩
      intro s hs
      rw [← h1] at hs
      rcases List.mem_cons.1 hs with hs1 | hs1
      · rw [hs1]
        exact Nat.lt_of_lt_of_le (make_fun_handle_lt ctx ok.inv _ _ _)
          (grows_length _ _ (refine_rebuild_grows _ _ _ _ _ _ hr))
      · exact hall s hs1

theorem refine_rebuild_length (e index : Nat) (cs : List Nat) :
    ∀ (ctx : context) (results : List Nat) (ctx2 : context),
      refine_rebuild e index cs ctx = some (results, ctx2) → results.length = cs.length := by
  induction cs with
  | nil =>
    intro ctx results ctx2 h
    simp only [refine_rebuild, Option.some.injEq, Prod.mk.injEq] at h
    rw [← h.1]
  | cons c cs ih =>
    intro ctx results ctx2 h
    unfold refine_rebuild at h
    cases hn : ctx._exprs[e]? with
    | none => simp [hn] at h
    | some ex =>
      simp only [hn] at h
      generalize hr : refine_rebuild e index cs
        (ctx.make_fun ex._name
          (List.take index ex._children ++ [c] ++ List.drop (index + 1) ex._children)
          ex._attr).2 = r at h
      cases r with
      | none => simp at h
      | some pr =>
        obtain ⟨rs, c3⟩ := pr
        simp only [Option.some.injEq, Prod.mk.injEq] at h
        rw [← h.1]
        simp only [List.length_cons]
        rw [ih _ rs c3 hr]

theorem refine_path_ok (rules : rules_t) (p : List Nat) :
    ∀ (ctx : context) (e : Nat), ctx.ok → e < ctx._exprs.length →
      (∀ r ∈ rules, r.replace < ctx._exprs.length) →
      ∀ (cands : List Nat) (ctx1 : context), refine_path rules p ctx e = some (cands, ctx1) →
      ctx1.ok ∧ (∀ s ∈ cands, s < ctx1._exprs.length) ∧ cands.length ≤ rules.length := by
  induction p with
  | nil =>
    intro ctx e ok he hrules cands ctx1 h
    simp only [refine_path, Option.some.injEq, Prod.mk.injEq] at h
    obtain ⟨h1, h2⟩ := h
    subst h2
    refine ⟨ok, ?_, ?_⟩
    · intro s hs
      rw [← h1] at hs
      obtain ⟨r, hr, hrs⟩ := List.mem_map.1 hs
      rw [← hrs]
      exact hrules r (List.mem_of_mem_filter hr)
    · rw [← h1, List.length_map]
      exact List.length_filter_le _ _
  | cons i p ih =>
    intro ctx e ok he hrules cands ctx1 h
    unfold refine_path at h
    have hn : ctx._exprs[e]? = some ctx._exprs[e] := List.getElem?_eq_getElem he
    simp only [hn] at h
    cases hc : (ctx._exprs[e])._children[i]? with
    | none => simp [hc] at h
    | some child =>
      simp only [hc] at h
      cases hrec : refine_path rules p ctx child with
      | none => simp [hrec] at h
      | some res =>
        obtain ⟨cands0, ctx0⟩ := res
        simp only [hrec] at h
        have hchild_lt : child < ctx._exprs.length :=
          Nat.lt_trans (ok.wf e _ hn child (List.getElem?_mem hc)) he
        obtain ⟨ok0, hr0, hlen0⟩ := ih ctx child ok hchild_lt hrules cands0 ctx0 hrec
        have hg0 := refine_path_grows rules p ctx child cands0 ctx0 hrec
        obtain ⟨ok1, hr1⟩ := refine_rebuild_ok e i _ cands0 ctx0 ok0
          (grows_getElem? _ _ hg0 e _ hn) hr0 cands ctx1 h
        refine ⟨ok1, hr1, ?_⟩
        have hlen := refine_rebuild_length e i cands0 ctx0 cands ctx1 h
        rw [hlen]
        exact hlen0

/-- The loop over the new candidates on an arena without attributes: no candidate
is rejected, the concrete ones are passed to `on_concrete_expression` and the
others are appended to the queue, all with the cost `cost + 1`. -/
theorem deduce_loop_no_attr (cost : Nat) (cs : List Nat) (en : enumerator)
    (hrun : en.quit_enumeration = false) (wf : en.ctx.well_formed) (hattr : en.ctx.no_attr)
    (hcs : ∀ c ∈ cs, c < en.ctx._exprs.length) :
    ∃ st, deduce_loop cost cs en = some st ∧ st.ctx = en.ctx ∧
      st.quit_enumeration = false ∧ st.rules = en.rules ∧ st.max_cost = en.max_cost ∧
      st.candidate_expressions = en.candidate_expressions ++
        (cs.filter (fun c => decide (is_concrete en.ctx c = some false))).map
          (fun c => (c, (cost + 1) % UNSIGNED_MOD)) ∧
      (∀ ev ∈ en.events, ev ∈ st.events) ∧
      (∀ c ∈ cs, is_concrete en.ctx c = some true →
        event.on_concrete_expression (c, (cost + 1) % UNSIGNED_MOD) ∈ st.events) := by
  induction cs generalizing en with
  | nil =>
    exact ⟨en, rfl, rfl, hrun, rfl, rfl, by simp, fun ev h => h,
      fun c hc => absurd hc (List.not_mem_nil c)⟩
  | cons c cs ih =>
    have hc := hcs c (List.mem_cons_self _ _)
    have hred := is_redundant_no_attr en wf hattr c hc
    obtain ⟨b, hb⟩ := is_concrete_total en.ctx wf c hc
    unfold deduce_loop
    have hctx : (en.on_expression (c, (cost + 1) % UNSIGNED_MOD)).ctx = en.ctx := rfl
    simp only [enumerator.is_running, hrun, Bool.not_false, Bool.not_true, Bool.false_eq_true,
      if_false, hred, hctx, hb]
    cases b with
    | true =>
      obtain ⟨st, h1, h2, h3, h4, h5, h6, h7, h8⟩ :=
        ih ((en.on_expression (c, (cost + 1) % UNSIGNED_MOD)).on_concrete_expression
          (c, (cost + 1) % UNSIGNED_MOD)) hrun wf hattr
          (fun x hx => hcs x (List.mem_cons_of_mem _ hx))
      refine ⟨st, h1, h2, h3, h4, h5, ?_, ?_, ?_⟩
      · rw [h6]
        have : decide (is_concrete en.ctx c = some false) = false := by rw [hb]; rfl
        simp only [List.filter_cons, this, Bool.false_eq_true, if_false]
        rfl
      · intro ev hev
        apply h7
        simp only [enumerator.on_concrete_expression, enumerator.on_expression,
          List.mem_append, List.mem_singleton]
        exact Or.inl (Or.inl hev)
      · intro x hx hxc
        rcases List.mem_cons.1 hx with hx1 | hx1
        · apply h7
          rw [hx1]
          simp only [enumerator.on_concrete_expression, enumerator.on_expression,
            List.mem_append, List.mem_singleton]
          exact Or.inr trivial
        · exact h8 x hx1 hxc
    | false =>
      obtain ⟨st, h1, h2, h3, h4, h5, h6, h7, h8⟩ :=
        ih ((en.on_expression (c, (cost + 1) % UNSIGNED_MOD)).on_abstract_expression
          (c, (cost + 1) % UNSIGNED_MOD)) hrun wf hattr
          (fun x hx => hcs x (List.mem_cons_of_mem _ hx))
      refine ⟨st, h1, h2, h3, h4, h5, ?_, ?_, ?_⟩
      · rw [h6]
        have : decide (is_concrete en.ctx c = some false) = true := by rw [hb]; rfl
        simp only [List.filter_cons, this, if_true, List.map_cons]
        simp only [enumerator.on_abstract_expression, enumerator.on_expression,
          List.append_assoc, List.singleton_append]
      · intro ev hev
        apply h7
        simp only [enumerator.on_abstract_expression, enumerator.on_expression,
          List.mem_append, List.mem_singleton]
        exact Or.inl (Or.inl hev)
      · intro x hx hxc
        rcases List.mem_cons.1 hx with hx1 | hx1
        · rw [hx1, hb] at hxc
          cases hxc
        · exact h8 x hx1 hxc

theorem queue_weight_erase (base bound : Nat) (q : List cexpr_t) (nc : cexpr_t) (h : nc ∈ q) :
    queue_weight base bound (q.erase nc) + (base + 1) ^ (bound - nc.2) =
      queue_weight base bound q := by
  induction q with
  | nil => exact absurd h (List.not_mem_nil nc)
  | cons x xs ih =>
    by_cases hx : x = nc
    · subst hx
      simp only [List.erase_cons_head, queue_weight, List.map_cons, List.sum_cons]
      omega
    · have hmem : nc ∈ xs := by
        rcases List.mem_cons.1 h with h1 | h1
        · exact absurd h1.symm hx
        · exact h1
      have hbeq : (x == nc) = false := by simpa using hx
      simp only [List.erase_cons, hbeq, queue_weight, List.map_cons, List.sum_cons] at ih ⊢
      have := ih hmem
      simp only [Bool.false_eq_true, if_false, List.map_cons, List.sum_cons]
      omega

theorem queue_weight_append (base bound : Nat) (q1 q2 : List cexpr_t) :
    queue_weight base bound (q1 ++ q2) = queue_weight base bound q1 + queue_weight base bound q2 := by
  simp [queue_weight]

theorem queue_weight_map (base bound cost : Nat) (l : List Nat) :
    queue_weight base bound (l.map (fun c => (c, cost))) =
      l.length * (base + 1) ^ (bound - cost) := by
  induction l with
  | nil => simp [queue_weight]
  | cons c cs ih =>
    simp only [queue_weight, List.map_cons, List.sum_cons, List.length_cons] at ih ⊢
    rw [ih, Nat.succ_mul]
    omega

theorem take_candidate_events_mem (st : enumerator) (nc : cexpr_t) (ev : event)
    (h : ev ∈ st.events) : ev ∈ (st.take_candidate nc).events := by
  obtain ⟨evs, hev, _⟩ := take_candidate_events st nc
  rw [hev]
  simp only [List.mem_append, List.mem_singleton]
  exact Or.inl (Or.inl h)

theorem search_inv_quit_step (ctx0 : context) (rules : rules_t) (max_cost : Int) (seed : Nat)
    (st st2 : enumerator) (inv : search_inv ctx0 rules max_cost seed st)
    (hctx : st2.ctx = st.ctx) (hrules : st2.rules = st.rules)
    (hmc : st2.max_cost = st.max_cost)
    (hq : ∀ q ∈ st2.candidate_expressions, q ∈ st.candidate_expressions)
    (hev : ∀ ev ∈ st.events, ev ∈ st2.events)
    (hdone : ∀ q ∈ st2.candidate_expressions, max_cost_unsigned max_cost ≤ q.2)
    (hkeep : ∀ q ∈ st.candidate_expressions, q.2 < max_cost_unsigned max_cost →
      q ∈ st2.candidate_expressions) :
    search_inv ctx0 rules max_cost seed st2 := by
  refine ⟨by rw [hctx]; exact inv.ok, by rw [hctx]; exact inv.grows,
    by rw [hctx]; exact inv.no_attr, by rw [hrules]; exact inv.rules_eq,
    by rw [hmc]; exact inv.max_cost_eq, ?_, fun _ => hdone, ?_⟩
  · intro q hq2
    rw [hctx]
    exact inv.queue_lt q (hq q hq2)
  · intro k t0 u hk1 hk ht0 hcon hder
    rcases inv.covered k t0 u hk1 hk ht0 hcon hder with ⟨s, hs, hu⟩ | ⟨q, hq1, hqk, t, ht, hd⟩
    · exact Or.inl ⟨s, hev _ hs, by rw [hctx]; exact hu⟩
    · exact Or.inr ⟨q, hkeep q hq1 (by omega), hqk, t, by rw [hctx]; exact ht, hd⟩

theorem deduce_succ (st st1 : enumerator) (n : Nat) (h : st.deduce_iteration = some st1) :
    st.deduce (n + 1) = st1.deduce n := by
  conv_lhs => unfold enumerator.deduce
  simp only [h]

theorem deduce_of_quit (st : enumerator) (hquit : st.quit_enumeration = true) (n : Nat) :
    st.deduce n = some st := by
  induction n with
  | zero => rfl
  | succ n ih => rw [deduce_succ st st n (deduce_iteration_quit st hquit)]; exact ih

theorem deduce_add (a b : Nat) (st : enumerator) :
    st.deduce (a + b) = (st.deduce a).bind (fun s => s.deduce b) := by
  induction a generalizing st with
  | zero => simp [enumerator.deduce]
  | succ a ih =>
    cases hit : st.deduce_iteration with
    | none =>
      have h1 : st.deduce (a + 1 + b) = none := by
        rw [show a + 1 + b = (a + b) + 1 by omega]
        conv_lhs => unfold enumerator.deduce
        simp only [hit]
      have h2 : st.deduce (a + 1) = none := by
        conv_lhs => unfold enumerator.deduce
        simp only [hit]
      rw [h1, h2]
      rfl
    | some st1 =>
      rw [show a + 1 + b = (a + b) + 1 by omega, deduce_succ st st1 _ hit,
        deduce_succ st st1 _ hit]
      exact ih st1

theorem seeded_search_inv (ctx : context) (rules : rules_t) (max_cost : Int) (seed : Nat)
    (hr : ctx.reachable) (wf : ctx.well_formed) (hattr : ctx.no_attr)
    (hseed : seed < ctx._exprs.length) :
    search_inv ctx rules max_cost seed (enumerator.seeded ctx rules max_cost [seed]) := by
  obtain ⟨h1, h2, h3, h4, h5, h6⟩ := seeded_fields ctx rules max_cost [seed]
  refine ⟨?_, ?_, ?_, h5, h3, ?_, ?_, ?_⟩
  · rw [h4]; exact ⟨strash_inv_of_reachable ctx hr, wf⟩
  · rw [h4]; exact grows_refl _
  · rw [h4]; exact hattr
  · intro q hq
    rw [h2] at hq
    simp only [List.map_cons, List.map_nil, List.mem_singleton] at hq
    rw [hq, h4]
    exact hseed
  · intro hq
    rw [h6] at hq
    cases hq
  · intro k t0 u hk1 _ ht0 _ hder
    refine Or.inr ⟨(seed, 0), ?_, hk1, t0, by rw [h4]; exact ht0, hder⟩
    rw [h2]
    simp

theorem no_attr_of_check (ctx : context) (h : ctx.no_attr_check = true) : ctx.no_attr := by
  intro i node hi
  unfold context.no_attr_check at h
  rw [List.all_eq_true] at h
  have := h node (List.getElem?_mem hi)
  simpa using this

/-- In the AND/NOT demonstration the concrete term `x0` is derived from the seed
`_N` by one rule application. -/
theorem demo_derives_x0 :
    demo_ctx.unfold 0 = some (term.node "_N" []) ∧ (term.node "x0" []).concrete ∧
    derives (rule_application demo_ctx [⟨0, 1⟩, ⟨0, 2⟩, ⟨0, 3⟩]) 1
      (term.node "_N" []) (term.node "x0" []) := by
  refine ⟨rfl, ?_, ?_⟩
  · intro p s hs
    cases p with
    | nil =>
      simp only [term.subterm_at, Option.some.injEq] at hs
      rw [← hs]
      decide
    | cons i p =>
      simp [term.subterm_at, term.children] at hs
  · refine derives.step 0 _ _ _ (derives.refl _) ?_
    exact ⟨[], ⟨0, 3⟩, term.node "_N" [], term.node "x0" [], by simp, rfl, rfl, by decide,
      rfl, rfl⟩

theorem operator_index_eq (p : path_t) (k : Nat) :
    p.operator_index k = p.indices.reverse[k]? := by
  unfold path_t.operator_index
  by_cases hk : k < p.indices.length
  · simp only [hk, if_true]
    rw [List.getElem?_reverse hk]
  · simp only [hk, if_false]
    rw [List.getElem?_eq_none]
    simp only [List.length_reverse]
    omega

theorem filterMap_getElem?_range {α : Type} (l : List α) :
    (List.range l.length).filterMap (fun k => l[k]?) = l := by
  apply List.ext_getElem?
  intro n
  induction l using List.reverseRecOn generalizing n with
  | nil => simp
  | append_singleton l a ih =>
    simp only [List.length_append, List.length_singleton, List.range_succ, List.filterMap_append]
    have h1 : List.filterMap (fun k => (l ++ [a])[k]?) (List.range l.length) = l := by
      have : List.filterMap (fun k => (l ++ [a])[k]?) (List.range l.length) =
          List.filterMap (fun k => l[k]?) (List.range l.length) := by
        apply List.filterMap_congr
        intro k hk
        rw [List.mem_range] at hk
        exact List.getElem?_append_left hk
      rw [this]
      apply List.ext_getElem?
      exact ih
    rw [h1]
    simp

theorem root_first_eq (p : path_t) : p.root_first = p.indices.reverse := by
  unfold path_t.root_first
  have h : (fun k => p.operator_index k) = (fun k => p.indices.reverse[k]?) := by
    funext k
    exact operator_index_eq p k
  have h2 := filterMap_getElem?_range p.indices.reverse
  rw [List.length_reverse] at h2
  rw [← h] at h2
  exact h2

/-- Every prefix of a position that can be followed can be followed, and the next
index is in range for the children of the node reached by the prefix. -/
theorem handle_at_prefix (ctx : context) (q : List Nat) :
    ∀ (e d k : Nat), ctx.handle_at e q = some d → k < q.length →
      ∃ i dk nd c, q[k]? = some i ∧ ctx.handle_at e (q.take k) = some dk ∧
        ctx._exprs[dk]? = some nd ∧ nd._children[i]? = some c ∧
        ctx.handle_at e (q.take (k + 1)) = some c := by
  induction q with
  | nil =>
    intro e d k _ hk
    exact absurd hk (Nat.not_lt_zero _)
  | cons i q ih =>
    intro e d k h hk
    unfold context.handle_at at h
    cases hn : ctx._exprs[e]? with
    | none => simp [hn] at h
    | some node =>
      simp only [hn] at h
      cases hc : node._children[i]? with
      | none => simp [hc] at h
      | some c =>
        simp only [hc] at h
        cases k with
        | zero =>
          refine ⟨i, e, node, c, by simp, by simp [context.handle_at], hn, hc, ?_⟩
          simp [context.handle_at, hn, hc]
        | succ k =>
          obtain ⟨i2, dk, nd, c2, h1, h2, h3, h4, h5⟩ := ih c d k h (by simpa using hk)
          refine ⟨i2, dk, nd, c2, by simpa using h1, ?_, h3, h4, ?_⟩
          · simp only [List.take_succ_cons, context.handle_at, hn, hc]
            exact h2
          · simp only [List.take_succ_cons, context.handle_at, hn, hc]
            exact h5

theorem valid_of_get_path (ctx : context) (wf : ctx.well_formed) (e : Nat)
    (he : e < ctx._exprs.length) (hu : e < UNSIGNED_MOD) :
    ∃ p, get_path_to_concretizable_element ctx e = some p ∧
      (p.valid = true ↔ ctx.has_nonterminal e) ∧
      (p.valid = true → p.depth = p.indices.length ∧ p.depth ≤ e) := by
  obtain ⟨p, hp, hcase⟩ := get_path_cases ctx wf e he hu
  refine ⟨p, hp, ?_⟩
  rcases hcase with ⟨h1, h2⟩ | ⟨h1, h2, h3⟩
  · have hv : p.valid = false := by rw [h2]; rfl
    simp [hv, h1]
  · have hv : p.valid = true := by
      simp only [path_t.valid, path_t.invalid, Bool.not_eq_true', Bool.and_eq_false_imp,
        List.isEmpty_iff, decide_eq_false_iff_not]
      intro hnil
      rw [h2, hnil]
      decide
    simp [hv, h1, h2, h3]
    omega

/-- C11. Path targets a nonterminal: on a well-formed arena, when the path that
`get_path_to_concretizable_element` returns for a stored handle `e` is valid, its
depth is the number of its indices, every index `path[k]` is in range for the
children of the node reached by the indices before it, and following all indices
from `e` ends at a node whose name begins with an underscore; the path of a
nonterminal is the empty path of depth 0, and the path of a terminal without
children is invalid. -/
theorem path_targets_nonterminal (ctx : context) (wf : ctx.well_formed) (e : Nat)
    (node : expr_node) (hn : ctx._exprs[e]? = some node) (hu : e < UNSIGNED_MOD) :
    ∃ p, get_path_to_concretizable_element ctx e = some p ∧
      (p.valid = true →
        p.depth = p.indices.length ∧ p.root_first.length = p.depth ∧
        (∀ k, k < p.depth → ∃ i d nd c, p.operator_index k = some i ∧
            p.root_first[k]? = some i ∧
            ctx.handle_at e (p.root_first.take k) = some d ∧ ctx._exprs[d]? = some nd ∧
            nd._children[i]? = some c ∧
            ctx.handle_at e (p.root_first.take (k + 1)) = some c) ∧
        ∃ d nd, ctx.handle_at e p.root_first = some d ∧ ctx._exprs[d]? = some nd ∧
          name0 nd._name = '_') ∧
      (name0 node._name = '_' → p.indices = [] ∧ p.depth = 0) ∧
      (name0 node._name ≠ '_' → node._children = [] → p.invalid = true) := by
  have he := getElem?_lt_length _ _ _ hn
  obtain ⟨p, hp, _, hv2⟩ := valid_of_get_path ctx wf e he hu
  refine ⟨p, hp, ?_, ?_, ?_⟩
  · intro hv
    obtain ⟨hdepth, _⟩ := hv2 hv
    have hinv : p.invalid = false := by
      simpa [path_t.valid] using hv
    obtain ⟨d, nd, hd1, hd2, hd3⟩ := get_path_target ctx wf e he hu p hp hinv
    have hlen : p.root_first.length = p.depth := by
      rw [root_first_eq, List.length_reverse, hdepth]
    refine ⟨hdepth, hlen, ?_, d, nd, by rw [root_first_eq]; exact hd1, hd2, hd3⟩
    intro k hk
    rw [← root_first_eq] at hd1
    obtain ⟨i, dk, ndk, c, h1, h2, h3, h4, h5⟩ :=
      handle_at_prefix ctx p.root_first e d k hd1 (by rw [hlen]; exact hk)
    refine ⟨i, dk, ndk, c, ?_, h1, h2, h3, h4, h5⟩
    rw [operator_index_eq, ← root_first_eq]
    exact h1
  · intro hname
    rw [get_path_eq ctx wf e node hn] at hp
    simp only [hname, if_true, Option.some.injEq] at hp
    rw [← hp]
    exact ⟨rfl, rfl⟩
  · intro hname hleaf
    rw [get_path_eq ctx wf e node hn] at hp
    simp only [hname, hleaf, List.length_nil, if_false, if_true, Option.some.injEq] at hp
    rw [← hp]
    rfl

theorem path_targets_nonterminal_witness :
    ∃ p, get_path_to_concretizable_element demo_ctx 2 = some p ∧
      (p.valid = true →
        p.depth = p.indices.length ∧ p.root_first.length = p.depth ∧
        (∀ k, k < p.depth → ∃ i d nd c, p.operator_index k = some i ∧
            p.root_first[k]? = some i ∧
            demo_ctx.handle_at 2 (p.root_first.take k) = some d ∧
            demo_ctx._exprs[d]? = some nd ∧ nd._children[i]? = some c ∧
            demo_ctx.handle_at 2 (p.root_first.take (k + 1)) = some c) ∧
        ∃ d nd, demo_ctx.handle_at 2 p.root_first = some d ∧ demo_ctx._exprs[d]? = some nd ∧
          name0 nd._name = '_') ∧
      (name0 "and" = '_' → p.indices = [] ∧ p.depth = 0) ∧
      (name0 "and" ≠ '_' → [0, 0] = [] → p.invalid = true) :=
  path_targets_nonterminal demo_ctx (well_formed_of_check demo_ctx (by decide)) 2
    ⟨"and", [0, 0], 0⟩ (by decide) (by decide)

/-- The path of `get_path_to_concretizable_element` against an arbitrary position
of a nonterminal: the position is at least as deep as the path, and a position of
the same depth is lexicographically not smaller than the path. -/
theorem get_path_minimal (ctx : context) (wf : ctx.well_formed) (e : Nat)
    (he : e < ctx._exprs.length) (hu : e < UNSIGNED_MOD) (p : path_t)
    (hp : get_path_to_concretizable_element ctx e = some p)
    (q : List Nat) (d : Nat) (nd : expr_node) (hq : ctx.handle_at e q = some d)
    (hd : ctx._exprs[d]? = some nd) (hnd : name0 nd._name = '_') :
    p.depth ≤ q.length ∧ (q.length = p.depth → lex_le p.indices.reverse q = true) := by
  induction e using Nat.strong_induction_on generalizing p q with
  | _ e ih =>
    have hn : ctx._exprs[e]? = some ctx._exprs[e] := List.getElem?_eq_getElem he
    rw [get_path_eq ctx wf e _ hn] at hp
    by_cases hname : name0 (ctx._exprs[e])._name = '_'
    · simp only [hname, if_true, Option.some.injEq] at hp
      rw [← hp]
      exact ⟨Nat.zero_le _, fun _ => rfl⟩
    · cases q with
      | nil =>
        simp only [context.handle_at, Option.some.injEq] at hq
        subst hq
        rw [hn] at hd
        cases hd
        exact absurd hnd hname
      | cons i q =>
        unfold context.handle_at at hq
        simp only [hn] at hq
        cases hci : (ctx._exprs[e])._children[i]? with
        | none => simp [hci] at hq
        | some ci =>
          simp only [hci] at hq
          have hleaf : ¬ (ctx._exprs[e])._children.length = 0 := by
            have := getElem?_lt_length _ _ _ hci
            omega
          simp only [hname, hleaf, if_false] at hp
          have hch : ∀ c ∈ (ctx._exprs[e])._children,
              get_path_to_concretizable_element ctx c =
                some ((get_path_to_concretizable_element ctx c).getD (path_t.init 0)) := by
            intro c hc
            have hlt := wf e _ hn c hc
            obtain ⟨p, hp, _⟩ := get_path_cases ctx wf c (Nat.lt_trans hlt he)
              (Nat.lt_trans hlt hu)
            rw [hp]
            rfl
          obtain ⟨r, hr, hcase⟩ := min_path_loop_spec (get_path_to_concretizable_element ctx)
            (fun c => (get_path_to_concretizable_element ctx c).getD (path_t.init 0))
            (ctx._exprs[e])._children 0 (path_t.init UNSIGNED_MAX) hch
          rw [hr] at hp
          have hcimem : ci ∈ (ctx._exprs[e])._children := List.getElem?_mem hci
          have hcilt := wf e _ hn ci hcimem
          obtain ⟨pi, hpi, hpicase⟩ := get_path_cases ctx wf ci (Nat.lt_trans hcilt he)
            (Nat.lt_trans hcilt hu)
          have hnt : ctx.has_nonterminal ci := ⟨d, nd, handle_at_subterm ctx q ci d hq, hd, hnd⟩
          have hpile : pi.depth ≤ ci := by
            rcases hpicase with ⟨h1, _⟩ | ⟨_, _, h3⟩
            · exact absurd hnt h1
            · exact h3
          obtain ⟨ihd, ihlex⟩ := ih ci hcilt (Nat.lt_trans hcilt he) (Nat.lt_trans hcilt hu)
            pi hpi q hq
          rcases hcase with ⟨_, hall⟩ | ⟨j, cj, hj, hrj, hdj, hmin, hleft⟩
          · have := hall ci hcimem
            simp only [hpi, Option.getD_some, path_t.init] at this
            simp only [UNSIGNED_MAX, UNSIGNED_MOD] at this hu
            omega
          · have hcj : cj ∈ (ctx._exprs[e])._children := List.getElem?_mem hj
            have hcjlt := wf e _ hn cj hcj
            obtain ⟨pj, hpj, _⟩ := get_path_cases ctx wf cj (Nat.lt_trans hcjlt he)
              (Nat.lt_trans hcjlt hu)
            have hminci := hmin ci hcimem
            simp only [hpj, hpi, Option.getD_some, path_t.init] at hdj hrj hminci
            have hrl : r.lt (path_t.init UNSIGNED_MAX) = true := by
              rw [hrj]
              simp only [path_t.lt, path_t.init, path_t.push_front, decide_eq_true_eq]
              exact hdj
            simp only [hrl, if_true, Option.some.injEq] at hp
            have hpd : p.depth = pj.depth + 1 := by
              rw [← hp, hrj]
              simp only [path_t.incr_depth, path_t.push_front]
              apply Nat.mod_eq_of_lt
              simp only [UNSIGNED_MAX, UNSIGNED_MOD] at hdj ⊢
              omega
            have hpi2 : p.indices.reverse = j :: pj.indices.reverse := by
              rw [← hp, hrj]
              simp [path_t.incr_depth, path_t.push_front]
            refine ⟨by simp only [List.length_cons]; omega, ?_⟩
            intro hlen
            simp only [List.length_cons] at hlen
            have hdeq : pi.depth = pj.depth := by omega
            rw [hpi2]
            rcases Nat.lt_trichotomy i j with hij | hij | hij
            · have := hleft i ci hij hci
              simp only [hpj, hpi, Option.getD_some] at this
              omega
            · subst hij
              rw [hci] at hj
              cases hj
              rw [hpi] at hpj
              cases hpj
              simp only [lex_le, Nat.lt_irrefl, decide_False, decide_True, Bool.true_and,
                Bool.false_or]
              exact ihlex (by omega)
            · simp [lex_le, hij]

/-- C12. Path selection is minimum-depth, leftmost: for a stored handle `e` of a
well-formed arena from which a nonterminal is reachable, the path of
`get_path_to_concretizable_element` is valid and is itself the position of a
nonterminal; no nonterminal occurs at a position shorter than the depth of the
path, and the index sequence of the path, read root first, is lexicographically
at most every position of a nonterminal of that depth. -/
theorem path_minimum_depth_leftmost (ctx : context) (wf : ctx.well_formed) (e : Nat)
    (he : e < ctx._exprs.length) (hu : e < UNSIGNED_MOD) (habs : ctx.has_nonterminal e) :
    ∃ p, get_path_to_concretizable_element ctx e = some p ∧ p.valid = true ∧
      p.root_first.length = p.depth ∧
      (∃ d nd, ctx.handle_at e p.root_first = some d ∧ ctx._exprs[d]? = some nd ∧
        name0 nd._name = '_') ∧
      ∀ (q : List Nat) (d : Nat) (nd : expr_node), ctx.handle_at e q = some d →
        ctx._exprs[d]? = some nd → name0 nd._name = '_' →
        p.depth ≤ q.length ∧ (q.length = p.depth → lex_le p.root_first q = true) := by
  obtain ⟨p, hp, hv1, hv2⟩ := valid_of_get_path ctx wf e he hu
  have hv : p.valid = true := hv1.2 habs
  have hinv : p.invalid = false := by simpa [path_t.valid] using hv
  obtain ⟨d, nd, hd1, hd2, hd3⟩ := get_path_target ctx wf e he hu p hp hinv
  refine ⟨p, hp, hv, ?_, ⟨d, nd, by rw [root_first_eq]; exact hd1, hd2, hd3⟩, ?_⟩
  · rw [root_first_eq, List.length_reverse, (hv2 hv).1]
  · intro q d2 nd2 hq hd hnd
    rw [root_first_eq]
    exact get_path_minimal ctx wf e he hu p hp q d2 nd2 hq hd hnd

theorem path_minimum_depth_leftmost_witness :
    ∃ p, get_path_to_concretizable_element tie_ctx 4 = some p ∧ p.valid = true ∧
      p.root_first.length = p.depth ∧
      (∃ d nd, tie_ctx.handle_at 4 p.root_first = some d ∧ tie_ctx._exprs[d]? = some nd ∧
        name0 nd._name = '_') ∧
      ∀ (q : List Nat) (d : Nat) (nd : expr_node), tie_ctx.handle_at 4 q = some d →
        tie_ctx._exprs[d]? = some nd → name0 nd._name = '_' →
        p.depth ≤ q.length ∧ (q.length = p.depth → lex_le p.root_first q = true) :=
  path_minimum_depth_leftmost tie_ctx (well_formed_of_check tie_ctx (by decide)) 4
    (by decide) (by decide)
    ⟨2, ⟨"_B", [], 0⟩, context.subterm.step 4 ⟨"f", [3, 2, 1], 0⟩ 2 2 (by decide) (by decide)
      (context.subterm.refl 2), by decide, by decide⟩

/-- In the arena `tie_ctx` the path of `f(g(_A), _B, _A)` selects the second child:
the first child holds a nonterminal only at depth 2, and the third child, which
ties with the second, does not replace it. -/
theorem tie_ctx_path :
    get_path_to_concretizable_element tie_ctx 4 = some ⟨[1], 1⟩ := by decide

theorem handle_at_grows (ctx ctx2 : context) (hg : ctx.grows ctx2) (p : List Nat) :
    ∀ (e d : Nat), ctx.handle_at e p = some d → ctx2.handle_at e p = some d := by
  induction p with
  | nil => intro e d h; exact h
  | cons i p ih =>
    intro e d h
    unfold context.handle_at at h
    cases hn : ctx._exprs[e]? with
    | none => simp [hn] at h
    | some node =>
      simp only [hn] at h
      cases hc : node._children[i]? with
      | none => simp [hc] at h
      | some c =>
        simp only [hc] at h
        simp only [context.handle_at, grows_getElem? _ _ hg e node hn, hc]
        exact ih c d h

/-- The rebuild loop returns whenever `e` is a stored handle. -/
theorem refine_rebuild_some (e index : Nat) (cs : List Nat) :
    ∀ (ctx : context), e < ctx._exprs.length →
      ∃ results ctx2, refine_rebuild e index cs ctx = some (results, ctx2) := by
  induction cs with
  | nil => intro ctx _; exact ⟨[], ctx, rfl⟩
  | cons c cs ih =>
    intro ctx he
    have hn : ctx._exprs[e]? = some ctx._exprs[e] := List.getElem?_eq_getElem he
    unfold refine_rebuild
    simp only [hn]
    obtain ⟨results, ctx2, h⟩ := ih
      (ctx.make_fun (ctx._exprs[e])._name
        (List.take index (ctx._exprs[e])._children ++ [c] ++
          List.drop (index + 1) (ctx._exprs[e])._children) (ctx._exprs[e])._attr).2
      (Nat.lt_of_lt_of_le he (make_fun_length_le _ _ _ _))
    rw [h]
    exact ⟨_, ctx2, rfl⟩

/-- Refinement along a position that can be followed in the arena returns. -/
theorem refine_path_some (rules : rules_t) (p : List Nat) :
    ∀ (ctx : context) (e d : Nat), ctx.handle_at e p = some d →
      ∃ cands ctx1, refine_path rules p ctx e = some (cands, ctx1) := by
  induction p with
  | nil => intro ctx e d _; exact ⟨_, ctx, rfl⟩
  | cons i p ih =>
    intro ctx e d h
    unfold context.handle_at at h
    cases hn : ctx._exprs[e]? with
    | none => simp [hn] at h
    | some node =>
      simp only [hn] at h
      cases hc : node._children[i]? with
      | none => simp [hc] at h
      | some c =>
        simp only [hc] at h
        obtain ⟨cands0, ctx0, hrec⟩ := ih ctx c d h
        have hg := refine_path_grows rules p ctx c cands0 ctx0 hrec
        have he0 : e < ctx0._exprs.length :=
          Nat.lt_of_lt_of_le (getElem?_lt_length _ _ _ hn) (grows_length _ _ hg)
        obtain ⟨results, ctx2, hreb⟩ := refine_rebuild_some e i cands0 ctx0 he0
        refine ⟨results, ctx2, ?_⟩
        simp only [refine_path, hn, hc, hrec]
        exact hreb

/-- The candidates of a refinement carry the replacement handle of their rule at
the refined position. -/
theorem refine_path_handle_at (rules : rules_t) (p : List Nat) :
    ∀ (ctx : context) (e : Nat), ctx.ok → e < ctx._exprs.length →
      (∀ r ∈ rules, r.replace < ctx._exprs.length) →
      ∀ (cands : List Nat) (ctx1 : context), refine_path rules p ctx e = some (cands, ctx1) →
      ctx1._exprs.length ≤ UNSIGNED_MOD →
      ∃ e2, ctx.handle_at e p = some e2 ∧
        List.Forall₂ (fun s r => ctx1.handle_at s p = some r.replace)
          cands (rules.filter (fun r => decide (e2 = r.match_))) := by
  induction p with
  | nil =>
    intro ctx e ok he hrules cands ctx1 h _
    simp only [refine_path, Option.some.injEq, Prod.mk.injEq] at h
    obtain ⟨h1, h2⟩ := h
    subst h2
    refine ⟨e, rfl, ?_⟩
    rw [← h1, List.forall₂_map_left_iff, List.forall₂_same]
    intro r _
    rfl
  | cons i p ih =>
    intro ctx e ok he hrules cands ctx1 h hsize
    unfold refine_path at h
    have hn : ctx._exprs[e]? = some ctx._exprs[e] := List.getElem?_eq_getElem he
    simp only [hn] at h
    cases hc : (ctx._exprs[e])._children[i]? with
    | none => simp [hc] at h
    | some child =>
      simp only [hc] at h
      cases hrec : refine_path rules p ctx child with
      | none => simp [hrec] at h
      | some res =>
        obtain ⟨cands0, ctx0⟩ := res
        simp only [hrec] at h
        have hchild : child ∈ (ctx._exprs[e])._children := List.getElem?_mem hc
        have hchild_lt : child < ctx._exprs.length :=
          Nat.lt_trans (ok.wf e _ hn child hchild) he
        have hg2 := refine_rebuild_grows e i cands0 ctx0 cands ctx1 h
        have hsize0 := Nat.le_trans (grows_length _ _ hg2) hsize
        obtain ⟨ok0, hg0, hr0, _⟩ := refine_path_spec rules p ctx child ok hchild_lt hrules
          cands0 ctx0 hrec hsize0
        obtain ⟨e2, he2, hall0⟩ := ih ctx child ok hchild_lt hrules cands0 ctx0 hrec hsize0
        have hidx : i < (ctx._exprs[e])._children.length := getElem?_lt_length _ _ _ hc
        obtain ⟨_, _, hall1⟩ := refine_rebuild_spec e i _ cands0 ctx0 ok0
          (grows_getElem? _ _ hg0 e _ hn) hidx hr0 cands ctx1 h hsize
        refine ⟨e2, ?_, ?_⟩
        · simp only [context.handle_at, hn, hc]
          exact he2
        · refine (forall₂_comp _ _ _ _ _ hall1 hall0).imp ?_
          rintro s r ⟨c, _, ⟨node, hnode, _, hch⟩, hcr⟩
          have hci : node._children[i]? = some c := by
            rw [hch]
            simp [hidx]
          simp only [context.handle_at, hnode, hci]
          exact handle_at_grows ctx0 ctx1 hg2 p c _ hcr

theorem forall₂_and {α β : Type} (A B : α → β → Prop) (xs : List α) (ys : List β)
    (h1 : List.Forall₂ A xs ys) (h2 : List.Forall₂ B xs ys) :
    List.Forall₂ (fun x y => A x y ∧ B x y) xs ys := by
  induction h1 with
  | nil => exact List.Forall₂.nil
  | cons ha _ ih =>
    cases h2 with
    | cons hb hbs => exact List.Forall₂.cons ⟨ha, hb⟩ (ih hbs)

/-- C13. Refinement yields one successor per matching rule, in declaration order:
for a stored handle `e` of a reachable, well-formed arena, with `p` the path of
`get_path_to_concretizable_element` and `t` the handle at position `p` (a
nonterminal when `e` is abstract), `refine_expression_recurse` returns; for the
empty path the result is the list of replacements of the rules matching `e` and
the arena is unchanged; and, while the arena stays within `2^32` nodes, the
results are paired in order with the rules whose `match` equals `t`: the result
has the replacement handle of its rule at position `p` and unfolds to the
unfolding of `e` with the subterm at `p` replaced by the unfolding of the
replacement. -/
theorem refinement_successors (ctx : context) (hr : ctx.reachable) (wf : ctx.well_formed)
    (rules : rules_t) (hrules : ∀ r ∈ rules, r.replace < ctx._exprs.length) (e : Nat)
    (he : e < ctx._exprs.length) (hu : e < UNSIGNED_MOD) :
    ∃ p t results ctx1, get_path_to_concretizable_element ctx e = some p ∧
      ctx.handle_at e p.root_first = some t ∧
      (ctx.has_nonterminal e → ∃ nd, ctx._exprs[t]? = some nd ∧ name0 nd._name = '_') ∧
      refine_expression_recurse ctx e p rules = some (results, ctx1) ∧
      (p.indices = [] → t = e ∧ ctx1 = ctx ∧
        results = (rules.filter (fun r => decide (e = r.match_))).map (fun r => r.replace)) ∧
      (ctx1._exprs.length ≤ UNSIGNED_MOD →
        results.length = (rules.filter (fun r => decide (t = r.match_))).length ∧
        List.Forall₂ (fun s r => ctx1.handle_at s p.root_first = some r.replace ∧
            ∃ te tr t2, ctx.unfold e = some te ∧ ctx.unfold r.replace = some tr ∧
              te.replace_at p.root_first tr = some t2 ∧ ctx1.unfold s = some t2)
          results (rules.filter (fun r => decide (t = r.match_)))) := by
  have ok : ctx.ok := ⟨strash_inv_of_reachable ctx hr, wf⟩
  obtain ⟨p, t, hp, ht, hnt⟩ := get_path_position ctx wf e he hu
  rw [← root_first_eq] at ht
  obtain ⟨results, ctx1, href⟩ := refine_path_some rules p.root_first ctx e t ht
  have href2 : refine_expression_recurse ctx e p rules = some (results, ctx1) := by
    rw [refine_eq_refine_path, ← root_first_eq]
    exact href
  refine ⟨p, t, results, ctx1, hp, ht, hnt, href2, ?_, ?_⟩
  · intro hnil
    have hrf : p.root_first = [] := by rw [root_first_eq, hnil]; rfl
    rw [hrf] at ht href
    simp only [context.handle_at, Option.some.injEq] at ht
    simp only [refine_path, Option.some.injEq, Prod.mk.injEq] at href
    exact ⟨ht.symm, href.2.symm, href.1.symm⟩
  · intro hsize
    obtain ⟨_, _, _, e2, he2, hall⟩ := refine_path_spec rules p.root_first ctx e ok he hrules
      results ctx1 href hsize
    obtain ⟨e3, he3, hall3⟩ := refine_path_handle_at rules p.root_first ctx e ok he hrules
      results ctx1 href hsize
    rw [ht] at he2 he3
    cases he2
    cases he3
    refine ⟨hall.length_eq, ?_⟩
    have hboth := forall₂_and _ _ _ _ hall3 hall
    exact hboth

theorem refinement_successors_witness :
    ∃ p t results ctx1, get_path_to_concretizable_element demo_ctx 2 = some p ∧
      demo_ctx.handle_at 2 p.root_first = some t ∧
      (demo_ctx.has_nonterminal 2 →
        ∃ nd, demo_ctx._exprs[t]? = some nd ∧ name0 nd._name = '_') ∧
      refine_expression_recurse demo_ctx 2 p [⟨0, 1⟩, ⟨0, 2⟩, ⟨0, 3⟩] = some (results, ctx1) ∧
      (p.indices = [] → t = 2 ∧ ctx1 = demo_ctx ∧
        results = (List.filter (fun r => decide (2 = r.match_))
          ([⟨0, 1⟩, ⟨0, 2⟩, ⟨0, 3⟩] : rules_t)).map (fun r => r.replace)) ∧
      (ctx1._exprs.length ≤ UNSIGNED_MOD →
        results.length = (List.filter (fun r => decide (t = r.match_))
          ([⟨0, 1⟩, ⟨0, 2⟩, ⟨0, 3⟩] : rules_t)).length ∧
        List.Forall₂ (fun s r => ctx1.handle_at s p.root_first = some r.replace ∧
            ∃ te tr t2, demo_ctx.unfold 2 = some te ∧ demo_ctx.unfold r.replace = some tr ∧
              te.replace_at p.root_first tr = some t2 ∧ ctx1.unfold s = some t2)
          results (List.filter (fun r => decide (t = r.match_))
            ([⟨0, 1⟩, ⟨0, 2⟩, ⟨0, 3⟩] : rules_t))) :=
  refinement_successors demo_ctx demo_ctx_reachable (well_formed_of_check demo_ctx (by decide))
    [⟨0, 1⟩, ⟨0, 2⟩, ⟨0, 3⟩] (by decide) 2 (by decide) (by decide)

/-- The refinement of `and(_N,_N)` in the AND/NOT demonstration: the first `_N` is
replaced by the replacement of each of the three rules, in the order of the
rules. -/
theorem demo_refine_and :
    get_path_to_concretizable_element demo_ctx 2 = some ⟨[0], 1⟩ ∧
    (refine_expression_recurse demo_ctx 2 ⟨[0], 1⟩ [⟨0, 1⟩, ⟨0, 2⟩, ⟨0, 3⟩]).map (fun r => r.1) =
      some [4, 5, 6] ∧
    (refine_expression_recurse demo_ctx 2 ⟨[0], 1⟩ [⟨0, 1⟩, ⟨0, 2⟩, ⟨0, 3⟩]).map
      (fun r => r.2._exprs.drop 4) =
      some [⟨"and", [1, 0], 0⟩, ⟨"and", [2, 0], 0⟩, ⟨"and", [3, 0], 0⟩] := by
  decide

theorem refine_rebuild_reachable (e index : Nat) (cs : List Nat) :
    ∀ (ctx : context) (results : List Nat) (ctx2 : context), ctx.reachable →
      refine_rebuild e index cs ctx = some (results, ctx2) → ctx2.reachable := by
  induction cs with
  | nil =>
    intro ctx results ctx2 hr h
    simp only [refine_rebuild, Option.some.injEq, Prod.mk.injEq] at h
    rw [← h.2]
    exact hr
  | cons c cs ih =>
    intro ctx results ctx2 hr h
    unfold refine_rebuild at h
    cases hn : ctx._exprs[e]? with
    | none => simp [hn] at h
    | some expr =>
      simp only [hn] at h
      generalize hrest : refine_rebuild e index cs
        (ctx.make_fun expr._name
          (List.take index expr._children ++ [c] ++ List.drop (index + 1) expr._children)
          expr._attr).2 = r at h
      cases r with
      | none => simp at h
      | some pr =>
        obtain ⟨rs, c3⟩ := pr
        simp only [Option.some.injEq, Prod.mk.injEq] at h
        rw [← h.2]
        exact ih _ rs c3 (context.reachable.make_fun _ _ _ _ hr) hrest

theorem refine_path_reachable (rules : rules_t) (p : List Nat) :
    ∀ (ctx : context) (e : Nat) (cands : List Nat) (ctx1 : context), ctx.reachable →
      refine_path rules p ctx e = some (cands, ctx1) → ctx1.reachable := by
  induction p with
  | nil =>
    intro ctx e cands ctx1 hr h
    simp only [refine_path, Option.some.injEq, Prod.mk.injEq] at h
    rw [← h.2]
    exact hr
  | cons i p ih =>
    intro ctx e cands ctx1 hr h
    unfold refine_path at h
    cases hn : ctx._exprs[e]? with
    | none => simp [hn] at h
    | some expr =>
      simp only [hn] at h
      cases hc : expr._children[i]? with
      | none => simp [hc] at h
      | some child =>
        simp only [hc] at h
        cases hrec : refine_path rules p ctx child with
        | none => simp [hrec] at h
        | some res =>
          obtain ⟨cands0, ctx0⟩ := res
          simp only [hrec] at h
          exact refine_rebuild_reachable e i cands0 ctx0 cands ctx1
            (ih ctx child cands0 ctx0 hr hrec) h

/-- The nodes at the handles that the rebuild loop returns, on an arena that
satisfies the table invariant and stays within `2^32` nodes: each has the name of
`e` and the children of `e` with the candidate between the children before and
after `index`; a node at a handle not below `base` has the attribute set of `e`,
when this holds for the nodes of the arena in which the loop starts. -/
theorem refine_rebuild_nodes (e index : Nat) (expr : expr_node) (base : Nat) (cs : List Nat) :
    ∀ (ctx : context), ctx.strash_inv → ctx._exprs[e]? = some expr →
      (∀ (j : Nat) (nd : expr_node), base ≤ j → ctx._exprs[j]? = some nd →
        nd._attr = expr._attr) →
      ∀ (results : List Nat) (ctx2 : context),
      refine_rebuild e index cs ctx = some (results, ctx2) →
      ctx2._exprs.length ≤ UNSIGNED_MOD →
      List.Forall₂ (fun s c => ∃ node, ctx2._exprs[s]? = some node ∧
        node._name = expr._name ∧
        node._children =
          expr._children.take index ++ [c] ++ expr._children.drop (index + 1) ∧
        (base ≤ s → node._attr = expr._attr)) results cs := by
  induction cs with
  | nil =>
    intro ctx _ _ _ results ctx2 h _
    simp only [refine_rebuild, Option.some.injEq, Prod.mk.injEq] at h
    rw [← h.1]
    exact List.Forall₂.nil
  | cons c cs ih =>
    intro ctx inv hn hbase results ctx2 h hsize
    unfold refine_rebuild at h
    simp only [hn] at h
    generalize hr : refine_rebuild e index cs
      (ctx.make_fun expr._name
        (List.take index expr._children ++ [c] ++ List.drop (index + 1) expr._children)
        expr._attr).2 = r at h
    cases r with
    | none => simp at h
    | some pr =>
      obtain ⟨rs, c3⟩ := pr
      simp only [Option.some.injEq, Prod.mk.injEq] at h
      obtain ⟨h1, h2⟩ := h
      subst h2
      have hg3 := refine_rebuild_grows e index cs _ rs c3 hr
      have hbase1 : ∀ (j : Nat) (nd : expr_node), base ≤ j →
          (ctx.make_fun expr._name
            (List.take index expr._children ++ [c] ++ List.drop (index + 1) expr._children)
            expr._attr).2._exprs[j]? = some nd → nd._attr = expr._attr := by
        intro j nd hj hnd
        rcases make_fun_exprs ctx expr._name
          (List.take index expr._children ++ [c] ++ List.drop (index + 1) expr._children)
          expr._attr with h3 | ⟨h3, _⟩
        · rw [h3] at hnd
          exact hbase j nd hj hnd
        · rw [h3] at hnd
          by_cases hlt : j < ctx._exprs.length
          · rw [List.getElem?_append_left hlt] at hnd
            exact hbase j nd hj hnd
          · rw [List.getElem?_append_right (Nat.le_of_not_lt hlt)] at hnd
            cases hk : j - ctx._exprs.length with
            | zero =>
              rw [hk] at hnd
              simp only [List.getElem?_cons_zero, Option.some.injEq] at hnd
              rw [← hnd]
            | succ k =>
              rw [hk] at hnd
              simp at hnd
      have hall := ih _ (strash_inv_make_fun ctx _ _ _ inv) (make_fun_getElem? ctx _ _ _ e expr hn)
        hbase1 rs c3 hr hsize
      rw [← h1]
      refine List.Forall₂.cons ?_ hall
      obtain ⟨node, hnode, hname, hch⟩ := make_fun_node ctx inv expr._name
        (List.take index expr._children ++ [c] ++ List.drop (index + 1) expr._children)
        expr._attr (Nat.le_trans (grows_length _ _ hg3) hsize)
      exact ⟨node, grows_getElem? _ _ hg3 _ _ hnode, hname, hch,
        fun hb => hbase1 _ node hb hnode⟩

/-- The first step of `refine_expression_recurse` on a non-empty path. -/
theorem refine_expression_recurse_step (ctx : context) (rules : rules_t) (e : Nat)
    (expr : expr_node) (hn : ctx._exprs[e]? = some expr) (path : path_t) (i : Nat)
    (hidx : path.operator_index 0 = some i) (child : Nat)
    (hchild : expr._children[i]? = some child) (cands : List Nat) (ctx1 : context)
    (hrec : refine_expression_recurse ctx child path.pop_front rules = some (cands, ctx1)) :
    refine_expression_recurse ctx e path rules = refine_rebuild e i cands ctx1 := by
  have hpos : 0 < path.indices.length := by
    unfold path_t.operator_index at hidx
    by_contra hne
    simp [hne] at hidx
  rw [refine_eq_refine_path] at hrec ⊢
  rw [operator_index_eq] at hidx
  have hrev : path.indices.reverse = i :: path.pop_front.indices.reverse := by
    rcases List.eq_nil_or_concat path.indices with hnil | ⟨init, last, hl⟩
    · rw [hnil] at hpos
      exact absurd hpos (Nat.lt_irrefl _)
    · rw [hl] at hidx
      simp only [List.concat_eq_append, List.reverse_append, List.reverse_cons,
        List.reverse_nil, List.nil_append, List.singleton_append, List.getElem?_cons_zero,
        Option.some.injEq] at hidx
      simp [path_t.pop_front, hl, hidx]
  rw [hrev]
  simp only [refine_path, hn, hchild, hrec]

/-- C14, counterexample. In the arena `x0`, `f(x0)`, `_N`, `f(_N)`, built by four
calls of `make_fun`, where `f(x0)` carries `_no_double_application` and `f(_N)`
carries no attribute, refining `f(_N)` (handle 3) along its path `[0]` with the
rule `_N -> x0` returns handle 1: the node stored there has the name of `f(_N)`
and the children `[x0]`, but the attribute set `_no_double_application`, not the
attribute set `_no` of `f(_N)`. -/
theorem refine_attr_counterexample :
    attr_clash_ctx.reachable ∧
    attr_clash_ctx._exprs[3]? = some ⟨"f", [2], expr_attr_enum._no⟩ ∧
    get_path_to_concretizable_element attr_clash_ctx 3 = some ⟨[0], 1⟩ ∧
    refine_expression_recurse attr_clash_ctx 3 ⟨[0], 1⟩ [⟨2, 0⟩] = some ([1], attr_clash_ctx) ∧
    attr_clash_ctx._exprs[1]? = some ⟨"f", [0], expr_attr_enum._no_double_application⟩ ∧
    expr_attr_enum._no_double_application ≠ expr_attr_enum._no :=
  ⟨context.reachable.make_fun _ _ _ _ (context.reachable.make_fun _ _ _ _
      (context.reachable.make_fun _ _ _ _ (context.reachable.make_fun _ _ _ _
        context.reachable.empty))),
    by decide, by decide, by decide, by decide, by decide⟩

/-- C14, amended. Rebuild step of refinement: in a reachable arena, for a stored
handle `e`, a path whose head index `i` is in range for the children of `e`, and
the refined children `C` that the recursive call on child `i` returns in the
arena `ctx1`, the call for `e` returns a list `results` paired in order with `C`;
while the arena stays within `2^32` nodes, each result denotes a node whose name
is the name of `e` and whose children list is `e.children` with position `i`
replaced by the refined child; the node has the attribute set of `e` when it is
not a node of `ctx1`, and otherwise it is the node that `ctx1` already stores at
that handle, with the attribute set it was interned with. -/
theorem refine_rebuild_step (ctx : context) (hr : ctx.reachable) (rules : rules_t) (e : Nat)
    (expr : expr_node) (hn : ctx._exprs[e]? = some expr) (path : path_t) (i : Nat)
    (hidx : path.operator_index 0 = some i) (child : Nat)
    (hchild : expr._children[i]? = some child) (cands : List Nat) (ctx1 : context)
    (hrec : refine_expression_recurse ctx child path.pop_front rules = some (cands, ctx1)) :
    ∃ results ctx2, refine_expression_recurse ctx e path rules = some (results, ctx2) ∧
      ctx.grows ctx1 ∧ ctx1.grows ctx2 ∧ results.length = cands.length ∧
      (ctx2._exprs.length ≤ UNSIGNED_MOD →
        List.Forall₂ (fun s c => ∃ node, ctx2._exprs[s]? = some node ∧
          node._name = expr._name ∧ node._children = expr._children.set i c ∧
          (ctx1._exprs.length ≤ s → node._attr = expr._attr) ∧
          (s < ctx1._exprs.length → ctx1._exprs[s]? = some node)) results cands) := by
  have hstep := refine_expression_recurse_step ctx rules e expr hn path i hidx child hchild
    cands ctx1 hrec
  have hrec2 := hrec
  rw [refine_eq_refine_path] at hrec2
  have hg1 := refine_path_grows rules _ ctx child cands ctx1 hrec2
  have hr1 := refine_path_reachable rules _ ctx child cands ctx1 hr hrec2
  have hn1 := grows_getElem? _ _ hg1 e expr hn
  obtain ⟨results, ctx2, hreb⟩ := refine_rebuild_some e i cands ctx1
    (getElem?_lt_length _ _ _ hn1)
  have hg2 := refine_rebuild_grows e i cands ctx1 results ctx2 hreb
  refine ⟨results, ctx2, by rw [hstep]; exact hreb, hg1, hg2,
    refine_rebuild_length e i cands ctx1 results ctx2 hreb, ?_⟩
  intro hsize
  have hall := refine_rebuild_nodes e i expr ctx1._exprs.length cands ctx1
    (strash_inv_of_reachable ctx1 hr1) hn1
    (fun j nd hj hnd => absurd (getElem?_lt_length _ _ _ hnd) (Nat.not_lt.2 hj))
    results ctx2 hreb hsize
  refine hall.imp ?_
  rintro s c ⟨node, hnode, hname, hch, hattr⟩
  refine ⟨node, hnode, hname, ?_, hattr, ?_⟩
  · rw [hch, List.set_eq_take_append_cons_drop]
    simp [getElem?_lt_length _ _ _ hchild]
  · intro hs
    obtain ⟨t, ht⟩ := hg2
    rw [ht, List.getElem?_append_left hs] at hnode
    exact hnode

theorem refine_rebuild_step_witness :
    ∃ results ctx2, refine_expression_recurse demo_ctx 2 ⟨[0], 1⟩
        [⟨0, 1⟩, ⟨0, 2⟩, ⟨0, 3⟩] = some (results, ctx2) ∧
      demo_ctx.grows demo_ctx ∧ demo_ctx.grows ctx2 ∧
      results.length = ([1, 2, 3] : List Nat).length ∧
      (ctx2._exprs.length ≤ UNSIGNED_MOD →
        List.Forall₂ (fun s c => ∃ node, ctx2._exprs[s]? = some node ∧
          node._name = (⟨"and", [0, 0], 0⟩ : expr_node)._name ∧
          node._children = (⟨"and", [0, 0], 0⟩ : expr_node)._children.set 0 c ∧
          (demo_ctx._exprs.length ≤ s → node._attr = (⟨"and", [0, 0], 0⟩ : expr_node)._attr) ∧
          (s < demo_ctx._exprs.length → demo_ctx._exprs[s]? = some node)) results [1, 2, 3]) :=
  refine_rebuild_step demo_ctx demo_ctx_reachable [⟨0, 1⟩, ⟨0, 2⟩, ⟨0, 3⟩] 2 ⟨"and", [0, 0], 0⟩
    (by decide) ⟨[0], 1⟩ 0 (by decide) 0 (by decide) [1, 2, 3] demo_ctx (by decide)

theorem lex3_lt_iff (x y : Nat × Nat × Nat) :
    lex3_lt x y = true ↔
      (x.1 < y.1 ∨ (x.1 = y.1 ∧ (x.2.1 < y.2.1 ∨ (x.2.1 = y.2.1 ∧ x.2.2 < y.2.2)))) := by
  simp [lex3_lt]

theorem lex3_lt_false_iff (x y : Nat × Nat × Nat) :
    lex3_lt x y = false ↔
      ¬ (x.1 < y.1 ∨ (x.1 = y.1 ∧ (x.2.1 < y.2.1 ∨ (x.2.1 = y.2.1 ∧ x.2.2 < y.2.2)))) := by
  rw [← lex3_lt_iff]
  simp

theorem lex3_lt_irrefl (x : Nat × Nat × Nat) : lex3_lt x x = false := by
  rw [lex3_lt_false_iff]
  omega

theorem lex3_lt_trans (x y z : Nat × Nat × Nat) (h1 : lex3_lt x y = true)
    (h2 : lex3_lt y z = true) : lex3_lt x z = true := by
  rw [lex3_lt_iff] at h1 h2 ⊢
  omega

theorem lex3_ge_trans (x y z : Nat × Nat × Nat) (h1 : lex3_lt x y = false)
    (h2 : lex3_lt y z = false) : lex3_lt x z = false := by
  rw [lex3_lt_false_iff] at h1 h2 ⊢
  omega

theorem lex3_ge_of_lt (x y : Nat × Nat × Nat) (h : lex3_lt x y = true) : lex3_lt y x = false := by
  rw [lex3_lt_iff] at h
  rw [lex3_lt_false_iff]
  omega

theorem candidate_key_total (ctx : context) (wf : ctx.well_formed) (a : cexpr_t)
    (ha : a.1 < ctx._exprs.length) : ∃ k, candidate_key ctx a = some k := by
  unfold candidate_key
  rw [count_nonterminals_value ctx wf a.1 ha]
  obtain ⟨m, hm⟩ := count_nodes_total ctx wf a.1 ha
  rw [hm]
  exact ⟨_, rfl⟩

/-- The comparator decides the lexicographic order of the triples. -/
theorem expr_greater_than_key (ctx : context) (a b : cexpr_t) (ka kb : Nat × Nat × Nat)
    (ha : candidate_key ctx a = some ka) (hb : candidate_key ctx b = some kb) :
    expr_greater_than ctx a b = some (lex3_lt kb ka) := by
  unfold candidate_key at ha hb
  unfold expr_greater_than
  cases hna : ctx.count_nonterminals a.1 with
  | none => simp [hna] at ha
  | some na =>
    cases hma : ctx.count_nodes a.1 with
    | none => simp [hna, hma] at ha
    | some ma =>
      cases hnb : ctx.count_nonterminals b.1 with
      | none => simp [hnb] at hb
      | some nb =>
        cases hmb : ctx.count_nodes b.1 with
        | none => simp [hnb, hmb] at hb
        | some mb =>
          simp only [hna, hma, Option.some.injEq] at ha
          simp only [hnb, hmb, Option.some.injEq] at hb
          rw [← ha, ← hb]
          simp only [lex3_lt, gt_iff_lt]
          by_cases h1 : b.2 < a.2
          · simp [h1]
          · by_cases h2 : a.2 < b.2
            · have : ¬ b.2 = a.2 := by omega
              simp [h1, h2, this]
            · have h3 : b.2 = a.2 := by omega
              simp only [h1, h2, if_false, h3, true_and, false_or]
              by_cases h4 : nb < na
              · simp [h4]
              · by_cases h5 : na < nb
                · have : ¬ nb = na := by omega
                  simp [h4, h5, this]
                · have h6 : nb = na := by omega
                  simp only [h4, h5, if_false, h6, true_and, false_or]
                  by_cases h7 : mb < ma
                  · simp [h7]
                  · by_cases h8 : ma < mb
                    · simp [h7, h8]
                    · simp [h7, h8]

/-- The scan for the top of the queue returns a candidate whose triple is not
above the triple of any scanned candidate. -/
theorem pq_top_loop_minimal (ctx : context) (wf : ctx.well_formed) (xs : List cexpr_t) :
    ∀ (best : cexpr_t), best.1 < ctx._exprs.length → (∀ x ∈ xs, x.1 < ctx._exprs.length) →
      ∃ r kr, pq_top_loop ctx best xs = some r ∧ r ∈ best :: xs ∧
        candidate_key ctx r = some kr ∧
        ∀ x ∈ best :: xs, ∃ kx, candidate_key ctx x = some kx ∧ lex3_lt kx kr = false := by
  induction xs with
  | nil =>
    intro best hb _
    obtain ⟨kb, hkb⟩ := candidate_key_total ctx wf best hb
    refine ⟨best, kb, rfl, List.mem_singleton.2 rfl, hkb, ?_⟩
    intro x hx
    rw [List.mem_singleton.1 hx]
    exact ⟨kb, hkb, lex3_lt_irrefl kb⟩
  | cons x xs ih =>
    intro best hb hxs
    have hx := hxs x (List.mem_cons_self _ _)
    have hrest : ∀ y ∈ xs, y.1 < ctx._exprs.length :=
      fun y hy => hxs y (List.mem_cons_of_mem _ hy)
    obtain ⟨kb, hkb⟩ := candidate_key_total ctx wf best hb
    obtain ⟨kx, hkx⟩ := candidate_key_total ctx wf x hx
    have hgt := expr_greater_than_key ctx best x kb kx hkb hkx
    unfold pq_top_loop
    rw [hgt]
    cases hlt : lex3_lt kx kb with
    | true =>
      obtain ⟨r, kr, h1, h2, h3, h4⟩ := ih x hx hrest
      refine ⟨r, kr, h1, List.mem_cons_of_mem _ h2, h3, ?_⟩
      intro y hy
      rcases List.mem_cons.1 hy with hy1 | hy1
      · obtain ⟨kx2, hkx2, hle⟩ := h4 x (List.mem_cons_self _ _)
        rw [hkx] at hkx2
        cases hkx2
        refine ⟨kb, by rw [hy1]; exact hkb, ?_⟩
        exact lex3_ge_trans kb kx kr (lex3_ge_of_lt kx kb hlt) hle
      · exact h4 y hy1
    | false =>
      obtain ⟨r, kr, h1, h2, h3, h4⟩ := ih best hb hrest
      refine ⟨r, kr, h1, ?_, h3, ?_⟩
      · rcases List.mem_cons.1 h2 with h5 | h5
        · rw [h5]; exact List.mem_cons_self _ _
        · exact List.mem_cons_of_mem _ (List.mem_cons_of_mem _ h5)
      · intro y hy
        rcases List.mem_cons.1 hy with hy1 | hy1
        · rw [hy1]; exact h4 best (List.mem_cons_self _ _)
        · rcases List.mem_cons.1 hy1 with hy2 | hy2
          · obtain ⟨kb2, hkb2, hle⟩ := h4 best (List.mem_cons_self _ _)
            rw [hkb] at hkb2
            cases hkb2
            refine ⟨kx, by rw [hy2]; exact hkx, ?_⟩
            exact lex3_ge_trans kx kb kr hlt hle
          · exact h4 y (List.mem_cons_of_mem _ hy2)

theorem pq_top_minimal (ctx : context) (wf : ctx.well_formed) (q : List cexpr_t) (hne : q ≠ [])
    (hq : ∀ x ∈ q, x.1 < ctx._exprs.length) :
    ∃ r kr, pq_top ctx q = some r ∧ r ∈ q ∧ candidate_key ctx r = some kr ∧
      ∀ x ∈ q, ∃ kx, candidate_key ctx x = some kx ∧ lex3_lt kx kr = false := by
  cases q with
  | nil => exact absurd rfl hne
  | cons x xs =>
    exact pq_top_loop_minimal ctx wf xs x (hq x (List.mem_cons_self _ _))
      (fun y hy => hq y (List.mem_cons_of_mem _ hy))

/-- The loop over the new candidates only appends callback events. -/
theorem deduce_loop_events (cost : Nat) (cs : List Nat) (en st : enumerator)
    (h : deduce_loop cost cs en = some st) :
    ∃ evs, st.events = en.events ++ evs ∧ ∀ ev ∈ evs, ∀ x, ev ≠ event.popped x := by
  refine deduce_loop_induction
    (fun s => ∃ evs, s.events = en.events ++ evs ∧ ∀ ev ∈ evs, ∀ x, ev ≠ event.popped x)
    cost cs en st h ⟨[], by simp, fun ev hev => absurd hev (List.not_mem_nil ev)⟩ ?_ ?_
  · rintro en1 c ⟨evs, h1, h2⟩ _ _ _
    refine ⟨evs ++ [event.on_expression (c, (cost + 1) % UNSIGNED_MOD),
      event.on_concrete_expression (c, (cost + 1) % UNSIGNED_MOD)], ?_, ?_⟩
    · simp [enumerator.on_expression, enumerator.on_concrete_expression, h1]
    · intro ev hev x
      rcases List.mem_append.1 hev with h3 | h3
      · exact h2 ev h3 x
      · simp only [List.mem_cons, List.mem_singleton, List.mem_nil_iff, or_false] at h3
        rcases h3 with h3 | h3 <;> rw [h3] <;> exact fun hh => event.noConfusion hh
  · rintro en1 c ⟨evs, h1, h2⟩ _ _ _
    refine ⟨evs ++ [event.on_expression (c, (cost + 1) % UNSIGNED_MOD),
      event.on_abstract_expression (c, (cost + 1) % UNSIGNED_MOD)], ?_, ?_⟩
    · simp [enumerator.on_expression, enumerator.on_abstract_expression, h1]
    · intro ev hev x
      rcases List.mem_append.1 hev with h3 | h3
      · exact h2 ev h3 x
      · simp only [List.mem_cons, List.mem_singleton, List.mem_nil_iff, or_false] at h3
        rcases h3 with h3 | h3 <;> rw [h3] <;> exact fun hh => event.noConfusion hh

theorem not_unary_of_no_double_unary (ctx : context) (h : ctx.no_double_unary) :
    ctx.not_unary := by
  intro node hmem hname hattr
  refine (h node hmem ?_).2
  simp only [expr_node.no_double, Bool.and_eq_true, decide_eq_true_eq]
  refine ⟨hname, ?_⟩
  rw [hattr]
  decide

theorem no_double_iff (ctx : context) (h : ctx.no_double_unary) (node : expr_node)
    (hmem : node ∈ ctx._exprs) :
    node.no_double = true ↔ (name0 node._name ≠ '_' ∧ node._attr = expr_attr._not) := by
  constructor
  · intro hnd
    refine ⟨?_, (h node hmem hnd).1⟩
    simp only [expr_node.no_double, Bool.and_eq_true, decide_eq_true_eq] at hnd
    exact hnd.1
  · rintro ⟨hname, hattr⟩
    simp only [expr_node.no_double, Bool.and_eq_true, decide_eq_true_eq]
    refine ⟨hname, ?_⟩
    rw [hattr]
    decide

theorem tag_nested_iff (ctx : context) (e : Nat) (node : expr_node)
    (hn : ctx._exprs[e]? = some node) :
    ctx.tag_nested e ↔
      ((node.no_double = true ∧ ∃ c ∈ node._children, ∃ child, ctx._exprs[c]? = some child ∧
          child.no_double = true) ∨
        ∃ c ∈ node._children, ctx.tag_nested c) := by
  constructor
  · rintro ⟨d, nd, c, child, hsub, hd, hnd, hc, hchild, hcnd⟩
    cases hsub with
    | refl =>
      rw [hn] at hd
      cases hd
      exact Or.inl ⟨hnd, c, hc, child, hchild, hcnd⟩
    | step _ node2 c2 _ hn2 hc2 hrest =>
      rw [hn] at hn2
      cases hn2
      exact Or.inr ⟨c2, hc2, d, nd, c, child, hrest, hd, hnd, hc, hchild, hcnd⟩
  · rintro (⟨hnd, c, hc, child, hchild, hcnd⟩ | ⟨c2, hc2, d, nd, c, child, hsub, hd, hnd, hc,
      hchild, hcnd⟩)
    · exact ⟨e, node, c, child, context.subterm.refl e, hn, hnd, hc, hchild, hcnd⟩
    · exact ⟨d, nd, c, child, context.subterm.step e node c2 d hn hc2 hsub, hd, hnd, hc,
        hchild, hcnd⟩

/-- The loop over the children in `check_double_negation` when every recursive
call returns: it returns whether some call returned true. -/
theorem any_loop_spec (f : Nat → Option Bool) (cs : List Nat)
    (h : ∀ c ∈ cs, ∃ b, f c = some b) :
    ∃ b, any_loop f cs = some b ∧ (b = true ↔ ∃ c ∈ cs, f c = some true) := by
  induction cs with
  | nil => exact ⟨false, rfl, by simp⟩
  | cons c cs ih =>
    obtain ⟨bc, hbc⟩ := h c (List.mem_cons_self _ _)
    obtain ⟨b, hb, hiff⟩ := ih (fun x hx => h x (List.mem_cons_of_mem _ hx))
    cases bc with
    | true =>
      refine ⟨true, by simp [any_loop, hbc], ?_⟩
      simp only [true_iff]
      exact ⟨c, List.mem_cons_self _ _, hbc⟩
    | false =>
      refine ⟨b, by simp [any_loop, hbc, hb], ?_⟩
      rw [hiff]
      constructor
      · rintro ⟨x, hx, hfx⟩
        exact ⟨x, List.mem_cons_of_mem _ hx, hfx⟩
      · rintro ⟨x, hx, hfx⟩
        rcases List.mem_cons.1 hx with h1 | h1
        · rw [h1, hbc] at hfx
          cases hfx
        · exact ⟨x, h1, hfx⟩

/-- The scan `check_double_negation` returns on a well-formed arena in which the
asserted arity holds, whatever the fuel above the handle. -/
theorem check_double_negation_total (ctx : context) (wf : ctx.well_formed)
    (hun : ctx.not_unary) (e : Nat) :
    ∀ fuel, e < fuel → e < ctx._exprs.length →
      ∃ b, check_double_negation_fuel ctx fuel e = some b := by
  induction e using Nat.strong_induction_on with
  | _ e ih =>
    intro fuel hf he
    obtain ⟨g, rfl⟩ := Nat.exists_eq_succ_of_ne_zero (Nat.not_eq_zero_of_lt hf)
    have hn : ctx._exprs[e]? = some ctx._exprs[e] := List.getElem?_eq_getElem he
    have hmem : ctx._exprs[e] ∈ ctx._exprs := List.getElem_mem he
    have hloop : ∃ b, any_loop (check_double_negation_fuel ctx g) (ctx._exprs[e])._children
        = some b := by
      obtain ⟨b, hb, _⟩ := any_loop_spec (check_double_negation_fuel ctx g)
        (ctx._exprs[e])._children (fun c hc => by
          have hlt := wf e _ hn c hc
          exact ih c hlt g (by omega) (Nat.lt_trans hlt he))
      exact ⟨b, hb⟩
    unfold check_double_negation_fuel
    simp only [hn]
    by_cases htag : name0 (ctx._exprs[e])._name ≠ '_' ∧ (ctx._exprs[e])._attr = expr_attr._not
    · have hlen := hun _ hmem htag.1 htag.2
      obtain ⟨c0, hc0⟩ : ∃ c0, (ctx._exprs[e])._children = [c0] := by
        match hch : (ctx._exprs[e])._children, hlen with
        | [c0], _ => exact ⟨c0, rfl⟩
      have hc0lt : c0 < e := wf e _ hn c0 (by rw [hc0]; exact List.mem_singleton.2 rfl)
      have hn0 : ctx._exprs[c0]? = some ctx._exprs[c0] :=
        List.getElem?_eq_getElem (Nat.lt_trans hc0lt he)
      simp only [htag, hc0, hn0, ne_eq, not_false_eq_true, and_self, if_true,
        not_true_eq_false, if_false, List.getElem?_cons_zero, List.length_singleton]
      rw [hc0] at hloop
      split
      · exact ⟨true, rfl⟩
      · exact hloop
    · simp only [htag, if_false]
      exact hloop

theorem any_loop_iff (f : Nat → Option Bool) (P : Nat → Prop) (cs : List Nat)
    (h : ∀ c ∈ cs, ∃ b, f c = some b ∧ (b = true ↔ P c)) :
    ∃ b, any_loop f cs = some b ∧ (b = true ↔ ∃ c ∈ cs, P c) := by
  obtain ⟨b, hb, hiff⟩ := any_loop_spec f cs (fun c hc => by
    obtain ⟨bc, hbc, _⟩ := h c hc
    exact ⟨bc, hbc⟩)
  refine ⟨b, hb, ?_⟩
  rw [hiff]
  constructor
  · rintro ⟨c, hc, hfc⟩
    obtain ⟨bc, hbc, hP⟩ := h c hc
    rw [hfc] at hbc
    cases hbc
    exact ⟨c, hc, hP.1 rfl⟩
  · rintro ⟨c, hc, hPc⟩
    obtain ⟨bc, hbc, hP⟩ := h c hc
    rw [hP.2 hPc] at hbc
    exact ⟨c, hc, hbc⟩

/-- What `check_double_negation` computes on a well-formed arena in which every
terminal node carrying `NO_DOUBLE_APPLICATION` carries only that attribute and is
unary: whether a node carrying the attribute has a child carrying it. -/
theorem check_double_negation_spec (ctx : context) (wf : ctx.well_formed)
    (hun : ctx.no_double_unary) (e : Nat) :
    ∀ fuel, e < fuel → e < ctx._exprs.length →
      ∃ b, check_double_negation_fuel ctx fuel e = some b ∧ (b = true ↔ ctx.tag_nested e) := by
  induction e using Nat.strong_induction_on with
  | _ e ih =>
    intro fuel hf he
    obtain ⟨g, rfl⟩ := Nat.exists_eq_succ_of_ne_zero (Nat.not_eq_zero_of_lt hf)
    have hn : ctx._exprs[e]? = some ctx._exprs[e] := List.getElem?_eq_getElem he
    have hmem : ctx._exprs[e] ∈ ctx._exprs := List.getElem_mem he
    obtain ⟨bl, hbl, hbliff⟩ := any_loop_iff (check_double_negation_fuel ctx g) ctx.tag_nested
      (ctx._exprs[e])._children (fun c hc => by
        have hlt := wf e _ hn c hc
        exact ih c hlt g (by omega) (Nat.lt_trans hlt he))
    have hnd := no_double_iff ctx hun _ hmem
    unfold check_double_negation_fuel
    simp only [hn]
    rw [tag_nested_iff ctx e _ hn]
    by_cases htag : name0 (ctx._exprs[e])._name ≠ '_' ∧ (ctx._exprs[e])._attr = expr_attr._not
    · have hlen := (hun _ hmem (hnd.2 htag)).2
      obtain ⟨c0, hc0⟩ : ∃ c0, (ctx._exprs[e])._children = [c0] := by
        match hch : (ctx._exprs[e])._children, hlen with
        | [c0], _ => exact ⟨c0, rfl⟩
      have hc0lt : c0 < e := wf e _ hn c0 (by rw [hc0]; exact List.mem_singleton.2 rfl)
      have hc0len := Nat.lt_trans hc0lt he
      have hn0 : ctx._exprs[c0]? = some ctx._exprs[c0] := List.getElem?_eq_getElem hc0len
      have hnd0 := no_double_iff ctx hun _ (List.getElem_mem hc0len)
      simp only [htag, hc0, hn0, ne_eq, not_false_eq_true, and_self, if_true,
        not_true_eq_false, if_false, List.getElem?_cons_zero, List.length_singleton]
      rw [hc0] at hbl hbliff
      by_cases htag0 : name0 (ctx._exprs[c0])._name ≠ '_' ∧
          (ctx._exprs[c0])._attr = expr_attr._not
      · refine ⟨true, by simp only [ne_eq] at htag0; simp [htag0], ?_⟩
        simp only [true_iff]
        exact Or.inl ⟨hnd.2 htag, c0, List.mem_singleton.2 rfl, _, hn0, hnd0.2 htag0⟩
      · refine ⟨bl, by simp only [ne_eq] at htag0; simp only [htag0, if_false]; exact hbl, ?_⟩
        rw [hbliff]
        constructor
        · intro h
          exact Or.inr h
        · rintro (⟨_, c, hc, child, hchild, hcnd⟩ | h)
          · rw [List.mem_singleton.1 hc, hn0] at hchild
            cases hchild
            exact absurd (hnd0.1 hcnd) htag0
          · exact h
    · refine ⟨bl, by simp only [htag, if_false]; exact hbl, ?_⟩
      rw [hbliff]
      constructor
      · intro h
        exact Or.inr h
      · rintro (⟨h1, _⟩ | h)
        · exact absurd (hnd.1 h1) htag
        · exact h

/-- C16, counterexample. In the arena `x0`, `G(x0)`, `!(G(x0))`, where `G` and `!`
both carry `NO_DOUBLE_APPLICATION` and are unary, the scan reports `!(G(x0))`
although no node has a child with its own symbol.  In the arena `x0`, `f(x0)`,
`f(f(x0))`, where only the outer `f` node carries the attribute, the scan does not
report `f(f(x0))` although the node carrying the attribute has a child with the
same symbol. -/
theorem double_application_counterexample :
    ltl_ctx.reachable ∧ ltl_ctx.well_formed ∧ ltl_ctx.no_double_unary ∧
    ltl_ctx._exprs = [⟨"x0", [], 0⟩, ⟨"G", [0], 1⟩, ⟨"!", [1], 1⟩] ∧
    (enumerator.init ltl_ctx [] 0).check_double_negation 2 = some true ∧
    ltl_ctx.same_symbol_nested 2 = false ∧
    untagged_ctx.reachable ∧ untagged_ctx.well_formed ∧ untagged_ctx.no_double_unary ∧
    untagged_ctx._exprs = [⟨"x0", [], 0⟩, ⟨"f", [0], 0⟩, ⟨"f", [1], 1⟩] ∧
    (enumerator.init untagged_ctx [] 0).check_double_negation 2 = some false ∧
    untagged_ctx.same_symbol_nested 2 = true :=
  ⟨context.reachable.make_fun _ _ _ _ (context.reachable.make_fun _ _ _ _
      (context.reachable.make_fun _ _ _ _ context.reachable.empty)),
    well_formed_of_check ltl_ctx (by decide), by unfold context.no_double_unary; decide,
    by decide, by decide, by decide,
    context.reachable.make_fun _ _ _ _ (context.reachable.make_fun _ _ _ _
      (context.reachable.make_fun _ _ _ _ context.reachable.empty)),
    well_formed_of_check untagged_ctx (by decide), by unfold context.no_double_unary; decide,
    by decide, by decide, by decide⟩

/-- C16, amended. Double-application pruning: for every stored handle `e` of a
well-formed arena in which every terminal node carrying `NO_DOUBLE_APPLICATION`
carries no other attribute and is unary, `check_double_negation` returns, and it
returns true if and only if somewhere in the subtree of `e` a terminal node
carrying `NO_DOUBLE_APPLICATION` has a direct child that is a terminal node
carrying `NO_DOUBLE_APPLICATION` (the scan compares the attribute, not the
symbol). -/
theorem double_application_scan (en : enumerator) (wf : en.ctx.well_formed)
    (hun : en.ctx.no_double_unary) (e : Nat) (he : e < en.ctx._exprs.length) :
    ∃ b, en.check_double_negation e = some b ∧ (b = true ↔ en.ctx.tag_nested e) :=
  check_double_negation_spec en.ctx wf hun e _ he he

theorem double_application_scan_witness :
    ∃ b, (enumerator.init ltl_ctx [] 0).check_double_negation 2 = some b ∧
      (b = true ↔ (enumerator.init ltl_ctx [] 0).ctx.tag_nested 2) :=
  double_application_scan (enumerator.init ltl_ctx [] 0)
    (well_formed_of_check ltl_ctx (by decide)) (by unfold context.no_double_unary; decide) 2
    (by decide)

/-- The redundancy filter returns on a well-formed arena in which the arity that
`check_double_negation` asserts holds. -/
theorem is_redundant_total (en : enumerator) (wf : en.ctx.well_formed)
    (hun : en.ctx.not_unary) (e : Nat) (he : e < en.ctx._exprs.length) :
    ∃ b, en.is_redundant_in_search_order e = some b := by
  have hn : en.ctx._exprs[e]? = some en.ctx._exprs[e] := List.getElem?_eq_getElem he
  obtain ⟨b, hb⟩ := check_double_negation_total en.ctx wf hun e _ he he
  unfold enumerator.is_redundant_in_search_order enumerator.check_double_negation
  rw [hb]
  cases b with
  | true => exact ⟨true, rfl⟩
  | false =>
    simp only [hn]
    split
    · rename_i hcond
      obtain ⟨c0, c1, hch⟩ : ∃ c0 c1, (en.ctx._exprs[e])._children = [c0, c1] := by
        match hch : (en.ctx._exprs[e])._children, hcond.2.1 with
        | [c0, c1], _ => exact ⟨c0, c1, rfl⟩
      have h0 : c0 < en.ctx._exprs.length :=
        Nat.lt_trans (wf e _ hn c0 (by rw [hch]; simp)) he
      have h1 : c1 < en.ctx._exprs.length :=
        Nat.lt_trans (wf e _ hn c1 (by rw [hch]; simp)) he
      simp only [hch, List.getElem?_cons_zero, List.getElem?_cons_succ,
        count_nonterminals_value en.ctx wf c0 h0, count_nonterminals_value en.ctx wf c1 h1]
      split <;> exact ⟨_, rfl⟩
    · exact ⟨false, rfl⟩

/-- C19, counterexample. In the arena `x0`, `f(x0,x0)`, where the binary `f`
carries `NO_DOUBLE_APPLICATION`, the scan for `f(x0,x0)` reaches
`assert( expr._children.size() == 1u )` with two children, and in the arena of
the single constant `c` carrying the attribute it reaches the assertion with no
child (without the assertion, `expr._children[0u]` is then read out of range):
the redundancy filter returns no boolean. -/
theorem redundancy_filter_assert_counterexample :
    binary_not_ctx.reachable ∧ binary_not_ctx.well_formed ∧
    binary_not_ctx._exprs = [⟨"x0", [], 0⟩, ⟨"f", [0, 0], 1⟩] ∧
    (enumerator.init binary_not_ctx [] 0).is_redundant_in_search_order 1 = none ∧
    constant_not_ctx.reachable ∧ constant_not_ctx.well_formed ∧
    constant_not_ctx._exprs = [⟨"c", [], 1⟩] ∧
    (enumerator.init constant_not_ctx [] 0).is_redundant_in_search_order 0 = none :=
  ⟨context.reachable.make_fun _ _ _ _ (context.reachable.make_fun _ _ _ _
      context.reachable.empty),
    well_formed_of_check binary_not_ctx (by decide), by decide, by decide,
    context.reachable.make_fun _ _ _ _ context.reachable.empty,
    well_formed_of_check constant_not_ctx (by decide), by decide, by decide⟩

/-- C19, amended. The redundancy filter does not fail on a term whose shape meets
the assertion of `check_double_negation`: for every stored handle `e` of a
well-formed arena in which every terminal node whose attribute word is
`NO_DOUBLE_APPLICATION` has exactly one child, whatever the arities and attribute
sets of the other nodes, `is_redundant_in_search_order( e )` and the scan
`check_double_negation( e )` return a boolean (no assertion is violated and no
children list is read out of range). -/
theorem redundancy_filter_total (en : enumerator) (wf : en.ctx.well_formed)
    (hun : en.ctx.not_unary) (e : Nat) (he : e < en.ctx._exprs.length) :
    (∃ b, en.is_redundant_in_search_order e = some b) ∧
    (∃ b, en.check_double_negation e = some b) :=
  ⟨is_redundant_total en wf hun e he, check_double_negation_total en.ctx wf hun e _ he he⟩

theorem redundancy_filter_total_witness :
    (∃ b, (enumerator.init shapes_ctx [] 0).is_redundant_in_search_order 4 = some b) ∧
    (∃ b, (enumerator.init shapes_ctx [] 0).check_double_negation 4 = some b) :=
  redundancy_filter_total (enumerator.init shapes_ctx [] 0)
    (well_formed_of_check shapes_ctx (by decide)) (by unfold context.not_unary; decide) 4
    (by decide)

/-- The commutative filter for a node whose attribute word is exactly
`expr_attr::_commutative`: a terminal with two concrete children, in which the
scan finds no double application, is redundant exactly when the first child
handle is greater than the second. -/
theorem commutative_filter_exact (en : enumerator) (e c0 c1 : Nat) (expr : expr_node)
    (hn : en.ctx._exprs[e]? = some expr) (hname : name0 expr._name ≠ '_')
    (hch : expr._children = [c0, c1]) (hattr : expr._attr = expr_attr._commutative)
    (hscan : en.check_double_negation e = some false)
    (h0 : en.ctx.count_nonterminals c0 = some 0) (h1 : en.ctx.count_nonterminals c1 = some 0) :
    en.is_redundant_in_search_order e = some (decide (c0 > c1)) := by
  unfold enumerator.is_redundant_in_search_order
  simp [hscan, hn, hname, hch, hattr, h0, h1]

/-- C17, the code at the failing input. With `|` declared
`_idempotent | _commutative`, as the LTL and CTL examples declare it, the grammar
`_N -> |(_N,_N) | x0 | x1` with the bound 3 passes both `|(x0,x1)` and `|(x1,x0)`
to `on_concrete_expression`: the node `|(x1,x0)` is a terminal with two concrete
children, its attribute set contains `COMMUTATIVE`, no double application occurs
in it and its first child handle is greater than the second, yet
`is_redundant_in_search_order` returns false, because the attribute word 6 is not
equal to `expr_attr::_commutative`. -/
theorem commutative_idempotent_not_filtered :
    or_en.deduce 4 = some or_state_4 ∧
    or_state_4.ctx._exprs[9]? = some ⟨"|", [2, 3], 6⟩ ∧
    or_state_4.ctx._exprs[11]? = some ⟨"|", [3, 2], 6⟩ ∧
    expr_attr_has 6 expr_attr_enum._commutative = true ∧
    or_state_4.ctx.count_nonterminals 3 = some 0 ∧
    or_state_4.ctx.count_nonterminals 2 = some 0 ∧
    or_state_4.check_double_negation 11 = some false ∧
    or_state_4.is_redundant_in_search_order 11 = some false ∧
    or_state_4.is_redundant_in_search_order 9 = some false ∧
    event.on_concrete_expression (9, 3) ∈ or_state_4.events ∧
    event.on_concrete_expression (11, 3) ∈ or_state_4.events := by
  decide

/-- With `|` declared `_idempotent | _commutative`, the grammar
`_N -> |(_N,_N) | x0 | x1` with the bound 3 passes the concrete term `|(x0,x0)`
to `on_concrete_expression` with cost 3. -/
theorem or_idempotent_emitted :
    or_en.deduce 4 = some or_state_4 ∧
    or_state_4.ctx._exprs[8]? = some ⟨"|", [2, 2], 6⟩ ∧
    event.on_concrete_expression (8, 3) ∈ or_state_4.events := by
  decide

/-- C20. Zero bound: for every arena, every list of rules and every seed, the
enumerator created with `max_cost == 0` and seeded once pops the seed in its
first iteration and stops: the arena is unchanged (nothing is refined), the queue
is empty, the only observable action is the pop (none of `on_expression`,
`on_concrete_expression`, `on_abstract_expression` is called),
`is_running()` is false, and every later call of `deduce` leaves this state as it
is. -/
theorem zero_bound (ctx : context) (rules : rules_t) (seed : Nat) :
    (enumerator.seeded ctx rules 0 [seed]).deduce_iteration =
      some { ctx := ctx, quit_enumeration := true, rules := rules, max_cost := 0,
             candidate_expressions := [], current_costs := 0,
             events := [event.popped (seed, 0)] } ∧
    (∀ n, 1 ≤ n → (enumerator.seeded ctx rules 0 [seed]).deduce n =
      some { ctx := ctx, quit_enumeration := true, rules := rules, max_cost := 0,
             candidate_expressions := [], current_costs := 0,
             events := [event.popped (seed, 0)] }) ∧
    (∀ n st, 1 ≤ n → (enumerator.seeded ctx rules 0 [seed]).deduce n = some st →
      st.is_running = false ∧ st.ctx = ctx ∧ st.candidate_expressions = [] ∧
      st.events = [event.popped (seed, 0)] ∧
      ∀ q, event.on_expression q ∉ st.events ∧ event.on_concrete_expression q ∉ st.events ∧
        event.on_abstract_expression q ∉ st.events) := by
  have hiter : (enumerator.seeded ctx rules 0 [seed]).deduce_iteration =
      some { ctx := ctx, quit_enumeration := true, rules := rules, max_cost := 0,
             candidate_expressions := [], current_costs := 0,
             events := [event.popped (seed, 0)] } := by
    have hmax : max_cost_unsigned 0 = 0 := by decide
    simp [enumerator.seeded, enumerator.init, enumerator.add_expression,
      enumerator.deduce_iteration, enumerator.is_running, pq_top, pq_top_loop,
      enumerator.take_candidate, hmax]
  have hall : ∀ n, 1 ≤ n → (enumerator.seeded ctx rules 0 [seed]).deduce n =
      some { ctx := ctx, quit_enumeration := true, rules := rules, max_cost := 0,
             candidate_expressions := [], current_costs := 0,
             events := [event.popped (seed, 0)] } := by
    intro n hn
    obtain ⟨m, rfl⟩ := Nat.exists_eq_succ_of_ne_zero (Nat.not_eq_zero_of_lt hn)
    rw [deduce_succ _ _ m hiter]
    exact deduce_of_quit _ rfl m
  refine ⟨hiter, hall, ?_⟩
  intro n st hn hst
  rw [hall n hn] at hst
  cases hst
  refine ⟨rfl, rfl, rfl, rfl, ?_⟩
  intro q
  simp

theorem signal_termination_of_quit (en : enumerator) (hquit : en.quit_enumeration = true) :
    en.signal_termination = en := by
  cases en
  simp only at hquit
  simp only [enumerator.signal_termination, hquit]

theorem run_session_of_quit (ops : List session_op) (en : enumerator)
    (hquit : en.quit_enumeration = true) : run_session ops en = some en := by
  induction ops with
  | nil => rfl
  | cons op ops ih =>
    cases op with
    | deduce n =>
      simp only [run_session, deduce_of_quit en hquit n]
      exact ih
    | signal_termination =>
      simp only [run_session, signal_termination_of_quit en hquit]
      exact ih

/-- C21. Termination signal: once the quit flag of an enumerator is set, every
call `deduce( n )` and every further sequence of calls returns the enumerator as
it is: no candidate is popped and no callback is invoked (the list of observable
actions is unchanged), and the queue, `current_costs` and the arena are
unchanged, and `is_running()` is false.  The flag is set by
`signal_termination`, by an iteration of `deduce` that finds the queue empty, and
by an iteration that takes a candidate whose cost has reached the bound. -/
theorem termination_signal (en : enumerator) :
    (en.quit_enumeration = true →
      en.is_running = false ∧ (∀ n, en.deduce n = some en) ∧
      ∀ ops, run_session ops en = some en) ∧
    (en.signal_termination.is_running = false ∧
      (∀ n, en.signal_termination.deduce n = some en.signal_termination) ∧
      ∀ ops, run_session ops en.signal_termination = some en.signal_termination) ∧
    (en.candidate_expressions = [] →
      ∃ st, en.deduce_iteration = some st ∧ st.is_running = false ∧
        (∀ n, st.deduce n = some st) ∧ ∀ ops, run_session ops st = some st) ∧
    (∀ nc, en.quit_enumeration = false →
      pq_top en.ctx en.candidate_expressions = some nc →
      max_cost_unsigned en.max_cost ≤ nc.2 →
      ∃ st, en.deduce_iteration = some st ∧ st.is_running = false ∧
        (∀ n, st.deduce n = some st) ∧ ∀ ops, run_session ops st = some st) := by
  have hframe : ∀ st : enumerator, st.quit_enumeration = true →
      st.is_running = false ∧ (∀ n, st.deduce n = some st) ∧
      ∀ ops, run_session ops st = some st := by
    intro st hq
    refine ⟨by simp [enumerator.is_running, hq], fun n => deduce_of_quit st hq n,
      fun ops => run_session_of_quit ops st hq⟩
  refine ⟨hframe en, hframe _ rfl, ?_, ?_⟩
  · intro hq
    exact ⟨_, deduce_iteration_empty en hq, hframe _ rfl⟩
  · intro nc hquit htop hge
    exact ⟨_, deduce_iteration_bound en nc hquit htop hge, hframe _ rfl⟩

theorem termination_signal_witness :
    demo_session_state.is_running = false ∧
    (∀ n, demo_session_state.deduce n = some demo_session_state) ∧
    ∀ ops, run_session ops demo_session_state = some demo_session_state :=
  (termination_signal demo_session_state).1 (by decide)

/-- C23. Double-negation scenario: for the grammar `_N -> x0 | not(_N)` with `not`
declared `_no_double_application`, the seed `_N` and the bound 4, two calls of
`deduce()` leave the enumerator running with an empty queue and the third call
stops it; the calls of `on_concrete_expression` are exactly `x0` with cost 1 and
then `not(x0)` with cost 2; the candidate `not(not(_N))` is interned and rejected
by the filter, it is never queued, and `not(not(x0))` is not in the arena; no
popped candidate has reached the bound, so the run ends on the empty queue; every
longer run ends in the same state. -/
theorem double_negation_scenario :
    dn_ctx._exprs = [⟨"_N", [], 0⟩, ⟨"x0", [], 0⟩, ⟨"not", [0], 1⟩] ∧
    (dn_en.deduce 2).map (fun st => (st.is_running, st.candidate_expressions)) =
      some (true, []) ∧
    run_session [session_op.deduce 1, session_op.deduce 1, session_op.deduce 1] dn_en =
      some dn_final ∧
    dn_final.is_running = false ∧
    dn_final.candidate_expressions = [] ∧
    dn_final.events =
      [event.popped (0, 0), event.on_expression (1, 1), event.on_concrete_expression (1, 1),
       event.on_expression (2, 1), event.on_abstract_expression (2, 1), event.popped (2, 1),
       event.finished_cost 1, event.on_expression (3, 2),
       event.on_concrete_expression (3, 2)] ∧
    dn_final.ctx._exprs =
      [⟨"_N", [], 0⟩, ⟨"x0", [], 0⟩, ⟨"not", [0], 1⟩, ⟨"not", [1], 1⟩, ⟨"not", [2], 1⟩] ∧
    dn_final.is_redundant_in_search_order 4 = some true ∧
    dn_final.is_redundant_in_search_order 3 = some false ∧
    (∀ n, 3 ≤ n → dn_en.deduce n = some dn_final) := by
  refine ⟨by decide, by decide, by decide, by decide, by decide, by decide, by decide,
    by decide, by decide, ?_⟩
  intro n hn
  obtain ⟨m, rfl⟩ : ∃ m, n = 3 + m := ⟨n - 3, by omega⟩
  have h3 : dn_en.deduce 3 = some dn_final := by decide
  have hq : dn_final.quit_enumeration = true := by decide
  rw [deduce_add, h3]
  exact deduce_of_quit dn_final hq m

theorem ok_empty : context.empty.ok := by
  refine ⟨strash_inv_of_reachable _ context.reachable.empty, ?_⟩
  intro i node hi
  simp [context.empty] at hi

/-- Arenas built with child handles in range satisfy the arena invariants. -/
theorem ok_of_built (ctx : context) (h : ctx.built) : ctx.ok := by
  induction h with
  | empty => exact ok_empty
  | make_fun ctx name children attr _ hch ih => exact make_fun_ok ctx ih name children attr hch
  | refine ctx e path rules results ctx2 _ hrules href ih =>
    rw [refine_eq_refine_path] at href
    cases hp : path.indices.reverse with
    | nil =>
      rw [hp] at href
      simp only [refine_path, Option.some.injEq, Prod.mk.injEq] at href
      rw [← href.2]
      exact ih
    | cons i p =>
      rw [hp] at href
      have he : e < ctx._exprs.length := by
        unfold refine_path at href
        cases hn : ctx._exprs[e]? with
        | none => simp [hn] at href
        | some node => exact getElem?_lt_length _ _ _ hn
      exact (refine_path_ok rules (i :: p) ctx e ih he (fun r hr => (hrules r hr).2)
        results ctx2 href).1

/-- C24. Acyclicity invariant: in every arena obtained from the empty arena by
`make_fun` calls that pass only child handles in range and by
`refine_expression_recurse` calls with rules whose handles are in range, the
child handles of every stored node are strictly smaller than the handle of the
node; and on every handle in range `count_nonterminals`, `count_nodes` and
`get_path_to_concretizable_element` return a value. -/
theorem acyclicity_invariant (ctx : context) (h : ctx.built) :
    (∀ (i : Nat) (node : expr_node), ctx._exprs[i]? = some node →
      ∀ c ∈ node._children, c < i) ∧
    ∀ e, e < ctx._exprs.length →
      (∃ n, ctx.count_nonterminals e = some n) ∧ (∃ n, ctx.count_nodes e = some n) ∧
      (∃ p, get_path_to_concretizable_element ctx e = some p) := by
  have wf : ctx.well_formed := (ok_of_built ctx h).wf
  refine ⟨wf, ?_⟩
  intro e he
  exact ⟨⟨_, count_nonterminals_value ctx wf e he⟩, count_nodes_total ctx wf e he,
    get_path_total ctx wf e he⟩

theorem demo_refined_ctx_built : demo_refined_ctx.built := by
  have hdemo : demo_ctx.built := by
    refine context.built.make_fun _ _ _ _ (context.built.make_fun _ _ _ _
      (context.built.make_fun _ _ _ _ (context.built.make_fun _ _ _ _ context.built.empty
        ?_) ?_) ?_) ?_
    all_goals decide
  exact context.built.refine demo_ctx 2 ⟨[0], 1⟩ [⟨0, 1⟩, ⟨0, 2⟩, ⟨0, 3⟩]
    [4, 5, 6] demo_refined_ctx hdemo (by decide) (by decide)

theorem acyclicity_invariant_witness :
    (∀ (i : Nat) (node : expr_node), demo_refined_ctx._exprs[i]? = some node →
      ∀ c ∈ node._children, c < i) ∧
    ∀ e, e < demo_refined_ctx._exprs.length →
      (∃ n, demo_refined_ctx.count_nonterminals e = some n) ∧
      (∃ n, demo_refined_ctx.count_nodes e = some n) ∧
      (∃ p, get_path_to_concretizable_element demo_refined_ctx e = some p) :=
  acyclicity_invariant demo_refined_ctx demo_refined_ctx_built

theorem nonterminal_occurrences_grows (ctx ctx2 : context) (hg : ctx.grows ctx2)
    (wf2 : ctx2.well_formed) (e : Nat) (he : e < ctx._exprs.length) :
    ctx2.nonterminal_occurrences e = ctx.nonterminal_occurrences e := by
  have wf := well_formed_of_grows ctx ctx2 hg wf2
  induction e using Nat.strong_induction_on with
  | _ e ih =>
    have hn : ctx._exprs[e]? = some ctx._exprs[e] := List.getElem?_eq_getElem he
    rw [nonterminal_occurrences_eq ctx wf e _ hn,
      nonterminal_occurrences_eq ctx2 wf2 e _ (grows_getElem? ctx ctx2 hg e _ hn)]
    have hmap : (ctx._exprs[e])._children.map ctx2.nonterminal_occurrences =
        (ctx._exprs[e])._children.map ctx.nonterminal_occurrences := by
      apply List.map_congr_left
      intro c hc
      have hlt := wf e _ hn c hc
      exact ih c hlt (Nat.lt_trans hlt he)
    rw [hmap]

theorem sum_map_set (f : Nat → Nat) (l : List Nat) :
    ∀ (i a b : Nat), l[i]? = some a →
      ((l.set i b).map f).sum + f a = (l.map f).sum + f b := by
  induction l with
  | nil => intro i a b h; simp at h
  | cons x xs ih =>
    intro i a b h
    cases i with
    | zero =>
      simp only [List.getElem?_cons_zero, Option.some.injEq] at h
      subst h
      simp only [List.set_cons_zero, List.map_cons, List.sum_cons]
      omega
    | succ i =>
      simp only [List.getElem?_cons_succ] at h
      have := ih i a b h
      simp only [List.set_cons_succ, List.map_cons, List.sum_cons]
      omega

/-- The path of `get_path_to_concretizable_element` passes through terminal
nodes only and ends at a nonterminal node. -/
theorem get_path_terminal_path (ctx : context) (wf : ctx.well_formed) (e : Nat)
    (he : e < ctx._exprs.length) (hu : e < UNSIGNED_MOD) (p : path_t)
    (hp : get_path_to_concretizable_element ctx e = some p) (hv : p.invalid = false) :
    ctx.terminal_path e p.indices.reverse := by
  induction e using Nat.strong_induction_on generalizing p with
  | _ e ih =>
    have hn : ctx._exprs[e]? = some ctx._exprs[e] := List.getElem?_eq_getElem he
    rw [get_path_eq ctx wf e _ hn] at hp
    by_cases hname : name0 (ctx._exprs[e])._name = '_'
    · simp only [hname, if_true, Option.some.injEq] at hp
      rw [← hp]
      exact ⟨_, hn, hname⟩
    · by_cases hleaf : (ctx._exprs[e])._children.length = 0
      · simp only [hname, hleaf, if_false, if_true, Option.some.injEq] at hp
        rw [← hp] at hv
        simp [path_t.invalid, path_t.init] at hv
      · simp only [hname, hleaf, if_false] at hp
        have hch : ∀ c ∈ (ctx._exprs[e])._children,
            get_path_to_concretizable_element ctx c =
              some ((get_path_to_concretizable_element ctx c).getD (path_t.init 0)) := by
          intro c hc
          have hlt := wf e _ hn c hc
          obtain ⟨p, hp, _⟩ := get_path_cases ctx wf c (Nat.lt_trans hlt he) (Nat.lt_trans hlt hu)
          rw [hp]
          rfl
        obtain ⟨r, hr, hcase⟩ := min_path_loop_spec (get_path_to_concretizable_element ctx)
          (fun c => (get_path_to_concretizable_element ctx c).getD (path_t.init 0))
          (ctx._exprs[e])._children 0 (path_t.init UNSIGNED_MAX) hch
        rw [hr] at hp
        rcases hcase with ⟨hrm, _⟩ | ⟨j, c, hj, hrj, hd, _, _⟩
        · rw [hrm] at hp
          simp only [path_t.lt, path_t.init, Nat.lt_irrefl, decide_False, Bool.false_eq_true,
            if_false, Option.some.injEq] at hp
          rw [← hp] at hv
          simp [path_t.invalid] at hv
        · have hc : c ∈ (ctx._exprs[e])._children := List.getElem?_mem hj
          have hlt := wf e _ hn c hc
          obtain ⟨pc, hpc, _⟩ := get_path_cases ctx wf c (Nat.lt_trans hlt he)
            (Nat.lt_trans hlt hu)
          simp only [hpc, Option.getD_some, path_t.init] at hd hrj
          have hrl : r.lt (path_t.init UNSIGNED_MAX) = true := by
            rw [hrj]
            simp only [path_t.lt, path_t.init, path_t.push_front, decide_eq_true_eq]
            exact hd
          simp only [hrl, if_true, Option.some.injEq] at hp
          have hpcv : pc.invalid = false := by
            simp only [path_t.invalid, Bool.and_eq_false_imp, decide_eq_false_iff_not]
            intro _
            omega
          have hrec := ih c hlt (Nat.lt_trans hlt he) (Nat.lt_trans hlt hu) pc hpc hpcv
          rw [← hp, hrj]
          simp only [path_t.incr_depth, path_t.push_front, List.reverse_append,
            List.reverse_cons, List.reverse_nil, List.nil_append, List.singleton_append,
            Nat.zero_add]
          exact ⟨_, c, hn, hname, hj, hrec⟩

/-- The number of counted nonterminals of the candidates of a refinement along a
position that passes through terminal nodes to a nonterminal: one less than
that of the refined term, plus that of the replacement. -/
theorem refine_path_occurrences (rules : rules_t) (p : List Nat) :
    ∀ (ctx : context) (e : Nat), ctx.ok → e < ctx._exprs.length →
      (∀ r ∈ rules, r.replace < ctx._exprs.length) →
      ∀ (cands : List Nat) (ctx1 : context), refine_path rules p ctx e = some (cands, ctx1) →
      ctx1._exprs.length ≤ UNSIGNED_MOD → ctx.terminal_path e p →
      ∃ e2, ctx.handle_at e p = some e2 ∧
        List.Forall₂ (fun s r => ctx1.nonterminal_occurrences s + 1 =
            ctx.nonterminal_occurrences e + ctx.nonterminal_occurrences r.replace)
          cands (rules.filter (fun r => decide (e2 = r.match_))) := by
  induction p with
  | nil =>
    intro ctx e ok he hrules cands ctx1 h _ hpath
    simp only [refine_path, Option.some.injEq, Prod.mk.injEq] at h
    obtain ⟨h1, h2⟩ := h
    subst h2
    obtain ⟨node, hn, hname⟩ := hpath
    refine ⟨e, rfl, ?_⟩
    rw [← h1, List.forall₂_map_left_iff, List.forall₂_same]
    intro r _
    rw [nonterminal_occurrences_eq ctx ok.wf e node hn]
    simp only [hname, if_true]
    omega
  | cons i p ih =>
    intro ctx e ok he hrules cands ctx1 h hsize hpath
    obtain ⟨expr, child, hn, hname, hc, hpath2⟩ := hpath
    unfold refine_path at h
    simp only [hn, hc] at h
    cases hrec : refine_path rules p ctx child with
    | none => simp [hrec] at h
    | some res =>
      obtain ⟨cands0, ctx0⟩ := res
      simp only [hrec] at h
      have hchild : child ∈ expr._children := List.getElem?_mem hc
      have hchild_lt : child < ctx._exprs.length :=
        Nat.lt_trans (ok.wf e _ hn child hchild) he
      have hg2 := refine_rebuild_grows e i cands0 ctx0 cands ctx1 h
      have hsize0 := Nat.le_trans (grows_length _ _ hg2) hsize
      obtain ⟨ok0, hg0, hr0, _⟩ := refine_path_spec rules p ctx child ok hchild_lt hrules
        cands0 ctx0 hrec hsize0
      obtain ⟨e2, he2, hall0⟩ := ih ctx child ok hchild_lt hrules cands0 ctx0 hrec hsize0
        hpath2
      have hidx : i < expr._children.length := getElem?_lt_length _ _ _ hc
      obtain ⟨ok1, _, hall1⟩ := refine_rebuild_spec e i _ cands0 ctx0 ok0
        (grows_getElem? _ _ hg0 e _ hn) hidx hr0 cands ctx1 h hsize
      have hg := grows_trans _ _ _ hg0 hg2
      refine ⟨e2, ?_, ?_⟩
      · simp only [context.handle_at, hn, hc]
        exact he2
      · refine (forall₂_comp _ _ _ _ _ hall1 hall0).imp ?_
        rintro s r ⟨c, hcmem, ⟨node, hnode, hnm, hch⟩, hcr⟩
        have hnode_name : ¬ name0 node._name = '_' := by rw [hnm]; exact hname
        rw [nonterminal_occurrences_eq ctx1 ok1.wf s node hnode,
          nonterminal_occurrences_eq ctx ok.wf e expr hn]
        simp only [hnode_name, hname, if_false]
        rw [hch]
        have hset := sum_map_set ctx1.nonterminal_occurrences expr._children i child c hc
        have hmap : expr._children.map ctx1.nonterminal_occurrences =
            expr._children.map ctx.nonterminal_occurrences := by
          apply List.map_congr_left
          intro x hx
          exact nonterminal_occurrences_grows ctx ctx1 hg ok1.wf x
            (Nat.lt_trans (ok.wf e _ hn x hx) he)
        have hchild1 : ctx1.nonterminal_occurrences child = ctx.nonterminal_occurrences child :=
          nonterminal_occurrences_grows ctx ctx1 hg ok1.wf child hchild_lt
        have hc1 : ctx1.nonterminal_occurrences c = ctx0.nonterminal_occurrences c :=
          nonterminal_occurrences_grows ctx0 ctx1 hg2 ok1.wf c (hr0 c hcmem)
        rw [hmap, hchild1, hc1] at hset
        omega

theorem forall₂_with_mem {α β : Type} (R : α → β → Prop) (xs : List α) (ys : List β)
    (h : List.Forall₂ R xs ys) :
    List.Forall₂ (fun x y => x ∈ xs ∧ y ∈ ys ∧ R x y) xs ys := by
  induction h with
  | nil => exact List.Forall₂.nil
  | cons hab _ ih =>
    refine List.Forall₂.cons ⟨List.mem_cons_self _ _, List.mem_cons_self _ _, hab⟩ ?_
    refine ih.imp ?_
    rintro x y ⟨hx, hy, hxy⟩
    exact ⟨List.mem_cons_of_mem _ hx, List.mem_cons_of_mem _ hy, hxy⟩

/-- C25. Refinement changes the nonterminal count by exactly the rule applied: for
an abstract stored handle `e` of a reachable well-formed arena, with `p` the path
of `get_path_to_concretizable_element` and `t` the handle at `p`,
`refine_expression_recurse` returns, and while the arena stays within `2^32`
nodes every successor `s`, paired in order with its rule `r` (a rule whose
`match` is `t`), satisfies: the number of nonterminals that `count_nonterminals`
counts in `s`, as a natural number, plus one is that of `e` plus that of
`r.replace`; the `unsigned` values that `count_nonterminals` returns satisfy this
equation modulo `2^32`, and they satisfy
`count_nonterminals( s ) = count_nonterminals( e ) - 1 + count_nonterminals( r.replace )`
when the counts of `e` and `r.replace` together stay below `2^32`. -/
theorem refinement_nonterminal_count (ctx : context) (hr : ctx.reachable)
    (wf : ctx.well_formed) (rules : rules_t)
    (hrules : ∀ r ∈ rules, r.replace < ctx._exprs.length) (e : Nat)
    (he : e < ctx._exprs.length) (hu : e < UNSIGNED_MOD) (habs : ctx.has_nonterminal e) :
    ∃ p t results ctx1, get_path_to_concretizable_element ctx e = some p ∧
      ctx.handle_at e p.root_first = some t ∧
      refine_expression_recurse ctx e p rules = some (results, ctx1) ∧
      1 ≤ ctx.nonterminal_occurrences e ∧
      (ctx1._exprs.length ≤ UNSIGNED_MOD →
        List.Forall₂ (fun s r => ∃ ns ne nr, ctx1.count_nonterminals s = some ns ∧
            ctx.count_nonterminals e = some ne ∧ ctx.count_nonterminals r.replace = some nr ∧
            ctx1.count_nonterminals e = some ne ∧
            ctx1.count_nonterminals r.replace = some nr ∧
            ctx1.nonterminal_occurrences s + 1 =
              ctx.nonterminal_occurrences e + ctx.nonterminal_occurrences r.replace ∧
            (ns + 1) % UNSIGNED_MOD = (ne + nr) % UNSIGNED_MOD ∧
            (ctx.nonterminal_occurrences e + ctx.nonterminal_occurrences r.replace
                < UNSIGNED_MOD → ns = ne - 1 + nr))
          results (rules.filter (fun r => decide (t = r.match_)))) := by
  have ok : ctx.ok := ⟨strash_inv_of_reachable ctx hr, wf⟩
  obtain ⟨p, hp, hv1, _⟩ := valid_of_get_path ctx wf e he hu
  have hv : p.invalid = false := by simpa [path_t.valid] using hv1.2 habs
  have hpath := get_path_terminal_path ctx wf e he hu p hp hv
  obtain ⟨t, _, ht, _, _⟩ := get_path_target ctx wf e he hu p hp hv
  rw [← root_first_eq] at ht hpath
  obtain ⟨results, ctx1, href⟩ := refine_path_some rules p.root_first ctx e t ht
  have href2 : refine_expression_recurse ctx e p rules = some (results, ctx1) := by
    rw [refine_eq_refine_path, ← root_first_eq]
    exact href
  have hpos : 1 ≤ ctx.nonterminal_occurrences e := by
    have := (nonterminal_occurrences_eq_zero_iff ctx wf e he).not.2 (not_not.2 habs)
    omega
  refine ⟨p, t, results, ctx1, hp, ht, href2, hpos, ?_⟩
  intro hsize
  obtain ⟨ok1, hg, hrange, _⟩ := refine_path_spec rules p.root_first ctx e ok he hrules
    results ctx1 href hsize
  obtain ⟨e2, he2, hall⟩ := refine_path_occurrences rules p.root_first ctx e ok he hrules
    results ctx1 href hsize hpath
  rw [ht] at he2
  cases he2
  refine (forall₂_with_mem _ _ _ hall).imp ?_
  rintro s r ⟨hs, hrmem, hocc⟩
  have hrr := hrules r (List.mem_of_mem_filter hrmem)
  have hs1 := count_nonterminals_value ctx1 ok1.wf s (hrange s hs)
  have he1 := count_nonterminals_value ctx wf e he
  have hr1 := count_nonterminals_value ctx wf r.replace hrr
  have he2 := count_nonterminals_value ctx1 ok1.wf e
    (Nat.lt_of_lt_of_le he (grows_length _ _ hg))
  have hr2 := count_nonterminals_value ctx1 ok1.wf r.replace
    (Nat.lt_of_lt_of_le hrr (grows_length _ _ hg))
  rw [nonterminal_occurrences_grows ctx ctx1 hg ok1.wf e he] at he2
  rw [nonterminal_occurrences_grows ctx ctx1 hg ok1.wf r.replace hrr] at hr2
  refine ⟨_, _, _, hs1, he1, hr1, he2, hr2, hocc, ?_, ?_⟩
  · simp only [UNSIGNED_MOD] at hocc ⊢
    omega
  · intro hlt
    simp only [UNSIGNED_MOD] at hocc hlt ⊢
    omega

theorem refinement_nonterminal_count_witness :
    ∃ p t results ctx1, get_path_to_concretizable_element demo_ctx 2 = some p ∧
      demo_ctx.handle_at 2 p.root_first = some t ∧
      refine_expression_recurse demo_ctx 2 p [⟨0, 1⟩, ⟨0, 2⟩, ⟨0, 3⟩] = some (results, ctx1) ∧
      1 ≤ demo_ctx.nonterminal_occurrences 2 ∧
      (ctx1._exprs.length ≤ UNSIGNED_MOD →
        List.Forall₂ (fun s r => ∃ ns ne nr, ctx1.count_nonterminals s = some ns ∧
            demo_ctx.count_nonterminals 2 = some ne ∧
            demo_ctx.count_nonterminals r.replace = some nr ∧
            ctx1.count_nonterminals 2 = some ne ∧
            ctx1.count_nonterminals r.replace = some nr ∧
            ctx1.nonterminal_occurrences s + 1 =
              demo_ctx.nonterminal_occurrences 2 + demo_ctx.nonterminal_occurrences r.replace ∧
            (ns + 1) % UNSIGNED_MOD = (ne + nr) % UNSIGNED_MOD ∧
            (demo_ctx.nonterminal_occurrences 2 + demo_ctx.nonterminal_occurrences r.replace
                < UNSIGNED_MOD → ns = ne - 1 + nr))
          results (List.filter (fun r => decide (t = r.match_))
            ([⟨0, 1⟩, ⟨0, 2⟩, ⟨0, 3⟩] : rules_t))) :=
  refinement_nonterminal_count demo_ctx demo_ctx_reachable
    (well_formed_of_check demo_ctx (by decide)) [⟨0, 1⟩, ⟨0, 2⟩, ⟨0, 3⟩] (by decide) 2
    (by decide) (by decide)
    ⟨0, ⟨"_N", [], 0⟩, context.subterm.step 2 ⟨"and", [0, 0], 0⟩ 0 0 (by decide) (by decide)
      (context.subterm.refl 0), by decide, by decide⟩

/-- In the AND/NOT demonstration the successors of `and(_N,_N)` (two
nonterminals) for the rules `_N -> not(_N)`, `_N -> and(_N,_N)`, `_N -> x0` count
2, 3 and 1 nonterminals. -/
theorem demo_refine_counts :
    demo_ctx.count_nonterminals 2 = some 2 ∧
    demo_ctx.count_nonterminals 1 = some 1 ∧ demo_ctx.count_nonterminals 3 = some 0 ∧
    demo_refined_ctx.count_nonterminals 4 = some 2 ∧
    demo_refined_ctx.count_nonterminals 5 = some 3 ∧
    demo_refined_ctx.count_nonterminals 6 = some 1 := by
  decide

theorem terminal_count_cons (t : term) (rest : List term) :
    terminal_count (t :: rest) = terminal_count [t] + terminal_count rest := by
  cases t with
  | node n cs =>
    simp only [terminal_count]
    omega

theorem terminal_count_node (n : String) (cs : List term) :
    terminal_count [term.node n cs] = (if name0 n = '_' then 0 else 1) + terminal_count cs := by
  simp only [terminal_count]
  omega

theorem terminal_count_set (ts : List term) :
    ∀ (i : Nat) (c c2 : term), ts[i]? = some c →
      terminal_count (ts.set i c2) + terminal_count [c] =
        terminal_count ts + terminal_count [c2] := by
  induction ts with
  | nil => intro i c c2 h; simp at h
  | cons x xs ih =>
    intro i c c2 h
    cases i with
    | zero =>
      simp only [List.getElem?_cons_zero, Option.some.injEq] at h
      subst h
      simp only [List.set_cons_zero]
      rw [terminal_count_cons c2 xs, terminal_count_cons x xs]
      omega
    | succ i =>
      simp only [List.getElem?_cons_succ] at h
      have := ih i c c2 h
      simp only [List.set_cons_succ]
      rw [terminal_count_cons x (xs.set i c2), terminal_count_cons x xs]
      omega

/-- Replacing the subterm `l` at a position by `r` changes the number of terminal
symbols by the difference between `r` and `l`. -/
theorem terminal_count_replace (p : List Nat) :
    ∀ (t l r t2 : term), t.subterm_at p = some l → t.replace_at p r = some t2 →
      terminal_count [t2] + terminal_count [l] = terminal_count [t] + terminal_count [r] := by
  induction p with
  | nil =>
    intro t l r t2 hs hr
    simp only [term.subterm_at, Option.some.injEq] at hs
    simp only [term.replace_at, Option.some.injEq] at hr
    subst hs hr
    omega
  | cons i q ih =>
    intro t l r t2 hs hr
    cases t with
    | node n cs =>
      simp only [term.subterm_at, term.children_node] at hs
      simp only [term.replace_at, term.children_node, term.name_node] at hr
      cases hc : cs[i]? with
      | none => simp [hc] at hs
      | some c =>
        simp only [hc] at hs hr
        cases hc2 : c.replace_at q r with
        | none => simp [hc2] at hr
        | some c2 =>
          simp only [hc2, Option.some.injEq] at hr
          subst hr
          have h1 := ih c l r c2 hs hc2
          have h2 := terminal_count_set cs i c c2 hc
          rw [terminal_count_node, terminal_count_node]
          omega

/-- When every rule replaces its `match` by a term with one terminal symbol more,
a term derived in `k` rule applications has `k` terminal symbols more than the
term it is derived from. -/
theorem terminal_count_derives (ctx0 : context) (rules : rules_t)
    (hrules : ∀ rule ∈ rules, ∀ l r, ctx0.unfold rule.match_ = some l →
      ctx0.unfold rule.replace = some r → terminal_count [r] = terminal_count [l] + 1)
    (k : Nat) (t0 t : term) (h : derives (rule_application ctx0 rules) k t0 t) :
    terminal_count [t] = terminal_count [t0] + k := by
  induction h with
  | refl => rfl
  | step k t u v _ hstep ih =>
    obtain ⟨p, rule, l, r, hmem, hl, hr, _, hsub, hrep⟩ := hstep
    have h1 := terminal_count_replace p u l r v hsub hrep
    have h2 := hrules rule hmem l r hl hr
    omega

theorem demo_rules_terminal_count :
    ∀ rule ∈ ([⟨0, 1⟩, ⟨0, 2⟩, ⟨0, 3⟩] : rules_t), ∀ l r,
      demo_ctx.unfold rule.match_ = some l → demo_ctx.unfold rule.replace = some r →
      terminal_count [r] = terminal_count [l] + 1 := by
  intro rule hmem l r hl hr
  have h0 : demo_ctx.unfold 0 = some (term.node "_N" []) := rfl
  have h1 : demo_ctx.unfold 1 = some (term.node "not" [term.node "_N" []]) := rfl
  have h2 : demo_ctx.unfold 2 = some (term.node "and" [term.node "_N" [], term.node "_N" []]) :=
    rfl
  have h3 : demo_ctx.unfold 3 = some (term.node "x0" []) := rfl
  have hN : name0 "_N" = '_' := by decide
  have hnot : ¬ name0 "not" = '_' := by decide
  have hand : ¬ name0 "and" = '_' := by decide
  have hx0 : ¬ name0 "x0" = '_' := by decide
  simp only [List.mem_cons, List.mem_singleton, List.mem_nil_iff, or_false] at hmem
  rcases hmem with rfl | rfl | rfl
  · rw [h0] at hl
    rw [h1] at hr
    cases hl
    cases hr
    simp [terminal_count, hN, hnot]
  · rw [h0] at hl
    rw [h2] at hr
    cases hl
    cases hr
    simp [terminal_count, hN, hand]
  · rw [h0] at hl
    rw [h3] at hr
    cases hl
    cases hr
    simp [terminal_count, hN, hx0]

theorem is_top_iff (en : enumerator) (nc : cexpr_t) :
    en.is_top nc = true ↔ nc ∈ en.candidate_expressions ∧
      ∀ x ∈ en.candidate_expressions.erase nc, expr_greater_than en.ctx nc x = some false := by
  simp [enumerator.is_top, List.all_eq_true]

/-- A queued candidate that the comparator places above no queued candidate is a
candidate that `top()` can return. -/
theorem is_top_of_forall (en : enumerator) (nc : cexpr_t)
    (hmem : nc ∈ en.candidate_expressions)
    (hall : ∀ x ∈ en.candidate_expressions, expr_greater_than en.ctx nc x = some false) :
    en.is_top nc = true :=
  (is_top_iff en nc).2 ⟨hmem, fun x hx => hall x (List.mem_of_mem_erase hx)⟩

/-- A candidate that `top()` can return is queued and no queued candidate is
cheaper. -/
theorem is_top_spec (en : enumerator) (nc : cexpr_t) (h : en.is_top nc = true) :
    nc ∈ en.candidate_expressions ∧ ∀ x ∈ en.candidate_expressions, nc.2 ≤ x.2 := by
  obtain ⟨h1, h2⟩ := (is_top_iff en nc).1 h
  refine ⟨h1, ?_⟩
  intro x hx
  by_cases hxn : x = nc
  · rw [hxn]
  · exact expr_greater_than_false_cost en.ctx nc x (h2 x ((List.mem_erase_of_ne hxn).2 hx))

/-- The ways in which one iteration of `deduce` ends: on an empty queue, with the
quit flag already set, at a candidate that has reached the bound, or after the
loop over the refinements of the candidate. -/
theorem deduce_iteration_top_cases (en : enumerator) (nc : cexpr_t) (st : enumerator)
    (h : en.deduce_iteration_top nc = some st) :
    (en.candidate_expressions = [] ∧ st = { en with quit_enumeration := true }) ∨
    (en.quit_enumeration = true ∧ st = en) ∨
    (en.quit_enumeration = false ∧ en.is_top nc = true ∧
      ((max_cost_unsigned en.max_cost ≤ nc.2 ∧
          st = { en.take_candidate nc with quit_enumeration := true }) ∨
       (nc.2 < max_cost_unsigned en.max_cost ∧ ∃ p cands ctx1,
          get_path_to_concretizable_element en.ctx nc.1 = some p ∧
          refine_expression_recurse en.ctx nc.1 p en.rules = some (cands, ctx1) ∧
          deduce_loop nc.2 cands { en.take_candidate nc with ctx := ctx1 } = some st))) := by
  unfold enumerator.deduce_iteration_top at h
  by_cases hq : en.candidate_expressions = []
  · have hemp : en.candidate_expressions.isEmpty = true := by rw [hq]; rfl
    simp only [hemp, if_true, enumerator.is_running, Bool.not_true, Bool.not_false,
      Option.some.injEq] at h
    exact Or.inl ⟨hq, h.symm⟩
  · have hemp : en.candidate_expressions.isEmpty = false := by
      cases hl : en.candidate_expressions with
      | nil => exact absurd hl hq
      | cons x xs => rfl
    cases hquit : en.quit_enumeration with
    | true =>
      simp [hemp, enumerator.is_running, hquit] at h
      exact Or.inr (Or.inl ⟨rfl, h.symm⟩)
    | false =>
      right; right
      refine ⟨rfl, ?_⟩
      simp only [hemp, Bool.false_eq_true, if_false, enumerator.is_running,
        hquit, Bool.not_false, Bool.not_true] at h
      cases htop : en.is_top nc with
      | false => simp [htop] at h
      | true =>
        refine ⟨rfl, ?_⟩
        simp only [htop, Bool.not_true, Bool.false_eq_true, if_false] at h
        have hmc := take_candidate_max_cost en nc
        have hctx := take_candidate_ctx en nc
        have hrules := take_candidate_rules en nc
        by_cases hge : nc.2 ≥ max_cost_unsigned (en.take_candidate nc).max_cost
        · simp only [hge, if_true, Option.some.injEq] at h
          rw [hmc] at hge
          exact Or.inl ⟨hge, h.symm⟩
        · simp only [hge, if_false] at h
          rw [hmc] at hge
          right
          refine ⟨Nat.lt_of_not_ge hge, ?_⟩
          cases hp : get_path_to_concretizable_element (en.take_candidate nc).ctx nc.1 with
          | none => simp [hp] at h
          | some p =>
            simp only [hp] at h
            cases hr : refine_expression_recurse (en.take_candidate nc).ctx nc.1 p
                (en.take_candidate nc).rules with
            | none => simp [hr] at h
            | some res =>
              obtain ⟨cands, ctx1⟩ := res
              simp only [hr] at h
              rw [hctx] at hp
              rw [hctx, hrules] at hr
              exact ⟨p, cands, ctx1, hp, hr, h⟩

theorem deduce_iteration_top_empty (st : enumerator) (nc : cexpr_t)
    (hq : st.candidate_expressions = []) :
    st.deduce_iteration_top nc = some { st with quit_enumeration := true } := by
  unfold enumerator.deduce_iteration_top
  have hemp : st.candidate_expressions.isEmpty = true := by rw [hq]; rfl
  simp only [hemp, if_true, enumerator.is_running, Bool.not_true, Bool.not_false]

theorem deduce_iteration_top_quit (st : enumerator) (nc : cexpr_t)
    (hquit : st.quit_enumeration = true) : st.deduce_iteration_top nc = some st := by
  unfold enumerator.deduce_iteration_top
  cases hemp : st.candidate_expressions.isEmpty with
  | true =>
    simp only [if_true, enumerator.is_running, Bool.not_true, Bool.not_false,
      Option.some.injEq]
    cases st
    simp only at hquit
    simp only [hquit]
  | false =>
    simp only [Bool.false_eq_true, if_false, enumerator.is_running, hquit, Bool.not_true,
      Bool.not_false, if_true]

theorem deduce_iteration_top_bound (st : enumerator) (nc : cexpr_t)
    (hquit : st.quit_enumeration = false) (htop : st.is_top nc = true)
    (hge : max_cost_unsigned st.max_cost ≤ nc.2) :
    st.deduce_iteration_top nc = some { st.take_candidate nc with quit_enumeration := true } := by
  unfold enumerator.deduce_iteration_top
  have hemp : st.candidate_expressions.isEmpty = false := by
    cases hl : st.candidate_expressions with
    | nil =>
      have := ((is_top_iff st nc).1 htop).1
      rw [hl] at this
      exact absurd this (List.not_mem_nil nc)
    | cons x xs => rfl
  have hge2 : nc.2 ≥ max_cost_unsigned (st.take_candidate nc).max_cost := by
    rw [take_candidate_max_cost]; exact hge
  simp only [hemp, Bool.false_eq_true, if_false, enumerator.is_running, hquit, Bool.not_false,
    Bool.not_true, htop, hge2, if_true]

theorem deduce_iteration_top_refine (st : enumerator) (nc : cexpr_t) (p : path_t)
    (cands : List Nat) (ctx1 : context)
    (hquit : st.quit_enumeration = false) (htop : st.is_top nc = true)
    (hlt : nc.2 < max_cost_unsigned st.max_cost)
    (hp : get_path_to_concretizable_element st.ctx nc.1 = some p)
    (href : refine_expression_recurse st.ctx nc.1 p st.rules = some (cands, ctx1)) :
    st.deduce_iteration_top nc =
      deduce_loop nc.2 cands { st.take_candidate nc with ctx := ctx1 } := by
  unfold enumerator.deduce_iteration_top
  have hemp : st.candidate_expressions.isEmpty = false := by
    cases hl : st.candidate_expressions with
    | nil =>
      have := ((is_top_iff st nc).1 htop).1
      rw [hl] at this
      exact absurd this (List.not_mem_nil nc)
    | cons x xs => rfl
  have hge2 : ¬ nc.2 ≥ max_cost_unsigned (st.take_candidate nc).max_cost := by
    rw [take_candidate_max_cost]; omega
  have hp2 : get_path_to_concretizable_element (st.take_candidate nc).ctx nc.1 = some p := by
    rw [take_candidate_ctx]; exact hp
  have href2 : refine_expression_recurse (st.take_candidate nc).ctx nc.1 p
      (st.take_candidate nc).rules = some (cands, ctx1) := by
    rw [take_candidate_ctx, take_candidate_rules]; exact href
  simp only [hemp, Bool.false_eq_true, if_false, enumerator.is_running, hquit, Bool.not_false,
    Bool.not_true, htop, hge2, hp2, href2]

theorem deduce_tops_cons (st st1 : enumerator) (nc : cexpr_t) (tops : List cexpr_t)
    (h : st.deduce_iteration_top nc = some st1) :
    st.deduce_tops (nc :: tops) = st1.deduce_tops tops := by
  conv_lhs => unfold enumerator.deduce_tops
  simp only [h]

theorem deduce_tops_of_quit (st : enumerator) (hquit : st.quit_enumeration = true)
    (tops : List cexpr_t) : st.deduce_tops tops = some st := by
  induction tops with
  | nil => rfl
  | cons nc tops ih =>
    rw [deduce_tops_cons st st nc tops (deduce_iteration_top_quit st nc hquit)]; exact ih

theorem deduce_iteration_top_cost_inv (en : enumerator) (nc : cexpr_t) (st : enumerator)
    (lo : Nat) (inv : cost_inv en lo) (h : en.deduce_iteration_top nc = some st) :
    (∃ lo2, cost_inv st lo2) ∧ st.max_cost = en.max_cost := by
  rcases deduce_iteration_top_cases en nc st h with ⟨_, hst⟩ | ⟨_, hst⟩ | ⟨_, htop, hcase⟩
  · rw [hst]
    exact ⟨⟨lo, cost_inv_congr en _ lo rfl rfl rfl inv⟩, rfl⟩
  · rw [hst]
    exact ⟨⟨lo, inv⟩, rfl⟩
  · obtain ⟨hmem, hmin⟩ := is_top_spec _ _ htop
    obtain ⟨evs, hev, hp, hc, _⟩ := take_candidate_events en nc
    have hinv2 : cost_inv (en.take_candidate nc) nc.2 :=
      cost_inv_pop en lo nc evs inv hmem hmin _ (take_candidate_queue en nc) hev ⟨hp, hc⟩
        (take_candidate_max_cost en nc)
    rcases hcase with ⟨_, hst⟩ | ⟨hlt, p, cands, ctx1, _, _, hloop⟩
    · rw [hst]
      exact ⟨⟨nc.2, cost_inv_congr (en.take_candidate nc) _ _ rfl rfl rfl hinv2⟩,
        take_candidate_max_cost en nc⟩
    · obtain ⟨h1, h2⟩ := deduce_loop_cost_inv nc.2 cands
        { en.take_candidate nc with ctx := ctx1 } st
        (by show nc.2 < max_cost_unsigned (en.take_candidate nc).max_cost
            rw [take_candidate_max_cost]; exact hlt)
        (cost_inv_congr (en.take_candidate nc) _ _ rfl rfl rfl hinv2) hloop
      exact ⟨⟨nc.2, h1⟩, by rw [h2]; exact take_candidate_max_cost en nc⟩

theorem deduce_tops_cost_inv (tops : List cexpr_t) (en st : enumerator) (lo : Nat)
    (inv : cost_inv en lo) (h : en.deduce_tops tops = some st) :
    (∃ lo2, cost_inv st lo2) ∧ st.max_cost = en.max_cost := by
  induction tops generalizing en lo with
  | nil =>
    simp only [enumerator.deduce_tops, Option.some.injEq] at h
    subst h
    exact ⟨⟨lo, inv⟩, rfl⟩
  | cons nc tops ih =>
    unfold enumerator.deduce_tops at h
    cases hit : en.deduce_iteration_top nc with
    | none => simp [hit] at h
    | some en1 =>
      simp only [hit] at h
      obtain ⟨⟨lo1, inv1⟩, hmc⟩ := deduce_iteration_top_cost_inv en nc en1 lo inv hit
      obtain ⟨h1, h2⟩ := ih en1 lo1 inv1 h
      exact ⟨h1, by rw [h2, hmc]⟩

theorem run_calls_cost_inv (calls : List session_call) (en st : enumerator) (lo : Nat)
    (inv : cost_inv en lo) (h : run_calls calls en = some st) :
    (∃ lo2, cost_inv st lo2) ∧ st.max_cost = en.max_cost := by
  induction calls generalizing en lo with
  | nil =>
    simp only [run_calls, Option.some.injEq] at h
    subst h
    exact ⟨⟨lo, inv⟩, rfl⟩
  | cons call calls ih =>
    cases call with
    | deduce tops =>
      unfold run_calls at h
      cases hd : en.deduce_tops tops with
      | none => simp [hd] at h
      | some en1 =>
        simp only [hd] at h
        obtain ⟨⟨lo1, inv1⟩, hmc⟩ := deduce_tops_cost_inv tops en en1 lo inv hd
        obtain ⟨h1, h2⟩ := ih en1 lo1 inv1 h
        exact ⟨h1, by rw [h2, hmc]⟩
    | signal_termination =>
      unfold run_calls at h
      exact ih en.signal_termination lo (cost_inv_congr en _ lo rfl rfl rfl inv) h

/-- C2. Cost monotonicity: in a session in which all seeds are added before the
first call of `deduce`, whatever calls of `deduce` and `signal_termination`
follow and whichever of the candidates that the comparator places above no
queued candidate each call of `top()` returns, the costs passed to
`on_concrete_expression` form a non-decreasing sequence, and so do the costs of
the candidates popped from the queue. -/
theorem cost_monotonicity (ctx : context) (rules : rules_t) (max_cost : Int)
    (seeds : List Nat) (calls : List session_call) (st : enumerator)
    (h : run_calls calls (enumerator.seeded ctx rules max_cost seeds) = some st) :
    (concrete_costs st.events).Pairwise (fun a b => a ≤ b) ∧
    (popped_costs st.events).Pairwise (fun a b => a ≤ b) := by
  obtain ⟨⟨lo, inv⟩, _⟩ := run_calls_cost_inv calls _ st 0
    (seeded_cost_inv ctx rules max_cost seeds) h
  exact ⟨inv.concrete_sorted, inv.popped_sorted⟩

theorem cost_monotonicity_witness :
    run_calls [session_call.deduce demo_tops_3]
      (enumerator.seeded demo_ctx [⟨0, 1⟩, ⟨0, 2⟩, ⟨0, 3⟩] 3 [0]) = some demo_run_3 ∧
    concrete_costs demo_run_3.events = [1, 2, 3, 3] ∧
    popped_costs demo_run_3.events = [0, 1, 1, 2, 2, 2, 2, 2, 3] ∧
    (concrete_costs demo_run_3.events).Pairwise (fun a b => a ≤ b) ∧
    (popped_costs demo_run_3.events).Pairwise (fun a b => a ≤ b) :=
  ⟨by decide, by decide, by decide,
    cost_monotonicity demo_ctx [⟨0, 1⟩, ⟨0, 2⟩, ⟨0, 3⟩] 3 [0]
      [session_call.deduce demo_tops_3] demo_run_3 (by decide)⟩

/-- For a bound that is not negative (and is an `int`), no cost passed to
`on_concrete_expression` exceeds `max_cost`. -/
theorem bound_respected_of_nonneg (ctx : context) (rules : rules_t) (max_cost : Int)
    (h0 : 0 ≤ max_cost) (seeds : List Nat) (calls : List session_call)
    (st : enumerator)
    (h : run_calls calls (enumerator.seeded ctx rules max_cost seeds) = some st) :
    ∀ c ∈ concrete_costs st.events, (c : Int) ≤ max_cost := by
  obtain ⟨⟨lo, inv⟩, hmc⟩ := run_calls_cost_inv calls _ st 0
    (seeded_cost_inv ctx rules max_cost seeds) h
  intro c hc
  have hb := inv.concrete_bound c hc
  rw [hmc, (seeded_fields ctx rules max_cost seeds).2.2.1] at hb
  unfold max_cost_unsigned at hb
  have hpos : (0 : Int) < (UNSIGNED_MOD : Int) := by decide
  have h2 := Int.emod_nonneg max_cost (Int.ne_of_gt hpos)
  have h3 : max_cost % (UNSIGNED_MOD : Int) ≤ max_cost := by
    have h4 := Int.emod_add_ediv max_cost (UNSIGNED_MOD : Int)
    have h5 : 0 ≤ max_cost / (UNSIGNED_MOD : Int) := Int.ediv_nonneg h0 (Int.le_of_lt hpos)
    have h6 : 0 ≤ (UNSIGNED_MOD : Int) * (max_cost / (UNSIGNED_MOD : Int)) :=
      Int.mul_nonneg (Int.le_of_lt hpos) h5
    omega
  omega

theorem deduce_iteration_top_session_inv (ctx0 : context) (rules : rules_t) (seeds : List Nat)
    (hrules : rules_ok ctx0 rules) (st : enumerator) (nc : cexpr_t) (st2 : enumerator)
    (inv : session_inv ctx0 rules seeds st) (h : st.deduce_iteration_top nc = some st2)
    (hsize : st2.ctx._exprs.length ≤ UNSIGNED_MOD) :
    session_inv ctx0 rules seeds st2 ∧ st.ctx.grows st2.ctx := by
  rcases deduce_iteration_top_cases st nc st2 h with ⟨_, hst⟩ | ⟨_, hst⟩ | ⟨_, htop, hcase⟩
  · subst hst
    exact ⟨session_inv_grows _ _ _ st _ inv inv.ok (grows_refl _) rfl (fun q hq => hq)
      (fun q hq => hq) (fun q hq => hq), grows_refl _⟩
  · subst hst
    exact ⟨inv, grows_refl _⟩
  · obtain ⟨hmem, _⟩ := is_top_spec _ _ htop
    obtain ⟨evs, hev, _, _, hfin⟩ := take_candidate_events st nc
    have hq2 : ∀ q ∈ (st.take_candidate nc).candidate_expressions,
        q ∈ st.candidate_expressions := by
      intro q hq
      rw [take_candidate_queue] at hq
      exact List.mem_of_mem_erase hq
    have hc2 : ∀ q, event.on_concrete_expression q ∈ (st.take_candidate nc).events →
        event.on_concrete_expression q ∈ st.events := by
      intro q hq
      rw [hev] at hq
      simp only [List.mem_append, List.mem_singleton, reduceCtorEq, or_false] at hq
      rcases hq with hq | hq
      · exact hq
      · obtain ⟨n, hn⟩ := hfin _ hq
        cases hn
    have ha2 : ∀ q, event.on_abstract_expression q ∈ (st.take_candidate nc).events →
        event.on_abstract_expression q ∈ st.events := by
      intro q hq
      rw [hev] at hq
      simp only [List.mem_append, List.mem_singleton, reduceCtorEq, or_false] at hq
      rcases hq with hq | hq
      · exact hq
      · obtain ⟨n, hn⟩ := hfin _ hq
        cases hn
    rcases hcase with ⟨_, hst⟩ | ⟨hlt, p, cands, ctx1, _, href, hloop⟩
    · subst hst
      have hctx : (st.take_candidate nc).ctx = st.ctx := take_candidate_ctx st nc
      refine ⟨session_inv_grows _ _ _ st _ inv (by show (st.take_candidate nc).ctx.ok
                                                   rw [hctx]; exact inv.ok)
        (by show st.ctx.grows (st.take_candidate nc).ctx
            rw [hctx]; exact grows_refl _)
        (take_candidate_rules st nc) hq2 hc2 ha2, ?_⟩
      show st.ctx.grows (st.take_candidate nc).ctx
      rw [hctx]
      exact grows_refl _
    · obtain ⟨hctx2, _⟩ := deduce_loop_ctx nc.2 cands _ st2 hloop
      have hctx3 : st2.ctx = ctx1 := hctx2
      rw [hctx3] at hsize
      obtain ⟨hnc_lt, hnc_der⟩ := inv.queue nc hmem
      rw [← inv.rules_eq] at hrules
      have hrules0 := hrules
      rw [inv.rules_eq] at hrules0
      rw [inv.rules_eq] at href
      obtain ⟨ok1, hg1, hcands⟩ := refine_rule_application ctx0 rules hrules0 st.ctx inv.ok
        inv.grows nc.1 hnc_lt p cands ctx1 href hsize
      have inv2 : session_inv ctx0 rules seeds { st.take_candidate nc with ctx := ctx1 } :=
        session_inv_grows _ _ _ st _ inv ok1 hg1 (take_candidate_rules st nc) hq2 hc2 ha2
      have hm := max_cost_unsigned_lt st.max_cost
      have hmod : (nc.2 + 1) % UNSIGNED_MOD = nc.2 + 1 := Nat.mod_eq_of_lt (by omega)
      have hres := deduce_loop_induction
        (fun e => session_inv ctx0 rules seeds e ∧ e.ctx = ctx1) nc.2 cands _ st2 hloop
        ⟨inv2, rfl⟩ ?_ ?_
      · refine ⟨hres.1, ?_⟩
        rw [hctx3]
        exact hg1
      · rintro en1 c ⟨inv1, hc1⟩ hcm _ hcon
        rw [hmod]
        obtain ⟨hclt, t, t2, ht, ht2, hra⟩ := hcands c hcm
        refine ⟨?_, hc1⟩
        have hder := derivable_step ctx0 rules seeds st.ctx ctx1 nc.1 nc.2 c t t2 hnc_der ht ht2 hra
        obtain ⟨b, hb, hiff⟩ := is_concrete_iff ctx1 ok1.wf c hclt
          (Nat.lt_of_lt_of_le hclt hsize)
        rw [hc1, hb] at hcon
        cases hcon
        refine ⟨inv1.ok, inv1.grows, inv1.rules_eq, inv1.queue, ?_, ?_⟩
        · intro q hq
          simp only [enumerator.on_concrete_expression, enumerator.on_expression,
            List.mem_append, List.mem_singleton, reduceCtorEq, or_false,
            event.on_concrete_expression.injEq] at hq
          rcases hq with hq | hq
          · exact inv1.concrete q hq
          · rw [hq]
            show c < en1.ctx._exprs.length ∧ ¬ en1.ctx.has_nonterminal c ∧
              derivable ctx0 rules seeds en1.ctx c (nc.2 + 1)
            rw [hc1]
            exact ⟨hclt, hiff.1 rfl, hder⟩
        · intro q hq
          simp only [enumerator.on_concrete_expression, enumerator.on_expression,
            List.mem_append, List.mem_singleton, reduceCtorEq, or_false] at hq
          exact inv1.abstract q hq
      · rintro en1 c ⟨inv1, hc1⟩ hcm _ hcon
        rw [hmod]
        obtain ⟨hclt, t, t2, ht, ht2, hra⟩ := hcands c hcm
        refine ⟨?_, hc1⟩
        have hder := derivable_step ctx0 rules seeds st.ctx ctx1 nc.1 nc.2 c t t2 hnc_der ht ht2 hra
        obtain ⟨b, hb, hiff⟩ := is_concrete_iff ctx1 ok1.wf c hclt
          (Nat.lt_of_lt_of_le hclt hsize)
        rw [hc1, hb] at hcon
        cases hcon
        have hnt : ctx1.has_nonterminal c := by
          by_contra hno
          exact absurd (hiff.2 hno) (by simp)
        refine ⟨inv1.ok, inv1.grows, inv1.rules_eq, ?_, ?_, ?_⟩
        · intro q hq
          simp only [enumerator.on_abstract_expression, enumerator.on_expression,
            List.mem_append, List.mem_singleton] at hq
          rcases hq with hq | hq
          · exact inv1.queue q hq
          · rw [hq]
            show c < en1.ctx._exprs.length ∧ derivable ctx0 rules seeds en1.ctx c (nc.2 + 1)
            rw [hc1]
            exact ⟨hclt, hder⟩
        · intro q hq
          simp only [enumerator.on_abstract_expression, enumerator.on_expression,
            List.mem_append, List.mem_singleton, reduceCtorEq, or_false] at hq
          exact inv1.concrete q hq
        · intro q hq
          simp only [enumerator.on_abstract_expression, enumerator.on_expression,
            List.mem_append, List.mem_singleton, reduceCtorEq, or_false,
            event.on_abstract_expression.injEq] at hq
          rcases hq with hq | hq
          · exact inv1.abstract q hq
          · rw [hq]
            show c < en1.ctx._exprs.length ∧ en1.ctx.has_nonterminal c ∧
              derivable ctx0 rules seeds en1.ctx c (nc.2 + 1)
            rw [hc1]
            exact ⟨hclt, hnt, hder⟩

theorem deduce_iteration_top_grows (st : enumerator) (nc : cexpr_t) (st2 : enumerator)
    (h : st.deduce_iteration_top nc = some st2) : st.ctx.grows st2.ctx := by
  rcases deduce_iteration_top_cases st nc st2 h with ⟨_, hst⟩ | ⟨_, hst⟩ | ⟨_, _, hcase⟩
  · subst hst; exact grows_refl _
  · subst hst; exact grows_refl _
  · rcases hcase with ⟨_, hst⟩ | ⟨_, p, cands, ctx1, _, href, hloop⟩
    · subst hst
      show st.ctx.grows (st.take_candidate nc).ctx
      rw [take_candidate_ctx]
      exact grows_refl _
    · obtain ⟨hctx2, _⟩ := deduce_loop_ctx nc.2 cands _ st2 hloop
      have hctx3 : st2.ctx = ctx1 := hctx2
      rw [hctx3]
      exact refine_fuel_grows _ _ _ _ _ _ _ href

theorem deduce_tops_grows (tops : List cexpr_t) (st st2 : enumerator)
    (h : st.deduce_tops tops = some st2) : st.ctx.grows st2.ctx := by
  induction tops generalizing st with
  | nil =>
    simp only [enumerator.deduce_tops, Option.some.injEq] at h
    subst h
    exact grows_refl _
  | cons nc tops ih =>
    unfold enumerator.deduce_tops at h
    cases hit : st.deduce_iteration_top nc with
    | none => simp [hit] at h
    | some st1 =>
      simp only [hit] at h
      exact grows_trans _ _ _ (deduce_iteration_top_grows st nc st1 hit) (ih st1 h)

theorem run_calls_grows (calls : List session_call) (st st2 : enumerator)
    (h : run_calls calls st = some st2) : st.ctx.grows st2.ctx := by
  induction calls generalizing st with
  | nil =>
    simp only [run_calls, Option.some.injEq] at h
    subst h
    exact grows_refl _
  | cons call calls ih =>
    cases call with
    | deduce tops =>
      unfold run_calls at h
      cases hd : st.deduce_tops tops with
      | none => simp [hd] at h
      | some st1 =>
        simp only [hd] at h
        exact grows_trans _ _ _ (deduce_tops_grows tops st st1 hd) (ih st1 h)
    | signal_termination =>
      unfold run_calls at h
      exact ih st.signal_termination h

theorem deduce_tops_session_inv (ctx0 : context) (rules : rules_t) (seeds : List Nat)
    (hrules : rules_ok ctx0 rules) (tops : List cexpr_t) (st st2 : enumerator)
    (inv : session_inv ctx0 rules seeds st) (h : st.deduce_tops tops = some st2)
    (hsize : st2.ctx._exprs.length ≤ UNSIGNED_MOD) : session_inv ctx0 rules seeds st2 := by
  induction tops generalizing st with
  | nil =>
    simp only [enumerator.deduce_tops, Option.some.injEq] at h
    subst h
    exact inv
  | cons nc tops ih =>
    unfold enumerator.deduce_tops at h
    cases hit : st.deduce_iteration_top nc with
    | none => simp [hit] at h
    | some st1 =>
      simp only [hit] at h
      have hs1 : st1.ctx._exprs.length ≤ UNSIGNED_MOD :=
        Nat.le_trans (grows_length _ _ (deduce_tops_grows tops st1 st2 h)) hsize
      exact ih st1
        (deduce_iteration_top_session_inv ctx0 rules seeds hrules st nc st1 inv hit hs1).1 h

theorem run_calls_inv (ctx0 : context) (rules : rules_t) (seeds : List Nat)
    (hrules : rules_ok ctx0 rules) (calls : List session_call) (st st2 : enumerator)
    (inv : session_inv ctx0 rules seeds st) (h : run_calls calls st = some st2)
    (hsize : st2.ctx._exprs.length ≤ UNSIGNED_MOD) : session_inv ctx0 rules seeds st2 := by
  induction calls generalizing st with
  | nil =>
    simp only [run_calls, Option.some.injEq] at h
    subst h
    exact inv
  | cons call calls ih =>
    cases call with
    | deduce tops =>
      unfold run_calls at h
      cases hd : st.deduce_tops tops with
      | none => simp [hd] at h
      | some st1 =>
        simp only [hd] at h
        have hs1 : st1.ctx._exprs.length ≤ UNSIGNED_MOD :=
          Nat.le_trans (grows_length _ _ (run_calls_grows calls st1 st2 h)) hsize
        exact ih st1 (deduce_tops_session_inv ctx0 rules seeds hrules tops st st1 inv hd hs1) h
    | signal_termination =>
      unfold run_calls at h
      exact ih st.signal_termination
        (session_inv_grows _ _ _ st _ inv inv.ok (grows_refl _) rfl (fun q hq => hq)
          (fun q hq => hq) (fun q hq => hq)) h

/-- No term is obtained by a rule application when the `match` of every rule
unfolds to a terminal symbol. -/
theorem no_rule_application (ctx0 : context) (rules : rules_t)
    (h : ∀ rule ∈ rules, ∀ l, ctx0.unfold rule.match_ = some l → name0 l.name ≠ '_')
    (t t2 : term) : ¬ rule_application ctx0 rules t t2 := by
  rintro ⟨p, rule, l, r, hmem, hl, _, hname, _, _⟩
  exact h rule hmem l hl hname

theorem derives_eq_of_no_step (R : term → term → Prop) (h : ∀ t t2, ¬ R t t2) (c : Nat)
    (a b : term) (hd : derives R c a b) : a = b := by
  cases hd with
  | refl => rfl
  | step k _ u _ _ hr => exact absurd hr (h _ _)

/-- C4, counterexample. With the terminal symbols `x0`, `x1`, the rule `x0 -> x1`,
whose `match` is a terminal symbol, the seed `x0` and the bound 2, the first
iteration of `deduce` takes the seed, whose path is invalid, and
`refine_expression_recurse` applies the rule at the root: `x1` is passed to
`on_concrete_expression` with cost 1, although no nonterminal occurrence has
been replaced; `x1` is not obtained from the seed by any number of applications
of a rule at a nonterminal. -/
theorem emission_terminal_match_counterexample :
    terminal_ctx._exprs = [⟨"x0", [], 0⟩, ⟨"x1", [], 0⟩] ∧
    terminal_en.is_top (0, 0) = true ∧
    get_path_to_concretizable_element terminal_ctx 0 = some ⟨[], UNSIGNED_MAX⟩ ∧
    refine_expression_recurse terminal_ctx 0 ⟨[], UNSIGNED_MAX⟩ [⟨0, 1⟩] =
      some ([1], terminal_ctx) ∧
    (terminal_en.deduce_tops [(0, 0)]).map (fun st => (st.events, st.ctx)) =
      some ([event.popped (0, 0), event.on_expression (1, 1),
        event.on_concrete_expression (1, 1)], terminal_ctx) ∧
    terminal_ctx.unfold 0 = some (term.node "x0" []) ∧
    terminal_ctx.unfold 1 = some (term.node "x1" []) ∧
    (∀ t t2, ¬ rule_application terminal_ctx [⟨0, 1⟩] t t2) ∧
    (∀ c, ¬ derives (rule_application terminal_ctx [⟨0, 1⟩]) c
      (term.node "x0" []) (term.node "x1" [])) := by
  have hno : ∀ t t2, ¬ rule_application terminal_ctx [⟨0, 1⟩] t t2 := by
    apply no_rule_application
    intro rule hmem l hl
    rw [List.mem_singleton.1 hmem] at hl
    have h0 : terminal_ctx.unfold 0 = some (term.node "x0" []) := rfl
    change terminal_ctx.unfold 0 = some l at hl
    rw [h0] at hl
    cases hl
    decide
  refine ⟨by decide, by decide, by decide, by decide, by decide, rfl, rfl, hno, ?_⟩
  intro c hder
  have heq := derives_eq_of_no_step _ hno c _ _ hder
  injection heq with h1 _
  exact absurd h1 (by decide)

/-- C4, amended. Emission soundness for a grammar in which the `match` of every
rule is a nonterminal node, declared in a reachable, well-formed arena with rule
and seed handles in range, with the default callbacks and an arena that stays
within `2^32` nodes, whichever of the candidates that the comparator places above
no queued candidate each call of `top()` returns: every candidate `(s, c)`
passed to `on_concrete_expression` reaches no nonterminal node, every candidate
passed to `on_abstract_expression` (which pushes it back to the queue) reaches
one, and in both cases, as for every queued candidate, the tree unfolding of `s`
is obtained from the unfolding of a seed by exactly `c` rule applications, each
replacing one occurrence of a nonterminal by the `replace` of a rule whose
`match` is that nonterminal. -/
theorem emission_soundness (ctx : context) (rules : rules_t) (max_cost : Int)
    (seeds : List Nat) (hr : ctx.reachable) (wf : ctx.well_formed)
    (hrules : rules_ok ctx rules) (hseeds : ∀ s ∈ seeds, s < ctx._exprs.length)
    (calls : List session_call) (st : enumerator)
    (h : run_calls calls (enumerator.seeded ctx rules max_cost seeds) = some st)
    (hsize : st.ctx._exprs.length ≤ UNSIGNED_MOD) :
    (∀ s c, event.on_concrete_expression (s, c) ∈ st.events →
      ¬ st.ctx.has_nonterminal s ∧
      ∃ seed ∈ seeds, ∃ t0 t, ctx.unfold seed = some t0 ∧ st.ctx.unfold s = some t ∧
        derives (rule_application ctx rules) c t0 t) ∧
    (∀ s c, event.on_abstract_expression (s, c) ∈ st.events →
      st.ctx.has_nonterminal s ∧
      ∃ seed ∈ seeds, ∃ t0 t, ctx.unfold seed = some t0 ∧ st.ctx.unfold s = some t ∧
        derives (rule_application ctx rules) c t0 t) ∧
    (∀ s c, (s, c) ∈ st.candidate_expressions →
      ∃ seed ∈ seeds, ∃ t0 t, ctx.unfold seed = some t0 ∧ st.ctx.unfold s = some t ∧
        derives (rule_application ctx rules) c t0 t) := by
  have inv := run_calls_inv ctx rules seeds hrules calls _ st
    (seeded_session_inv ctx rules max_cost seeds hr wf hseeds) h hsize
  refine ⟨?_, ?_, ?_⟩
  · intro s c hev
    exact (inv.concrete (s, c) hev).2
  · intro s c hev
    exact (inv.abstract (s, c) hev).2
  · intro s c hq
    exact (inv.queue (s, c) hq).2

theorem emission_soundness_witness :
    run_calls [session_call.deduce demo_tops_3]
      (enumerator.seeded demo_ctx [⟨0, 1⟩, ⟨0, 2⟩, ⟨0, 3⟩] 3 [0]) = some demo_run_3 ∧
    demo_run_3.ctx._exprs.length ≤ UNSIGNED_MOD ∧
    event.on_concrete_expression (15, 3) ∈ demo_run_3.events ∧
    event.on_abstract_expression (9, 2) ∈ demo_run_3.events ∧
    (14, 3) ∈ demo_run_3.candidate_expressions ∧
    ((∀ s c, event.on_concrete_expression (s, c) ∈ demo_run_3.events →
      ¬ demo_run_3.ctx.has_nonterminal s ∧
      ∃ seed ∈ [0], ∃ t0 t, demo_ctx.unfold seed = some t0 ∧
        demo_run_3.ctx.unfold s = some t ∧
        derives (rule_application demo_ctx [⟨0, 1⟩, ⟨0, 2⟩, ⟨0, 3⟩]) c t0 t) ∧
    (∀ s c, event.on_abstract_expression (s, c) ∈ demo_run_3.events →
      demo_run_3.ctx.has_nonterminal s ∧
      ∃ seed ∈ [0], ∃ t0 t, demo_ctx.unfold seed = some t0 ∧
        demo_run_3.ctx.unfold s = some t ∧
        derives (rule_application demo_ctx [⟨0, 1⟩, ⟨0, 2⟩, ⟨0, 3⟩]) c t0 t) ∧
    (∀ s c, (s, c) ∈ demo_run_3.candidate_expressions →
      ∃ seed ∈ [0], ∃ t0 t, demo_ctx.unfold seed = some t0 ∧
        demo_run_3.ctx.unfold s = some t ∧
        derives (rule_application demo_ctx [⟨0, 1⟩, ⟨0, 2⟩, ⟨0, 3⟩]) c t0 t)) :=
  ⟨by decide, by decide, by decide, by decide, by decide,
    emission_soundness demo_ctx [⟨0, 1⟩, ⟨0, 2⟩, ⟨0, 3⟩] 3 [0] demo_ctx_reachable
      (well_formed_of_check _ (by decide)) demo_rules_ok (by decide)
      [session_call.deduce demo_tops_3] demo_run_3 (by decide) (by decide)⟩

/-- A non-empty list of candidates with stored handles has an element whose
triple is not above the triple of any element. -/
theorem minimal_key_exists (ctx : context) (wf : ctx.well_formed) (q : List cexpr_t)
    (hne : q ≠ []) (hq : ∀ x ∈ q, x.1 < ctx._exprs.length) :
    ∃ r kr, r ∈ q ∧ candidate_key ctx r = some kr ∧
      ∀ x ∈ q, ∃ kx, candidate_key ctx x = some kx ∧ lex3_lt kx kr = false := by
  induction q with
  | nil => exact absurd rfl hne
  | cons a q ih =>
    obtain ⟨ka, hka⟩ := candidate_key_total ctx wf a (hq a (List.mem_cons_self _ _))
    by_cases hq0 : q = []
    · subst hq0
      refine ⟨a, ka, List.mem_cons_self _ _, hka, ?_⟩
      intro x hx
      rw [List.mem_singleton.1 hx]
      exact ⟨ka, hka, lex3_lt_irrefl ka⟩
    · obtain ⟨r, kr, hr, hkr, hall⟩ := ih hq0 (fun x hx => hq x (List.mem_cons_of_mem _ hx))
      cases hlt : lex3_lt ka kr with
      | true =>
        refine ⟨a, ka, List.mem_cons_self _ _, hka, ?_⟩
        intro x hx
        rcases List.mem_cons.1 hx with hx1 | hx1
        · rw [hx1]
          exact ⟨ka, hka, lex3_lt_irrefl ka⟩
        · obtain ⟨kx, hkx, hle⟩ := hall x hx1
          exact ⟨kx, hkx, lex3_ge_trans kx kr ka hle (lex3_ge_of_lt ka kr hlt)⟩
      | false =>
        refine ⟨r, kr, List.mem_cons_of_mem _ hr, hkr, ?_⟩
        intro x hx
        rcases List.mem_cons.1 hx with hx1 | hx1
        · rw [hx1]
          exact ⟨ka, hka, hlt⟩
        · exact hall x hx1

/-- A non-empty queue of stored handles holds a candidate that `top()` can
return. -/
theorem is_top_exists (en : enumerator) (wf : en.ctx.well_formed)
    (hne : en.candidate_expressions ≠ [])
    (hq : ∀ x ∈ en.candidate_expressions, x.1 < en.ctx._exprs.length) :
    ∃ nc, en.is_top nc = true := by
  obtain ⟨r, kr, h2, h3, h4⟩ := minimal_key_exists en.ctx wf en.candidate_expressions hne hq
  refine ⟨r, is_top_of_forall en r h2 ?_⟩
  intro x hx
  obtain ⟨kx, hkx, hle⟩ := h4 x hx
  rw [expr_greater_than_key en.ctx r x kr kx h3 hkx, hle]

/-- One iteration of `deduce` from a running state of an exhaustive search, with
any candidate that `top()` can return, returns a state and decreases the
termination measure; the invariant is kept as long as the arena stays within
`2^32` nodes. -/
theorem deduce_iteration_top_search (ctx0 : context) (rules : rules_t) (max_cost : Int)
    (seed : Nat) (hrules : rules_ok ctx0 rules) (hleaf : leaf_matches ctx0 rules)
    (st : enumerator) (inv : search_inv ctx0 rules max_cost seed st)
    (hrun : st.quit_enumeration = false) (hs0 : st.ctx._exprs.length ≤ UNSIGNED_MOD)
    (nc : cexpr_t) (htop : st.candidate_expressions = [] ∨ st.is_top nc = true) :
    ∃ st2, st.deduce_iteration_top nc = some st2 ∧
      search_measure st2 < search_measure st ∧
      (st2.ctx._exprs.length ≤ UNSIGNED_MOD → search_inv ctx0 rules max_cost seed st2) := by
  have hmeasure : search_measure st = 1 + queue_weight st.rules.length
      (max_cost_unsigned st.max_cost) st.candidate_expressions := by
    simp [search_measure, hrun]
  by_cases hq : st.candidate_expressions = []
  · refine ⟨_, deduce_iteration_top_empty st nc hq, ?_, fun _ => ?_⟩
    · rw [hmeasure]
      simp [search_measure]
    · refine search_inv_quit_step ctx0 rules max_cost seed st _ inv rfl rfl rfl
        (fun q h => h) (fun ev h => h) ?_ (fun q h _ => h)
      intro q hq2
      have : q ∈ st.candidate_expressions := hq2
      rw [hq] at this
      exact absurd this (List.not_mem_nil q)
  · have htop : st.is_top nc = true := by
      rcases htop with h | h
      · exact absurd h hq
      · exact h
    obtain ⟨hmem, hmin⟩ := is_top_spec _ _ htop
    have hq2 : ∀ q ∈ (st.take_candidate nc).candidate_expressions,
        q ∈ st.candidate_expressions := by
      intro q hq
      rw [take_candidate_queue] at hq
      exact List.mem_of_mem_erase hq
    by_cases hge : max_cost_unsigned st.max_cost ≤ nc.2
    · refine ⟨_, deduce_iteration_top_bound st nc hrun htop hge, ?_, fun _ => ?_⟩
      · rw [hmeasure]
        simp [search_measure]
      · refine search_inv_quit_step ctx0 rules max_cost seed st _ inv
          (take_candidate_ctx st nc) (take_candidate_rules st nc)
          (take_candidate_max_cost st nc) hq2 (take_candidate_events_mem st nc) ?_ ?_
        · intro q hq3
          rw [← inv.max_cost_eq]
          exact Nat.le_trans hge (hmin q (hq2 q hq3))
        · intro q hq3 hlt
          rw [← inv.max_cost_eq] at hlt
          have := hmin q hq3
          omega
    · have hlt : nc.2 < max_cost_unsigned st.max_cost := Nat.lt_of_not_ge hge
      have hnc := inv.queue_lt nc hmem
      have hncu : nc.1 < UNSIGNED_MOD := Nat.lt_of_lt_of_le hnc hs0
      obtain ⟨p, d, hp, hd, _⟩ := get_path_position st.ctx inv.ok.wf nc.1 hnc hncu
      obtain ⟨cands, ctx1, href0, hattr1⟩ :=
        refine_path_total st.rules p.indices.reverse st.ctx nc.1 d inv.no_attr hd
      have href : refine_expression_recurse st.ctx nc.1 p st.rules = some (cands, ctx1) := by
        rw [refine_eq_refine_path]; exact href0
      have hrepl : ∀ r ∈ st.rules, r.replace < st.ctx._exprs.length := by
        intro r hr
        rw [inv.rules_eq] at hr
        exact Nat.lt_of_lt_of_le (hrules r hr).1 (grows_length _ _ inv.grows)
      obtain ⟨ok1, hcands_lt, hcands_len⟩ :=
        refine_path_ok st.rules _ st.ctx nc.1 inv.ok hnc hrepl cands ctx1 href0
      have hg1 := refine_path_grows _ _ _ _ _ _ href0
      obtain ⟨st2, hloop, hctx2, hquit2, hrules2, hmc2, hqueue2, hev2, hconc2⟩ :=
        deduce_loop_no_attr nc.2 cands { st.take_candidate nc with ctx := ctx1 }
          (by show (st.take_candidate nc).quit_enumeration = false
              rw [take_candidate_quit]; exact hrun)
          ok1.wf hattr1 hcands_lt
      have hit : st.deduce_iteration_top nc = some st2 := by
        rw [deduce_iteration_top_refine st nc p cands ctx1 hrun htop hlt hp href]
        exact hloop
      have hctx3 : st2.ctx = ctx1 := hctx2
      have hm := max_cost_unsigned_lt st.max_cost
      have hmod : (nc.2 + 1) % UNSIGNED_MOD = nc.2 + 1 := Nat.mod_eq_of_lt (by omega)
      rw [hmod] at hqueue2 hconc2
      have hqueue3 : st2.candidate_expressions = st.candidate_expressions.erase nc ++
          (cands.filter (fun c => decide (is_concrete ctx1 c = some false))).map
            (fun c => (c, nc.2 + 1)) := by
        rw [hqueue2]
        show (st.take_candidate nc).candidate_expressions ++ _ = _
        rw [take_candidate_queue]
      have hev3 : ∀ ev ∈ st.events, ev ∈ st2.events :=
        fun ev h => hev2 ev (take_candidate_events_mem st nc ev h)
      refine ⟨st2, hit, ?_, fun hsize2 => ?_⟩
      · rw [hmeasure]
        have hrl : st2.rules.length = st.rules.length := by
          rw [hrules2]
          show (st.take_candidate nc).rules.length = _
          rw [take_candidate_rules]
        have hml : st2.max_cost = st.max_cost := by
          rw [hmc2]
          show (st.take_candidate nc).max_cost = _
          rw [take_candidate_max_cost]
        simp only [search_measure, hquit2, Bool.false_eq_true, if_false, hrl, hml]
        rw [hqueue3, queue_weight_append, queue_weight_map]
        have herase := queue_weight_erase st.rules.length (max_cost_unsigned st.max_cost)
          st.candidate_expressions nc hmem
        have hflen : (cands.filter (fun c => decide (is_concrete ctx1 c = some false))).length
            ≤ st.rules.length :=
          Nat.le_trans (List.length_filter_le _ _) hcands_len
        have hpow : (st.rules.length + 1) ^ (max_cost_unsigned st.max_cost - nc.2) =
            (st.rules.length + 1) * (st.rules.length + 1) ^
              (max_cost_unsigned st.max_cost - (nc.2 + 1)) := by
          have : max_cost_unsigned st.max_cost - nc.2 =
              (max_cost_unsigned st.max_cost - (nc.2 + 1)) + 1 := by omega
          rw [this, Nat.pow_succ, Nat.mul_comm]
        have hpos : 0 < (st.rules.length + 1) ^
            (max_cost_unsigned st.max_cost - (nc.2 + 1)) := Nat.pow_pos (Nat.succ_pos _)
        have hmul := Nat.mul_le_mul_right ((st.rules.length + 1) ^
            (max_cost_unsigned st.max_cost - (nc.2 + 1))) hflen
        rw [hpow, Nat.succ_mul] at herase
        omega
      · have hs1 : ctx1._exprs.length ≤ UNSIGNED_MOD := by
          rw [← hctx3]; exact hsize2
        refine ⟨by rw [hctx3]; exact ok1, by rw [hctx3]; exact grows_trans _ _ _ inv.grows hg1,
          by rw [hctx3]; exact hattr1, ?_, ?_, ?_, ?_, ?_⟩
        · rw [hrules2]
          show (st.take_candidate nc).rules = rules
          rw [take_candidate_rules]; exact inv.rules_eq
        · rw [hmc2]
          show (st.take_candidate nc).max_cost = max_cost
          rw [take_candidate_max_cost]; exact inv.max_cost_eq
        · intro q hq3
          rw [hqueue3] at hq3
          rw [hctx3]
          rcases List.mem_append.1 hq3 with h1 | h1
          · exact Nat.lt_of_lt_of_le (inv.queue_lt q (List.mem_of_mem_erase h1))
              (grows_length _ _ hg1)
          · obtain ⟨c, hc, hcq⟩ := List.mem_map.1 h1
            rw [← hcq]
            exact hcands_lt c (List.mem_of_mem_filter hc)
        · intro hquit
          rw [hquit2] at hquit
          cases hquit
        · intro k t0 u hk1 hk ht0 hcon hder
          rcases inv.covered k t0 u hk1 hk ht0 hcon hder with
            ⟨s, hs, hu⟩ | ⟨q, hq1, hqk, t, ht, hd2⟩
          · refine Or.inl ⟨s, hev3 _ hs, ?_⟩
            rw [hctx3, unfold_grows st.ctx ctx1 hg1 ok1.wf s (unfold_lt_length _ _ _ hu)]
            exact hu
          · by_cases hqn : q = nc
            · subst hqn
              obtain ⟨j, hj⟩ : ∃ j, k - q.2 = j + 1 := ⟨k - q.2 - 1, by omega⟩
              rw [hj] at hd2
              rw [inv.rules_eq] at href
              obtain ⟨s, hs, t2, hs2, hder2⟩ := refine_covers ctx0 rules hrules hleaf st.ctx
                inv.ok inv.grows q.1 hnc hncu p hp cands ctx1 href hs1 t u j ht hd2 hcon
              have hslt := hcands_lt s hs
              obtain ⟨b, hb, hiff⟩ := is_concrete_iff ctx1 ok1.wf s hslt
                (Nat.lt_of_lt_of_le hslt hs1)
              cases b with
              | true =>
                have ht2c : t2.concrete := by
                  by_contra hnc2
                  exact (hiff.1 rfl) ((has_nonterminal_iff_unfold ctx1 ok1.wf s t2 hs2).2 hnc2)
                obtain ⟨hj0, hut⟩ := concrete_derives_from ctx0 rules j t2 u ht2c hder2
                have hkq : k = q.2 + 1 := by omega
                refine Or.inl ⟨s, ?_, ?_⟩
                · rw [hkq]
                  exact hconc2 s hs hb
                · rw [hctx3, hut]
                  exact hs2
              | false =>
                have hj1 : j ≠ 0 := by
                  intro hj0
                  subst hj0
                  cases hder2
                  have hnt : ctx1.has_nonterminal s := by
                    by_contra hno
                    exact absurd (hiff.2 hno) (by simp)
                  exact ((has_nonterminal_iff_unfold ctx1 ok1.wf s u hs2).1 hnt) hcon
                refine Or.inr ⟨(s, q.2 + 1), ?_, by show q.2 + 1 < k; omega, t2,
                  by rw [hctx3]; exact hs2, ?_⟩
                · rw [hqueue3]
                  apply List.mem_append_right
                  apply List.mem_map.2
                  exact ⟨s, List.mem_filter.2 ⟨hs, by simpa using hb⟩, rfl⟩
                · have : k - (q.2 + 1) = j := by omega
                  show derives_from (rule_application ctx0 rules) (k - (q.2 + 1)) t2 u
                  rw [this]
                  exact hder2
            · refine Or.inr ⟨q, ?_, hqk, t, ?_, hd2⟩
              · rw [hqueue3]
                apply List.mem_append_left
                exact (List.mem_erase_of_ne hqn).2 hq1
              · rw [hctx3, unfold_grows st.ctx ctx1 hg1 ok1.wf q.1 (unfold_lt_length _ _ _ ht)]
                exact ht

theorem search_measure_pos (st : enumerator) (h : st.quit_enumeration = false) :
    0 < search_measure st := by
  simp [search_measure, h]

/-- A run of `deduce` from a state of an exhaustive search, with any candidates
that `top()` can return, keeps the invariant and lowers the termination measure
by one for each iteration until the quit flag is set, as long as the arena stays
within `2^32` nodes. -/
theorem deduce_tops_search (ctx0 : context) (rules : rules_t) (max_cost : Int) (seed : Nat)
    (hrules : rules_ok ctx0 rules) (hleaf : leaf_matches ctx0 rules) (tops : List cexpr_t) :
    ∀ (st st2 : enumerator), search_inv ctx0 rules max_cost seed st →
      st.deduce_tops tops = some st2 → st2.ctx._exprs.length ≤ UNSIGNED_MOD →
      search_inv ctx0 rules max_cost seed st2 ∧
        (st2.quit_enumeration = true ∨
          search_measure st2 + tops.length ≤ search_measure st) := by
  induction tops with
  | nil =>
    intro st st2 inv h _
    simp only [enumerator.deduce_tops, Option.some.injEq] at h
    subst h
    exact ⟨inv, Or.inr (by simp)⟩
  | cons nc tops ih =>
    intro st st2 inv h hsize
    cases hq : st.quit_enumeration with
    | true =>
      rw [deduce_tops_of_quit st hq] at h
      cases h
      exact ⟨inv, Or.inl hq⟩
    | false =>
      unfold enumerator.deduce_tops at h
      cases hit : st.deduce_iteration_top nc with
      | none => simp [hit] at h
      | some st1 =>
        simp only [hit] at h
        have hg := deduce_tops_grows tops st1 st2 h
        have hs1 : st1.ctx._exprs.length ≤ UNSIGNED_MOD :=
          Nat.le_trans (grows_length _ _ hg) hsize
        have hs0 : st.ctx._exprs.length ≤ UNSIGNED_MOD :=
          Nat.le_trans (grows_length _ _ (deduce_iteration_top_grows st nc st1 hit)) hs1
        have htop : st.candidate_expressions = [] ∨ st.is_top nc = true := by
          rcases deduce_iteration_top_cases st nc st1 hit with ⟨h1, _⟩ | ⟨h1, _⟩ | ⟨_, h1, _⟩
          · exact Or.inl h1
          · rw [hq] at h1
            cases h1
          · exact Or.inr h1
        obtain ⟨st1b, hit2, hlt, hinv⟩ := deduce_iteration_top_search ctx0 rules max_cost seed
          hrules hleaf st inv hq hs0 nc htop
        rw [hit] at hit2
        cases hit2
        obtain ⟨inv2, hm⟩ := ih st1 st2 (hinv hs1) h hsize
        refine ⟨inv2, ?_⟩
        rcases hm with hm | hm
        · exact Or.inl hm
        · right
          simp only [List.length_cons]
          omega

/-- C1. Exhaustiveness, for a grammar declared in a reachable, well-formed arena
without attributes whose rule matches are childless nonterminals, a nonterminal
seed, a bound `1 <= max_cost` (an `int`) and the default callbacks.  Take any
number of iterations of `deduce` in which each call of `top()` returns any of the
candidates that the comparator places above no queued candidate, and let the
arena stay within `2^32` nodes.  Then `top()` has such a candidate whenever the
queue is not empty and the next iteration returns; after at most
`1 + (rules.size() + 1) ^ max_cost` iterations `is_running()` is false; and once
`is_running()` is false, further iterations leave the state as it is, and for
every `1 <= k <= max_cost` every concrete term that is derived from the seed by
`k` rule applications has been passed to `on_concrete_expression` with cost
`k`. -/
theorem exhaustiveness (ctx : context) (rules : rules_t) (max_cost : Int) (seed : Nat)
    (hr : ctx.reachable) (wf : ctx.well_formed) (hattr : ctx.no_attr)
    (hrules : ∀ r ∈ rules, r.replace < ctx._exprs.length ∧
      ∃ node, ctx._exprs[r.match_]? = some node ∧ name0 node._name = '_' ∧
        node._children = [])
    (hseed : ∃ node, ctx._exprs[seed]? = some node ∧ name0 node._name = '_')
    (hmax : 1 ≤ max_cost) (hint : max_cost < 2 ^ 31)
    (tops : List cexpr_t) (st : enumerator)
    (h : (enumerator.seeded ctx rules max_cost [seed]).deduce_tops tops = some st)
    (hsize : st.ctx._exprs.length ≤ UNSIGNED_MOD) :
    (st.candidate_expressions ≠ [] → ∃ nc, st.is_top nc = true) ∧
    (∀ nc, st.candidate_expressions = [] ∨ st.is_running = false ∨ st.is_top nc = true →
      ∃ st2, st.deduce_iteration_top nc = some st2) ∧
    (1 + (rules.length + 1) ^ max_cost.toNat ≤ tops.length → st.is_running = false) ∧
    (st.is_running = false → ∀ tops2, st.deduce_tops tops2 = some st) ∧
    (st.is_running = false →
      ∀ (k : Nat) (t0 u : term), 1 ≤ k → (k : Int) ≤ max_cost → ctx.unfold seed = some t0 →
        u.concrete → derives (rule_application ctx rules) k t0 u →
        ∃ s, event.on_concrete_expression (s, k) ∈ st.events ∧ st.ctx.unfold s = some u) := by
  have hrules_ok : rules_ok ctx rules := by
    intro r hr
    obtain ⟨h1, node, h2, h3, _⟩ := hrules r hr
    exact ⟨h1, node, h2, h3⟩
  have hleaf : leaf_matches ctx rules := by
    intro r hr l hl
    obtain ⟨_, node, h2, _, h4⟩ := hrules r hr
    obtain ⟨ts, hts, hall⟩ := unfold_node ctx wf r.match_ node h2 l hl
    rw [h4] at hall
    cases hall
    rw [hts]
    rfl
  obtain ⟨snode, hsnode, _⟩ := hseed
  have hseed_lt := getElem?_lt_length _ _ _ hsnode
  have hmcu : max_cost_unsigned max_cost = max_cost.toNat := by
    unfold max_cost_unsigned
    rw [Int.emod_eq_of_lt (by omega) (by simp only [UNSIGNED_MOD]; omega)]
  obtain ⟨inv, hm⟩ := deduce_tops_search ctx rules max_cost seed hrules_ok hleaf tops _ st
    (seeded_search_inv ctx rules max_cost seed hr wf hattr hseed_lt) h hsize
  refine ⟨?_, ?_, ?_, ?_, ?_⟩
  · intro hne
    exact is_top_exists st inv.ok.wf hne inv.queue_lt
  · intro nc hnc
    cases hq : st.quit_enumeration with
    | true => exact ⟨st, deduce_iteration_top_quit st nc hq⟩
    | false =>
      have htop : st.candidate_expressions = [] ∨ st.is_top nc = true := by
        rcases hnc with h1 | h1 | h1
        · exact Or.inl h1
        · simp [enumerator.is_running, hq] at h1
        · exact Or.inr h1
      obtain ⟨st2, hit, _⟩ := deduce_iteration_top_search ctx rules max_cost seed hrules_ok
        hleaf st inv hq hsize nc htop
      exact ⟨st2, hit⟩
  · intro hlen
    cases hq : st.quit_enumeration with
    | true => simp [enumerator.is_running, hq]
    | false =>
      exfalso
      rcases hm with hm | hm
      · rw [hq] at hm
        cases hm
      · have hpos := search_measure_pos st hq
        obtain ⟨_, h2, h3, _, h5, h6⟩ := seeded_fields ctx rules max_cost [seed]
        have h0 : search_measure (enumerator.seeded ctx rules max_cost [seed]) =
            1 + (rules.length + 1) ^ max_cost.toNat := by
          simp [search_measure, h6, h5, h3, h2, queue_weight, hmcu]
        omega
  · intro hrun tops2
    exact deduce_tops_of_quit st (by simpa [enumerator.is_running] using hrun) tops2
  · intro hrun k t0 u hk1 hk ht0 hcon hder
    have hq : st.quit_enumeration = true := by
      simpa [enumerator.is_running] using hrun
    have hk2 : k ≤ max_cost_unsigned max_cost := by
      rw [hmcu]
      omega
    rcases inv.covered k t0 u hk1 hk2 ht0 hcon (derives_from_of_derives _ k t0 u hder) with
      h | ⟨q, hq1, hqk, _⟩
    · exact h
    · have := inv.done hq q hq1
      omega

theorem exhaustiveness_witness :
    (enumerator.seeded demo_ctx [⟨0, 1⟩, ⟨0, 2⟩, ⟨0, 3⟩] 2 [0]).deduce_tops
      [(0, 0), (1, 1), (2, 1), (4, 2)] = some demo_final_2 ∧
    demo_final_2.is_running = false ∧
    (demo_final_2.candidate_expressions ≠ [] → ∃ nc, demo_final_2.is_top nc = true) ∧
    (∀ nc, demo_final_2.candidate_expressions = [] ∨ demo_final_2.is_running = false ∨
        demo_final_2.is_top nc = true →
      ∃ st2, demo_final_2.deduce_iteration_top nc = some st2) ∧
    (1 + (([⟨0, 1⟩, ⟨0, 2⟩, ⟨0, 3⟩] : rules_t).length + 1) ^ (2 : Int).toNat ≤
        [((0 : Nat), (0 : Nat)), (1, 1), (2, 1), (4, 2)].length →
      demo_final_2.is_running = false) ∧
    (demo_final_2.is_running = false →
      ∀ tops2, demo_final_2.deduce_tops tops2 = some demo_final_2) ∧
    (demo_final_2.is_running = false →
      ∀ (k : Nat) (t0 u : term), 1 ≤ k → (k : Int) ≤ 2 → demo_ctx.unfold 0 = some t0 →
        u.concrete → derives (rule_application demo_ctx [⟨0, 1⟩, ⟨0, 2⟩, ⟨0, 3⟩]) k t0 u →
        ∃ s, event.on_concrete_expression (s, k) ∈ demo_final_2.events ∧
          demo_final_2.ctx.unfold s = some u) :=
  ⟨by decide, by decide,
    exhaustiveness demo_ctx [⟨0, 1⟩, ⟨0, 2⟩, ⟨0, 3⟩] 2 0 demo_ctx_reachable
      (well_formed_of_check _ (by decide)) (no_attr_of_check _ (by decide))
      (by
        intro r hr
        simp only [List.mem_cons, List.mem_singleton, List.mem_nil_iff, or_false] at hr
        rcases hr with rfl | rfl | rfl
        · exact ⟨by decide, ⟨"_N", [], 0⟩, by decide, by decide, rfl⟩
        · exact ⟨by decide, ⟨"_N", [], 0⟩, by decide, by decide, rfl⟩
        · exact ⟨by decide, ⟨"_N", [], 0⟩, by decide, by decide, rfl⟩)
      ⟨⟨"_N", [], 0⟩, by decide, by decide⟩ (by decide) (by decide)
      [(0, 0), (1, 1), (2, 1), (4, 2)] demo_final_2 (by decide) (by decide)⟩

theorem expr_greater_than_irrefl (ctx : context) (wf : ctx.well_formed) (a : cexpr_t)
    (ha : a.1 < ctx._exprs.length) : expr_greater_than ctx a a = some false := by
  obtain ⟨ka, hka⟩ := candidate_key_total ctx wf a ha
  rw [expr_greater_than_key ctx a a ka ka hka hka, lex3_lt_irrefl]

/-- "Not greater" is transitive for the comparator. -/
theorem expr_greater_than_neg_trans (ctx : context) (wf : ctx.well_formed) (a b c : cexpr_t)
    (ha : a.1 < ctx._exprs.length) (hb : b.1 < ctx._exprs.length)
    (hc : c.1 < ctx._exprs.length) (hab : expr_greater_than ctx a b = some false)
    (hbc : expr_greater_than ctx b c = some false) :
    expr_greater_than ctx a c = some false := by
  obtain ⟨ka, hka⟩ := candidate_key_total ctx wf a ha
  obtain ⟨kb, hkb⟩ := candidate_key_total ctx wf b hb
  obtain ⟨kc, hkc⟩ := candidate_key_total ctx wf c hc
  rw [expr_greater_than_key ctx a b ka kb hka hkb, Option.some.injEq] at hab
  rw [expr_greater_than_key ctx b c kb kc hkb hkc, Option.some.injEq] at hbc
  rw [expr_greater_than_key ctx a c ka kc hka hkc, lex3_ge_trans kc kb ka hbc hab]

theorem count_nonterminals_fuel_grows (ctx ctx2 : context) (hg : ctx.grows ctx2)
    (wf2 : ctx2.well_formed) (e : Nat) :
    ∀ f1 f2, e < f1 → e < f2 → e < ctx._exprs.length →
      count_nonterminals_fuel ctx2 f2 e = count_nonterminals_fuel ctx f1 e := by
  induction e using Nat.strong_induction_on with
  | _ e ih =>
    intro f1 f2 h1 h2 he
    obtain ⟨g1, rfl⟩ := Nat.exists_eq_succ_of_ne_zero (Nat.not_eq_zero_of_lt h1)
    obtain ⟨g2, rfl⟩ := Nat.exists_eq_succ_of_ne_zero (Nat.not_eq_zero_of_lt h2)
    have hn : ctx._exprs[e]? = some ctx._exprs[e] := List.getElem?_eq_getElem he
    have hn2 := grows_getElem? ctx ctx2 hg e _ hn
    unfold count_nonterminals_fuel
    simp only [hn, hn2]
    split
    · rfl
    · apply counter_loop_congr
      intro c hc
      have hlt := wf2 e _ hn2 c hc
      exact ih c hlt g1 g2 (by omega) (by omega) (Nat.lt_trans hlt he)

theorem count_nodes_fuel_grows (ctx ctx2 : context) (hg : ctx.grows ctx2)
    (wf2 : ctx2.well_formed) (e : Nat) :
    ∀ f1 f2, e < f1 → e < f2 → e < ctx._exprs.length →
      count_nodes_fuel ctx2 f2 e = count_nodes_fuel ctx f1 e := by
  induction e using Nat.strong_induction_on with
  | _ e ih =>
    intro f1 f2 h1 h2 he
    obtain ⟨g1, rfl⟩ := Nat.exists_eq_succ_of_ne_zero (Nat.not_eq_zero_of_lt h1)
    obtain ⟨g2, rfl⟩ := Nat.exists_eq_succ_of_ne_zero (Nat.not_eq_zero_of_lt h2)
    have hn : ctx._exprs[e]? = some ctx._exprs[e] := List.getElem?_eq_getElem he
    have hn2 := grows_getElem? ctx ctx2 hg e _ hn
    unfold count_nodes_fuel
    simp only [hn, hn2]
    split
    · rfl
    · apply counter_loop_congr
      intro c hc
      have hlt := wf2 e _ hn2 c hc
      exact ih c hlt g1 g2 (by omega) (by omega) (Nat.lt_trans hlt he)

/-- The comparison of two stored candidates is not changed by the growth of the
arena. -/
theorem expr_greater_than_grows (ctx ctx2 : context) (hg : ctx.grows ctx2)
    (wf2 : ctx2.well_formed) (a b : cexpr_t) (ha : a.1 < ctx._exprs.length)
    (hb : b.1 < ctx._exprs.length) :
    expr_greater_than ctx2 a b = expr_greater_than ctx a b := by
  have hl := grows_length ctx ctx2 hg
  have h1 : ∀ e, e < ctx._exprs.length → ctx2.count_nonterminals e = ctx.count_nonterminals e :=
    fun e he => count_nonterminals_fuel_grows ctx ctx2 hg wf2 e _ _ he
      (Nat.lt_of_lt_of_le he hl) he
  have h2 : ∀ e, e < ctx._exprs.length → ctx2.count_nodes e = ctx.count_nodes e :=
    fun e he => count_nodes_fuel_grows ctx ctx2 hg wf2 e _ _ he (Nat.lt_of_lt_of_le he hl) he
  unfold expr_greater_than
  rw [h1 a.1 ha, h1 b.1 hb, h2 a.1 ha, h2 b.1 hb]

theorem is_heap_iff (ctx : context) (v : List cexpr_t) :
    is_heap ctx v = true ↔ ∀ i, 0 < i → i < v.length →
      ∃ parent child, v[(i - 1) / 2]? = some parent ∧ v[i]? = some child ∧
        expr_greater_than ctx parent child = some false := by
  unfold is_heap
  rw [List.all_eq_true]
  constructor
  · intro h i hi hlt
    have := h i (List.mem_range.2 hlt)
    have hi0 : ¬ i = 0 := by omega
    simp only [hi0, decide_False, Bool.false_or] at this
    cases hp : v[(i - 1) / 2]? with
    | none => simp [hp] at this
    | some parent =>
      cases hx : v[i]? with
      | none => simp [hp, hx] at this
      | some child =>
        simp only [hp, hx, decide_eq_true_eq] at this
        exact ⟨parent, child, rfl, rfl, this⟩
  · intro h i hi
    have hlt := List.mem_range.1 hi
    by_cases hi0 : i = 0
    · simp [hi0]
    · obtain ⟨parent, child, hp, hx, hgt⟩ := h i (by omega) hlt
      simp only [hi0, decide_False, Bool.false_or, hp, hx, hgt,
        decide_True]

/-- A container of stored candidates that is a heap stays a heap when the arena
grows. -/
theorem is_heap_grows (ctx ctx2 : context) (hg : ctx.grows ctx2) (wf2 : ctx2.well_formed)
    (v : List cexpr_t) (hv : ∀ x ∈ v, x.1 < ctx._exprs.length) :
    is_heap ctx2 v = is_heap ctx v := by
  rw [Bool.eq_iff_iff, is_heap_iff, is_heap_iff]
  constructor
  · intro h i hi hlt
    obtain ⟨parent, child, hp, hx, hgt⟩ := h i hi hlt
    refine ⟨parent, child, hp, hx, ?_⟩
    rw [← expr_greater_than_grows ctx ctx2 hg wf2 parent child
      (hv parent (List.getElem?_mem hp)) (hv child (List.getElem?_mem hx))]
    exact hgt
  · intro h i hi hlt
    obtain ⟨parent, child, hp, hx, hgt⟩ := h i hi hlt
    refine ⟨parent, child, hp, hx, ?_⟩
    rw [expr_greater_than_grows ctx ctx2 hg wf2 parent child
      (hv parent (List.getElem?_mem hp)) (hv child (List.getElem?_mem hx))]
    exact hgt

/-- The front of a heap for `expr_greater_than` is not greater than any element
of the heap. -/
theorem is_heap_front (ctx : context) (wf : ctx.well_formed) (v : List cexpr_t)
    (hv : ∀ x ∈ v, x.1 < ctx._exprs.length) (hh : is_heap ctx v = true) (nc : cexpr_t)
    (hfront : v.head? = some nc) : ∀ x ∈ v, expr_greater_than ctx nc x = some false := by
  have h0 : v[0]? = some nc := by
    cases v with
    | nil => simp at hfront
    | cons y ys => simpa using hfront
  have hnc : nc.1 < ctx._exprs.length := hv nc (List.getElem?_mem h0)
  have key : ∀ (i : Nat) (x : cexpr_t), v[i]? = some x → expr_greater_than ctx nc x = some false := by
    intro i
    induction i using Nat.strong_induction_on with
    | _ i ih =>
      intro x hx
      by_cases hi0 : i = 0
      · subst hi0
        rw [h0] at hx
        cases hx
        exact expr_greater_than_irrefl ctx wf nc hnc
      · have hlt := getElem?_lt_length _ _ _ hx
        obtain ⟨parent, child, hp, hx2, hgt⟩ := (is_heap_iff ctx v).1 hh i (by omega) hlt
        rw [hx] at hx2
        cases hx2
        have hpi : (i - 1) / 2 < i := by omega
        exact expr_greater_than_neg_trans ctx wf nc parent x hnc
          (hv parent (List.getElem?_mem hp)) (hv x (List.getElem?_mem hx))
          (ih _ hpi parent hp) hgt
  intro x hx
  obtain ⟨i, hi⟩ := List.getElem?_of_mem hx
  exact key i x hi

/-- The candidates that `top()` can return are the queued candidates with a
lexicographically minimal triple. -/
theorem is_top_iff_minimal (en : enumerator) (wf : en.ctx.well_formed)
    (hq : ∀ x ∈ en.candidate_expressions, x.1 < en.ctx._exprs.length) (nc : cexpr_t) :
    en.is_top nc = true ↔ nc ∈ en.candidate_expressions ∧
      ∃ knc, candidate_key en.ctx nc = some knc ∧
        ∀ x ∈ en.candidate_expressions,
          ∃ kx, candidate_key en.ctx x = some kx ∧ lex3_lt kx knc = false := by
  constructor
  · intro h
    obtain ⟨hmem, hall⟩ := (is_top_iff en nc).1 h
    obtain ⟨knc, hknc⟩ := candidate_key_total en.ctx wf nc (hq nc hmem)
    refine ⟨hmem, knc, hknc, ?_⟩
    intro x hx
    by_cases hxn : x = nc
    · rw [hxn]
      exact ⟨knc, hknc, lex3_lt_irrefl knc⟩
    · obtain ⟨kx, hkx⟩ := candidate_key_total en.ctx wf x (hq x hx)
      have := hall x ((List.mem_erase_of_ne hxn).2 hx)
      rw [expr_greater_than_key en.ctx nc x knc kx hknc hkx, Option.some.injEq] at this
      exact ⟨kx, hkx, this⟩
  · rintro ⟨hmem, knc, hknc, hall⟩
    refine is_top_of_forall en nc hmem ?_
    intro x hx
    obtain ⟨kx, hkx, hle⟩ := hall x hx
    rw [expr_greater_than_key en.ctx nc x knc kx hknc hkx, hle]

/-- The front of every heap arrangement of the queued candidates is a candidate
that `top()` can return. -/
theorem is_top_of_heap (en : enumerator) (wf : en.ctx.well_formed)
    (hq : ∀ x ∈ en.candidate_expressions, x.1 < en.ctx._exprs.length) (v : List cexpr_t)
    (hperm : v.Perm en.candidate_expressions) (hh : is_heap en.ctx v = true) (nc : cexpr_t)
    (hfront : v.head? = some nc) : en.is_top nc = true := by
  have hc : ∀ x ∈ v, x.1 < en.ctx._exprs.length := fun x hx => hq x (hperm.mem_iff.1 hx)
  have hall := is_heap_front en.ctx wf v hc hh nc hfront
  have hmem : nc ∈ v := by
    cases v with
    | nil => simp at hfront
    | cons y ys =>
      simp only [List.head?_cons, Option.some.injEq] at hfront
      rw [← hfront]
      exact List.mem_cons_self _ _
  exact is_top_of_forall en nc (hperm.mem_iff.1 hmem) (fun x hx => hall x (hperm.mem_iff.2 hx))

/-- The scan `pq_top` returns a candidate that `top()` can return, and the
iteration of `deduce` with this choice is `deduce_iteration`. -/
theorem deduce_iteration_eq_top (en : enumerator) (wf : en.ctx.well_formed)
    (hq : ∀ x ∈ en.candidate_expressions, x.1 < en.ctx._exprs.length) (nc : cexpr_t)
    (htop : pq_top en.ctx en.candidate_expressions = some nc) :
    en.is_top nc = true ∧ en.deduce_iteration = en.deduce_iteration_top nc := by
  have hne : en.candidate_expressions ≠ [] := by
    intro h
    rw [h] at htop
    simp [pq_top] at htop
  obtain ⟨r, kr, h1, h2, h3, h4⟩ := pq_top_minimal en.ctx wf en.candidate_expressions hne hq
  rw [htop] at h1
  cases h1
  have hist : en.is_top nc = true := (is_top_iff_minimal en wf hq nc).2 ⟨h2, kr, h3, h4⟩
  refine ⟨hist, ?_⟩
  have hemp : en.candidate_expressions.isEmpty = false := by
    cases hl : en.candidate_expressions with
    | nil => exact absurd hl hne
    | cons x xs => rfl
  unfold enumerator.deduce_iteration enumerator.deduce_iteration_top
  simp only [hemp, Bool.false_eq_true, if_false, htop, hist, Bool.not_true]

/-- One iteration of `deduce` on a running enumerator with a non-empty queue pops
exactly the candidate that `top()` returns. -/
theorem deduce_iteration_top_popped (en : enumerator) (nc : cexpr_t) (st : enumerator)
    (hquit : en.quit_enumeration = false)
    (hne : en.candidate_expressions ≠ []) (h : en.deduce_iteration_top nc = some st) :
    ∃ evs, en.is_top nc = true ∧
      st.events = en.events ++ event.popped nc :: evs ∧
      ∀ ev ∈ evs, ∀ x, ev ≠ event.popped x := by
  rcases deduce_iteration_top_cases en nc st h with ⟨h1, _⟩ | ⟨h1, _⟩ | ⟨_, htop, hcase⟩
  · exact absurd h1 hne
  · rw [hquit] at h1
    exact Bool.noConfusion h1
  · obtain ⟨evs0, hev0, _, _, hfin⟩ := take_candidate_events en nc
    have hfin2 : ∀ ev ∈ evs0, ∀ x, ev ≠ event.popped x := by
      intro ev hev x
      obtain ⟨n, hn⟩ := hfin ev hev
      rw [hn]
      exact fun hh => event.noConfusion hh
    rcases hcase with ⟨_, hst⟩ | ⟨_, p, cands, ctx1, _, _, hloop⟩
    · refine ⟨evs0, htop, ?_, hfin2⟩
      rw [hst]
      simp only [hev0, List.append_assoc, List.singleton_append]
    · obtain ⟨evs, hev, hno⟩ := deduce_loop_events nc.2 cands _ st hloop
      refine ⟨evs0 ++ evs, htop, ?_, ?_⟩
      · rw [hev]
        simp only [hev0, List.append_assoc, List.singleton_append, List.cons_append,
          List.nil_append]
      · intro ev hev2 x
        rcases List.mem_append.1 hev2 with h3 | h3
        · exact hfin2 ev h3 x
        · exact hno ev h3 x

/-- C15. Frontier order: on a well-formed arena, for candidates with stored
handles, `expr_greater_than( a, b )` is true exactly when the triple (cost,
`count_nonterminals`, `count_nodes`) of `a` is lexicographically strictly greater
than that of `b`; the comparator is a strict weak ordering (irreflexive,
transitive, "not greater" is transitive, and so is being neither greater nor
smaller), and neither the comparison of stored candidates nor the heap property
of a container of stored candidates changes when the arena grows.  Consequently
the front of every container that satisfies the heap property of
`std::priority_queue` for this comparator has a triple that is not above the
triple of any element; for every heap arrangement of the queued
candidates `top()` is a queued candidate with a lexicographically minimal triple,
a non-empty queue has such a candidate, and whichever of them `top()` returns, an
iteration of `deduce` on a running enumerator pops exactly that candidate. -/
theorem frontier_order (ctx : context) (wf : ctx.well_formed) :
    (∀ a b : cexpr_t, a.1 < ctx._exprs.length → b.1 < ctx._exprs.length →
      ∃ ka kb, candidate_key ctx a = some ka ∧ candidate_key ctx b = some kb ∧
        expr_greater_than ctx a b = some (lex3_lt kb ka)) ∧
    (∀ a : cexpr_t, a.1 < ctx._exprs.length → expr_greater_than ctx a a = some false) ∧
    (∀ a b c : cexpr_t, a.1 < ctx._exprs.length → b.1 < ctx._exprs.length →
      c.1 < ctx._exprs.length → expr_greater_than ctx a b = some true →
      expr_greater_than ctx b c = some true → expr_greater_than ctx a c = some true) ∧
    (∀ a b c : cexpr_t, a.1 < ctx._exprs.length → b.1 < ctx._exprs.length →
      c.1 < ctx._exprs.length → expr_greater_than ctx a b = some false →
      expr_greater_than ctx b c = some false → expr_greater_than ctx a c = some false) ∧
    (∀ a b c : cexpr_t, a.1 < ctx._exprs.length → b.1 < ctx._exprs.length →
      c.1 < ctx._exprs.length →
      expr_greater_than ctx a b = some false → expr_greater_than ctx b a = some false →
      expr_greater_than ctx b c = some false → expr_greater_than ctx c b = some false →
      expr_greater_than ctx a c = some false ∧ expr_greater_than ctx c a = some false) ∧
    (∀ (ctx0 : context) (v : List cexpr_t), ctx0.grows ctx →
      (∀ x ∈ v, x.1 < ctx0._exprs.length) →
      (∀ a ∈ v, ∀ b ∈ v, expr_greater_than ctx a b = expr_greater_than ctx0 a b) ∧
        is_heap ctx v = is_heap ctx0 v) ∧
    (∀ (v : List cexpr_t) (nc : cexpr_t), (∀ x ∈ v, x.1 < ctx._exprs.length) →
      is_heap ctx v = true → v.head? = some nc →
      ∃ knc, candidate_key ctx nc = some knc ∧
        ∀ x ∈ v, ∃ kx, candidate_key ctx x = some kx ∧ lex3_lt kx knc = false) ∧
    (∀ (en : enumerator) (v : List cexpr_t) (nc : cexpr_t), en.ctx = ctx →
      (∀ x ∈ en.candidate_expressions, x.1 < ctx._exprs.length) →
      v.Perm en.candidate_expressions → is_heap ctx v = true → v.head? = some nc →
      en.is_top nc = true) ∧
    (∀ (en : enumerator) (nc : cexpr_t), en.ctx = ctx →
      (∀ x ∈ en.candidate_expressions, x.1 < ctx._exprs.length) →
      (en.is_top nc = true ↔ nc ∈ en.candidate_expressions ∧
        ∃ knc, candidate_key ctx nc = some knc ∧
          ∀ x ∈ en.candidate_expressions,
            ∃ kx, candidate_key ctx x = some kx ∧ lex3_lt kx knc = false)) ∧
    (∀ en : enumerator, en.ctx = ctx → en.candidate_expressions ≠ [] →
      (∀ x ∈ en.candidate_expressions, x.1 < ctx._exprs.length) →
      ∃ nc, en.is_top nc = true) ∧
    (∀ (en : enumerator) (nc : cexpr_t) (st : enumerator), en.ctx = ctx →
      en.quit_enumeration = false → en.candidate_expressions ≠ [] →
      (∀ x ∈ en.candidate_expressions, x.1 < ctx._exprs.length) →
      en.deduce_iteration_top nc = some st →
      ∃ knc evs, st.events = en.events ++ event.popped nc :: evs ∧
        (∀ ev ∈ evs, ∀ x, ev ≠ event.popped x) ∧
        nc ∈ en.candidate_expressions ∧ candidate_key ctx nc = some knc ∧
        ∀ x ∈ en.candidate_expressions,
          ∃ kx, candidate_key ctx x = some kx ∧ lex3_lt kx knc = false) := by
  have hkey : ∀ a b : cexpr_t, a.1 < ctx._exprs.length → b.1 < ctx._exprs.length →
      ∃ ka kb, candidate_key ctx a = some ka ∧ candidate_key ctx b = some kb ∧
        expr_greater_than ctx a b = some (lex3_lt kb ka) := by
    intro a b ha hb
    obtain ⟨ka, hka⟩ := candidate_key_total ctx wf a ha
    obtain ⟨kb, hkb⟩ := candidate_key_total ctx wf b hb
    exact ⟨ka, kb, hka, hkb, expr_greater_than_key ctx a b ka kb hka hkb⟩
  have hneg := expr_greater_than_neg_trans ctx wf
  refine ⟨hkey, expr_greater_than_irrefl ctx wf, ?_, hneg,
    fun a b c ha hb hc hab hba hbc hcb => ⟨hneg a b c ha hb hc hab hbc, hneg c b a hc hb ha hcb hba⟩,
    fun ctx0 v hg hv => ⟨fun a ha b hb => expr_greater_than_grows ctx0 ctx hg wf a b (hv a ha)
      (hv b hb), is_heap_grows ctx0 ctx hg wf v hv⟩,
    ?_, ?_, ?_, ?_, ?_⟩
  · intro a b c ha hb hc hab hbc
    obtain ⟨ka, hka⟩ := candidate_key_total ctx wf a ha
    obtain ⟨kb, hkb⟩ := candidate_key_total ctx wf b hb
    obtain ⟨kc, hkc⟩ := candidate_key_total ctx wf c hc
    rw [expr_greater_than_key ctx a b ka kb hka hkb, Option.some.injEq] at hab
    rw [expr_greater_than_key ctx b c kb kc hkb hkc, Option.some.injEq] at hbc
    rw [expr_greater_than_key ctx a c ka kc hka hkc, lex3_lt_trans kc kb ka hbc hab]
  · intro v nc hc hh hfront
    have hall := is_heap_front ctx wf v hc hh nc hfront
    have hmem : nc ∈ v := by
      cases v with
      | nil => simp at hfront
      | cons y ys =>
        simp only [List.head?_cons, Option.some.injEq] at hfront
        rw [← hfront]
        exact List.mem_cons_self _ _
    obtain ⟨knc, hknc⟩ := candidate_key_total ctx wf nc (hc nc hmem)
    refine ⟨knc, hknc, ?_⟩
    intro x hx
    obtain ⟨kx, hkx⟩ := candidate_key_total ctx wf x (hc x hx)
    have := hall x hx
    rw [expr_greater_than_key ctx nc x knc kx hknc hkx, Option.some.injEq] at this
    exact ⟨kx, hkx, this⟩
  · intro en v nc hctx hq hperm hh hfront
    subst hctx
    exact is_top_of_heap en wf hq v hperm hh nc hfront
  · intro en nc hctx hq
    subst hctx
    exact is_top_iff_minimal en wf hq nc
  · intro en hctx hne hq
    subst hctx
    exact is_top_exists en wf hne hq
  · intro en nc st hctx hquit hne hq h
    subst hctx
    obtain ⟨evs, htop, hev, hno⟩ := deduce_iteration_top_popped en nc st hquit hne h
    obtain ⟨hmem, knc, hknc, hall⟩ := (is_top_iff_minimal en wf hq nc).1 htop
    exact ⟨knc, evs, hev, hno, hmem, hknc, hall⟩

/-- In the AND/NOT demonstration, at equal cost `and(_N,_N)` is greater than
`not(_N)` (two nonterminals against one), `not(_N)` is greater than `_N` (two
nodes against one); `not(not(_N))` and `and(x0,_N)` have the same triple, as do
`not(and(_N,_N))` and `and(not(_N),_N)`: after three iterations of `deduce`,
`top()` can return each of the first two and neither of the other two. -/
theorem demo_frontier_order :
    expr_greater_than demo_ctx (2, 1) (1, 1) = some true ∧
    expr_greater_than demo_ctx (1, 1) (0, 1) = some true ∧
    expr_greater_than demo_ctx (0, 1) (1, 1) = some false ∧
    expr_greater_than demo_ctx (0, 2) (2, 1) = some true ∧
    demo_state_3.candidate_expressions = [(4, 2), (5, 2), (7, 2), (8, 2), (9, 2)] ∧
    candidate_key demo_state_3.ctx (4, 2) = some (2, 1, 3) ∧
    candidate_key demo_state_3.ctx (9, 2) = some (2, 1, 3) ∧
    candidate_key demo_state_3.ctx (5, 2) = some (2, 2, 4) ∧
    candidate_key demo_state_3.ctx (7, 2) = some (2, 2, 4) ∧
    demo_state_3.is_top (4, 2) = true ∧ demo_state_3.is_top (9, 2) = true ∧
    demo_state_3.is_top (5, 2) = false ∧ demo_state_3.is_top (7, 2) = false ∧
    is_heap demo_state_3.ctx [(4, 2), (9, 2), (7, 2), (8, 2), (5, 2)] = true := by
  decide

theorem frontier_order_witness :
    demo_state_3.ctx.well_formed ∧
    (∀ x ∈ demo_state_3.candidate_expressions, x.1 < demo_state_3.ctx._exprs.length) ∧
    [((4 : Nat), (2 : Nat)), (9, 2), (7, 2), (8, 2), (5, 2)].Perm
      demo_state_3.candidate_expressions ∧
    is_heap demo_state_3.ctx [(4, 2), (9, 2), (7, 2), (8, 2), (5, 2)] = true ∧
    demo_state_3.is_top (4, 2) = true :=
  ⟨well_formed_of_check _ (by decide), by decide, by decide, by decide,
    (frontier_order demo_state_3.ctx (well_formed_of_check _ (by decide))).2.2.2.2.2.2.2.1
      demo_state_3 [(4, 2), (9, 2), (7, 2), (8, 2), (5, 2)] (4, 2) rfl (by decide) (by decide)
      (by decide) rfl⟩

theorem concrete_node (n : String) (cs : List term) (hn : name0 n ≠ '_')
    (hcs : ∀ c ∈ cs, c.concrete) : (term.node n cs).concrete := by
  intro p s hs
  cases p with
  | nil =>
    simp only [term.subterm_at, Option.some.injEq] at hs
    rw [← hs]
    exact hn
  | cons i p =>
    simp only [term.subterm_at, term.children_node] at hs
    cases hc : cs[i]? with
    | none => simp [hc] at hs
    | some c =>
      simp only [hc] at hs
      exact hcs c (List.getElem?_mem hc) p s hs

theorem demo_leaf_matches : leaf_matches demo_ctx [⟨0, 1⟩, ⟨0, 2⟩, ⟨0, 3⟩] := by
  intro rule hmem l hl
  have h0 : demo_ctx.unfold 0 = some (term.node "_N" []) := rfl
  simp only [List.mem_cons, List.mem_singleton, List.mem_nil_iff, or_false] at hmem
  rcases hmem with rfl | rfl | rfl <;>
  · change demo_ctx.unfold 0 = some l at hl
    rw [h0] at hl
    cases hl
    rfl

/-- In the AND/NOT demonstration `not(x0)` is derived from the seed `_N` by two
rule applications and `and(x0,x0)` by three, and both are concrete. -/
theorem demo_derives_not_and :
    (term.node "not" [term.node "x0" []]).concrete ∧
    derives (rule_application demo_ctx [⟨0, 1⟩, ⟨0, 2⟩, ⟨0, 3⟩]) 2
      (term.node "_N" []) (term.node "not" [term.node "x0" []]) ∧
    (term.node "and" [term.node "x0" [], term.node "x0" []]).concrete ∧
    derives (rule_application demo_ctx [⟨0, 1⟩, ⟨0, 2⟩, ⟨0, 3⟩]) 3
      (term.node "_N" []) (term.node "and" [term.node "x0" [], term.node "x0" []]) := by
  have hx0 : (term.node "x0" []).concrete := demo_derives_x0.2.1
  refine ⟨?_, ?_, ?_, ?_⟩
  · apply concrete_node _ _ (by decide)
    intro c hc
    rw [List.mem_singleton.1 hc]
    exact hx0
  · refine derives.step 1 _ (term.node "not" [term.node "_N" []]) _
      (derives.step 0 _ _ _ (derives.refl _) ?_) ?_
    · exact ⟨[], ⟨0, 1⟩, term.node "_N" [], term.node "not" [term.node "_N" []], by simp, rfl,
        rfl, by decide, rfl, rfl⟩
    · exact ⟨[0], ⟨0, 3⟩, term.node "_N" [], term.node "x0" [], by simp, rfl, rfl, by decide,
        rfl, rfl⟩
  · apply concrete_node _ _ (by decide)
    intro c hc
    simp only [List.mem_cons, List.mem_singleton, List.mem_nil_iff, or_false, or_self] at hc
    rw [hc]
    exact hx0
  · refine derives.step 2 _ (term.node "and" [term.node "x0" [], term.node "_N" []]) _
      (derives.step 1 _ (term.node "and" [term.node "_N" [], term.node "_N" []]) _
        (derives.step 0 _ _ _ (derives.refl _) ?_) ?_) ?_
    · exact ⟨[], ⟨0, 2⟩, term.node "_N" [],
        term.node "and" [term.node "_N" [], term.node "_N" []], by simp, rfl, rfl, by decide,
        rfl, rfl⟩
    · exact ⟨[0], ⟨0, 3⟩, term.node "_N" [], term.node "x0" [], by simp, rfl, rfl, by decide,
        rfl, rfl⟩
    · exact ⟨[1], ⟨0, 3⟩, term.node "_N" [], term.node "x0" [], by simp, rfl, rfl, by decide,
        rfl, rfl⟩

/-- C22, counterexample. In the AND/NOT grammar over one variable (arena `_N`,
`not(_N)`, `and(_N,_N)`, `x0`, seed `_N`) with the bound 3, the run in which the
candidates leave the queue in the order `demo_tops_3` of the binary heap stops
after nine iterations of `deduce`; `on_concrete_expression` is called for `x0`
with cost 1, `not(x0)` with cost 2, `not(not(x0))` with cost 3 and `and(x0,x0)`
with cost 3, and for nothing else: the cost attached to `and(x0,x0)` is 3, not 2.
With the bound 2 the run stops after four iterations and `and(x0,x0)` is not
passed to `on_concrete_expression` at all. -/
theorem and_cost_counterexample :
    demo_en.deduce_tops demo_tops_3 = some demo_run_3 ∧ demo_run_3.is_running = false ∧
    demo_run_3.events =
      [event.popped (0, 0),
       event.on_expression (1, 1), event.on_abstract_expression (1, 1),
       event.on_expression (2, 1), event.on_abstract_expression (2, 1),
       event.on_expression (3, 1), event.on_concrete_expression (3, 1),
       event.popped (1, 1), event.finished_cost 1,
       event.on_expression (4, 2), event.on_abstract_expression (4, 2),
       event.on_expression (5, 2), event.on_abstract_expression (5, 2),
       event.on_expression (6, 2), event.on_concrete_expression (6, 2),
       event.popped (2, 1),
       event.on_expression (7, 2), event.on_abstract_expression (7, 2),
       event.on_expression (8, 2), event.on_abstract_expression (8, 2),
       event.on_expression (9, 2), event.on_abstract_expression (9, 2),
       event.popped (4, 2), event.finished_cost 2,
       event.on_expression (10, 3), event.on_abstract_expression (10, 3),
       event.on_expression (11, 3), event.on_abstract_expression (11, 3),
       event.on_expression (12, 3), event.on_concrete_expression (12, 3),
       event.popped (9, 2),
       event.on_expression (13, 3), event.on_abstract_expression (13, 3),
       event.on_expression (14, 3), event.on_abstract_expression (14, 3),
       event.on_expression (15, 3), event.on_concrete_expression (15, 3),
       event.popped (7, 2),
       event.on_expression (16, 3), event.on_abstract_expression (16, 3),
       event.on_expression (17, 3), event.on_abstract_expression (17, 3),
       event.on_expression (18, 3), event.on_abstract_expression (18, 3),
       event.popped (5, 2),
       event.on_expression (19, 3), event.on_abstract_expression (19, 3),
       event.on_expression (20, 3), event.on_abstract_expression (20, 3),
       event.on_expression (21, 3), event.on_abstract_expression (21, 3),
       event.popped (8, 2),
       event.on_expression (22, 3), event.on_abstract_expression (22, 3),
       event.on_expression (23, 3), event.on_abstract_expression (23, 3),
       event.on_expression (24, 3), event.on_abstract_expression (24, 3),
       event.popped (13, 3), event.finished_cost 3] ∧
    concrete_emissions demo_run_3.events = [(3, 1), (6, 2), (12, 3), (15, 3)] ∧
    demo_run_3.ctx.unfold 3 = some (term.node "x0" []) ∧
    demo_run_3.ctx.unfold 6 = some (term.node "not" [term.node "x0" []]) ∧
    demo_run_3.ctx.unfold 12 =
      some (term.node "not" [term.node "not" [term.node "x0" []]]) ∧
    demo_run_3.ctx.unfold 15 = some (term.node "and" [term.node "x0" [], term.node "x0" []]) ∧
    event.on_concrete_expression (15, 2) ∉ demo_run_3.events ∧
    demo_en_2.deduce_tops [(0, 0), (1, 1), (2, 1), (4, 2)] = some demo_final_2 ∧
    demo_final_2.is_running = false ∧
    concrete_emissions demo_final_2.events = [(3, 1), (6, 2)] :=
  ⟨by decide, by decide, by decide, by decide, rfl, rfl, rfl, rfl, by decide, by decide,
    by decide, by decide⟩

/-- C22, amended. Costs in the AND/NOT grammar over one variable (symbols `_N`,
`x0`, `not(_N)`, `and(_N,_N)`; rules `_N -> not(_N)`, `_N -> and(_N,_N)`,
`_N -> x0`; seed `_N`), whichever of the candidates that the comparator places
above no queued candidate each call of `top()` returns and while the arena stays
within `2^32` nodes.  Whatever the bound and the sequence of calls, the cost
with which a term is passed to `on_concrete_expression` is the number of rule
applications that derive it, which is its number of terminal symbols: 1 for
`x0`, 2 for `not(x0)` and 3 for `and(x0,x0)`.  When `deduce` has run until
`is_running()` is false, `x0` has been passed with cost 1, with a bound of at
least 2 `not(x0)` with cost 2, and with a bound of at least 3 `and(x0,x0)` with
cost 3.  With the bound 2 `and(x0,x0)` is not passed at all. -/
theorem and_not_costs :
    (∀ (max_cost : Int) (calls : List session_call) (st : enumerator),
      run_calls calls (enumerator.seeded demo_ctx [⟨0, 1⟩, ⟨0, 2⟩, ⟨0, 3⟩] max_cost [0])
        = some st →
      st.ctx._exprs.length ≤ UNSIGNED_MOD →
      ∀ s c, event.on_concrete_expression (s, c) ∈ st.events →
        ∃ t, st.ctx.unfold s = some t ∧ c = terminal_count [t] ∧
          (t = term.node "x0" [] → c = 1) ∧
          (t = term.node "not" [term.node "x0" []] → c = 2) ∧
          (t = term.node "and" [term.node "x0" [], term.node "x0" []] → c = 3)) ∧
    (∀ (max_cost : Int) (tops : List cexpr_t) (st : enumerator),
      1 ≤ max_cost → max_cost < 2 ^ 31 →
      (enumerator.seeded demo_ctx [⟨0, 1⟩, ⟨0, 2⟩, ⟨0, 3⟩] max_cost [0]).deduce_tops tops
        = some st →
      st.ctx._exprs.length ≤ UNSIGNED_MOD → st.is_running = false →
      (∃ s, event.on_concrete_expression (s, 1) ∈ st.events ∧
        st.ctx.unfold s = some (term.node "x0" [])) ∧
      (2 ≤ max_cost → ∃ s, event.on_concrete_expression (s, 2) ∈ st.events ∧
        st.ctx.unfold s = some (term.node "not" [term.node "x0" []])) ∧
      (3 ≤ max_cost → ∃ s, event.on_concrete_expression (s, 3) ∈ st.events ∧
        st.ctx.unfold s = some (term.node "and" [term.node "x0" [], term.node "x0" []]))) ∧
    (∀ (calls : List session_call) (st : enumerator),
      run_calls calls (enumerator.seeded demo_ctx [⟨0, 1⟩, ⟨0, 2⟩, ⟨0, 3⟩] 2 [0]) = some st →
      st.ctx._exprs.length ≤ UNSIGNED_MOD →
      ∀ s c, event.on_concrete_expression (s, c) ∈ st.events →
        st.ctx.unfold s ≠ some (term.node "and" [term.node "x0" [], term.node "x0" []])) := by
  have hN : name0 "_N" = '_' := by decide
  have hnot : ¬ name0 "not" = '_' := by decide
  have hand : ¬ name0 "and" = '_' := by decide
  have hx0 : ¬ name0 "x0" = '_' := by decide
  have hcost : ∀ (max_cost : Int) (calls : List session_call) (st : enumerator),
      run_calls calls (enumerator.seeded demo_ctx [⟨0, 1⟩, ⟨0, 2⟩, ⟨0, 3⟩] max_cost [0])
        = some st →
      st.ctx._exprs.length ≤ UNSIGNED_MOD →
      ∀ s c, event.on_concrete_expression (s, c) ∈ st.events →
        ∃ t, st.ctx.unfold s = some t ∧ c = terminal_count [t] := by
    intro max_cost calls st h hsize s c hev
    have inv := run_calls_inv demo_ctx [⟨0, 1⟩, ⟨0, 2⟩, ⟨0, 3⟩] [0] demo_rules_ok calls _ st
      (seeded_session_inv demo_ctx [⟨0, 1⟩, ⟨0, 2⟩, ⟨0, 3⟩] max_cost [0] demo_ctx_reachable
        (well_formed_of_check demo_ctx (by decide)) (by decide)) h hsize
    obtain ⟨_, _, seed, hseed, t0, t, h0, ht, hder⟩ := inv.concrete (s, c) hev
    rw [List.mem_singleton.1 hseed] at h0
    have h00 : demo_ctx.unfold 0 = some (term.node "_N" []) := rfl
    rw [h00] at h0
    cases h0
    have hcount := terminal_count_derives demo_ctx _ demo_rules_terminal_count c _ t hder
    refine ⟨t, ht, ?_⟩
    simp only [terminal_count, hN, if_true] at hcount
    omega
  refine ⟨?_, ?_, ?_⟩
  · intro max_cost calls st h hsize s c hev
    obtain ⟨t, ht, hc⟩ := hcost max_cost calls st h hsize s c hev
    refine ⟨t, ht, hc, ?_, ?_, ?_⟩
    · intro h1
      rw [hc, h1]
      simp [terminal_count, hx0]
    · intro h1
      rw [hc, h1]
      simp [terminal_count, hx0, hnot]
    · intro h1
      rw [hc, h1]
      simp [terminal_count, hx0, hand]
  · intro max_cost tops st hmax hint h hsize hrun
    have hq : st.quit_enumeration = true := by
      simpa [enumerator.is_running] using hrun
    have hmcu : max_cost_unsigned max_cost = max_cost.toNat := by
      unfold max_cost_unsigned
      rw [Int.emod_eq_of_lt (by omega) (by simp only [UNSIGNED_MOD]; omega)]
    obtain ⟨inv, _⟩ := deduce_tops_search demo_ctx [⟨0, 1⟩, ⟨0, 2⟩, ⟨0, 3⟩] max_cost 0
      demo_rules_ok demo_leaf_matches tops _ st
      (seeded_search_inv demo_ctx _ max_cost 0 demo_ctx_reachable
        (well_formed_of_check _ (by decide)) (no_attr_of_check _ (by decide)) (by decide))
      h hsize
    have hcov : ∀ (k : Nat) (u : term), 1 ≤ k → (k : Int) ≤ max_cost → u.concrete →
        derives (rule_application demo_ctx [⟨0, 1⟩, ⟨0, 2⟩, ⟨0, 3⟩]) k (term.node "_N" []) u →
        ∃ s, event.on_concrete_expression (s, k) ∈ st.events ∧ st.ctx.unfold s = some u := by
      intro k u hk1 hk hcon hder
      have hk2 : k ≤ max_cost_unsigned max_cost := by
        rw [hmcu]
        omega
      rcases inv.covered k _ u hk1 hk2 rfl hcon (derives_from_of_derives _ k _ u hder) with
        h | ⟨q, hq1, hqk, _⟩
      · exact h
      · have := inv.done hq q hq1
        omega
    obtain ⟨hc2, hd2, hc3, hd3⟩ := demo_derives_not_and
    refine ⟨hcov 1 _ (Nat.le_refl _) (by omega) demo_derives_x0.2.1 demo_derives_x0.2.2, ?_, ?_⟩
    · intro h2
      exact hcov 2 _ (by omega) (by omega) hc2 hd2
    · intro h3
      exact hcov 3 _ (by omega) (by omega) hc3 hd3
  · intro calls st h hsize s c hev hu
    obtain ⟨t, ht, hc⟩ := hcost 2 calls st h hsize s c hev
    rw [hu] at ht
    cases ht
    have hc3 : c = 3 := by
      rw [hc]
      simp [terminal_count, hx0, hand]
    have hb := bound_respected_of_nonneg demo_ctx [⟨0, 1⟩, ⟨0, 2⟩, ⟨0, 3⟩] 2 (by decide) [0]
      calls st h c (by
        simp only [concrete_costs, List.mem_filterMap]
        exact ⟨_, hev, rfl⟩)
    omega

theorem and_not_costs_witness :
    run_calls [session_call.deduce demo_tops_3]
      (enumerator.seeded demo_ctx [⟨0, 1⟩, ⟨0, 2⟩, ⟨0, 3⟩] 3 [0]) = some demo_run_3 ∧
    event.on_concrete_expression (15, 3) ∈ demo_run_3.events ∧
    ∃ t, demo_run_3.ctx.unfold 15 = some t ∧ 3 = terminal_count [t] ∧
      (t = term.node "x0" [] → 3 = 1) ∧
      (t = term.node "not" [term.node "x0" []] → 3 = 2) ∧
      (t = term.node "and" [term.node "x0" [], term.node "x0" []] → 3 = 3) :=
  ⟨by decide, by decide,
    and_not_costs.1 3 [session_call.deduce demo_tops_3] demo_run_3 (by decide) (by decide) 15 3
      (by decide)⟩

/-- In the AND/NOT demonstration with the bound 3, before each of the nine
iterations the container `demo_heap_3` of the priority queue holds the queued
candidates and is a heap for `expr_greater_than`, and its front is the candidate
that the iteration takes. -/
theorem demo_heap_fronts :
    ∀ i ∈ List.range 9,
      ∃ st v nc, demo_en.deduce_tops (demo_tops_3.take i) = some st ∧
        demo_heap_3[i]? = some v ∧ demo_tops_3[i]? = some nc ∧
        v.Perm st.candidate_expressions ∧ is_heap st.ctx v = true ∧ v.head? = some nc ∧
        st.is_top nc = true := by
  intro i hi
  simp only [List.mem_range] at hi
  interval_cases i
  · exact ⟨(demo_en.deduce_tops (demo_tops_3.take 0)).getD demo_en, _, _, by decide, rfl, rfl,
      by decide, by decide, rfl, by decide⟩
  · exact ⟨(demo_en.deduce_tops (demo_tops_3.take 1)).getD demo_en, _, _, by decide, rfl, rfl,
      by decide, by decide, rfl, by decide⟩
  · exact ⟨(demo_en.deduce_tops (demo_tops_3.take 2)).getD demo_en, _, _, by decide, rfl, rfl,
      by decide, by decide, rfl, by decide⟩
  · exact ⟨(demo_en.deduce_tops (demo_tops_3.take 3)).getD demo_en, _, _, by decide, rfl, rfl,
      by decide, by decide, rfl, by decide⟩
  · exact ⟨(demo_en.deduce_tops (demo_tops_3.take 4)).getD demo_en, _, _, by decide, rfl, rfl,
      by decide, by decide, rfl, by decide⟩
  · exact ⟨(demo_en.deduce_tops (demo_tops_3.take 5)).getD demo_en, _, _, by decide, rfl, rfl,
      by decide, by decide, rfl, by decide⟩
  · exact ⟨(demo_en.deduce_tops (demo_tops_3.take 6)).getD demo_en, _, _, by decide, rfl, rfl,
      by decide, by decide, rfl, by decide⟩
  · exact ⟨(demo_en.deduce_tops (demo_tops_3.take 7)).getD demo_en, _, _, by decide, rfl, rfl,
      by decide, by decide, rfl, by decide⟩
  · exact ⟨(demo_en.deduce_tops (demo_tops_3.take 8)).getD demo_en, _, _, by decide, rfl, rfl,
      by decide, by decide, rfl, by decide⟩

/-- With a single seed in the queue the first iteration of `deduce` takes the
seed: `top()` has no other candidate to return, and no comparison is made. -/
theorem seeded_iteration_eq_top (ctx : context) (rules : rules_t) (max_cost : Int)
    (seed : Nat) :
    (enumerator.seeded ctx rules max_cost [seed]).is_top (seed, 0) = true ∧
    (enumerator.seeded ctx rules max_cost [seed]).deduce_iteration =
      (enumerator.seeded ctx rules max_cost [seed]).deduce_iteration_top (seed, 0) := by
  constructor
  · simp [enumerator.seeded, enumerator.init, enumerator.add_expression, enumerator.is_top]
  · simp [enumerator.seeded, enumerator.init, enumerator.add_expression,
      enumerator.deduce_iteration, enumerator.deduce_iteration_top, enumerator.is_running,
      enumerator.is_top, pq_top, pq_top_loop]

/-- The runs of `deduce` that are evaluated with the scan `pq_top` take the
candidates in the order in which the binary heap of `std::priority_queue` yields
them: each is the run in which `top()` returns the listed candidates.  The third
iteration of the double-negation scenario finds the queue empty and reads no
candidate. -/
theorem evaluated_runs_tops :
    or_en.deduce 4 = or_en.deduce_tops [(0, 0), (1, 1), (5, 2), (6, 2)] ∧
    dn_en.deduce 2 = dn_en.deduce_tops [(0, 0), (2, 1)] ∧
    (∀ nc, dn_en.deduce 3 = dn_en.deduce_tops [(0, 0), (2, 1), nc]) ∧
    (enumerator.seeded leaf_ctx [⟨0, 1⟩] (-1) [0]).deduce 1 =
      (enumerator.seeded leaf_ctx [⟨0, 1⟩] (-1) [0]).deduce_tops [(0, 0)] ∧
    demo_en.deduce 2 = demo_en.deduce_tops [(0, 0), (1, 1)] ∧
    demo_en.deduce 4 = demo_en.deduce_tops [(0, 0), (1, 1), (2, 1), (4, 2)] := by
  refine ⟨by decide, by decide, ?_, by decide, by decide, by decide⟩
  intro nc
  have h3 : dn_en.deduce 3 = some dn_final := by decide
  have h1 : dn_en.deduce_iteration_top (0, 0) =
      some ((dn_en.deduce_iteration_top (0, 0)).getD dn_en) := by decide
  have h2 : ((dn_en.deduce_iteration_top (0, 0)).getD dn_en).deduce_iteration_top (2, 1) =
      some ((dn_en.deduce_tops [(0, 0), (2, 1)]).getD dn_en) := by decide
  have hq : ((dn_en.deduce_tops [(0, 0), (2, 1)]).getD dn_en).candidate_expressions = [] := by
    decide
  have hf : ({ (dn_en.deduce_tops [(0, 0), (2, 1)]).getD dn_en with
      quit_enumeration := true } : enumerator) = dn_final := by decide
  rw [h3, deduce_tops_cons _ _ _ _ h1, deduce_tops_cons _ _ _ _ h2,
    deduce_tops_cons _ _ _ _ (deduce_iteration_top_empty _ nc hq), hf]
  rfl

end behemoth
